import Mathlib

/-!
# Site crawler: URL normalisation, path-budget ledger and frontier loop

A shallow embedding of `backend/index.js`.

Conventions of the embedding

* A JavaScript string is a `List Char` (`Str`): a string of code points, without lone
  surrogates.
* A JavaScript `Set` or `Map` is a list in insertion order without repeated keys.
* A JavaScript number that the code only compares (the `maxPages` of a path rule) is a
  dyadic fraction `mant / 2 ^ shift`, which covers every finite double.
-/

namespace SiteCrawler

/-- A JavaScript string. -/
abbrev Str := List Char

/-! ## String primitives -/

/-- `s.split(c)` for a one-character separator: never empty, one more piece than separators. -/
def split (c : Char) : Str → List Str
  | [] => [[]]
  | x :: xs =>
    if x = c then [] :: split c xs
    else
      match split c xs with
      | [] => [[x]]
      | s :: ss => (x :: s) :: ss

/-- `arr.join(sep)`. -/
def join (sep : Str) (parts : List Str) : Str := sep.intercalate parts

/-! ### Case conversion

`String.prototype.toLowerCase` follows the Unicode Character Database: the lowercase mappings of
`UnicodeData.txt` and the mappings of `SpecialCasing.txt` that depend on no language, which are
the two code points written for U+0130 and the final form of the capital sigma U+03A3.  The
tables below are those of Unicode 15.0. -/

/-- The code points outside ASCII that have a lowercase mapping of one code point (the field
`Simple_Lowercase_Mapping` of `UnicodeData.txt`, Unicode 15.0), but for U+0130 and U+03A3 which
`SpecialCasing.txt` treats apart.  A run `(first, last, step, image)` says that every `step`-th
code point from `first` to `last` maps to the code point as far from `image` as it is from
`first`. -/
def lowerRuns : List (Nat × Nat × Nat × Nat) :=
  [(192, 214, 1, 224), (216, 222, 1, 248), (256, 302, 2, 257), (306, 310, 2, 307),
   (313, 327, 2, 314), (330, 374, 2, 331), (376, 376, 1, 255), (377, 381, 2, 378),
   (385, 385, 1, 595), (386, 388, 2, 387), (390, 390, 1, 596), (391, 391, 1, 392),
   (393, 394, 1, 598), (395, 395, 1, 396), (398, 398, 1, 477), (399, 399, 1, 601),
   (400, 400, 1, 603), (401, 401, 1, 402), (403, 403, 1, 608), (404, 404, 1, 611),
   (406, 406, 1, 617), (407, 407, 1, 616), (408, 408, 1, 409), (412, 412, 1, 623),
   (413, 413, 1, 626), (415, 415, 1, 629), (416, 420, 2, 417), (422, 422, 1, 640),
   (423, 423, 1, 424), (425, 425, 1, 643), (428, 428, 1, 429), (430, 430, 1, 648),
   (431, 431, 1, 432), (433, 434, 1, 650), (435, 437, 2, 436), (439, 439, 1, 658),
   (440, 440, 1, 441), (444, 444, 1, 445), (452, 452, 1, 454), (453, 453, 1, 454),
   (455, 455, 1, 457), (456, 456, 1, 457), (458, 458, 1, 460), (459, 475, 2, 460),
   (478, 494, 2, 479), (497, 497, 1, 499), (498, 500, 2, 499), (502, 502, 1, 405),
   (503, 503, 1, 447), (504, 542, 2, 505), (544, 544, 1, 414), (546, 562, 2, 547),
   (570, 570, 1, 11365), (571, 571, 1, 572), (573, 573, 1, 410), (574, 574, 1, 11366),
   (577, 577, 1, 578), (579, 579, 1, 384), (580, 580, 1, 649), (581, 581, 1, 652),
   (582, 590, 2, 583), (880, 882, 2, 881), (886, 886, 1, 887), (895, 895, 1, 1011),
   (902, 902, 1, 940), (904, 906, 1, 941), (908, 908, 1, 972), (910, 911, 1, 973),
   (913, 929, 1, 945), (932, 939, 1, 964), (975, 975, 1, 983), (984, 1006, 2, 985),
   (1012, 1012, 1, 952), (1015, 1015, 1, 1016), (1017, 1017, 1, 1010), (1018, 1018, 1, 1019),
   (1021, 1023, 1, 891), (1024, 1039, 1, 1104), (1040, 1071, 1, 1072), (1120, 1152, 2, 1121),
   (1162, 1214, 2, 1163), (1216, 1216, 1, 1231), (1217, 1229, 2, 1218), (1232, 1326, 2, 1233),
   (1329, 1366, 1, 1377), (4256, 4293, 1, 11520), (4295, 4295, 1, 11559), (4301, 4301, 1, 11565),
   (5024, 5103, 1, 43888), (5104, 5109, 1, 5112), (7312, 7354, 1, 4304), (7357, 7359, 1, 4349),
   (7680, 7828, 2, 7681), (7838, 7838, 1, 223), (7840, 7934, 2, 7841), (7944, 7951, 1, 7936),
   (7960, 7965, 1, 7952), (7976, 7983, 1, 7968), (7992, 7999, 1, 7984), (8008, 8013, 1, 8000),
   (8025, 8031, 2, 8017), (8040, 8047, 1, 8032), (8072, 8079, 1, 8064), (8088, 8095, 1, 8080),
   (8104, 8111, 1, 8096), (8120, 8121, 1, 8112), (8122, 8123, 1, 8048), (8124, 8124, 1, 8115),
   (8136, 8139, 1, 8050), (8140, 8140, 1, 8131), (8152, 8153, 1, 8144), (8154, 8155, 1, 8054),
   (8168, 8169, 1, 8160), (8170, 8171, 1, 8058), (8172, 8172, 1, 8165), (8184, 8185, 1, 8056),
   (8186, 8187, 1, 8060), (8188, 8188, 1, 8179), (8486, 8486, 1, 969), (8490, 8490, 1, 107),
   (8491, 8491, 1, 229), (8498, 8498, 1, 8526), (8544, 8559, 1, 8560), (8579, 8579, 1, 8580),
   (9398, 9423, 1, 9424), (11264, 11311, 1, 11312), (11360, 11360, 1, 11361),
   (11362, 11362, 1, 619), (11363, 11363, 1, 7549), (11364, 11364, 1, 637),
   (11367, 11371, 2, 11368), (11373, 11373, 1, 593), (11374, 11374, 1, 625),
   (11375, 11375, 1, 592), (11376, 11376, 1, 594), (11378, 11378, 1, 11379),
   (11381, 11381, 1, 11382), (11390, 11391, 1, 575), (11392, 11490, 2, 11393),
   (11499, 11501, 2, 11500), (11506, 11506, 1, 11507), (42560, 42604, 2, 42561),
   (42624, 42650, 2, 42625), (42786, 42798, 2, 42787), (42802, 42862, 2, 42803),
   (42873, 42875, 2, 42874), (42877, 42877, 1, 7545), (42878, 42886, 2, 42879),
   (42891, 42891, 1, 42892), (42893, 42893, 1, 613), (42896, 42898, 2, 42897),
   (42902, 42920, 2, 42903), (42922, 42922, 1, 614), (42923, 42923, 1, 604),
   (42924, 42924, 1, 609), (42925, 42925, 1, 620), (42926, 42926, 1, 618),
   (42928, 42928, 1, 670), (42929, 42929, 1, 647), (42930, 42930, 1, 669),
   (42931, 42931, 1, 43859), (42932, 42946, 2, 42933), (42948, 42948, 1, 42900),
   (42949, 42949, 1, 642), (42950, 42950, 1, 7566), (42951, 42953, 2, 42952),
   (42960, 42960, 1, 42961), (42966, 42968, 2, 42967), (42997, 42997, 1, 42998),
   (65313, 65338, 1, 65345), (66560, 66599, 1, 66600), (66736, 66771, 1, 66776),
   (66928, 66938, 1, 66967), (66940, 66954, 1, 66979), (66956, 66962, 1, 66995),
   (66964, 66965, 1, 67003), (68736, 68786, 1, 68800), (71840, 71871, 1, 71872),
   (93760, 93791, 1, 93792), (125184, 125217, 1, 125218)]

/-- The ranges of the code points with the property `Cased` (Unicode 15.0). -/
def casedRanges : List (Nat × Nat) :=
  [(65, 90), (97, 122), (170, 170), (181, 181), (186, 186), (192, 214), (216, 246), (248, 442),
   (444, 447), (452, 659), (661, 696), (704, 705), (736, 740), (837, 837), (880, 883),
   (886, 887), (890, 893), (895, 895), (902, 902), (904, 906), (908, 908), (910, 929),
   (931, 1013), (1015, 1153), (1162, 1327), (1329, 1366), (1376, 1416), (4256, 4293),
   (4295, 4295), (4301, 4301), (4304, 4346), (4348, 4351), (5024, 5109), (5112, 5117),
   (7296, 7304), (7312, 7354), (7357, 7359), (7424, 7615), (7680, 7957), (7960, 7965),
   (7968, 8005), (8008, 8013), (8016, 8023), (8025, 8025), (8027, 8027), (8029, 8029),
   (8031, 8061), (8064, 8116), (8118, 8124), (8126, 8126), (8130, 8132), (8134, 8140),
   (8144, 8147), (8150, 8155), (8160, 8172), (8178, 8180), (8182, 8188), (8305, 8305),
   (8319, 8319), (8336, 8348), (8450, 8450), (8455, 8455), (8458, 8467), (8469, 8469),
   (8473, 8477), (8484, 8484), (8486, 8486), (8488, 8488), (8490, 8493), (8495, 8500),
   (8505, 8505), (8508, 8511), (8517, 8521), (8526, 8526), (8544, 8575), (8579, 8580),
   (9398, 9449), (11264, 11492), (11499, 11502), (11506, 11507), (11520, 11557), (11559, 11559),
   (11565, 11565), (42560, 42605), (42624, 42653), (42786, 42887), (42891, 42894),
   (42896, 42954), (42960, 42961), (42963, 42963), (42965, 42969), (42994, 42998),
   (43000, 43002), (43824, 43866), (43868, 43881), (43888, 43967), (64256, 64262),
   (64275, 64279), (65313, 65338), (65345, 65370), (66560, 66639), (66736, 66771),
   (66776, 66811), (66928, 66938), (66940, 66954), (66956, 66962), (66964, 66965),
   (66967, 66977), (66979, 66993), (66995, 67001), (67003, 67004), (67456, 67456),
   (67459, 67461), (67463, 67504), (67506, 67514), (68736, 68786), (68800, 68850),
   (71840, 71903), (93760, 93823), (119808, 119892), (119894, 119964), (119966, 119967),
   (119970, 119970), (119973, 119974), (119977, 119980), (119982, 119993), (119995, 119995),
   (119997, 120003), (120005, 120069), (120071, 120074), (120077, 120084), (120086, 120092),
   (120094, 120121), (120123, 120126), (120128, 120132), (120134, 120134), (120138, 120144),
   (120146, 120485), (120488, 120512), (120514, 120538), (120540, 120570), (120572, 120596),
   (120598, 120628), (120630, 120654), (120656, 120686), (120688, 120712), (120714, 120744),
   (120746, 120770), (120772, 120779), (122624, 122633), (122635, 122654), (122661, 122666),
   (122928, 122989), (125184, 125251), (127280, 127305), (127312, 127337), (127344, 127369)]

/-- The ranges of the code points with the property `Case_Ignorable` (Unicode 15.0). -/
def caseIgnorableRanges : List (Nat × Nat) :=
  [(39, 39), (46, 46), (58, 58), (94, 94), (96, 96), (168, 168), (173, 173), (175, 175),
   (180, 180), (183, 184), (688, 879), (884, 885), (890, 890), (900, 901), (903, 903),
   (1155, 1161), (1369, 1369), (1375, 1375), (1425, 1469), (1471, 1471), (1473, 1474),
   (1476, 1477), (1479, 1479), (1524, 1524), (1536, 1541), (1552, 1562), (1564, 1564),
   (1600, 1600), (1611, 1631), (1648, 1648), (1750, 1757), (1759, 1768), (1770, 1773),
   (1807, 1807), (1809, 1809), (1840, 1866), (1958, 1968), (2027, 2037), (2042, 2042),
   (2045, 2045), (2070, 2093), (2137, 2139), (2184, 2184), (2192, 2193), (2200, 2207),
   (2249, 2306), (2362, 2362), (2364, 2364), (2369, 2376), (2381, 2381), (2385, 2391),
   (2402, 2403), (2417, 2417), (2433, 2433), (2492, 2492), (2497, 2500), (2509, 2509),
   (2530, 2531), (2558, 2558), (2561, 2562), (2620, 2620), (2625, 2626), (2631, 2632),
   (2635, 2637), (2641, 2641), (2672, 2673), (2677, 2677), (2689, 2690), (2748, 2748),
   (2753, 2757), (2759, 2760), (2765, 2765), (2786, 2787), (2810, 2815), (2817, 2817),
   (2876, 2876), (2879, 2879), (2881, 2884), (2893, 2893), (2901, 2902), (2914, 2915),
   (2946, 2946), (3008, 3008), (3021, 3021), (3072, 3072), (3076, 3076), (3132, 3132),
   (3134, 3136), (3142, 3144), (3146, 3149), (3157, 3158), (3170, 3171), (3201, 3201),
   (3260, 3260), (3263, 3263), (3270, 3270), (3276, 3277), (3298, 3299), (3328, 3329),
   (3387, 3388), (3393, 3396), (3405, 3405), (3426, 3427), (3457, 3457), (3530, 3530),
   (3538, 3540), (3542, 3542), (3633, 3633), (3636, 3642), (3654, 3662), (3761, 3761),
   (3764, 3772), (3782, 3782), (3784, 3790), (3864, 3865), (3893, 3893), (3895, 3895),
   (3897, 3897), (3953, 3966), (3968, 3972), (3974, 3975), (3981, 3991), (3993, 4028),
   (4038, 4038), (4141, 4144), (4146, 4151), (4153, 4154), (4157, 4158), (4184, 4185),
   (4190, 4192), (4209, 4212), (4226, 4226), (4229, 4230), (4237, 4237), (4253, 4253),
   (4348, 4348), (4957, 4959), (5906, 5908), (5938, 5939), (5970, 5971), (6002, 6003),
   (6068, 6069), (6071, 6077), (6086, 6086), (6089, 6099), (6103, 6103), (6109, 6109),
   (6155, 6159), (6211, 6211), (6277, 6278), (6313, 6313), (6432, 6434), (6439, 6440),
   (6450, 6450), (6457, 6459), (6679, 6680), (6683, 6683), (6742, 6742), (6744, 6750),
   (6752, 6752), (6754, 6754), (6757, 6764), (6771, 6780), (6783, 6783), (6823, 6823),
   (6832, 6862), (6912, 6915), (6964, 6964), (6966, 6970), (6972, 6972), (6978, 6978),
   (7019, 7027), (7040, 7041), (7074, 7077), (7080, 7081), (7083, 7085), (7142, 7142),
   (7144, 7145), (7149, 7149), (7151, 7153), (7212, 7219), (7222, 7223), (7288, 7293),
   (7376, 7378), (7380, 7392), (7394, 7400), (7405, 7405), (7412, 7412), (7416, 7417),
   (7468, 7530), (7544, 7544), (7579, 7679), (8125, 8125), (8127, 8129), (8141, 8143),
   (8157, 8159), (8173, 8175), (8189, 8190), (8203, 8207), (8216, 8217), (8228, 8228),
   (8231, 8231), (8234, 8238), (8288, 8292), (8294, 8303), (8305, 8305), (8319, 8319),
   (8336, 8348), (8400, 8432), (11388, 11389), (11503, 11505), (11631, 11631), (11647, 11647),
   (11744, 11775), (11823, 11823), (12293, 12293), (12330, 12333), (12337, 12341),
   (12347, 12347), (12441, 12446), (12540, 12542), (40981, 40981), (42232, 42237),
   (42508, 42508), (42607, 42610), (42612, 42621), (42623, 42623), (42652, 42655),
   (42736, 42737), (42752, 42785), (42864, 42864), (42888, 42890), (42994, 42996),
   (43000, 43001), (43010, 43010), (43014, 43014), (43019, 43019), (43045, 43046),
   (43052, 43052), (43204, 43205), (43232, 43249), (43263, 43263), (43302, 43309),
   (43335, 43345), (43392, 43394), (43443, 43443), (43446, 43449), (43452, 43453),
   (43471, 43471), (43493, 43494), (43561, 43566), (43569, 43570), (43573, 43574),
   (43587, 43587), (43596, 43596), (43632, 43632), (43644, 43644), (43696, 43696),
   (43698, 43700), (43703, 43704), (43710, 43711), (43713, 43713), (43741, 43741),
   (43756, 43757), (43763, 43764), (43766, 43766), (43867, 43871), (43881, 43883),
   (44005, 44005), (44008, 44008), (44013, 44013), (64286, 64286), (64434, 64450),
   (65024, 65039), (65043, 65043), (65056, 65071), (65106, 65106), (65109, 65109),
   (65279, 65279), (65287, 65287), (65294, 65294), (65306, 65306), (65342, 65342),
   (65344, 65344), (65392, 65392), (65438, 65439), (65507, 65507), (65529, 65531),
   (66045, 66045), (66272, 66272), (66422, 66426), (67456, 67461), (67463, 67504),
   (67506, 67514), (68097, 68099), (68101, 68102), (68108, 68111), (68152, 68154),
   (68159, 68159), (68325, 68326), (68900, 68903), (69291, 69292), (69373, 69375),
   (69446, 69456), (69506, 69509), (69633, 69633), (69688, 69702), (69744, 69744),
   (69747, 69748), (69759, 69761), (69811, 69814), (69817, 69818), (69821, 69821),
   (69826, 69826), (69837, 69837), (69888, 69890), (69927, 69931), (69933, 69940),
   (70003, 70003), (70016, 70017), (70070, 70078), (70089, 70092), (70095, 70095),
   (70191, 70193), (70196, 70196), (70198, 70199), (70206, 70206), (70209, 70209),
   (70367, 70367), (70371, 70378), (70400, 70401), (70459, 70460), (70464, 70464),
   (70502, 70508), (70512, 70516), (70712, 70719), (70722, 70724), (70726, 70726),
   (70750, 70750), (70835, 70840), (70842, 70842), (70847, 70848), (70850, 70851),
   (71090, 71093), (71100, 71101), (71103, 71104), (71132, 71133), (71219, 71226),
   (71229, 71229), (71231, 71232), (71339, 71339), (71341, 71341), (71344, 71349),
   (71351, 71351), (71453, 71455), (71458, 71461), (71463, 71467), (71727, 71735),
   (71737, 71738), (71995, 71996), (71998, 71998), (72003, 72003), (72148, 72151),
   (72154, 72155), (72160, 72160), (72193, 72202), (72243, 72248), (72251, 72254),
   (72263, 72263), (72273, 72278), (72281, 72283), (72330, 72342), (72344, 72345),
   (72752, 72758), (72760, 72765), (72767, 72767), (72850, 72871), (72874, 72880),
   (72882, 72883), (72885, 72886), (73009, 73014), (73018, 73018), (73020, 73021),
   (73023, 73029), (73031, 73031), (73104, 73105), (73109, 73109), (73111, 73111),
   (73459, 73460), (73472, 73473), (73526, 73530), (73536, 73536), (73538, 73538),
   (78896, 78912), (78919, 78933), (92912, 92916), (92976, 92982), (92992, 92995),
   (94031, 94031), (94095, 94111), (94176, 94177), (94179, 94180), (110576, 110579),
   (110581, 110587), (110589, 110590), (113821, 113822), (113824, 113827), (118528, 118573),
   (118576, 118598), (119143, 119145), (119155, 119170), (119173, 119179), (119210, 119213),
   (119362, 119364), (121344, 121398), (121403, 121452), (121461, 121461), (121476, 121476),
   (121499, 121503), (121505, 121519), (122880, 122886), (122888, 122904), (122907, 122913),
   (122915, 122916), (122918, 122922), (122928, 122989), (123023, 123023), (123184, 123197),
   (123566, 123566), (123628, 123631), (124139, 124143), (125136, 125142), (125252, 125259),
   (127995, 127999), (917505, 917505), (917536, 917631), (917760, 917999)]

/-- Whether `n` lies in one of the ranges. -/
def inRanges (rs : List (Nat × Nat)) (n : Nat) : Bool := rs.any (fun r => r.1 ≤ n && n ≤ r.2)

/-- The property `Cased`. -/
def isCased (c : Char) : Bool := inRanges casedRanges c.toNat

/-- The property `Case_Ignorable`. -/
def isCaseIgnorable (c : Char) : Bool := inRanges caseIgnorableRanges c.toNat

/-- The lowercase mapping of a code point outside ASCII, other than U+0130 and U+03A3. -/
def lowerOfNat (n : Nat) : Nat :=
  match lowerRuns.find? (fun r => r.1 ≤ n && n ≤ r.2.1 && (n - r.1) % r.2.2.1 == 0) with
  | some r => r.2.2.2 + (n - r.1)
  | none => n

/-- The second half of the condition `Final_Sigma`: the text goes on, after code points that are
case-ignorable, with a cased letter. -/
def followedByCased : Str → Bool
  | [] => false
  | c :: t => if isCaseIgnorable c then followedByCased t else isCased c

/-- What `toLowerCase` writes for the code point `c`: `after` says whether `c` comes after a cased
letter and code points that are case-ignorable (the first half of `Final_Sigma`), and `rest` is
the text that follows `c`. -/
def lowerChar (after : Bool) (rest : Str) (c : Char) : Str :=
  if c.toNat < 128 then [c.toLower]
  else if c.toNat = 931 then
    [if after && !followedByCased rest then Char.ofNat 962 else Char.ofNat 963]
  else if c.toNat = 304 then ['i', Char.ofNat 775]
  else [Char.ofNat (lowerOfNat c.toNat)]

/-- The lowercase of a text that follows a text for which `after` holds. -/
def lowerFrom : Bool → Str → Str
  | _, [] => []
  | after, c :: t =>
    lowerChar after t c ++ lowerFrom (if isCaseIgnorable c then after else isCased c) t

/-- `s.toLowerCase()`. -/
def toLowerCase (s : Str) : Str := lowerFrom false s

/-- The ASCII lowercase of the URL standard: `A`–`Z` become `a`–`z`. -/
def asciiLowerCase (s : Str) : Str := s.map Char.toLower

/-- `s.startsWith(p)`. -/
def startsWith (s p : Str) : Bool := p.isPrefixOf s

/-- `s.endsWith(p)`. -/
def endsWith (s p : Str) : Bool := p.isSuffixOf s

/-- `s.slice(0, -1)`. -/
def dropLastChar (s : Str) : Str := s.dropLast

/-- `s.includes(p)`. -/
def includes (s p : Str) : Bool := s.tails.any (fun t => p.isPrefixOf t)

/-- The code points `String.prototype.trim` removes (WhiteSpace and LineTerminator). -/
def isJsWhitespace (c : Char) : Bool :=
  let n := c.toNat
  (9 ≤ n && n ≤ 13) || n == 32 || n == 160 || n == 5760 || (8192 ≤ n && n ≤ 8202) ||
    n == 8232 || n == 8233 || n == 8239 || n == 8287 || n == 12288 || n == 65279

/-- `s.trim()`. -/
def trim (s : Str) : Str :=
  ((s.dropWhile isJsWhitespace).reverse.dropWhile isJsWhitespace).reverse

/-- `String(pathname || "").split("/").filter(Boolean)`: the non-empty pieces between slashes. -/
def pathParts (pathname : Str) : List Str :=
  (split '/' pathname).filter (fun s => !s.isEmpty)

/-- An ASCII letter, what `[a-z]` matches under the `i` flag. -/
def isAsciiLetter (c : Char) : Bool :=
  ('a'.toNat ≤ c.toNat && c.toNat ≤ 'z'.toNat) || ('A'.toNat ≤ c.toNat && c.toNat ≤ 'Z'.toNat)

/-- The test `/^[a-z]{2}(-[a-z]{2})?$/i`. -/
def isLang : Str → Bool
  | [a, b] => isAsciiLetter a && isAsciiLetter b
  | [a, b, m, c, d] =>
    isAsciiLetter a && isAsciiLetter b && m == '-' && isAsciiLetter c && isAsciiLetter d
  | _ => false

/-! ## Path canonicalisation -/

/-- One turn of the loop of `canonicalizePathname`: `out` is the array built so far. -/
def canonStep (out : List Str) (seg : Str) : List Str :=
  let lower := toLowerCase seg
  let isLangSeg := isLang seg
  match out.getLast? with
  | some prev =>
    if isLangSeg && !prev.isEmpty && toLowerCase prev == lower then out else out ++ [seg]
  | none => out ++ [seg]

/-- The function `canonicalizePathname(pathname)`. -/
def canonicalizePathname (pathname : Str) : Str :=
  '/' :: join ['/'] ((pathParts pathname).foldl canonStep [])

/-- The function `normalizePathForRules(pathname)`. -/
def normalizePathForRules (pathname : Str) : Str :=
  match pathParts pathname with
  | [] => ['/']
  | first :: rest =>
    let looksLikeLang := isLang (toLowerCase first)
    let parts := if looksLikeLang then rest else first :: rest
    '/' :: join ['/'] parts

/-- The function `matchesPathLimit(normalizedPath, rulePath)`. -/
def matchesPathLimit (normalizedPath rulePath : Str) : Bool :=
  let cleanRule := trim rulePath
  if cleanRule.isEmpty || !startsWith cleanRule ['/'] then false
  else if cleanRule == ['/'] then true
  else
    let r := if endsWith cleanRule ['/'] then dropLastChar cleanRule else cleanRule
    normalizedPath == r || startsWith normalizedPath (r ++ ['/'])

/-- The loop of `hasExcessiveRepeatedSegments` from index `i` on: `prev` is `parts[i - 1]`. -/
def repeatedLoop (maxConsecutive : Nat) : Str → Nat → List Str → Bool
  | _, _, [] => false
  | prev, run, p :: ps =>
    if p = prev then
      if run + 1 > maxConsecutive then true else repeatedLoop maxConsecutive p (run + 1) ps
    else repeatedLoop maxConsecutive p 1 ps

/-- The function `hasExcessiveRepeatedSegments(pathname, maxConsecutive)`. -/
def hasExcessiveRepeatedSegments (pathname : Str) (maxConsecutive : Nat) : Bool :=
  match (pathParts pathname).map toLowerCase with
  | [] => false
  | p :: ps => repeatedLoop maxConsecutive p 1 ps

/-! ## Numbers -/

/-- A JavaScript number: a finite value `mant / 2 ^ shift` (every finite double has this form),
`NaN`, or an infinity. -/
inductive JsNumber where
  | fin (mant : Int) (shift : Nat)
  | nan
  | posInf
  | negInf
  deriving DecidableEq, Repr

namespace JsNumber

/-- The integer `n` as a number. -/
def ofNat (n : Nat) : JsNumber := fin n 0

/-- The comparison `a < b`; false as soon as one side is `NaN`. -/
def lt : JsNumber → JsNumber → Bool
  | fin m s, fin m' s' => decide (m * 2 ^ s' < m' * 2 ^ s)
  | fin _ _, posInf => true
  | negInf, fin _ _ => true
  | negInf, posInf => true
  | _, _ => false

/-- The comparison `a <= b`; false as soon as one side is `NaN`. -/
def le : JsNumber → JsNumber → Bool
  | fin m s, fin m' s' => decide (m * 2 ^ s' ≤ m' * 2 ^ s)
  | nan, _ => false
  | _, nan => false
  | _, posInf => true
  | negInf, _ => true
  | _, _ => false

/-- The comparison `a > b`. -/
def gt (a b : JsNumber) : Bool := lt b a

/-- The comparison `a >= b`. -/
def ge (a b : JsNumber) : Bool := le b a

/-- Truthiness: `0` and `NaN` are falsy. -/
def truthy : JsNumber → Bool
  | fin m _ => m != 0
  | nan => false
  | _ => true

/-- The expression `a || b` on numbers. -/
def orElse (a b : JsNumber) : JsNumber := if a.truthy then a else b

/-- `Math.min(a, b)`. -/
def min : JsNumber → JsNumber → JsNumber
  | nan, _ => nan
  | _, nan => nan
  | a, b => if lt b a then b else a

/-- `Math.max(a, b)`. -/
def max : JsNumber → JsNumber → JsNumber
  | nan, _ => nan
  | _, nan => nan
  | a, b => if lt a b then b else a

/-- The number is a whole number of pages `n`. -/
def isNat (a : JsNumber) (n : Nat) : Prop :=
  match a with
  | fin m s => m = (n : Int) * 2 ^ s
  | _ => False

/-- `Number.isInteger(a)`. -/
def isInteger : JsNumber → Bool
  | fin m s => m % 2 ^ s == 0
  | _ => false

end JsNumber

/-! ## Path-limit rules -/

/-- One element `r` of the request's `pathLimits`, seen through the two coercions the code applies
to it: `path` is `String(r?.path || "")` and `maxPages` is `Number(r?.maxPages || 0)`. -/
structure RawRule where
  path : Str
  maxPages : JsNumber
  deriving DecidableEq, Repr

/-- A cleaned rule `{ path, maxPages }`. -/
structure Rule where
  path : Str
  maxPages : JsNumber
  deriving DecidableEq, Repr

/-- `s.length`: the number of UTF-16 code units. -/
def jsLength (s : Str) : Nat := (s.map (fun c => if c.toNat < 65536 then 1 else 2)).sum

/-- The `.map(...)` callback of `sanitizePathLimits`. -/
def cleanRule (r : RawRule) : Rule :=
  let p := trim r.path
  let path := if !p.isEmpty then (if startsWith p ['/'] then p else '/' :: p) else []
  let maxPages :=
    JsNumber.max (JsNumber.ofNat 1)
      (JsNumber.min (JsNumber.ofNat 5000) (JsNumber.orElse r.maxPages (JsNumber.ofNat 0)))
  { path := path, maxPages := maxPages }

/-- The `.filter(...)` callback of `sanitizePathLimits`. -/
def keepRule (r : Rule) : Bool :=
  !r.path.isEmpty && startsWith r.path ['/'] && r.path != ['/'] &&
    JsNumber.gt r.maxPages (JsNumber.ofNat 0)

/-- `map.get(key)` on a `Map` kept as a list of entries in insertion order. -/
def mapGet {β : Type} (m : List (Str × β)) (key : Str) : Option β :=
  (m.find? (fun e => e.1 == key)).map (fun e => e.2)

/-- `map.set(key, v)`: an existing key keeps its place, a new key goes to the end. -/
def mapSet {β : Type} : List (Str × β) → Str → β → List (Str × β)
  | [], key, v => [(key, v)]
  | e :: m, key, v => if e.1 == key then (key, v) :: m else e :: mapSet m key v

/-- One turn of the loop that fills `byPath`. -/
def byPathStep (byPath : List (Str × Rule)) (r : Rule) : List (Str × Rule) :=
  let key := toLowerCase r.path
  match mapGet byPath key with
  | none => mapSet byPath key { path := r.path, maxPages := r.maxPages }
  | some existing =>
    if JsNumber.lt r.maxPages existing.maxPages then
      mapSet byPath key { path := r.path, maxPages := r.maxPages }
    else byPath

/-- The comparator `(a, b) => b.path.length - a.path.length` puts `a` first when this holds. -/
def longerFirst (a b : Rule) : Prop := jsLength b.path ≤ jsLength a.path

instance : DecidableRel longerFirst := fun a b =>
  inferInstanceAs (Decidable (jsLength b.path ≤ jsLength a.path))

instance : IsTotal Rule longerFirst := ⟨fun a b => Nat.le_total (jsLength b.path) (jsLength a.path)⟩

instance : IsTrans Rule longerFirst :=
  ⟨fun a b c (hab : jsLength b.path ≤ jsLength a.path) (hbc : jsLength c.path ≤ jsLength b.path) =>
    Nat.le_trans hbc hab⟩

/-- The function `sanitizePathLimits(pathLimits)`; a value that is not an array is the empty
list.  `Array.prototype.sort` is stable, as is the insertion sort used here. -/
def sanitizePathLimits (pathLimits : List RawRule) : List Rule :=
  let cleaned := (pathLimits.map cleanRule).filter keepRule
  let byPath := cleaned.foldl byPathStep []
  (byPath.map (fun e => e.2)).insertionSort longerFirst

/-! ## The platform's URL class

`new URL(input, base)`, its getters and setters and `toString()` belong to the runtime, not to the
crawler.  The crawler is modelled over any URL parser: the parser is a parameter (`Platform`) of
the functions that call it, and of the outside world `Env` of a run.  What the crawler reads of a
URL object, and what the serialiser writes, is the record `URL`.

The examples need a parser that can be evaluated.  `modelPlatform` is one, on a fragment of the
URL standard that is closed under everything the crawler does with a URL:

* the input is made of ASCII letters, digits and `- . _ ~ ! $ & ( ) * + , ; = : @ / ? # [ ] %`,
  so that no component needs percent-encoding, trimming or backslash handling;
* an `http`/`https` reference is written `scheme://host[:port][/path][?query][#fragment]`, the
  host is made of non-empty labels of letters, digits and `-`, its last label starts with a
  letter and it holds no `xn--`, and the port is a decimal number without leading zero, at most
  65535;
* a reference without scheme is resolved against an `http`/`https` base as the standard does
  (scheme-relative, path-absolute, path-relative with dot segments, query-only, fragment-only).

On this fragment `modelPlatform` returns the record the standard prescribes.  Outside of it, it
answers `none`, as for a reference that does not parse.  For a scheme other than `http`/`https`
only the protocol is modelled, which is all the crawler looks at before it rejects the URL. -/

/-- The state of a `URL` object, as its getters show it: `query` and `fragment` are `none` when
the standard calls them null, and `host` is the `host` getter (host name and port). -/
structure URL where
  protocol : Str
  username : Str := []
  password : Str := []
  host : Str
  pathname : Str
  query : Option Str
  fragment : Option Str
  deriving DecidableEq, Repr

/-- The URL class of the platform, as far as the crawler calls it. -/
structure Platform where
  /-- The constructor: `new URL(input)` for `none` and `new URL(input, base)` for `some base`;
  `none` when it throws. -/
  parseUrl : Str → Option Str → Option URL
  /-- The path that the `pathname` setter of an `http` or `https` URL stores for a value. -/
  parsePath : Str → Str

namespace URL

/-- The credentials as the serialiser writes them: nothing when user name and password are
empty. -/
def credentials (u : URL) : Str :=
  if u.username.isEmpty && u.password.isEmpty then []
  else u.username ++ (if u.password.isEmpty then [] else ':' :: u.password) ++ ['@']

/-- `u.toString()`, the URL serialiser, for a URL with a host. -/
def href (u : URL) : Str :=
  u.protocol ++ ['/', '/'] ++ u.credentials ++ u.host ++ u.pathname ++
    (match u.query with
      | some q => '?' :: q
      | none => []) ++
    (match u.fragment with
      | some f => '#' :: f
      | none => [])

/-- An ASCII digit. -/
def isDigit (c : Char) : Bool := '0'.toNat ≤ c.toNat && c.toNat ≤ '9'.toNat

/-- The characters of the modelled fragment. -/
def isUrlChar (c : Char) : Bool :=
  isAsciiLetter c || isDigit c || "-._~!$&()*+,;=:@/?#[]%".toList.contains c

/-- A character that may follow the first letter of a scheme. -/
def isSchemeChar (c : Char) : Bool :=
  isAsciiLetter c || isDigit c || c == '+' || c == '-' || c == '.'

/-- The scheme state: the lower-cased scheme and what follows its colon, if the input has one. -/
def splitScheme (input : Str) : Option (Str × Str) :=
  match input with
  | [] => none
  | c :: _ =>
    if isAsciiLetter c then
      match input.dropWhile isSchemeChar with
      | ':' :: rest => some (asciiLowerCase (input.takeWhile isSchemeChar), rest)
      | _ => none
    else none

/-- A single-dot path segment. -/
def isSingleDot (seg : Str) : Bool :=
  seg == ['.'] || asciiLowerCase seg == ['%', '2', 'e']

/-- A double-dot path segment. -/
def isDoubleDot (seg : Str) : Bool :=
  let l := asciiLowerCase seg
  l == ['.', '.'] || l == ['.', '%', '2', 'e'] || l == ['%', '2', 'e', '.'] ||
    l == ['%', '2', 'e', '%', '2', 'e']

/-- The path state: `path` is the URL's path so far, the list holds the segments still to read. -/
def pathState (path : List Str) : List Str → List Str
  | [] => path
  | [seg] =>
    if isDoubleDot seg then path.dropLast ++ [[]]
    else if isSingleDot seg then path ++ [[]]
    else path ++ [seg]
  | seg :: rest =>
    if isDoubleDot seg then pathState path.dropLast rest
    else if isSingleDot seg then pathState path rest
    else pathState (path ++ [seg]) rest

/-- Runs the path state on a path string whose leading slash, if any, is skipped, and serialises
the resulting path. -/
def parsePath (path : List Str) (s : Str) : Str :=
  let body := match s with
    | '/' :: t => t
    | _ => s
  '/' :: join ['/'] (pathState path (split '/' body))

/-- The segments of a serialised path. -/
def pathSegments (pathname : Str) : List Str := split '/' pathname.tail

/-- The value of a decimal numeral. -/
def decimalValue (ds : Str) : Nat := ds.foldl (fun n d => 10 * n + (d.toNat - '0'.toNat)) 0

/-- The host names of the fragment, already in lower case: labels of letters, digits and `-`,
none empty, the last one starting with a letter, none starting with `xn--`. -/
def validHostname (h : Str) : Bool :=
  h.all (fun c => (isAsciiLetter c && c.toLower == c) || isDigit c || c == '-' || c == '.') &&
    (split '.' h).all (fun l => !l.isEmpty) &&
    (match (split '.' h).getLast? with
      | some (c :: _) => isAsciiLetter c
      | _ => false) &&
    !includes h ['x', 'n', '-', '-']

/-- The port numerals of the fragment. -/
def validPort (ds : Str) : Bool :=
  ds.all isDigit && !ds.isEmpty && !startsWith ds ['0'] && decide (decimalValue ds ≤ 65535)

/-- The default port of a scheme, as a numeral. -/
def defaultPort (scheme : Str) : Str :=
  if scheme == "http".toList then "80".toList else "443".toList

/-- The host and port states on the authority of an `http`/`https` URL. -/
def parseHost (scheme authority : Str) : Option Str :=
  let name := asciiLowerCase (authority.takeWhile (fun c => c != ':'))
  if !validHostname name then none
  else
    match authority.dropWhile (fun c => c != ':') with
    | [] => some name
    | [_] => some name
    | _ :: ds =>
      if !validPort ds then none
      else if ds == defaultPort scheme then some name
      else some (name ++ ':' :: ds)

/-- The query and fragment states on what follows the path. -/
def parseTail (s : Str) : Option Str × Option Str :=
  match s with
  | '?' :: t =>
    (some (t.takeWhile (fun c => c != '#')),
      match t.dropWhile (fun c => c != '#') with
      | _ :: f => some f
      | [] => none)
  | _ :: f => (none, some f)
  | [] => (none, none)

/-- A character that ends the authority or the path. -/
def isPathEnd (c : Char) : Bool := c == '?' || c == '#'

/-- A character that ends the authority. -/
def isAuthorityEnd (c : Char) : Bool := c == '/' || c == '?' || c == '#'

/-- The path, query and fragment of an `http`/`https` URL whose host is known: `path` is the path
the path state starts from. -/
def parseFromPath (scheme host : Str) (path : List Str) (s : Str) : URL :=
  let t := parseTail (s.dropWhile (fun c => !isPathEnd c))
  { protocol := scheme ++ [':'], host := host,
    pathname := parsePath path (s.takeWhile (fun c => !isPathEnd c)),
    query := t.1, fragment := t.2 }

/-- The authority state and what follows, on the text after `scheme://`. -/
def parseFromAuthority (scheme : Str) (s : Str) : Option URL :=
  match s with
  | '/' :: _ => none
  | _ =>
    match parseHost scheme (s.takeWhile (fun c => !isAuthorityEnd c)) with
    | none => none
    | some host => some (parseFromPath scheme host [] (s.dropWhile (fun c => !isAuthorityEnd c)))

/-- Whether the scheme is `http` or `https`. -/
def isHttpScheme (scheme : Str) : Bool := scheme == "http".toList || scheme == "https".toList

/-- `new URL(input)` on the fragment. -/
def parseAbsolute (input : Str) : Option URL :=
  if !input.all isUrlChar then none
  else
    match splitScheme input with
    | none => none
    | some (scheme, rest) =>
      if isHttpScheme scheme then
        match rest with
        | '/' :: '/' :: s => parseFromAuthority scheme s
        | _ => none
      else some { protocol := scheme ++ [':'], host := [], pathname := rest,
                  query := none, fragment := none }

/-- The relative states: a reference without scheme against the parsed `http`/`https` base. -/
def parseRelative (input : Str) (b : URL) : Option URL :=
  let scheme := b.protocol.dropLast
  match input with
  | [] => some { b with fragment := none }
  | '/' :: '/' :: s => parseFromAuthority scheme s
  | '/' :: _ => some (parseFromPath scheme b.host [] input)
  | '?' :: _ =>
    let t := parseTail input
    some { b with query := t.1, fragment := t.2 }
  | '#' :: f => some { b with fragment := some f }
  | _ => some (parseFromPath scheme b.host (pathSegments b.pathname).dropLast input)

/-- `new URL(input, base)` on the fragment. -/
def parseWithBase (input base : Str) : Option URL :=
  match parseAbsolute base with
  | none => none
  | some b =>
    if !input.all isUrlChar then none
    else
      match splitScheme input with
      | some (scheme, rest) =>
        if isHttpScheme scheme then
          match rest with
          | '/' :: '/' :: s => parseFromAuthority scheme s
          | _ => none
        else some { protocol := scheme ++ [':'], host := [], pathname := rest,
                    query := none, fragment := none }
      | none =>
        if isHttpScheme b.protocol.dropLast then parseRelative input b else none

/-- The `pathname` setter of an `http` or `https` URL. -/
def setPathname (pf : Platform) (u : URL) (value : Str) : URL :=
  { u with pathname := pf.parsePath value }

/-- The statement `u.search = ""`. -/
def clearSearch (u : URL) : URL := { u with query := none }

/-- The statement `u.hash = ""`. -/
def clearHash (u : URL) : URL := { u with fragment := none }

end URL

/-- The URL class on the fragment of the URL standard described above. -/
def modelPlatform : Platform :=
  { parseUrl := fun input base =>
      match base with
      | none => URL.parseAbsolute input
      | some b => URL.parseWithBase input b
    parsePath := URL.parsePath [] }

/-! ## Options and URL normalisation -/

/-- The effective options of a run (`DEFAULTS` overridden by the request, `pathLimits`
sanitised).  The request is taken to give every option a value of its kind: whole numbers for
`maxPages` and `concurrency`, booleans for the switches, lists of strings for the lists. -/
structure Options where
  maxPages : Nat
  concurrency : Nat
  sameHostOnly : Bool
  scopeToStartPath : Bool
  includeQuery : Bool
  ignoreHash : Bool
  excludePaths : List Str
  pathLimits : List Rule
  excludeExtensions : List Str
  ignoreJobPages : Bool
  brokenLinkCheck : Bool
  deriving Repr

/-- The constant `DEFAULTS`. -/
def DEFAULTS : Options :=
  { maxPages := 300
    concurrency := 6
    sameHostOnly := true
    scopeToStartPath := true
    includeQuery := true
    ignoreHash := true
    excludePaths := []
    pathLimits := []
    excludeExtensions :=
      [".jpg", ".jpeg", ".png", ".gif", ".webp", ".svg", ".ico",
        ".pdf", ".zip", ".rar", ".7z",
        ".css", ".js", ".map",
        ".mp4", ".mp3", ".mov", ".avi",
        ".woff", ".woff2", ".ttf", ".eot"].map String.toList
    ignoreJobPages := true
    brokenLinkCheck := false }

/-- The expression `baseUrl ? new URL(inputUrl, baseUrl) : new URL(inputUrl)`; `none` when it
throws.  An empty `baseUrl` is falsy and counts as no base. -/
def resolveUrl (pf : Platform) (inputUrl : Str) (baseUrl : Option Str) : Option URL :=
  match baseUrl with
  | some b => if !b.isEmpty then pf.parseUrl inputUrl (some b) else pf.parseUrl inputUrl none
  | none => pf.parseUrl inputUrl none

/-- The function `normalizeUrl(inputUrl, baseUrl, options)`; `none` is the `null` it returns. -/
def normalizeUrl (pf : Platform) (inputUrl : Str) (baseUrl : Option Str) (options : Options) :
    Option Str :=
  match resolveUrl pf inputUrl baseUrl with
  | none => none
  | some u0 =>
    if !(["http:".toList, "https:".toList].contains u0.protocol) then none
    else
      let u1 := if !options.includeQuery then u0.clearSearch else u0
      let u2 := if options.ignoreHash then u1.clearHash else u1
      let u := u2.setPathname pf (canonicalizePathname u2.pathname)
      if hasExcessiveRepeatedSegments u.pathname 2 then none
      else
        let s := u.href
        some (if endsWith s ['/'] then dropLastChar s else s)

/-! ## Scope and exclusion predicates

A predicate that calls `new URL(urlString)` throws when the string does not parse; the model
answers `none` then. -/

/-- The function `hasExcludedExtension(urlString, options)`. -/
def hasExcludedExtension (urlString : Str) (options : Options) : Bool :=
  let lower := toLowerCase urlString
  options.excludeExtensions.any (fun ext => endsWith lower ext)

/-- The replacement `s.replace(/^\/+/, "")`. -/
def stripLeadingSlashes (s : Str) : Str := s.dropWhile (fun c => c == '/')

/-- The replacement `s.replace(/\/+$/g, "")`. -/
def stripTrailingSlashes (s : Str) : Str := (s.reverse.dropWhile (fun c => c == '/')).reverse

/-- The test of the regular expression `(^|\/)segment(\/|$)`, whose `segment` is escaped and so
matches literally: `atStart` says that the position is the start of the text or follows a slash. -/
def segmentTest (segment : Str) : Bool → Str → Bool
  | atStart, [] => atStart && segment.isEmpty
  | atStart, c :: t =>
    (atStart && segment.isPrefixOf (c :: t) &&
        (match (c :: t).drop segment.length with
          | [] => true
          | d :: _ => d == '/')) ||
      segmentTest segment (c == '/') t

/-- The callback of `excludedPaths.some(...)` in `isExcludedByPath`. -/
def excludeRuleMatches (pathname p : Str) : Bool :=
  let clean := toLowerCase (trim p)
  if clean.isEmpty then false
  else if !startsWith clean ['/'] then false
  else if clean == ['/'] then true
  else
    let withoutLeading := stripLeadingSlashes clean
    let hasSubpath := includes withoutLeading ['/']
    if hasSubpath then
      let normalized := if endsWith clean ['/'] then dropLastChar clean else clean
      pathname == normalized || startsWith pathname (normalized ++ ['/'])
    else
      let segment := stripTrailingSlashes withoutLeading
      if segment.isEmpty then false else segmentTest segment true pathname

/-- The function `isExcludedByPath(urlString, excludedPaths)`. -/
def isExcludedByPath (pf : Platform) (urlString : Str) (excludedPaths : List Str) :
    Option Bool :=
  if excludedPaths.isEmpty then some false
  else
    match pf.parseUrl urlString none with
    | none => none
    | some u =>
      let pathname := toLowerCase u.pathname
      some (excludedPaths.any (excludeRuleMatches pathname))

/-- The function `isJobDetailPage(urlString)`. -/
def isJobDetailPage (pf : Platform) (urlString : Str) : Option Bool :=
  match pf.parseUrl urlString none with
  | none => none
  | some u =>
    let pathName := toLowerCase u.pathname
    let jobKeyword :=
      includes pathName "/job".toList || includes pathName "/jobs".toList ||
      includes pathName "/vacancy".toList || includes pathName "/vacancies".toList ||
      includes pathName "/career".toList || includes pathName "/careers".toList
    if !jobKeyword then some false
    else
      let segments := pathParts pathName
      let isListing := decide (segments.length ≤ 1) ||
        (segments.length == 1 &&
          (segments.head? == some "jobs".toList || segments.head? == some "careers".toList))
      if isListing then some false else some true

/-! ## The outside world of one run -/

/-- What the `fetch` call of the platform does for a GET: it throws (network error, abort on
timeout, or an error while reading the body), or it answers. -/
inductive NetResult where
  | threw
  | response (ok : Bool) (status : Nat) (url : Str) (contentType : Option Str) (body : Str)
  deriving DecidableEq, Repr

/-- Everything the run reads from outside: the URL class of the platform, the network, and the
three parsers of the libraries (`robots-parser`, and `cheerio` on a sitemap and on a page). -/
structure Env where
  platform : Platform
  fetch : Str → NetResult
  robotsParser : Str → Str → Bool
  sitemapLocs : Str → List Str
  anchorHrefs : Str → List Str

/-- The object `fetchText` resolves to. -/
structure FetchResult where
  ok : Bool
  status : Nat
  blockedByRobots : Bool
  text : Str
  finalUrl : Str
  deriving DecidableEq, Repr

/-- The function `fetchText(url, timeoutMs, robots, userAgent)`: `robots` is the `isAllowed` test
of the parsed robots file for the crawler's user agent, or `none` for `null`. -/
def fetchText (env : Env) (url : Str) (robots : Option (Str → Bool)) : FetchResult :=
  let blocked := match robots with
    | some isAllowed => !isAllowed url
    | none => false
  if blocked then { ok := false, status := 0, blockedByRobots := true, text := [], finalUrl := url }
  else
    match env.fetch url with
    | NetResult.threw =>
      { ok := false, status := 0, blockedByRobots := false, text := [], finalUrl := url }
    | NetResult.response resOk status resUrl contentType body =>
      let finalUrl := if !resUrl.isEmpty then resUrl else url
      let ct := contentType.getD []
      let isHtml := includes ct "text/html".toList || includes ct "application/xhtml+xml".toList
      if !resOk then
        { ok := false, status := status, blockedByRobots := false, text := [], finalUrl := finalUrl }
      else if !isHtml then
        { ok := false, status := status, blockedByRobots := false, text := [], finalUrl := finalUrl }
      else
        { ok := true, status := status, blockedByRobots := false, text := body,
          finalUrl := finalUrl }

/-- The replacement `origin.replace(/\/$/, "")`. -/
def stripOneTrailingSlash (s : Str) : Str := if endsWith s ['/'] then dropLastChar s else s

/-- The function `fetchRobots(origin, timeoutMs, userAgent)`. -/
def fetchRobots (env : Env) (origin : Str) : Option (Str → Bool) :=
  let robotsUrl := stripOneTrailingSlash origin ++ "/robots.txt".toList
  let r := fetchText env robotsUrl none
  if !r.ok || r.text.isEmpty then none else some (env.robotsParser r.text)

/-- The function `fetchSitemapUrls(origin, timeoutMs, robots, userAgent)`. -/
def fetchSitemapUrls (env : Env) (origin : Str) (robots : Option (Str → Bool)) : List Str :=
  let sitemapUrl := stripOneTrailingSlash origin ++ "/sitemap.xml".toList
  let r := fetchText env sitemapUrl robots
  if !r.ok || r.text.isEmpty then []
  else ((env.sitemapLocs r.text).map trim).filter (fun l => !l.isEmpty)

/-! ## The state of one run -/

/-- A record of the `records` map. -/
structure PageRecord where
  url : Str
  finalUrl : Str
  status : Option Nat
  blockedByRobots : Bool
  deriving DecidableEq, Repr

/-- The sets and maps the request handler allocates for one crawl. -/
structure CrawlState where
  toVisit : List Str
  visited : List Str
  blockedByPathLimit : List Str
  discovered : List Str
  pathLimitCounters : List (Str × Nat)
  pathLimitSkipped : List (Str × Nat)
  records : List (Str × PageRecord)
  deriving DecidableEq, Repr

/-- The constants of one run that `processOne` closes over. -/
structure Run where
  env : Env
  options : Options
  rootHost : Str
  startPathScope : Str
  robots : Option (Str → Bool)

/-- `set.add(x)`. -/
def setAdd (s : List Str) (x : Str) : List Str := if x ∈ s then s else s ++ [x]

/-- `set.delete(x)`. -/
def setDelete (s : List Str) (x : Str) : List Str := s.filter (fun y => y != x)

/-- The state right after the handler's allocations. -/
def CrawlState.fresh : CrawlState :=
  { toVisit := [], visited := [], blockedByPathLimit := [], discovered := [],
    pathLimitCounters := [], pathLimitSkipped := [], records := [] }

/-- The scope test written three times in the handler: the path of `urlString` is the start
scope or lies under it.  `none` when `new URL` throws. -/
def underStartScope (pf : Platform) (startPathScope urlString : Str) : Option Bool :=
  match pf.parseUrl urlString none with
  | none => none
  | some u =>
    let p := u.pathname
    some (p == startPathScope || startsWith p (startPathScope ++ ['/']))

/-- The function `isWithinStartScope(urlString)`. -/
def isWithinStartScope (run : Run) (urlString : Str) : Bool :=
  if !run.options.scopeToStartPath then true
  else if run.startPathScope.isEmpty || run.startPathScope == ['/'] then true
  else
    match run.env.platform.parseUrl urlString none with
    | none => false
    | some u =>
      let pathname := if u.pathname.isEmpty then ['/'] else u.pathname
      let scope := if endsWith run.startPathScope ['/'] then dropLastChar run.startPathScope
        else run.startPathScope
      if scope == ['/'] then true
      else pathname == scope || startsWith pathname (scope ++ ['/'])

/-! ## The path-budget ledger -/

/-- The key of a rule in `pathLimitCounters`: `String(rule.path || "").trim().toLowerCase()`. -/
def ruleKey (rule : Rule) : Str := toLowerCase (trim rule.path)

/-- The path the ledger matches rules against, computed from the pathname of the URL. -/
def ruleNormalizedPath (pathname : Str) : Str := toLowerCase (normalizePathForRules pathname)

/-- What the rule loop of `processOne` decides for one URL. -/
inductive LedgerVerdict where
  | admitted
  | blocked
  deriving DecidableEq, Repr

/-- The loop `for (const rule of options.pathLimits)` of `processOne`, on the rules still to
examine. -/
def ledgerLoop (normalizedPath currentUrl : Str) :
    List Rule → CrawlState → CrawlState × LedgerVerdict
  | [], st => (st, LedgerVerdict.admitted)
  | rule :: rest, st =>
    let rulePath := ruleKey rule
    if !matchesPathLimit normalizedPath rulePath then ledgerLoop normalizedPath currentUrl rest st
    else
      let key := rulePath
      let currentCount := (mapGet st.pathLimitCounters key).getD 0
      let maxAllowed := JsNumber.orElse rule.maxPages (JsNumber.ofNat 0)
      if JsNumber.gt maxAllowed (JsNumber.ofNat 0) &&
          JsNumber.ge (JsNumber.ofNat currentCount) maxAllowed then
        ({ st with
            blockedByPathLimit := setAdd st.blockedByPathLimit currentUrl
            pathLimitSkipped :=
              mapSet st.pathLimitSkipped rule.path
                ((mapGet st.pathLimitSkipped rule.path).getD 0 + 1) },
          LedgerVerdict.blocked)
      else
        ({ st with pathLimitCounters := mapSet st.pathLimitCounters key (currentCount + 1) },
          LedgerVerdict.admitted)

/-- The `try { ... } catch { normalizedPath = "/" }` of `processOne`: the path of `currentUrl`
as the ledger sees it. -/
def ledgerPath (pf : Platform) (currentUrl : Str) : Str :=
  match pf.parseUrl currentUrl none with
  | some u => ruleNormalizedPath u.pathname
  | none => ['/']

/-- The `if (options.pathLimits && options.pathLimits.length)` block of `processOne`. -/
def pathLimitGate (run : Run) (st : CrawlState) (currentUrl : Str) :
    CrawlState × LedgerVerdict :=
  if run.options.pathLimits.isEmpty then (st, LedgerVerdict.admitted)
  else
    ledgerLoop (ledgerPath run.env.platform currentUrl) currentUrl run.options.pathLimits st

/-! ## `processOne` -/

/-- Where `processOne` stands once its synchronous first part has run: it has returned (or
thrown), or it waits for `fetchText`. -/
inductive Phase where
  | returned
  | awaitingFetch
  deriving DecidableEq, Repr

/-- The exclusions between `visited.add` and the fetch: `true` when `processOne` returns there
(a throwing `new URL` ends the call as well). -/
def excludedBeforeFetch (run : Run) (currentUrl : Str) : Bool :=
  (run.options.sameHostOnly &&
      (match run.env.platform.parseUrl currentUrl none with
        | none => true
        | some u => u.host != run.rootHost)) ||
    hasExcludedExtension currentUrl run.options ||
    (match isExcludedByPath run.env.platform currentUrl run.options.excludePaths with
      | none => true
      | some b => b) ||
    (run.options.ignoreJobPages &&
      (match isJobDetailPage run.env.platform currentUrl with
        | none => true
        | some b => b))

/-- The part of `processOne(currentUrl)` that runs before `await fetchText(...)`. -/
def processOneStart (run : Run) (st : CrawlState) (currentUrl : Str) : CrawlState × Phase :=
  if currentUrl ∈ st.visited || currentUrl ∈ st.blockedByPathLimit then (st, Phase.returned)
  else if run.options.scopeToStartPath && run.startPathScope != ['/'] &&
      underStartScope run.env.platform run.startPathScope currentUrl != some true then
    (st, Phase.returned)
  else
    match pathLimitGate run st currentUrl with
    | (st1, LedgerVerdict.blocked) => (st1, Phase.returned)
    | (st1, LedgerVerdict.admitted) =>
      let st2 := { st1 with visited := setAdd st1.visited currentUrl }
      if excludedBeforeFetch run currentUrl then (st2, Phase.returned)
      else (st2, Phase.awaitingFetch)

/-- How a call of the callback of `$("a[href]").each(...)` ends: it returns without pushing, it
pushes `next` on `links`, or it throws (a `new URL` outside a `try` does). -/
inductive LinkVerdict where
  | skipped
  | pushed (next : Str)
  | threw
  deriving DecidableEq, Repr

/-- The callback of `$("a[href]").each(...)` for one `href`. -/
def linkCandidate (run : Run) (baseForLinks href : Str) : LinkVerdict :=
  if href.isEmpty then LinkVerdict.skipped
  else
    match normalizeUrl run.env.platform href (some baseForLinks) run.options with
    | none => LinkVerdict.skipped
    | some next =>
      if run.options.scopeToStartPath && run.startPathScope != ['/'] &&
          underStartScope run.env.platform run.startPathScope next != some true then
        LinkVerdict.skipped
      else if run.options.sameHostOnly &&
          (match run.env.platform.parseUrl next none with
            | none => true
            | some u => u.host != run.rootHost) then LinkVerdict.skipped
      else if hasExcludedExtension next run.options then LinkVerdict.skipped
      else
        match isExcludedByPath run.env.platform next run.options.excludePaths with
        | none => LinkVerdict.threw
        | some true => LinkVerdict.skipped
        | some false =>
          match (if run.options.ignoreJobPages then isJobDetailPage run.env.platform next
            else some false) with
          | none => LinkVerdict.threw
          | some true => LinkVerdict.skipped
          | some false =>
            if !isWithinStartScope run next then LinkVerdict.skipped
            else LinkVerdict.pushed next

/-- The calls of the callback over the `href` attributes of the page: the array `links` once
they have all returned, or `none` when one of them throws, which ends `processOne` there. -/
def collectLinks (run : Run) (baseForLinks : Str) : List Str → Option (List Str)
  | [] => some []
  | href :: rest =>
    match linkCandidate run baseForLinks href with
    | LinkVerdict.threw => none
    | LinkVerdict.skipped => collectLinks run baseForLinks rest
    | LinkVerdict.pushed next => (collectLinks run baseForLinks rest).map (fun l => next :: l)

/-- The loop `for (const next of links)` that feeds the frontier. -/
def enqueueLinks (maxPages : Nat) : List Str → CrawlState → CrawlState
  | [], st => st
  | next :: rest, st =>
    if st.visited.length + st.toVisit.length ≥ maxPages then st
    else if !(next ∈ st.visited) && !(next ∈ st.blockedByPathLimit) then
      enqueueLinks maxPages rest { st with toVisit := setAdd st.toVisit next }
    else enqueueLinks maxPages rest st

/-- The part of `processOne(currentUrl)` that runs once `fetchText` has resolved to `r`. -/
def processOneFinish (run : Run) (st : CrawlState) (currentUrl : Str) (r : FetchResult) :
    CrawlState :=
  let existing := (mapGet st.records currentUrl).getD
    { url := currentUrl, finalUrl := currentUrl, status := none, blockedByRobots := false }
  let record : PageRecord :=
    { existing with
      finalUrl := if !r.finalUrl.isEmpty then r.finalUrl else currentUrl
      blockedByRobots := r.blockedByRobots
      status := if run.options.brokenLinkCheck then some r.status else none }
  let st1 := { st with records := mapSet st.records currentUrl record }
  if !r.ok || r.text.isEmpty then { st1 with discovered := setAdd st1.discovered currentUrl }
  else
    let st2 := { st1 with discovered := setAdd st1.discovered currentUrl }
    let baseForLinks := if !r.finalUrl.isEmpty then r.finalUrl else currentUrl
    match collectLinks run baseForLinks (run.env.anchorHrefs r.text) with
    | none => st2
    | some links => enqueueLinks run.options.maxPages links st2

/-- The array `links` that `processOne(u)` goes through after the page it fetched: empty when
the fetch gave no text, or when the callback threw. -/
def pageLinks (run : Run) (u : Str) : List Str :=
  let r := fetchText run.env u run.robots
  if !r.ok || r.text.isEmpty then []
  else
    (collectLinks run (if !r.finalUrl.isEmpty then r.finalUrl else u)
      (run.env.anchorHrefs r.text)).getD []

/-- A call `await processOne(currentUrl)` that nothing interleaves with. -/
def processOne (run : Run) (st : CrawlState) (currentUrl : Str) : CrawlState :=
  match processOneStart run st currentUrl with
  | (st1, Phase.returned) => st1
  | (st1, Phase.awaitingFetch) =>
    processOneFinish run st1 currentUrl (fetchText run.env currentUrl run.robots)

/-! ## The worker pool and the frontier loop

The event loop runs one piece of code at a time, so a call of `processOne` is two atomic steps,
split at its `await`.  The order in which the calls in flight get their next turn is not fixed by
the program: it is the list `sched`, whose head, taken modulo the number of calls in flight,
picks the call that moves next (the first one once the list is used up). -/

/-- A call of `processOne` that `concurrencyMap` counts as active. -/
structure Task where
  url : Str
  phase : Phase
  deriving DecidableEq, Repr

/-- The `while (active < limit && idx < items.length)` loop of `next()`: `pending` are the
items from `idx` on, `active` the calls in flight. -/
def startTasks (run : Run) (limit : Nat) :
    List Str → CrawlState → List Task → CrawlState × List Str × List Task
  | [], st, active => (st, [], active)
  | u :: rest, st, active =>
    if active.length < limit then
      let r := processOneStart run st u
      startTasks run limit rest r.1 (active ++ [{ url := u, phase := r.2 }])
    else (st, u :: rest, active)

/-- The next turn of the `k`-th active call: a call that waits for its fetch runs to its end;
a call that has ended leaves the pool (`finally`), and `next()` starts what it can. -/
def advanceTask (run : Run) (limit : Nat) (k : Nat)
    (c : CrawlState × List Str × List Task) : CrawlState × List Str × List Task :=
  match c with
  | (st, pending, active) =>
    match active.get? k with
    | none => c
    | some t =>
      match t.phase with
      | Phase.awaitingFetch =>
        (processOneFinish run st t.url (fetchText run.env t.url run.robots), pending,
          active.set k { t with phase := Phase.returned })
      | Phase.returned => startTasks run limit pending st (active.eraseIdx k)

/-- The turns of `concurrencyMap` after its first call of `next()`, until every item is done;
`none` when `fuel` turns were not enough. -/
def poolLoop (run : Run) (limit : Nat) :
    Nat → List Nat → CrawlState × List Str × List Task → Option (CrawlState × List Nat)
  | fuel, sched, (st, pending, active) =>
    if pending.isEmpty && active.isEmpty then some (st, sched)
    else
      match fuel with
      | 0 => none
      | fuel + 1 =>
        if active.isEmpty then none
        else
          poolLoop run limit fuel sched.tail
            (advanceTask run limit (sched.headD 0 % active.length) (st, pending, active))

/-- The call `concurrencyMap(items, limit, processOne)`: each item takes two turns. -/
def concurrencyMap (run : Run) (items : List Str) (limit : Nat) (sched : List Nat)
    (st : CrawlState) : Option (CrawlState × List Nat) :=
  poolLoop run limit (2 * items.length) sched (startTasks run limit items st [])

/-- The loop `while (toVisit.size > 0 && visited.size < options.maxPages)`; `none` when `fuel`
iterations were not enough or a batch never completes. -/
def frontierLoop (run : Run) : Nat → List Nat → CrawlState → Option CrawlState
  | fuel, sched, st =>
    if st.toVisit.length > 0 && st.visited.length < run.options.maxPages then
      match fuel with
      | 0 => none
      | fuel + 1 =>
        let batch := st.toVisit.take (run.options.concurrency * 2)
        let st1 := { st with toVisit := batch.foldl setDelete st.toVisit }
        match concurrencyMap run batch run.options.concurrency sched st1 with
        | none => none
        | some (st2, sched2) => frontierLoop run fuel sched2 st2
    else some st

/-! ## The request handler up to the end of the frontier loop -/

/-- The computation of `startPathScope` from the normalised start URL. -/
def computeStartPathScope (pf : Platform) (start : Str) : Str :=
  match pf.parseUrl start none with
  | none => ['/']
  | some u =>
    let p := stripTrailingSlashes (if u.pathname.isEmpty then ['/'] else u.pathname)
    if p.isEmpty then ['/'] else p

/-- The callback of `sitemapUrls.forEach(...)`: one sitemap entry into the frontier. -/
def seedFromSitemap (pf : Platform) (options : Options) (startPathScope : Str)
    (toVisit : List Str) (u : Str) : List Str :=
  match normalizeUrl pf u none options with
  | none => toVisit
  | some n =>
    if options.scopeToStartPath && startPathScope != ['/'] &&
        underStartScope pf startPathScope n != some true then toVisit
    else setAdd toVisit n

/-- The frontier the loop starts from. -/
def seedFrontier (pf : Platform) (options : Options) (startPathScope start : Str)
    (sitemapUrls : List Str) : List Str :=
  if sitemapUrls.length > 0 then
    sitemapUrls.foldl (seedFromSitemap pf options startPathScope) []
  else setAdd [] start

/-- How the handler of `POST /api/crawl` ends: with the `400` answer, or with the state left by
the frontier loop; `outOfFuel` is not an answer of the program but the model running out of
`fuel`. -/
inductive CrawlOutcome where
  | invalidUrl
  | outOfFuel
  | finished (run : Run) (start : Str) (fromSitemap : Bool) (st : CrawlState)

/-- The handler of `POST /api/crawl` (the pin has been checked) up to the end of the frontier
loop: `url` is the trimmed `req.body.url`, `options` the merged options with `pathLimits`
already sanitised. -/
def crawl (env : Env) (url : Str) (options : Options) (sched : List Nat) (fuel : Nat) :
    CrawlOutcome :=
  match env.platform.parseUrl url none with
  | none => CrawlOutcome.invalidUrl
  | some root =>
    let origin := root.protocol ++ ['/', '/'] ++ root.host
    match normalizeUrl env.platform url none options with
    | none => CrawlOutcome.invalidUrl
    | some start =>
      if start.isEmpty then CrawlOutcome.invalidUrl
      else
        let startPathScope := computeStartPathScope env.platform start
        let robots := fetchRobots env origin
        let sitemapUrls := fetchSitemapUrls env origin robots
        let run : Run :=
          { env := env, options := options, rootHost := root.host,
            startPathScope := startPathScope, robots := robots }
        let st0 : CrawlState :=
          { CrawlState.fresh with
            toVisit := seedFrontier env.platform options startPathScope start sitemapUrls }
        match frontierLoop run fuel sched st0 with
        | none => CrawlOutcome.outOfFuel
        | some st => CrawlOutcome.finished run start (sitemapUrls.length > 0) st

/-- The state the frontier loop has left, if the handler got that far. -/
def CrawlOutcome.state? : CrawlOutcome → Option CrawlState
  | CrawlOutcome.finished _ _ _ st => some st
  | _ => none

/-- The handler of `POST /api/crawl` up to the seeding of the frontier: the constants of the
run, the normalised seed, whether the sitemap yielded a URL, and the state the frontier loop
starts from; `none` is the `400` answer. -/
def crawlSetup (env : Env) (url : Str) (options : Options) :
    Option (Run × Str × Bool × CrawlState) :=
  match env.platform.parseUrl url none with
  | none => none
  | some root =>
    let origin := root.protocol ++ ['/', '/'] ++ root.host
    match normalizeUrl env.platform url none options with
    | none => none
    | some start =>
      if start.isEmpty then none
      else
        let startPathScope := computeStartPathScope env.platform start
        let robots := fetchRobots env origin
        let sitemapUrls := fetchSitemapUrls env origin robots
        let run : Run :=
          { env := env, options := options, rootHost := root.host,
            startPathScope := startPathScope, robots := robots }
        let st0 : CrawlState :=
          { CrawlState.fresh with
            toVisit := seedFrontier env.platform options startPathScope start sitemapUrls }
        some (run, start, sitemapUrls.length > 0, st0)

/-! ## The report -/

/-- The UTF-16 code units of a string. -/
def utf16 (s : Str) : List Nat :=
  s.flatMap (fun c =>
    if c.toNat < 65536 then [c.toNat]
    else [55296 + (c.toNat - 65536) / 1024, 56320 + (c.toNat - 65536) % 1024])

/-- The order `Array.prototype.sort()` puts strings in when it is given no comparator: the
order of their code units. -/
def jsStringLe (a b : Str) : Prop := utf16 a ≤ utf16 b

instance : DecidableRel jsStringLe := fun a b =>
  inferInstanceAs (Decidable (utf16 a ≤ utf16 b))

instance : IsTotal Str jsStringLe := ⟨fun a b => le_total (utf16 a) (utf16 b)⟩

instance : IsTrans Str jsStringLe :=
  ⟨fun a b c (hab : utf16 a ≤ utf16 b) (hbc : utf16 b ≤ utf16 c) => le_trans hab hbc⟩

/-- The comparison `a < b` of two strings: the strict order of their code units. -/
def jsStringLt (a b : Str) : Prop := utf16 a < utf16 b

/-- The constant `urls` of the handler, `Array.from(discovered).sort()`; the `url` fields of the
response's `urls` array are its elements, in this order. -/
def reportUrls (st : CrawlState) : List Str := st.discovered.insertionSort jsStringLe

/-- The test `robots && !robots.isAllowed(url, userAgent)` that opens `fetchText` and
`quickStatus`. -/
def robotsBlocks (robots : Option (Str → Bool)) (url : Str) : Bool :=
  match robots with
  | some isAllowed => !isAllowed url
  | none => false

/-- The object `quickStatus` resolves to. -/
structure StatusResult where
  status : Nat
  finalUrl : Str
  blockedByRobots : Bool
  deriving DecidableEq, Repr

/-- What is read of a response in `quickStatus`: its status and its URL. -/
def statusOf (url : Str) (status : Nat) (resUrl : Str) : StatusResult :=
  { status := status, finalUrl := if !resUrl.isEmpty then resUrl else url,
    blockedByRobots := false }

/-- The function `quickStatus(url, timeoutMs, robots, userAgent)`: `head` is what the `fetch` call
of the platform does for a `HEAD` request; when it throws, the function tries a `GET`. -/
def quickStatus (env : Env) (head : Str → NetResult) (url : Str)
    (robots : Option (Str → Bool)) : StatusResult :=
  let blocked := match robots with
    | some isAllowed => !isAllowed url
    | none => false
  if blocked then { status := 0, finalUrl := url, blockedByRobots := true }
  else
    match head url with
    | NetResult.response _ status resUrl _ _ => statusOf url status resUrl
    | NetResult.threw =>
      match env.fetch url with
      | NetResult.response _ status resUrl _ _ => statusOf url status resUrl
      | NetResult.threw => { status := 0, finalUrl := url, blockedByRobots := false }

/-- The record that the callback of the `brokenLinkCheck` pass stores for the URL `u`, from what
`records.get(u)` returned once `quickStatus` has resolved. -/
def statusRecord (run : Run) (head : Str → NetResult) (found : Option PageRecord) (u : Str) :
    PageRecord :=
  let s := quickStatus run.env head u run.robots
  let existing := found.getD
    { url := u, finalUrl := u, status := none, blockedByRobots := false }
  { existing with
    status := some s.status
    finalUrl :=
      if !s.finalUrl.isEmpty then s.finalUrl
      else if !existing.finalUrl.isEmpty then existing.finalUrl else u
    blockedByRobots := s.blockedByRobots }

/-- The callback of the `brokenLinkCheck` pass, for the URL `u`: what it does to `records` once
`quickStatus` has resolved. -/
def statusStep (run : Run) (head : Str → NetResult) (records : List (Str × PageRecord))
    (u : Str) : List (Str × PageRecord) :=
  mapSet records u (statusRecord run head (mapGet records u) u)

/-- The map `records` when the handler builds its answer: after the `brokenLinkCheck` pass over
`urls` if the option is set.  The callbacks of the pass write under pairwise different keys,
each after its own `await`, so the order in which they complete does not change what a lookup
returns (`statusFold_lookup`); they are run here in the order of `urls`. -/
def finalRecords (run : Run) (head : Str → NetResult) (st : CrawlState) :
    List (Str × PageRecord) :=
  if run.options.brokenLinkCheck then (reportUrls st).foldl (statusStep run head) st.records
  else st.records

/-- The constant `out` of the handler, the `urls` array of the response:
`urls.map((u) => records.get(u) || { url: u, finalUrl: u, status: null, blockedByRobots: false })`. -/
def responseUrls (run : Run) (head : Str → NetResult) (st : CrawlState) : List PageRecord :=
  (reportUrls st).map (fun u =>
    (mapGet (finalRecords run head st) u).getD
      { url := u, finalUrl := u, status := none, blockedByRobots := false })

/-! ## Vocabulary of the statements -/

/-- A list of path segments: none is empty, none holds a slash. -/
def Segments (segs : List Str) : Prop := ∀ s ∈ segs, s ≠ [] ∧ '/' ∉ s

/-- The URL object that `normalizeUrl` serialises, for the object `u` the constructor returned:
`u` after the assignments to `search`, `hash` and `pathname`. -/
def normalizedObject (pf : Platform) (options : Options) (u : URL) : URL :=
  let u1 := if !options.includeQuery then u.clearSearch else u
  let u2 := if options.ignoreHash then u1.clearHash else u1
  u2.setPathname pf (canonicalizePathname u2.pathname)

/-- The record `normalizeUrl` serialises when the `pathname` setter stores the canonical path as
it is: query and fragment kept or dropped as the options say, and the path made canonical. -/
def normalizedRecord (options : Options) (u : URL) : URL :=
  { protocol := u.protocol, username := u.username, password := u.password, host := u.host,
    pathname := canonicalizePathname u.pathname,
    query := if options.includeQuery then u.query else none,
    fragment := if options.ignoreHash then none else u.fragment }

/-- The candidate URL passes the start-path scope test of `processOne`. -/
def inStartScope (run : Run) (currentUrl : Str) : Bool :=
  !(run.options.scopeToStartPath && run.startPathScope != ['/'] &&
    underStartScope run.env.platform run.startPathScope currentUrl != some true)

/-- The first rule of the list, in list order, that matches the candidate URL. -/
def firstMatchingRule (pf : Platform) (rules : List Rule) (currentUrl : Str) : Option Rule :=
  rules.find? (fun r => matchesPathLimit (ledgerPath pf currentUrl) (ruleKey r))

/-- The text `s` without the white space at its end, `s.trimEnd()`. -/
def trimEnd (s : Str) : Str := (s.reverse.dropWhile isJsWhitespace).reverse

/-- Two neighbours in a path that `canonicalizePathname` leaves as they are: the second is not a
locale-style repeat of the first. -/
def NoLocaleRepeat (a b : Str) : Prop :=
  (isLang b && !a.isEmpty && toLowerCase a == toLowerCase b) = false

/-- The states a run goes through, whatever the seed, the batches and the order of the calls:
the allocations with a seeded frontier, then any number of atomic steps, each of which is the
first half of a call of `processOne`, the second half of one, or a change of the frontier by the
loop. -/
inductive Reachable (run : Run) : CrawlState → Prop where
  | seed (tv : List Str) : Reachable run { CrawlState.fresh with toVisit := tv }
  | start {st : CrawlState} (u : Str) :
    Reachable run st → Reachable run (processOneStart run st u).1
  | finish {st : CrawlState} (u : Str) :
    Reachable run st →
      Reachable run (processOneFinish run st u (fetchText run.env u run.robots))
  | batch {st : CrawlState} (tv : List Str) :
    Reachable run st → Reachable run { st with toVisit := tv }

/-- A property of the state that both halves of `processOne` keep, and that does not depend on
the frontier. -/
structure StepInvariant (run : Run) (P : CrawlState → Prop) : Prop where
  start : ∀ st u, P st → P (processOneStart run st u).1
  finish : ∀ st u, P st → P (processOneFinish run st u (fetchText run.env u run.robots))
  frontier : ∀ st tv, P st → P { st with toVisit := tv }

/-- A property `P` of the state together with a property `A` of the URLs whose fetch is under
way: the first half of `processOne` keeps `P` and gives `A` to the URL it goes on to fetch, the
second half keeps `P` for a URL that has `A`, and `P` does not depend on the frontier. -/
structure FetchInvariant (run : Run) (P : CrawlState → Prop) (A : Str → Prop) : Prop where
  start : ∀ st u, P st →
    P (processOneStart run st u).1 ∧ ((processOneStart run st u).2 = Phase.awaitingFetch → A u)
  finish : ∀ st u, P st → A u →
    P (processOneFinish run st u (fetchText run.env u run.robots))
  frontier : ∀ st tv, P st → P { st with toVisit := tv }

/-- The turns a call in flight still needs: two while it waits for its fetch, one to leave the
pool. -/
def Task.turns (t : Task) : Nat :=
  match t.phase with
  | Phase.awaitingFetch => 2
  | Phase.returned => 1

/-- An upper bound on the turns `concurrencyMap` still needs: two for each item not started,
and the turns of the calls in flight. -/
def poolWork (pending : List Str) (active : List Task) : Nat :=
  2 * pending.length + (active.map Task.turns).sum

/-- The list holds three equal segments in a row. -/
def HasTriple (parts : List Str) : Prop := ∃ a g b, parts = a ++ [g, g, g] ++ b

namespace URL

/-- A segment as the path state leaves it in a path: no slash, not a dot segment, and only
characters of the fragment that do not end the path. -/
def SegOk (seg : Str) : Prop :=
  '/' ∉ seg ∧ isSingleDot seg = false ∧ isDoubleDot seg = false ∧
    ∀ c ∈ seg, isUrlChar c = true ∧ isPathEnd c = false

/-- A serialised path: a slash before each segment of a non-empty list of segments. -/
def PathOk (pathname : Str) : Prop :=
  ∃ segs : List Str, segs ≠ [] ∧ (∀ seg ∈ segs, SegOk seg) ∧ pathname = '/' :: join ['/'] segs

/-- A serialised host of the fragment: a host name, and a port unless it is the default one. -/
def HostOk (scheme host : Str) : Prop :=
  ∃ name, validHostname name = true ∧
    (host = name ∨
      ∃ ds, validPort ds = true ∧ ds ≠ defaultPort scheme ∧ host = name ++ ':' :: ds)

/-- The serialised query and fragment of a record. -/
def tailString (u : URL) : Str :=
  (match u.query with
    | some q => '?' :: q
    | none => []) ++
  (match u.fragment with
    | some f => '#' :: f
    | none => [])

/-- The records the parser of the fragment returns for `http` and `https`. -/
structure Valid (u : URL) : Prop where
  scheme : isHttpScheme u.protocol.dropLast = true ∧ u.protocol = u.protocol.dropLast ++ [':']
  host : HostOk u.protocol.dropLast u.host
  path : PathOk u.pathname
  query : ∀ q ∈ u.query, ∀ c ∈ q, isUrlChar c = true ∧ c ≠ '#'
  fragment : ∀ f ∈ u.fragment, ∀ c ∈ f, isUrlChar c = true
  nocred : u.username = [] ∧ u.password = []

end URL

/-! ## Example data -/

/-- A site that answers nothing: every request fails. -/
def silentEnv : Env :=
  { platform := modelPlatform
    fetch := fun _ => NetResult.threw
    robotsParser := fun _ _ => true
    sitemapLocs := fun _ => []
    anchorHrefs := fun _ => [] }

/-- A site of HTML pages: the page at `u` holds the anchors `links u`, and there is neither a
`robots.txt` nor a `sitemap.xml`. -/
def linkSite (links : Str → List Str) : Env :=
  { platform := modelPlatform
    fetch := fun u =>
      if endsWith u "/robots.txt".toList || endsWith u "/sitemap.xml".toList then NetResult.threw
      else NetResult.response true 200 u (some "text/html".toList) u
    robotsParser := fun _ _ => true
    sitemapLocs := fun _ => []
    anchorHrefs := links }

/-- The rule `{path: "/job", maxPages: 5}` as the request carries it. -/
def jobRawRule : RawRule := { path := "/job".toList, maxPages := JsNumber.ofNat 5 }

/-- The rule `{path: "/job", maxPages: 5}`. -/
def jobRule : Rule := { path := "/job".toList, maxPages := JsNumber.ofNat 5 }

/-- A run on `https://s/` with the single path rule `/job`, at most 5 pages. -/
def jobRun : Run :=
  { env := silentEnv
    options := { DEFAULTS with pathLimits := sanitizePathLimits [jobRawRule] }
    rootHost := "s".toList
    startPathScope := ['/']
    robots := none }

/-- A run on `https://s/` with the default options. -/
def plainRun : Run :=
  { env := silentEnv
    options := DEFAULTS
    rootHost := "s".toList
    startPathScope := ['/']
    robots := none }

/-- A run whose seed is `https://s/docs`, with the default options. -/
def docsRun : Run :=
  { plainRun with startPathScope := computeStartPathScope modelPlatform "https://s/docs".toList }

/-- Twenty pages under `/job` and `/en/job`. -/
def jobUrls : List Str :=
  ["https://s/job/1", "https://s/en/job/1", "https://s/job/2", "https://s/en/job/2",
    "https://s/job/3", "https://s/en/job/3", "https://s/job/4", "https://s/en/job/4",
    "https://s/job/5", "https://s/en/job/5", "https://s/job/6", "https://s/en/job/6",
    "https://s/job/7", "https://s/en/job/7", "https://s/job/8", "https://s/en/job/8",
    "https://s/job/9", "https://s/en/job/9", "https://s/job/10", "https://s/en/job/10"].map
    String.toList

/-- The nested rules `/job` (one page) and `/job/eng` (five pages) as the request carries
them. -/
def nestedRawRules : List RawRule :=
  [{ path := "/job".toList, maxPages := JsNumber.ofNat 1 },
    { path := "/job/eng".toList, maxPages := JsNumber.ofNat 5 }]

/-- The options of a crawl with the nested rules; job pages are not filtered out. -/
def nestedOptions : Options :=
  { DEFAULTS with pathLimits := sanitizePathLimits nestedRawRules, ignoreJobPages := false }

/-- The rules `/job` (one page) and `/job/` (five pages) as the request carries them. -/
def slashRawRules : List RawRule :=
  [{ path := "/job".toList, maxPages := JsNumber.ofNat 1 },
    { path := "/job/".toList, maxPages := JsNumber.ofNat 5 }]

/-- The options of a crawl with the rules `/job` and `/job/`; job pages are not filtered out. -/
def slashOptions : Options :=
  { DEFAULTS with pathLimits := sanitizePathLimits slashRawRules, ignoreJobPages := false }

/-- The options of a crawl with the rule `{path: "/it", maxPages: 1}`. -/
def localeRuleOptions : Options :=
  { DEFAULTS with
    pathLimits := sanitizePathLimits [{ path := "/it".toList, maxPages := JsNumber.ofNat 1 }] }

/-- A site whose home page links to two pages under `/it`. -/
def localeRuleSite : Env :=
  linkSite (fun page =>
    if page == "https://s".toList then ["/it/1".toList, "/it/2".toList] else [])

/-- A site whose home page links to two pages under `/job/eng`. -/
def nestedSite : Env :=
  linkSite (fun page =>
    if page == "https://s".toList then ["/job/eng/1".toList, "/job/eng/2".toList] else [])

/-- A site whose home page links to `/b`, `/c` and `/d`, and whose page `/b` links to `/e` and
`/f`. -/
def overshootSite : Env :=
  linkSite (fun page =>
    if page == "https://s".toList then ["/b".toList, "/c".toList, "/d".toList]
    else if page == "https://s/b".toList then ["/e".toList, "/f".toList]
    else [])

/-- A site that serves a sitemap (as HTML, the only kind of answer `fetchText` reads) with four
entries: a page of another host, a job detail page, a PDF file and an ordinary page.  Its pages
hold no links, and it has no `robots.txt`. -/
def sitemapSite : Env :=
  { platform := modelPlatform
    fetch := fun u =>
      if endsWith u "/robots.txt".toList then NetResult.threw
      else NetResult.response true 200 u (some "text/html".toList) u
    robotsParser := fun _ _ => true
    sitemapLocs := fun _ =>
      ["https://other/page", "https://s/careers/42", "https://s/a.pdf", "https://s/ok"].map
        String.toList
    anchorHrefs := fun _ => [] }

/-- A site of six pages: the home page links to `/a`, `/b`, `/c`, `/e`, the page `/a` to `/b`,
the page `/c` to `/e`, and the page `/e` to `/d`, which no other page links to. -/
def lostPageSite : Env :=
  linkSite (fun page =>
    if page == "https://s".toList then ["/a".toList, "/b".toList, "/c".toList, "/e".toList]
    else if page == "https://s/a".toList then ["/b".toList]
    else if page == "https://s/c".toList then ["/e".toList]
    else if page == "https://s/e".toList then ["/d".toList]
    else [])

/-- The options of a crawl of at most seven pages, one request at a time. -/
def lostPageOptions : Options := { DEFAULTS with maxPages := 7, concurrency := 1 }

/-- The options of a crawl with the rule `{path: "/job", maxPages: 1.5}`; job pages are not
filtered out. -/
def fractionOptions : Options :=
  { DEFAULTS with
    pathLimits := sanitizePathLimits [{ path := "/job".toList, maxPages := JsNumber.fin 3 1 }]
    ignoreJobPages := false }

/-- A site with a `robots.txt` (served as HTML, the only kind of answer `fetchText` reads) that
disallows `/private`; its home page links to `/private` and to `/open`. -/
def robotsSite : Env :=
  { platform := modelPlatform
    fetch := fun u =>
      if endsWith u "/sitemap.xml".toList then NetResult.threw
      else NetResult.response true 200 u (some "text/html".toList) u
    robotsParser := fun _ u => u != "https://s/private".toList
    sitemapLocs := fun _ => []
    anchorHrefs := fun page =>
      if page == "https://s".toList then ["/private".toList, "/open".toList] else [] }

/-- A run on the site with the `robots.txt` that disallows `/private`, with the default
options. -/
def robotsRun : Run :=
  { env := robotsSite
    options := DEFAULTS
    rootHost := "s".toList
    startPathScope := ['/']
    robots := some (fun u => u != "https://s/private".toList) }

/-- The options of a crawl of at most four pages, one request at a time. -/
def overshootOptions : Options := { DEFAULTS with maxPages := 4, concurrency := 1 }

end SiteCrawler
namespace SiteCrawler

/-! ## Splitting and joining -/

theorem split_ne_nil (c : Char) (s : Str) : split c s ≠ [] := by
  cases s with
  | nil => simp [split]
  | cons x xs =>
    unfold split
    split_ifs
    · simp
    · split <;> simp

theorem split_append_sep (c : Char) (a b : Str) :
    split c (a ++ c :: b) = split c a ++ split c b := by
  induction a with
  | nil => simp [split]
  | cons x xs ih =>
    by_cases hx : x = c
    · simp [split, hx] at ih ⊢
      exact ih
    · have hne := split_ne_nil c xs
      cases hs : split c xs with
      | nil => exact absurd hs hne
      | cons s ss =>
        have ih2 : split c (xs ++ c :: b) = s :: (ss ++ split c b) := by rw [ih, hs]; rfl
        rw [List.cons_append]
        simp only [split, hx, if_false, hs, ih2, List.cons_append]

theorem split_of_not_mem (c : Char) (s : Str) (h : c ∉ s) : split c s = [s] := by
  induction s with
  | nil => simp [split]
  | cons x xs ih =>
    have hx : x ≠ c := fun e => h (by simp [e])
    have hxs : c ∉ xs := fun e => h (by simp [e])
    simp [split, hx, ih hxs]

theorem join_nil (sep : Str) : join sep [] = [] := by
  simp [join, List.intercalate]

theorem join_singleton (sep x : Str) : join sep [x] = x := by
  simp [join, List.intercalate]

theorem join_cons_cons (sep x y : Str) (r : List Str) :
    join sep (x :: y :: r) = x ++ sep ++ join sep (y :: r) := by
  simp [join, List.intercalate]

theorem pathParts_nil : pathParts [] = [] := by
  simp [pathParts, split]

theorem pathParts_append_slash (a b : Str) :
    pathParts (a ++ '/' :: b) = pathParts a ++ pathParts b := by
  simp [pathParts, split_append_sep]

theorem pathParts_cons_slash (s : Str) : pathParts ('/' :: s) = pathParts s := by
  have h := pathParts_append_slash [] s
  simpa [pathParts_nil] using h

theorem pathParts_of_segment (s : Str) (h : s ≠ []) (h' : '/' ∉ s) : pathParts s = [s] := by
  cases s with
  | nil => exact absurd rfl h
  | cons x xs => simp [pathParts, split_of_not_mem _ _ h']

theorem pathParts_join (xs : List Str) :
    pathParts (join ['/'] xs) = xs.flatMap pathParts := by
  induction xs with
  | nil => simp [join_nil, pathParts_nil]
  | cons x r ih =>
    cases r with
    | nil => simp [join_singleton]
    | cons y r =>
      rw [join_cons_cons, List.append_assoc]
      simp only [List.singleton_append]
      rw [pathParts_append_slash, ih]
      simp

end SiteCrawler
namespace SiteCrawler

/-! ## ASCII case folding -/

theorem toNat_ofNat_small (n : Nat) (h : n < 55296) : (Char.ofNat n).toNat = n := by
  unfold Char.ofNat
  have hv : n.isValidChar := Or.inl h
  simp only [hv, dite_true]
  unfold Char.ofNatAux Char.toNat
  simp [UInt32.toNat]

theorem char_eq_of_toNat_eq {c d : Char} (h : c.toNat = d.toNat) : c = d := by
  rw [← Char.ofNat_toNat c, ← Char.ofNat_toNat d, h]

/-- `Char.toLower` moves the capital letters 32 places up and nothing else. -/
theorem toLower_cases (c : Char) :
    (c.toLower = c ∧ ¬ (65 ≤ c.toNat ∧ c.toNat ≤ 90)) ∨
      (65 ≤ c.toNat ∧ c.toNat ≤ 90 ∧ c.toLower.toNat = c.toNat + 32) := by
  unfold Char.toLower
  by_cases h : c.toNat ≥ 65 ∧ c.toNat ≤ 90
  · right
    refine ⟨h.1, h.2, ?_⟩
    rw [if_pos h]
    exact toNat_ofNat_small _ (by omega)
  · left
    refine ⟨?_, h⟩
    rw [if_neg h]

theorem toLower_toLower (c : Char) : c.toLower.toLower = c.toLower := by
  rcases toLower_cases c.toLower with h | h
  · exact h.1
  · rcases toLower_cases c with h' | h'
    · rw [h'.1] at h
      exact absurd ⟨h.1, h.2.1⟩ h'.2
    · omega

theorem asciiLowerCase_idem (s : Str) : asciiLowerCase (asciiLowerCase s) = asciiLowerCase s := by
  simp [asciiLowerCase, toLower_toLower]

theorem isAsciiLetter_toLower (c : Char) : isAsciiLetter c.toLower = isAsciiLetter c := by
  have e : ∀ d : Char, isAsciiLetter d = true ↔
      ((97 ≤ d.toNat ∧ d.toNat ≤ 122) ∨ (65 ≤ d.toNat ∧ d.toNat ≤ 90)) := by
    intro d
    simp [isAsciiLetter]
  rw [Bool.eq_iff_iff, e, e]
  rcases toLower_cases c with h | h
  · rw [h.1]
  · omega

/-- Case folding neither makes nor removes a character that is not a letter. -/
theorem toLower_eq_iff_of_not_letter (c d : Char) (hd : isAsciiLetter d = false) :
    c.toLower = d ↔ c = d := by
  have e : ¬ ((97 ≤ d.toNat ∧ d.toNat ≤ 122) ∨ (65 ≤ d.toNat ∧ d.toNat ≤ 90)) := by
    intro h
    have : isAsciiLetter d = true := by
      simp [isAsciiLetter]
      exact h
    rw [hd] at this
    exact Bool.noConfusion this
  rcases toLower_cases c with h | h
  · rw [h.1]
  · constructor
    · intro hc
      rw [hc] at h
      omega
    · intro hc
      rw [hc] at h
      omega

theorem isJsWhitespace_toLower (c : Char) : isJsWhitespace c.toLower = isJsWhitespace c := by
  rcases toLower_cases c with h | h
  · rw [h.1]
  · have h1 : isJsWhitespace c = false := by
      simp only [isJsWhitespace, Bool.or_eq_false_iff, Bool.and_eq_false_iff, decide_eq_false_iff_not,
        beq_eq_false_iff_ne]
      omega
    have h2 : isJsWhitespace c.toLower = false := by
      simp only [isJsWhitespace, Bool.or_eq_false_iff, Bool.and_eq_false_iff, decide_eq_false_iff_not,
        beq_eq_false_iff_ne]
      omega
    rw [h1, h2]

theorem isLang_asciiLowerCase (s : Str) : isLang (asciiLowerCase s) = isLang s := by
  have hm : ∀ m : Char, (m.toLower == '-') = (m == '-') := by
    intro m
    rw [Bool.eq_iff_iff]
    simp only [beq_iff_eq]
    exact toLower_eq_iff_of_not_letter m '-' (by decide)
  match s with
  | [] => rfl
  | [_] => rfl
  | [a, b] => simp [isLang, asciiLowerCase, isAsciiLetter_toLower]
  | [_, _, _] => rfl
  | [_, _, _, _] => rfl
  | [a, b, m, c, d] => simp [isLang, asciiLowerCase, isAsciiLetter_toLower, hm]
  | _ :: _ :: _ :: _ :: _ :: _ :: _ => rfl

theorem asciiLowerCase_append (a b : Str) :
    asciiLowerCase (a ++ b) = asciiLowerCase a ++ asciiLowerCase b := by
  simp [asciiLowerCase]

theorem asciiLowerCase_cons (c : Char) (s : Str) :
    asciiLowerCase (c :: s) = c.toLower :: asciiLowerCase s := rfl

/-! ## Case conversion -/

theorem toNat_ofNat_le (n : Nat) : (Char.ofNat n).toNat = n ∨ (Char.ofNat n).toNat = 0 := by
  unfold Char.ofNat
  by_cases hv : n.isValidChar
  · left
    simp only [hv, dite_true]
    unfold Char.ofNatAux Char.toNat
    simp [UInt32.toNat]
  · right
    simp only [hv, dite_false]
    rfl

set_option maxRecDepth 100000 in
theorem lowerRuns_image : ∀ r ∈ lowerRuns, 47 < r.2.2.2 := by decide

/-- No code point outside ASCII is written as a slash. -/
theorem lowerOfNat_gt (n : Nat) (h : 128 ≤ n) : 47 < lowerOfNat n := by
  unfold lowerOfNat
  cases hf : lowerRuns.find? (fun r => r.1 ≤ n && n ≤ r.2.1 && (n - r.1) % r.2.2.1 == 0) with
  | none => exact lt_of_lt_of_le (by decide) h
  | some r =>
    have := lowerRuns_image r (List.mem_of_find?_eq_some hf)
    show 47 < r.2.2.2 + (n - r.1)
    omega

theorem ofNat_ne_slash (n : Nat) (h : 47 < n) : Char.ofNat n ≠ '/' := by
  intro e
  have h47 : (Char.ofNat n).toNat = 47 := by rw [e]; rfl
  rcases toNat_ofNat_le n with h1 | h1
  · omega
  · omega

theorem lowerChar_ne_nil (after : Bool) (rest : Str) (c : Char) : lowerChar after rest c ≠ [] := by
  unfold lowerChar
  split_ifs <;> simp

theorem lowerChar_slash (after : Bool) (rest : Str) : lowerChar after rest '/' = ['/'] := rfl

/-- The lowercase of a code point holds a slash only if the code point is the slash. -/
theorem slash_mem_lowerChar {after : Bool} {rest : Str} {c : Char}
    (h : '/' ∈ lowerChar after rest c) : c = '/' := by
  unfold lowerChar at h
  by_cases h1 : c.toNat < 128
  · rw [if_pos h1, List.mem_singleton] at h
    exact (toLower_eq_iff_of_not_letter c '/' (by decide)).1 h.symm
  · rw [if_neg h1] at h
    by_cases h2 : c.toNat = 931
    · rw [if_pos h2, List.mem_singleton] at h
      by_cases h3 : (after && !followedByCased rest) = true
      · rw [if_pos h3] at h
        exact absurd h (by decide)
      · rw [if_neg h3] at h
        exact absurd h (by decide)
    · rw [if_neg h2] at h
      by_cases h3 : c.toNat = 304
      · rw [if_pos h3] at h
        simp only [List.mem_cons, List.mem_singleton, List.not_mem_nil, or_false] at h
        rcases h with h | h
        · exact absurd h (by decide)
        · exact absurd h (by decide)
      · rw [if_neg h3, List.mem_singleton] at h
        exact absurd h.symm (ofNat_ne_slash _ (lowerOfNat_gt _ (by omega)))

set_option maxRecDepth 100000 in
theorem isCaseIgnorable_slash : isCaseIgnorable '/' = false := by decide

set_option maxRecDepth 100000 in
theorem isCased_slash : isCased '/' = false := by decide

/-- A slash ends the text as far as `Final_Sigma` is concerned. -/
theorem followedByCased_append_slash (a b : Str) :
    followedByCased (a ++ '/' :: b) = followedByCased a := by
  induction a with
  | nil =>
    show (if isCaseIgnorable '/' then followedByCased b else isCased '/') = false
    rw [isCaseIgnorable_slash, isCased_slash]
    rfl
  | cons c a ih =>
    show (if isCaseIgnorable c then followedByCased (a ++ '/' :: b) else isCased c) =
      (if isCaseIgnorable c then followedByCased a else isCased c)
    rw [ih]

theorem lowerChar_append_slash (after : Bool) (a b : Str) (c : Char) :
    lowerChar after (a ++ '/' :: b) c = lowerChar after a c := by
  unfold lowerChar
  rw [followedByCased_append_slash]

/-- The lowercase of a text is made of the lowercases of its pieces between slashes. -/
theorem lowerFrom_append_slash (after : Bool) (a b : Str) :
    lowerFrom after (a ++ '/' :: b) = lowerFrom after a ++ '/' :: lowerFrom false b := by
  induction a generalizing after with
  | nil =>
    show lowerChar after b '/' ++
      lowerFrom (if isCaseIgnorable '/' then after else isCased '/') b = _
    rw [isCaseIgnorable_slash, isCased_slash, lowerChar_slash]
    rfl
  | cons c a ih =>
    show lowerChar after (a ++ '/' :: b) c ++
        lowerFrom (if isCaseIgnorable c then after else isCased c) (a ++ '/' :: b) =
      (lowerChar after a c ++ lowerFrom (if isCaseIgnorable c then after else isCased c) a) ++
        '/' :: lowerFrom false b
    rw [lowerChar_append_slash, ih, List.append_assoc]

theorem toLowerCase_nil : toLowerCase [] = [] := rfl

theorem toLowerCase_append_slash (a b : Str) :
    toLowerCase (a ++ '/' :: b) = toLowerCase a ++ '/' :: toLowerCase b :=
  lowerFrom_append_slash false a b

theorem toLowerCase_cons_slash (s : Str) : toLowerCase ('/' :: s) = '/' :: toLowerCase s :=
  toLowerCase_append_slash [] s

theorem toLowerCase_slash : toLowerCase ['/'] = ['/'] := rfl

theorem lowerFrom_eq_nil {after : Bool} {s : Str} : lowerFrom after s = [] ↔ s = [] := by
  constructor
  · intro h
    cases s with
    | nil => rfl
    | cons c t =>
      have h' : lowerChar after t c ++
          lowerFrom (if isCaseIgnorable c then after else isCased c) t = [] := h
      exact absurd (List.append_eq_nil.1 h').1 (lowerChar_ne_nil _ _ _)
  · rintro rfl
    rfl

theorem toLowerCase_eq_nil {s : Str} : toLowerCase s = [] ↔ s = [] := lowerFrom_eq_nil

theorem slash_mem_lowerFrom {after : Bool} {s : Str} : '/' ∈ lowerFrom after s ↔ '/' ∈ s := by
  induction s generalizing after with
  | nil => exact Iff.rfl
  | cons c t ih =>
    show '/' ∈ lowerChar after t c ++
      lowerFrom (if isCaseIgnorable c then after else isCased c) t ↔ _
    rw [List.mem_append, ih, List.mem_cons]
    constructor
    · rintro (h | h)
      · exact Or.inl (slash_mem_lowerChar h).symm
      · exact Or.inr h
    · rintro (h | h)
      · left
        rw [← h, lowerChar_slash]
        exact List.mem_singleton.2 rfl
      · exact Or.inr h

/-- Lower case neither makes nor removes a slash. -/
theorem slash_mem_toLowerCase {s : Str} : '/' ∈ toLowerCase s ↔ '/' ∈ s := slash_mem_lowerFrom

theorem toLowerCase_join_slash (xs : List Str) :
    toLowerCase (join ['/'] xs) = join ['/'] (xs.map toLowerCase) := by
  induction xs with
  | nil => rfl
  | cons x r ih =>
    cases r with
    | nil => simp [join_singleton]
    | cons y r =>
      rw [List.map_cons, List.map_cons, join_cons_cons, join_cons_cons, List.append_assoc,
        List.singleton_append, toLowerCase_append_slash, ih]
      simp

/-- On a text written in ASCII, lower case is the ASCII lowercase, whatever comes before. -/
theorem lowerFrom_ascii (after : Bool) (s : Str) (h : ∀ c ∈ s, c.toNat < 128) :
    lowerFrom after s = asciiLowerCase s := by
  induction s generalizing after with
  | nil => rfl
  | cons c t ih =>
    have hc : c.toNat < 128 := h c (List.mem_cons_self c t)
    show lowerChar after t c ++
      lowerFrom (if isCaseIgnorable c then after else isCased c) t = c.toLower :: asciiLowerCase t
    rw [ih _ (fun d hd => h d (List.mem_cons_of_mem c hd))]
    unfold lowerChar
    rw [if_pos hc]
    rfl

theorem toLowerCase_ascii (s : Str) (h : ∀ c ∈ s, c.toNat < 128) :
    toLowerCase s = asciiLowerCase s := lowerFrom_ascii false s h

/-- The lowercase of a text that starts with a text in ASCII starts with the ASCII lowercase of
the latter. -/
theorem lowerFrom_ascii_append (after : Bool) (p q : Str) (h : ∀ c ∈ p, c.toNat < 128) :
    ∃ st, lowerFrom after (p ++ q) = asciiLowerCase p ++ lowerFrom st q := by
  induction p generalizing after with
  | nil => exact ⟨after, rfl⟩
  | cons c t ih =>
    have hc : c.toNat < 128 := h c (List.mem_cons_self c t)
    obtain ⟨st, hst⟩ := ih (if isCaseIgnorable c then after else isCased c)
      (fun d hd => h d (List.mem_cons_of_mem c hd))
    refine ⟨st, ?_⟩
    show lowerChar after (t ++ q) c ++
      lowerFrom (if isCaseIgnorable c then after else isCased c) (t ++ q) = _
    rw [hst]
    unfold lowerChar
    rw [if_pos hc]
    rfl

/-- The lowercase of a text that holds a text in ASCII holds the ASCII lowercase of the
latter. -/
theorem lowerFrom_append_ascii (after : Bool) (a p q : Str) (h : ∀ c ∈ p, c.toNat < 128) :
    ∃ x y, lowerFrom after (a ++ (p ++ q)) = x ++ (asciiLowerCase p ++ y) := by
  induction a generalizing after with
  | nil =>
    obtain ⟨st, hst⟩ := lowerFrom_ascii_append after p q h
    exact ⟨[], lowerFrom st q, hst⟩
  | cons c a ih =>
    obtain ⟨x, y, hxy⟩ := ih (if isCaseIgnorable c then after else isCased c)
    refine ⟨lowerChar after (a ++ (p ++ q)) c ++ x, y, ?_⟩
    show lowerChar after (a ++ (p ++ q)) c ++
      lowerFrom (if isCaseIgnorable c then after else isCased c) (a ++ (p ++ q)) = _
    rw [hxy, List.append_assoc]

end SiteCrawler
namespace SiteCrawler

/-! ## `trim` -/

theorem dropWhile_head_not {p : Char → Bool} (s : Str) :
    ∀ c ∈ (s.dropWhile p).head?, p c = false := by
  induction s with
  | nil => simp
  | cons x xs ih =>
    rw [List.dropWhile_cons]
    split_ifs with h
    · exact ih
    · intro c hc
      simp at hc
      subst hc
      simpa using h

theorem dropWhile_eq_self_of_head {p : Char → Bool} (s : Str)
    (h : ∀ c ∈ s.head?, p c = false) : s.dropWhile p = s := by
  cases s with
  | nil => rfl
  | cons x xs =>
    have := h x (by simp)
    simp [List.dropWhile_cons, this]

theorem dropWhile_getLast? {p : Char → Bool} (s : Str) (h : s.dropWhile p ≠ []) :
    (s.dropWhile p).getLast? = s.getLast? := by
  obtain ⟨t, ht⟩ : ∃ t, s = t ++ s.dropWhile p := ⟨s.takeWhile p, by simp⟩
  conv_rhs => rw [ht]
  rw [List.getLast?_append]
  cases hl : (s.dropWhile p).getLast? with
  | none => exact absurd (List.getLast?_eq_none_iff.1 hl) h
  | some c => rfl

/-- A string that neither starts nor ends with white space is left alone by `trim`. -/
theorem trim_eq_self (s : Str) (h1 : ∀ c ∈ s.head?, isJsWhitespace c = false)
    (h2 : ∀ c ∈ s.getLast?, isJsWhitespace c = false) : trim s = s := by
  unfold trim
  rw [dropWhile_eq_self_of_head s h1, dropWhile_eq_self_of_head s.reverse (by simpa using h2)]
  simp

/-- What `trim` returns neither starts nor ends with white space. -/
theorem trim_ends (s : Str) :
    (∀ c ∈ (trim s).head?, isJsWhitespace c = false) ∧
      (∀ c ∈ (trim s).getLast?, isJsWhitespace c = false) := by
  unfold trim
  constructor
  · intro c hc
    rw [List.head?_reverse] at hc
    by_cases hne : (s.dropWhile isJsWhitespace).reverse.dropWhile isJsWhitespace = []
    · rw [hne] at hc
      simp at hc
    · rw [dropWhile_getLast? _ hne, List.getLast?_reverse] at hc
      exact dropWhile_head_not s c hc
  · intro c hc
    rw [List.getLast?_reverse] at hc
    exact dropWhile_head_not _ c hc

theorem trim_trim (s : Str) : trim (trim s) = trim s :=
  trim_eq_self _ (trim_ends s).1 (trim_ends s).2

theorem trim_cons_slash (p : Str) (hp : p ≠ []) (h : trim p = p) : trim ('/' :: p) = '/' :: p := by
  apply trim_eq_self
  · intro c hc
    simp at hc
    subst hc
    decide
  · intro c hc
    have e : ('/' :: p).getLast? = p.getLast? := by
      cases p with
      | nil => exact absurd rfl hp
      | cons x xs => simp [List.getLast?_cons_cons]
    rw [e] at hc
    have := (trim_ends p).2
    rw [h] at this
    exact this c hc

end SiteCrawler
namespace SiteCrawler

/-! ## Locale-style segments and canonical paths -/

theorem isLang_cases {L : Str} (h : isLang L = true) :
    (∃ a b, L = [a, b] ∧ isAsciiLetter a = true ∧ isAsciiLetter b = true) ∨
    (∃ a b c d, L = [a, b, '-', c, d] ∧ isAsciiLetter a = true ∧ isAsciiLetter b = true ∧
      isAsciiLetter c = true ∧ isAsciiLetter d = true) := by
  match L, h with
  | [a, b], h =>
    left
    simp [isLang] at h
    exact ⟨a, b, rfl, h.1, h.2⟩
  | [a, b, m, c, d], h =>
    right
    simp [isLang] at h
    obtain ⟨⟨⟨⟨ha, hb⟩, hm⟩, hc⟩, hd⟩ := h
    subst hm
    exact ⟨a, b, c, d, rfl, ha, hb, hc, hd⟩
  | [], h => simp [isLang] at h
  | [_], h => simp [isLang] at h
  | [_, _, _], h => simp [isLang] at h
  | [_, _, _, _], h => simp [isLang] at h
  | _ :: _ :: _ :: _ :: _ :: _ :: _, h => simp [isLang] at h

theorem isAsciiLetter_ne_slash {c : Char} (h : isAsciiLetter c = true) : c ≠ '/' := by
  rintro rfl
  revert h
  decide

theorem isLang_ne_nil {L : Str} (h : isLang L = true) : L ≠ [] := by
  rcases isLang_cases h with ⟨a, b, rfl, -⟩ | ⟨a, b, c, d, rfl, -⟩ <;> simp

theorem isLang_no_slash {L : Str} (h : isLang L = true) : '/' ∉ L := by
  rcases isLang_cases h with ⟨a, b, rfl, ha, hb⟩ | ⟨a, b, c, d, rfl, ha, hb, hc, hd⟩
  · simp only [List.mem_cons, List.mem_singleton, List.not_mem_nil, or_false, not_or]
    exact ⟨(isAsciiLetter_ne_slash ha).symm, (isAsciiLetter_ne_slash hb).symm⟩
  · simp only [List.mem_cons, List.mem_singleton, List.not_mem_nil, or_false, not_or]
    exact ⟨(isAsciiLetter_ne_slash ha).symm, (isAsciiLetter_ne_slash hb).symm, by decide,
      (isAsciiLetter_ne_slash hc).symm, (isAsciiLetter_ne_slash hd).symm⟩

theorem pathParts_of_isLang {L : Str} (h : isLang L = true) : pathParts L = [L] :=
  pathParts_of_segment L (isLang_ne_nil h) (isLang_no_slash h)

theorem canonStep_or (out : List Str) (seg : Str) :
    canonStep out seg = out ∨ canonStep out seg = out ++ [seg] := by
  unfold canonStep
  cases out.getLast? with
  | none => right; rfl
  | some prev =>
    simp only
    split_ifs
    · left; rfl
    · right; rfl

/-- A locale-style segment that comes twice in a row is pushed at most once. -/
theorem canonStep_twice (out : List Str) {L : Str} (h : isLang L = true) :
    canonStep (canonStep out L) L = canonStep out L := by
  have hne : L ≠ [] := isLang_ne_nil h
  have hemp : L.isEmpty = false := by
    cases L with
    | nil => exact absurd rfl hne
    | cons x xs => rfl
  have key : canonStep (out ++ [L]) L = out ++ [L] := by
    simp [canonStep, h, hemp]
  rcases canonStep_or out L with h1 | h1
  · rw [h1, h1]
  · rw [h1, key]

theorem canonicalizePathname_join (xs : List Str) :
    canonicalizePathname ('/' :: join ['/'] xs) =
      '/' :: join ['/'] ((xs.flatMap pathParts).foldl canonStep []) := by
  simp [canonicalizePathname, pathParts_cons_slash, pathParts_join]

/-- `normalizeUrl` reads two options only. -/
theorem normalizeUrl_congr {pf : Platform} (x : Str) (b : Option Str) (o o' : Options)
    (hq : o.includeQuery = o'.includeQuery) (hh : o.ignoreHash = o'.ignoreHash) :
    normalizeUrl pf x b o = normalizeUrl pf x b o' := by
  simp only [normalizeUrl, hq, hh]

theorem normalizeUrl_defaults {pf : Platform} (x : Str) (b : Option Str) (o : Options) :
    normalizeUrl pf x b o =
      normalizeUrl pf x b
        { DEFAULTS with includeQuery := o.includeQuery, ignoreHash := o.ignoreHash } :=
  normalizeUrl_congr x b o _ rfl rfl

end SiteCrawler
namespace SiteCrawler

/-! ## Matching a rule path -/

theorem join_append_of_ne_nil (sep : Str) (A B : List Str) (hA : A ≠ []) (hB : B ≠ []) :
    join sep (A ++ B) = join sep A ++ sep ++ join sep B := by
  induction A with
  | nil => exact absurd rfl hA
  | cons x r ih =>
    cases r with
    | nil =>
      cases B with
      | nil => exact absurd rfl hB
      | cons y B => simp [join_cons_cons, join_singleton]
    | cons y r =>
      have := ih (by simp)
      simp only [List.cons_append] at this ⊢
      rw [join_cons_cons, this, join_cons_cons]
      simp [List.append_assoc]

theorem flatMap_pathParts_segments {segs : List Str} (h : Segments segs) :
    segs.flatMap pathParts = segs := by
  induction segs with
  | nil => rfl
  | cons x r ih =>
    have hx := h x (by simp)
    have hr : Segments r := fun s hs => h s (by simp [hs])
    simp [List.flatMap_cons, pathParts_of_segment x hx.1 hx.2, ih hr]

theorem pathParts_slash_join {segs : List Str} (h : Segments segs) :
    pathParts ('/' :: join ['/'] segs) = segs := by
  rw [pathParts_cons_slash, pathParts_join, flatMap_pathParts_segments h]

theorem endsWith_slash_iff (s : Str) : endsWith s ['/'] = true ↔ s.getLast? = some '/' := by
  simp only [endsWith, List.isSuffixOf_iff_suffix]
  constructor
  · rintro ⟨t, rfl⟩
    simp
  · intro h
    rcases List.eq_nil_or_concat s with rfl | ⟨t, c, rfl⟩
    · simp at h
    · simp at h
      subst h
      exact ⟨t, by simp⟩

theorem getLast?_join (sep : Str) {segs : List Str} (hne : segs ≠ [])
    (hlast : ∀ s ∈ segs, s ≠ []) :
    ∃ c, (join sep segs).getLast? = some c ∧ ∃ s ∈ segs, c ∈ s := by
  induction segs with
  | nil => exact absurd rfl hne
  | cons x r ih =>
    cases r with
    | nil =>
      rw [join_singleton]
      have hx := hlast x (by simp)
      rcases List.eq_nil_or_concat x with rfl | ⟨t, c, rfl⟩
      · exact absurd rfl hx
      · exact ⟨c, by simp, _, List.mem_singleton_self _, by simp⟩
    | cons y r =>
      obtain ⟨c, hc, s, hs, hcs⟩ := ih (by simp) (fun s hs => hlast s (by simp [hs]))
      refine ⟨c, ?_, s, by simp [List.mem_cons] at hs ⊢; tauto, hcs⟩
      rw [join_cons_cons, List.getLast?_append, hc]
      rfl

theorem not_endsWith_slash_join {segs : List Str} (hne : segs ≠ []) (h : Segments segs) :
    endsWith ('/' :: join ['/'] segs) ['/'] = false := by
  rw [Bool.eq_false_iff]
  intro he
  rw [endsWith_slash_iff] at he
  obtain ⟨c, hc, s, hs, hcs⟩ := getLast?_join ['/'] hne (fun s hs => (h s hs).1)
  have : ('/' :: join ['/'] segs).getLast? = some c := by
    have e : ('/' :: join ['/'] segs) = ['/'] ++ join ['/'] segs := rfl
    rw [e, List.getLast?_append, hc]
    rfl
  rw [this] at he
  cases he
  exact (h s hs).2 hcs

theorem join_ne_nil {segs : List Str} (hne : segs ≠ []) (h : Segments segs) :
    join ['/'] segs ≠ [] := by
  obtain ⟨c, hc, -⟩ := getLast?_join ['/'] hne (fun s hs => (h s hs).1)
  intro e
  rw [e] at hc
  simp at hc

theorem matchesPathLimit_plain (np X : Str) (h1 : startsWith X ['/'] = true)
    (h2 : X ≠ ['/']) (h3 : endsWith X ['/'] = false) (htrim : trim X = X) :
    matchesPathLimit np X = (np == X || startsWith np (X ++ ['/'])) := by
  have h0 : X.isEmpty = false := by
    cases X with
    | nil => simp [startsWith] at h1
    | cons c t => rfl
  have h2' : (X == ['/']) = false := by
    rw [Bool.eq_false_iff]
    simpa using h2
  simp only [matchesPathLimit, htrim, h0, h1, h2', h3]
  simp

theorem matchesPathLimit_closing_slash (np X : Str) (h1 : startsWith X ['/'] = true)
    (h2 : X ≠ []) (htrim : trim (X ++ ['/']) = X ++ ['/']) :
    matchesPathLimit np (X ++ ['/']) = (np == X || startsWith np (X ++ ['/'])) := by
  have h0 : (X ++ ['/']).isEmpty = false := by
    cases X <;> rfl
  have h1' : startsWith (X ++ ['/']) ['/'] = true := by
    cases X with
    | nil => exact absurd rfl h2
    | cons c t => simpa [startsWith] using h1
  have h2' : (X ++ ['/'] == ['/']) = false := by
    rw [Bool.eq_false_iff]
    cases X with
    | nil => exact absurd rfl h2
    | cons c t => simp
  have h4 : endsWith (X ++ ['/']) ['/'] = true := by
    rw [endsWith_slash_iff]
    simp
  have h5 : dropLastChar (X ++ ['/']) = X := by
    simp [dropLastChar]
  simp only [matchesPathLimit, htrim, h0, h1', h2', h4, h5]
  simp

/-- `matchesPathLimit` against a rule path made of the segments `segs`, written with or without
a closing slash. -/
theorem matchesPathLimit_segments (np R : Str) {segs : List Str} (hne : segs ≠ [])
    (hseg : Segments segs)
    (hR : R = '/' :: join ['/'] segs ∨ R = '/' :: join ['/'] segs ++ ['/'])
    (htrim : trim R = R) :
    matchesPathLimit np R =
      (np == '/' :: join ['/'] segs || startsWith np ('/' :: join ['/'] segs ++ ['/'])) := by
  have hj := join_ne_nil hne hseg
  rcases hR with rfl | rfl
  · exact matchesPathLimit_plain np _ (by simp [startsWith]) (by simpa using hj)
      (not_endsWith_slash_join hne hseg) htrim
  · exact matchesPathLimit_closing_slash np _ (by simp [startsWith]) (by simp) htrim

theorem segments_map_toLowerCase {segs : List Str} (h : Segments segs) :
    Segments (segs.map toLowerCase) := by
  intro s hs
  obtain ⟨t, ht, rfl⟩ := List.mem_map.1 hs
  obtain ⟨h1, h2⟩ := h t ht
  exact ⟨fun e => h1 (toLowerCase_eq_nil.1 e), fun hm => h2 (slash_mem_toLowerCase.1 hm)⟩

theorem toLowerCase_slash_join (segs : List Str) :
    toLowerCase ('/' :: join ['/'] segs) = '/' :: join ['/'] (segs.map toLowerCase) := by
  rw [toLowerCase_cons_slash, toLowerCase_join_slash]

/-- A path whose segments start with the segments of the rule matches the rule. -/
theorem matches_of_parts (np : Str) {segs : List Str} (more : List Str) (hne : segs ≠ [])
    (hnp : np = '/' :: join ['/'] (segs ++ more)) :
    (np == '/' :: join ['/'] segs || startsWith np ('/' :: join ['/'] segs ++ ['/'])) = true := by
  subst hnp
  cases more with
  | nil => simp
  | cons m more =>
    rw [join_append_of_ne_nil _ _ _ hne (by simp)]
    simp [startsWith]

end SiteCrawler
namespace SiteCrawler

/-! ## Maps kept as lists -/

theorem mapSet_keys {β : Type} (m : List (Str × β)) (k : Str) (v : β) :
    (mapSet m k v).map Prod.fst =
      if k ∈ m.map Prod.fst then m.map Prod.fst else m.map Prod.fst ++ [k] := by
  induction m with
  | nil => simp [mapSet]
  | cons e m ih =>
    unfold mapSet
    by_cases h : e.1 = k
    · subst h
      simp only [beq_self_eq_true, if_true, List.map_cons, List.mem_cons, true_or]
    · have h' : ¬ k = e.1 := fun e' => h e'.symm
      simp only [beq_iff_eq, h, if_false, List.map_cons, ih, List.mem_cons, h', false_or]
      by_cases hk : k ∈ m.map Prod.fst
      · rw [if_pos hk, if_pos hk]
      · rw [if_neg hk, if_neg hk]
        rfl

theorem mem_mapSet {β : Type} {m : List (Str × β)} {k : Str} {v : β} {e : Str × β}
    (h : e ∈ mapSet m k v) : e = (k, v) ∨ e ∈ m := by
  induction m with
  | nil => simpa [mapSet] using h
  | cons x m ih =>
    unfold mapSet at h
    split_ifs at h with hx
    · rcases List.mem_cons.1 h with h | h
      · exact Or.inl h
      · exact Or.inr (List.mem_cons_of_mem _ h)
    · rcases List.mem_cons.1 h with h | h
      · exact Or.inr (h ▸ List.mem_cons_self _ _)
      · rcases ih h with h | h
        · exact Or.inl h
        · exact Or.inr (List.mem_cons_of_mem _ h)

theorem mapGet_cons_of_ne {β : Type} (e : Str × β) (m : List (Str × β)) (k : Str)
    (h : e.1 ≠ k) : mapGet (e :: m) k = mapGet m k := by
  unfold mapGet
  rw [List.find?_cons_of_neg]
  simpa using h

theorem mapGet_cons_of_eq {β : Type} (e : Str × β) (m : List (Str × β)) (k : Str)
    (h : e.1 = k) : mapGet (e :: m) k = some e.2 := by
  unfold mapGet
  rw [List.find?_cons_of_pos]
  · rfl
  · simpa using h

theorem mapGet_mapSet {β : Type} (m : List (Str × β)) (k k' : Str) (v : β) :
    mapGet (mapSet m k v) k' = if k' = k then some v else mapGet m k' := by
  induction m with
  | nil =>
    by_cases h : k' = k
    · simp [mapSet, mapGet, h]
    · have h' : ¬ k = k' := fun e => h e.symm
      simp [mapSet, mapGet, h, h']
  | cons e m ih =>
    unfold mapSet
    by_cases he : e.1 = k
    · simp only [beq_iff_eq, he, if_true]
      by_cases h : k' = k
      · rw [mapGet_cons_of_eq _ _ _ (by exact h.symm), if_pos h]
      · rw [mapGet_cons_of_ne _ _ _ (by exact fun e' => h e'.symm), if_neg h,
          mapGet_cons_of_ne _ _ _ (by rw [he]; exact fun e' => h e'.symm)]
    · simp only [beq_iff_eq, he, if_false]
      by_cases hk : e.1 = k'
      · have h : ¬ k' = k := fun e' => he (hk.trans e')
        rw [mapGet_cons_of_eq _ _ _ hk, if_neg h, mapGet_cons_of_eq _ _ _ hk]
      · rw [mapGet_cons_of_ne _ _ _ hk, ih, mapGet_cons_of_ne _ _ _ hk]

theorem mapSet_keys_nodup {β : Type} {m : List (Str × β)} (k : Str) (v : β)
    (h : (m.map Prod.fst).Nodup) : ((mapSet m k v).map Prod.fst).Nodup := by
  rw [mapSet_keys]
  split_ifs with hk
  · exact h
  · rw [List.nodup_append]
    refine ⟨h, by simp, ?_⟩
    intro a ha hb
    simp at hb
    subst hb
    exact hk ha

/-! ## `sanitizePathLimits` -/

/-- A cleaned rule has a path without surrounding white space. -/
theorem cleanRule_trimmed (r : RawRule) : trim (cleanRule r).path = (cleanRule r).path := by
  have e : (cleanRule r).path =
      if !(trim r.path).isEmpty then
        (if startsWith (trim r.path) ['/'] then trim r.path else '/' :: trim r.path)
      else [] := rfl
  rw [e]
  by_cases hp : (trim r.path).isEmpty = true
  · simp [hp]
    rfl
  · simp only [Bool.not_eq_true] at hp
    simp only [hp, Bool.not_false, if_true]
    split_ifs
    · exact trim_trim _
    · apply trim_cons_slash _ _ (trim_trim _)
      intro e
      rw [e] at hp
      simp at hp

/-- The invariant of the loop that fills `byPath`: the keys are distinct, each key is the path of
its rule in lower case, and each rule is one of the cleaned rules. -/
theorem byPath_invariant (cleaned : List Rule) :
    ((cleaned.foldl byPathStep []).map Prod.fst).Nodup ∧
      ∀ e ∈ cleaned.foldl byPathStep [], e.1 = toLowerCase e.2.path ∧ e.2 ∈ cleaned := by
  suffices H : ∀ (done rest : List Rule) (m : List (Str × Rule)), (m.map Prod.fst).Nodup →
      (∀ e ∈ m, e.1 = toLowerCase e.2.path ∧ e.2 ∈ done) →
      ((rest.foldl byPathStep m).map Prod.fst).Nodup ∧
        ∀ e ∈ rest.foldl byPathStep m, e.1 = toLowerCase e.2.path ∧ e.2 ∈ done ++ rest by
    exact H [] cleaned [] List.nodup_nil (fun e he => absurd he (List.not_mem_nil e))
  intro done rest
  induction rest generalizing done with
  | nil =>
    intro m h1 h2
    refine ⟨h1, fun e he => ⟨(h2 e he).1, ?_⟩⟩
    rw [List.append_nil]
    exact (h2 e he).2
  | cons r rest ih =>
    intro m h1 h2
    rw [List.foldl_cons]
    have e : done ++ r :: rest = (done ++ [r]) ++ rest := by simp
    rw [e]
    have hset : ∀ e ∈ mapSet m (toLowerCase r.path) { path := r.path, maxPages := r.maxPages },
        e.1 = toLowerCase e.2.path ∧ e.2 ∈ done ++ [r] := by
      intro e he
      rcases mem_mapSet he with rfl | he
      · exact ⟨rfl, List.mem_append_right _ (List.mem_singleton_self _)⟩
      · exact ⟨(h2 e he).1, List.mem_append_left _ (h2 e he).2⟩
    have hold : ∀ e ∈ m, e.1 = toLowerCase e.2.path ∧ e.2 ∈ done ++ [r] :=
      fun e he => ⟨(h2 e he).1, List.mem_append_left _ (h2 e he).2⟩
    apply ih
    · unfold byPathStep
      simp only
      split
      · exact mapSet_keys_nodup _ _ h1
      · split_ifs
        · exact mapSet_keys_nodup _ _ h1
        · exact h1
    · unfold byPathStep
      simp only
      split
      · exact hset
      · split_ifs
        · exact hset
        · exact hold

/-- Every rule of the sanitised list is a cleaned rule that passed the filter. -/
theorem sanitize_mem (raw : List RawRule) :
    ∀ r ∈ sanitizePathLimits raw, keepRule r = true ∧ ∃ x ∈ raw, r = cleanRule x := by
  intro r hr
  unfold sanitizePathLimits at hr
  simp only at hr
  rw [(List.perm_insertionSort _ _).mem_iff] at hr
  obtain ⟨e, he, rfl⟩ := List.mem_map.1 hr
  have := ((byPath_invariant _).2 e he).2
  obtain ⟨hm, hk⟩ := List.mem_filter.1 this
  obtain ⟨x, hx, hx'⟩ := List.mem_map.1 hm
  exact ⟨hk, x, hx, hx'.symm⟩

theorem sanitize_sorted (raw : List RawRule) : (sanitizePathLimits raw).Sorted longerFirst :=
  List.sorted_insertionSort _ _

/-- Every rule of the sanitised list has a path without surrounding white space, so that its
key in the ledger is its path in lower case. -/
theorem sanitize_ruleKey (raw : List RawRule) :
    ∀ r ∈ sanitizePathLimits raw, ruleKey r = toLowerCase r.path := by
  intro r hr
  obtain ⟨-, x, -, rfl⟩ := sanitize_mem raw r hr
  unfold ruleKey
  rw [cleanRule_trimmed]

/-- No two rules of the sanitised list have the same key. -/
theorem sanitize_keys_distinct (raw : List RawRule) :
    (sanitizePathLimits raw).Pairwise (fun a b => ruleKey a ≠ ruleKey b) := by
  obtain ⟨hnd, hinv⟩ := byPath_invariant ((raw.map cleanRule).filter keepRule)
  have htrim : ∀ e ∈ ((raw.map cleanRule).filter keepRule).foldl byPathStep [],
      trim e.2.path = e.2.path := by
    intro e he
    obtain ⟨hm, -⟩ := List.mem_filter.1 (hinv e he).2
    obtain ⟨x, -, hx⟩ := List.mem_map.1 hm
    rw [← hx]
    exact cleanRule_trimmed x
  have hvals : (((raw.map cleanRule).filter keepRule).foldl byPathStep [] |>.map
      (fun e => e.2)).Pairwise (fun a b => ruleKey a ≠ ruleKey b) := by
    rw [List.pairwise_map]
    have hnd' := hnd
    rw [List.Nodup, List.pairwise_map] at hnd'
    refine List.Pairwise.imp_of_mem ?_ hnd'
    intro a b ha hb hab
    unfold ruleKey
    rw [htrim a ha, htrim b hb, ← (hinv a ha).1, ← (hinv b hb).1]
    exact hab
  unfold sanitizePathLimits
  simp only
  exact (List.perm_insertionSort _ _).symm.pairwise hvals (fun h => Ne.symm h)

theorem JsNumber.lt_fin (m : Int) (s : Nat) (m' : Int) (s' : Nat) :
    JsNumber.lt (JsNumber.fin m s) (JsNumber.fin m' s') = decide (m * 2 ^ s' < m' * 2 ^ s) := rfl

theorem JsNumber.le_fin (m : Int) (s : Nat) (m' : Int) (s' : Nat) :
    JsNumber.le (JsNumber.fin m s) (JsNumber.fin m' s') = decide (m * 2 ^ s' ≤ m' * 2 ^ s) := rfl

theorem JsNumber.min_fin (m : Int) (s : Nat) (m' : Int) (s' : Nat) :
    JsNumber.min (JsNumber.fin m s) (JsNumber.fin m' s') =
      if JsNumber.lt (JsNumber.fin m' s') (JsNumber.fin m s) then JsNumber.fin m' s'
      else JsNumber.fin m s := rfl

theorem JsNumber.max_fin (m : Int) (s : Nat) (m' : Int) (s' : Nat) :
    JsNumber.max (JsNumber.fin m s) (JsNumber.fin m' s') =
      if JsNumber.lt (JsNumber.fin m s) (JsNumber.fin m' s') then JsNumber.fin m' s'
      else JsNumber.fin m s := rfl

/-- The clamp `Math.max(1, Math.min(5000, y))` of a number that is not `NaN`. -/
theorem clamp_bounds (y : JsNumber)
    (hy : y = JsNumber.posInf ∨ y = JsNumber.negInf ∨ ∃ m s, y = JsNumber.fin m s) :
    ∃ mant s, JsNumber.max (JsNumber.ofNat 1) (JsNumber.min (JsNumber.ofNat 5000) y) =
      JsNumber.fin mant s ∧ 2 ^ s ≤ mant ∧ mant ≤ 5000 * 2 ^ s := by
  rcases hy with rfl | rfl | ⟨m, s, rfl⟩
  · exact ⟨5000, 0, by decide, by decide, by decide⟩
  · exact ⟨1, 0, by decide, by decide, by decide⟩
  · have e5000 : JsNumber.ofNat 5000 = JsNumber.fin 5000 0 := rfl
    have e1 : JsNumber.ofNat 1 = JsNumber.fin 1 0 := rfl
    rw [e5000, e1, JsNumber.min_fin, JsNumber.lt_fin]
    by_cases h1 : m * 2 ^ 0 < 5000 * 2 ^ s
    · rw [decide_eq_true h1, if_pos rfl, JsNumber.max_fin, JsNumber.lt_fin]
      by_cases h2 : 1 * 2 ^ s < m * 2 ^ 0
      · rw [decide_eq_true h2, if_pos rfl]
        exact ⟨m, s, rfl, by omega, by omega⟩
      · rw [decide_eq_false h2, if_neg (by simp)]
        exact ⟨1, 0, rfl, by decide, by decide⟩
    · rw [decide_eq_false h1, if_neg (by simp)]
      exact ⟨5000, 0, by decide, by decide, by decide⟩

/-- The cap of a cleaned rule is a finite number between 1 and 5000. -/
theorem cleanRule_maxPages (x : RawRule) :
    ∃ mant s, (cleanRule x).maxPages = JsNumber.fin mant s ∧ 2 ^ s ≤ mant ∧
      mant ≤ 5000 * 2 ^ s := by
  unfold cleanRule
  simp only
  apply clamp_bounds
  cases hx : x.maxPages with
  | nan => exact Or.inr (Or.inr ⟨0, 0, rfl⟩)
  | posInf => exact Or.inl rfl
  | negInf => exact Or.inr (Or.inl rfl)
  | fin m s =>
    right; right
    by_cases hm : m = 0
    · subst hm
      exact ⟨0, 0, rfl⟩
    · refine ⟨m, s, ?_⟩
      simp [JsNumber.orElse, JsNumber.truthy, hm]

/-- The cap of every rule of the sanitised list is a finite number between 1 and 5000. -/
theorem sanitize_maxPages (raw : List RawRule) :
    ∀ r ∈ sanitizePathLimits raw, ∃ mant s, r.maxPages = JsNumber.fin mant s ∧ 2 ^ s ≤ mant ∧
      mant ≤ 5000 * 2 ^ s := by
  intro r hr
  obtain ⟨-, x, -, rfl⟩ := sanitize_mem raw r hr
  exact cleanRule_maxPages x

end SiteCrawler
namespace SiteCrawler

/-! ## The rule loop of the ledger -/

theorem ledgerLoop_skip (np url : Str) (st : CrawlState) (as rest : List Rule)
    (h : ∀ a ∈ as, matchesPathLimit np (ruleKey a) = false) :
    ledgerLoop np url (as ++ rest) st = ledgerLoop np url rest st := by
  induction as with
  | nil => rfl
  | cons a as ih =>
    have ha := h a (by simp)
    rw [List.cons_append, ledgerLoop]
    simp only [ha, Bool.not_false, if_true]
    exact ih (fun x hx => h x (by simp [hx]))

theorem ledgerLoop_hit (np url : Str) (st : CrawlState) (R : Rule) (rest : List Rule)
    (h : matchesPathLimit np (ruleKey R) = true) :
    ledgerLoop np url (R :: rest) st = ledgerLoop np url [R] st := by
  simp only [ledgerLoop, h, Bool.not_true, Bool.false_eq_true, if_false]

/-- The loop does what it does for the first rule that matches. -/
theorem ledgerLoop_first (np url : Str) (st : CrawlState) (rules : List Rule) (R : Rule)
    (h : rules.find? (fun r => matchesPathLimit np (ruleKey r)) = some R) :
    ledgerLoop np url rules st = ledgerLoop np url [R] st := by
  obtain ⟨hR, as, bs, rfl, has⟩ := List.find?_eq_some.1 h
  rw [ledgerLoop_skip np url st as _ (fun a ha => by simpa using has a ha)]
  exact ledgerLoop_hit np url st R bs hR

theorem ledgerLoop_none (np url : Str) (st : CrawlState) (rules : List Rule)
    (h : rules.find? (fun r => matchesPathLimit np (ruleKey r)) = none) :
    ledgerLoop np url rules st = (st, LedgerVerdict.admitted) := by
  have := ledgerLoop_skip np url st rules []
    (fun a ha => by simpa using List.find?_eq_none.1 h a ha)
  simpa [ledgerLoop] using this

/-- The counters after the loop has met the matching rule `R`: only the one of `R` may move. -/
theorem ledgerLoop_single_counters (np url : Str) (st : CrawlState) (R : Rule) (k : Str)
    (hk : k ≠ ruleKey R) :
    mapGet (ledgerLoop np url [R] st).1.pathLimitCounters k = mapGet st.pathLimitCounters k := by
  simp only [ledgerLoop]
  split_ifs
  · rfl
  · rfl
  · simp only
    rw [mapGet_mapSet, if_neg hk]

end SiteCrawler
namespace SiteCrawler

/-! ## What the two halves of `processOne` touch -/

theorem setAdd_of_not_mem (s : List Str) (x : Str) (h : x ∉ s) : setAdd s x = s ++ [x] := by
  simp [setAdd, h]

theorem setAdd_of_mem (s : List Str) (x : Str) (h : x ∈ s) : setAdd s x = s := by
  simp [setAdd, h]

/-- The enqueue loop changes the frontier only. -/
theorem enqueueLinks_frame (maxPages : Nat) (links : List Str) (st : CrawlState) :
    (enqueueLinks maxPages links st).visited = st.visited ∧
      (enqueueLinks maxPages links st).blockedByPathLimit = st.blockedByPathLimit ∧
      (enqueueLinks maxPages links st).pathLimitCounters = st.pathLimitCounters ∧
      (enqueueLinks maxPages links st).pathLimitSkipped = st.pathLimitSkipped ∧
      (enqueueLinks maxPages links st).discovered = st.discovered ∧
      (enqueueLinks maxPages links st).records = st.records := by
  induction links generalizing st with
  | nil => simp [enqueueLinks]
  | cons x r ih =>
    unfold enqueueLinks
    split_ifs
    · simp
    · exact ih _
    · exact ih _

/-- The second half of `processOne` stores the record, adds the URL to `discovered` and runs the
enqueue loop on some list of links: the empty one when there is no page to read or the callback
of the links threw. -/
theorem processOneFinish_eq (run : Run) (st : CrawlState) (u : Str) (r : FetchResult) :
    ∃ links, processOneFinish run st u r =
      enqueueLinks run.options.maxPages links
        { st with
          records := mapSet st.records u
            { (mapGet st.records u).getD
                { url := u, finalUrl := u, status := none, blockedByRobots := false } with
              finalUrl := if !r.finalUrl.isEmpty then r.finalUrl else u
              blockedByRobots := r.blockedByRobots
              status := if run.options.brokenLinkCheck then some r.status else none }
          discovered := setAdd st.discovered u } := by
  unfold processOneFinish
  dsimp only
  by_cases hc : (!r.ok || r.text.isEmpty) = true
  · rw [if_pos hc]
    exact ⟨[], rfl⟩
  · rw [if_neg hc]
    cases collectLinks run (if (!r.finalUrl.isEmpty) = true then r.finalUrl else u)
        (run.env.anchorHrefs r.text) with
    | none => exact ⟨[], rfl⟩
    | some links => exact ⟨links, rfl⟩

/-- The second half of `processOne` leaves the visited set and the ledger alone. -/
theorem processOneFinish_frame (run : Run) (st : CrawlState) (u : Str) (r : FetchResult) :
    (processOneFinish run st u r).visited = st.visited ∧
      (processOneFinish run st u r).blockedByPathLimit = st.blockedByPathLimit ∧
      (processOneFinish run st u r).pathLimitCounters = st.pathLimitCounters ∧
      (processOneFinish run st u r).pathLimitSkipped = st.pathLimitSkipped := by
  obtain ⟨links, h⟩ := processOneFinish_eq run st u r
  rw [h]
  exact ⟨(enqueueLinks_frame _ _ _).1, (enqueueLinks_frame _ _ _).2.1,
    (enqueueLinks_frame _ _ _).2.2.1, (enqueueLinks_frame _ _ _).2.2.2.1⟩

/-- The three ways through the first half of `processOne`: it returns at once (URL already
seen, or out of scope), the ledger blocks the URL, or the URL is admitted into `visited`. -/
theorem processOneStart_cases (run : Run) (st : CrawlState) (u : Str) :
    ((u ∈ st.visited ∨ u ∈ st.blockedByPathLimit ∨ inStartScope run u = false) ∧
        processOneStart run st u = (st, Phase.returned)) ∨
      (u ∉ st.visited ∧ u ∉ st.blockedByPathLimit ∧ inStartScope run u = true ∧
        ∃ st1, pathLimitGate run st u = (st1, LedgerVerdict.blocked) ∧
          processOneStart run st u = (st1, Phase.returned)) ∨
      (u ∉ st.visited ∧ u ∉ st.blockedByPathLimit ∧ inStartScope run u = true ∧
        ∃ st1, pathLimitGate run st u = (st1, LedgerVerdict.admitted) ∧
          processOneStart run st u =
            ({ st1 with visited := setAdd st1.visited u },
              if excludedBeforeFetch run u then Phase.returned else Phase.awaitingFetch)) := by
  unfold processOneStart
  by_cases h1 : (decide (u ∈ st.visited) || decide (u ∈ st.blockedByPathLimit)) = true
  · rw [if_pos h1]
    left
    simp only [Bool.or_eq_true, decide_eq_true_eq] at h1
    exact ⟨by tauto, rfl⟩
  · rw [if_neg h1]
    simp only [Bool.or_eq_true, decide_eq_true_eq, not_or] at h1
    by_cases h2 : (run.options.scopeToStartPath && run.startPathScope != ['/'] &&
        underStartScope run.env.platform run.startPathScope u != some true) = true
    · rw [if_pos h2]
      left
      exact ⟨Or.inr (Or.inr (by simp [inStartScope, h2])), rfl⟩
    · rw [if_neg h2]
      have hscope : inStartScope run u = true := by
        simp only [Bool.not_eq_true] at h2
        simp [inStartScope, h2]
      right
      cases hg : pathLimitGate run st u with
      | mk st1 v =>
        cases v with
        | blocked => exact Or.inl ⟨h1.1, h1.2, hscope, st1, rfl, rfl⟩
        | admitted =>
          refine Or.inr ⟨h1.1, h1.2, hscope, st1, rfl, ?_⟩
          dsimp only
          by_cases h3 : excludedBeforeFetch run u = true
          · rw [if_pos h3, if_pos h3]
          · rw [if_neg h3, if_neg h3]

theorem ledgerLoop_frame (np u : Str) (rules : List Rule) (s : CrawlState) :
    (ledgerLoop np u rules s).1.toVisit = s.toVisit ∧
      (ledgerLoop np u rules s).1.discovered = s.discovered ∧
      (ledgerLoop np u rules s).1.records = s.records ∧
      (ledgerLoop np u rules s).1.visited = s.visited := by
  induction rules with
  | nil => exact ⟨rfl, rfl, rfl, rfl⟩
  | cons r rest ih =>
    unfold ledgerLoop
    dsimp only
    by_cases h1 : (!matchesPathLimit np (ruleKey r)) = true
    · rw [if_pos h1]
      exact ih
    · rw [if_neg h1]
      split_ifs
      · exact ⟨rfl, rfl, rfl, rfl⟩
      · exact ⟨rfl, rfl, rfl, rfl⟩

theorem pathLimitGate_frame (run : Run) (st : CrawlState) (u : Str) :
    (pathLimitGate run st u).1.toVisit = st.toVisit ∧
      (pathLimitGate run st u).1.discovered = st.discovered ∧
      (pathLimitGate run st u).1.records = st.records ∧
      (pathLimitGate run st u).1.visited = st.visited := by
  unfold pathLimitGate
  split_ifs
  · exact ⟨rfl, rfl, rfl, rfl⟩
  · exact ledgerLoop_frame _ _ _ _

/-- The first half of `processOne` never touches the frontier, the report or the records. -/
theorem processOneStart_frame (run : Run) (st : CrawlState) (u : Str) :
    (processOneStart run st u).1.toVisit = st.toVisit ∧
      (processOneStart run st u).1.discovered = st.discovered ∧
      (processOneStart run st u).1.records = st.records := by
  have hg := pathLimitGate_frame run st u
  rcases processOneStart_cases run st u with ⟨-, h⟩ | ⟨-, -, -, st1, h1, h⟩ | ⟨-, -, -, st1, h1, h⟩
  · rw [h]
    exact ⟨rfl, rfl, rfl⟩
  · rw [h]
    rw [h1] at hg
    exact ⟨hg.1, hg.2.1, hg.2.2.1⟩
  · rw [h]
    rw [h1] at hg
    exact ⟨hg.1, hg.2.1, hg.2.2.1⟩

/-! ## The ledger on a rule whose cap is a whole number -/

theorem isNat_truthy {a : JsNumber} {m : Nat} (h : a.isNat m) (hm : 1 ≤ m) :
    JsNumber.orElse a (JsNumber.ofNat 0) = a := by
  cases a with
  | fin mant s =>
    have h' : mant = (m : Int) * 2 ^ s := h
    have hpos : (0 : Int) < 2 ^ s := by positivity
    have : mant ≠ 0 := by
      rw [h']
      have : (0 : Int) < (m : Int) := by omega
      positivity
    simp [JsNumber.orElse, JsNumber.truthy, this]
  | nan => exact absurd h (by simp [JsNumber.isNat])
  | posInf => exact absurd h (by simp [JsNumber.isNat])
  | negInf => exact absurd h (by simp [JsNumber.isNat])

theorem isNat_gt_zero {a : JsNumber} {m : Nat} (h : a.isNat m) (hm : 1 ≤ m) :
    JsNumber.gt a (JsNumber.ofNat 0) = true := by
  cases a with
  | fin mant s =>
    have h' : mant = (m : Int) * 2 ^ s := h
    have hpos : (0 : Int) < 2 ^ s := by positivity
    have hm' : (0 : Int) < (m : Int) := by omega
    have : (0 : Int) < mant := by
      rw [h']
      positivity
    simp only [JsNumber.gt, JsNumber.ofNat, JsNumber.lt_fin, decide_eq_true_eq]
    simpa using this
  | nan => exact absurd h (by simp [JsNumber.isNat])
  | posInf => exact absurd h (by simp [JsNumber.isNat])
  | negInf => exact absurd h (by simp [JsNumber.isNat])

theorem isNat_ge_iff {a : JsNumber} {m : Nat} (h : a.isNat m) (count : Nat) :
    JsNumber.ge (JsNumber.ofNat count) a = decide (m ≤ count) := by
  cases a with
  | fin mant s =>
    have h' : mant = (m : Int) * 2 ^ s := h
    have hpos : (0 : Int) < 2 ^ s := by positivity
    simp only [JsNumber.ge, JsNumber.ofNat, JsNumber.le_fin]
    rw [h']
    apply decide_eq_decide.2
    simp only [pow_zero, mul_one]
    constructor
    · intro hle
      have := le_of_mul_le_mul_right hle hpos
      exact_mod_cast this
    · intro hle
      have : (m : Int) ≤ (count : Int) := by exact_mod_cast hle
      exact mul_le_mul_of_nonneg_right this hpos.le
  | nan => exact absurd h (by simp [JsNumber.isNat])
  | posInf => exact absurd h (by simp [JsNumber.isNat])
  | negInf => exact absurd h (by simp [JsNumber.isNat])

/-- The rule loop on the single matching rule `R` whose cap is the whole number `m ≥ 1`: the URL
is blocked once the counter of `R` has reached `m`, and charged to `R` before. -/
theorem ledgerLoop_single_nat (np u : Str) (st : CrawlState) (R : Rule) (m : Nat)
    (hmatch : matchesPathLimit np (ruleKey R) = true) (hm : R.maxPages.isNat m) (hpos : 1 ≤ m) :
    ledgerLoop np u [R] st =
      if m ≤ (mapGet st.pathLimitCounters (ruleKey R)).getD 0 then
        ({ st with
            blockedByPathLimit := setAdd st.blockedByPathLimit u
            pathLimitSkipped :=
              mapSet st.pathLimitSkipped R.path ((mapGet st.pathLimitSkipped R.path).getD 0 + 1) },
          LedgerVerdict.blocked)
      else
        ({ st with
            pathLimitCounters := mapSet st.pathLimitCounters (ruleKey R)
              ((mapGet st.pathLimitCounters (ruleKey R)).getD 0 + 1) },
          LedgerVerdict.admitted) := by
  simp only [ledgerLoop, hmatch, Bool.not_true, Bool.false_eq_true, if_false,
    isNat_truthy hm hpos, isNat_gt_zero hm hpos, Bool.true_and, isNat_ge_iff hm,
    decide_eq_true_eq]

/-- A whole-number cap of a sanitised rule is at least 1. -/
theorem sanitize_isNat_pos (raw : List RawRule) {R : Rule} (hR : R ∈ sanitizePathLimits raw)
    {m : Nat} (hm : R.maxPages.isNat m) : 1 ≤ m := by
  obtain ⟨mant, s, he, h1, -⟩ := sanitize_maxPages raw R hR
  rw [he] at hm
  have h' : mant = (m : Int) * 2 ^ s := hm
  have hpos : (0 : Int) < 2 ^ s := by positivity
  by_contra hlt
  have : m = 0 := by omega
  subst this
  simp at h'
  omega

end SiteCrawler
namespace SiteCrawler

/-! ## One URL through the ledger -/

theorem pathLimitGate_first (run : Run) (st : CrawlState) (u : Str) (R : Rule)
    (hfirst : firstMatchingRule run.env.platform run.options.pathLimits u = some R) :
    pathLimitGate run st u = ledgerLoop (ledgerPath run.env.platform u) u [R] st := by
  unfold pathLimitGate
  have hne : run.options.pathLimits.isEmpty = false := by
    cases hl : run.options.pathLimits with
    | nil => simp [firstMatchingRule, hl] at hfirst
    | cons a l => rfl
  rw [hne]
  simp only [Bool.false_eq_true, if_false]
  exact ledgerLoop_first _ _ _ _ _ hfirst

theorem processOne_frame_of_start (run : Run) (st : CrawlState) (u : Str) :
    (processOne run st u).visited = (processOneStart run st u).1.visited ∧
      (processOne run st u).blockedByPathLimit = (processOneStart run st u).1.blockedByPathLimit ∧
      (processOne run st u).pathLimitCounters = (processOneStart run st u).1.pathLimitCounters ∧
      (processOne run st u).pathLimitSkipped = (processOneStart run st u).1.pathLimitSkipped := by
  unfold processOne
  cases h : processOneStart run st u with
  | mk st1 ph =>
    cases ph with
    | returned => exact ⟨rfl, rfl, rfl, rfl⟩
    | awaitingFetch => exact processOneFinish_frame run st1 u _

/-- A new in-scope URL whose first matching rule is `R`, with the whole-number cap `m ≥ 1`: it is
admitted and charged to `R` while the counter of `R` is below `m`, and blocked afterwards. -/
theorem processOne_budget (run : Run) (st : CrawlState) (u : Str) (R : Rule) (m : Nat)
    (hm : R.maxPages.isNat m) (hpos : 1 ≤ m) (hv : u ∉ st.visited)
    (hb : u ∉ st.blockedByPathLimit) (hscope : inStartScope run u = true)
    (hfirst : firstMatchingRule run.env.platform run.options.pathLimits u = some R) :
    ((mapGet st.pathLimitCounters (ruleKey R)).getD 0 < m →
        (processOne run st u).visited = st.visited ++ [u] ∧
        (processOne run st u).blockedByPathLimit = st.blockedByPathLimit ∧
        (mapGet (processOne run st u).pathLimitCounters (ruleKey R)).getD 0 =
          (mapGet st.pathLimitCounters (ruleKey R)).getD 0 + 1 ∧
        (processOne run st u).pathLimitSkipped = st.pathLimitSkipped) ∧
      (m ≤ (mapGet st.pathLimitCounters (ruleKey R)).getD 0 →
        (processOne run st u).visited = st.visited ∧
        (processOne run st u).blockedByPathLimit = st.blockedByPathLimit ++ [u] ∧
        (processOne run st u).pathLimitCounters = st.pathLimitCounters ∧
        (mapGet (processOne run st u).pathLimitSkipped R.path).getD 0 =
          (mapGet st.pathLimitSkipped R.path).getD 0 + 1) := by
  have hmatch : matchesPathLimit (ledgerPath run.env.platform u) (ruleKey R) = true := by
    have := (List.find?_eq_some.1 hfirst).1
    simpa using this
  have hgate := pathLimitGate_first run st u R hfirst
  rw [ledgerLoop_single_nat _ _ _ _ _ hmatch hm hpos] at hgate
  obtain ⟨f1, f2, f3, f4⟩ := processOne_frame_of_start run st u
  rw [f1, f2, f3, f4]
  rcases processOneStart_cases run st u with ⟨h, -⟩ | ⟨-, -, -, st1, h1, h⟩ | ⟨-, -, -, st1, h1, h⟩
  · rcases h with h | h | h
    · exact absurd h hv
    · exact absurd h hb
    · rw [hscope] at h
      exact Bool.noConfusion h
  · -- blocked
    rw [h]
    rw [hgate] at h1
    constructor
    · intro hlt
      rw [if_neg (by omega)] at h1
      simp at h1
    · intro hle
      rw [if_pos hle] at h1
      simp only [Prod.mk.injEq, and_true] at h1
      rw [← h1]
      refine ⟨rfl, setAdd_of_not_mem _ _ hb, rfl, ?_⟩
      simp [mapGet_mapSet]
  · -- admitted
    rw [h]
    rw [hgate] at h1
    constructor
    · intro hlt
      rw [if_neg (by omega)] at h1
      simp only [Prod.mk.injEq, and_true] at h1
      rw [← h1]
      refine ⟨setAdd_of_not_mem _ _ hv, rfl, ?_, rfl⟩
      simp [mapGet_mapSet]
    · intro hle
      rw [if_pos hle] at h1
      simp at h1

end SiteCrawler
namespace SiteCrawler

/-! ## Properties of the state that every step of the frontier loop keeps -/

theorem startTasks_invariant {run : Run} {P : CrawlState → Prop} (hP : StepInvariant run P)
    (limit : Nat) (pending : List Str) (st : CrawlState) (active : List Task) (h : P st) :
    P (startTasks run limit pending st active).1 := by
  induction pending generalizing st active with
  | nil => exact h
  | cons u rest ih =>
    unfold startTasks
    split_ifs
    · exact ih _ _ (hP.start st u h)
    · exact h

theorem advanceTask_invariant {run : Run} {P : CrawlState → Prop} (hP : StepInvariant run P)
    (limit k : Nat) (c : CrawlState × List Str × List Task) (h : P c.1) :
    P (advanceTask run limit k c).1 := by
  obtain ⟨st, pending, active⟩ := c
  unfold advanceTask
  dsimp only
  cases hk : active.get? k with
  | none => exact h
  | some t =>
    dsimp only
    cases t.phase with
    | awaitingFetch => exact hP.finish st t.url h
    | returned => exact startTasks_invariant hP limit pending st _ h

theorem poolLoop_invariant {run : Run} {P : CrawlState → Prop} (hP : StepInvariant run P)
    (limit fuel : Nat) (sched : List Nat) (c : CrawlState × List Str × List Task)
    (h : P c.1) {st' : CrawlState} {sched' : List Nat}
    (hrun : poolLoop run limit fuel sched c = some (st', sched')) : P st' := by
  induction fuel generalizing sched c with
  | zero =>
    obtain ⟨st, pending, active⟩ := c
    unfold poolLoop at hrun
    split_ifs at hrun
    simp only [Option.some.injEq, Prod.mk.injEq] at hrun
    rw [← hrun.1]
    exact h
  | succ fuel ih =>
    obtain ⟨st, pending, active⟩ := c
    unfold poolLoop at hrun
    by_cases hdone : (pending.isEmpty && active.isEmpty) = true
    · rw [if_pos hdone] at hrun
      simp only [Option.some.injEq, Prod.mk.injEq] at hrun
      rw [← hrun.1]
      exact h
    · rw [if_neg hdone] at hrun
      dsimp only at hrun
      split_ifs at hrun
      exact ih _ _ (advanceTask_invariant hP limit _ _ h) hrun

theorem concurrencyMap_invariant {run : Run} {P : CrawlState → Prop} (hP : StepInvariant run P)
    (items : List Str) (limit : Nat) (sched : List Nat) (st : CrawlState) (h : P st)
    {st' : CrawlState} {sched' : List Nat}
    (hrun : concurrencyMap run items limit sched st = some (st', sched')) : P st' :=
  poolLoop_invariant hP limit _ sched _ (startTasks_invariant hP limit items st [] h) hrun

/-- A step invariant that holds when the frontier loop starts holds when it ends. -/
theorem frontierLoop_invariant {run : Run} {P : CrawlState → Prop} (hP : StepInvariant run P)
    (fuel : Nat) (sched : List Nat) (st : CrawlState) (h : P st) {st' : CrawlState}
    (hrun : frontierLoop run fuel sched st = some st') : P st' := by
  induction fuel generalizing sched st with
  | zero =>
    unfold frontierLoop at hrun
    split_ifs at hrun
    rw [← Option.some.inj hrun]
    exact h
  | succ fuel ih =>
    unfold frontierLoop at hrun
    by_cases hgo : (decide (st.toVisit.length > 0) &&
        decide (st.visited.length < run.options.maxPages)) = true
    · rw [if_pos hgo] at hrun
      dsimp only at hrun
      cases hc : concurrencyMap run (st.toVisit.take (run.options.concurrency * 2))
          run.options.concurrency sched
          { st with toVisit :=
              (st.toVisit.take (run.options.concurrency * 2)).foldl setDelete st.toVisit } with
      | none => simp [hc] at hrun
      | some p =>
        obtain ⟨st2, sched2⟩ := p
        simp only [hc] at hrun
        exact ih _ _ (concurrencyMap_invariant hP _ _ _ _ (hP.frontier st _ h) hc) hrun
    · rw [if_neg hgo] at hrun
      rw [← Option.some.inj hrun]
      exact h

/-- A step invariant that holds on the seeded state holds on every state of the run. -/
theorem reachable_invariant {run : Run} {P : CrawlState → Prop} (hP : StepInvariant run P)
    (hseed : ∀ tv, P { CrawlState.fresh with toVisit := tv }) :
    ∀ st, Reachable run st → P st := by
  intro st h
  induction h with
  | seed tv => exact hseed tv
  | start u _ ih => exact hP.start _ u ih
  | finish u _ ih => exact hP.finish _ u ih
  | batch tv _ ih => exact hP.frontier _ tv ih

theorem reachable_stepInvariant (run : Run) : StepInvariant run (Reachable run) :=
  ⟨fun _ u h => Reachable.start u h, fun _ u h => Reachable.finish u h,
    fun _ tv h => Reachable.batch tv h⟩

/-- What the handler has set up when it reports a finished crawl. -/
theorem crawl_finished {env : Env} {url : Str} {options : Options} {sched : List Nat}
    {fuel : Nat} {run : Run} {start : Str} {fromSitemap : Bool} {st : CrawlState}
    (h : crawl env url options sched fuel = CrawlOutcome.finished run start fromSitemap st) :
    run.options = options ∧ run.env = env ∧
      ∃ tv, frontierLoop run fuel sched { CrawlState.fresh with toVisit := tv } = some st := by
  unfold crawl at h
  cases hroot : env.platform.parseUrl url none with
  | none => simp [hroot] at h
  | some root =>
    simp only [hroot] at h
    cases hstart : normalizeUrl env.platform url none options with
    | none => simp [hstart] at h
    | some s =>
      simp only [hstart] at h
      by_cases hs : s.isEmpty = true
      · simp [hs] at h
      · rw [if_neg hs] at h
        split at h
        · exact CrawlOutcome.noConfusion h
        · rename_i st1 hloop
          injection h with h1 h2 h3 h4
          subst h1 h4
          exact ⟨rfl, rfl, _, hloop⟩

/-- The same, read from the state the outcome carries. -/
theorem crawl_state {env : Env} {url : Str} {options : Options} {sched : List Nat}
    {fuel : Nat} {st : CrawlState}
    (h : (crawl env url options sched fuel).state? = some st) :
    ∃ run, run.options = options ∧ run.env = env ∧
      ∃ tv, frontierLoop run fuel sched { CrawlState.fresh with toVisit := tv } = some st := by
  cases hc : crawl env url options sched fuel with
  | invalidUrl => simp [hc, CrawlOutcome.state?] at h
  | outOfFuel => simp [hc, CrawlOutcome.state?] at h
  | finished run start fromSitemap st1 =>
    rw [hc] at h
    simp only [CrawlOutcome.state?, Option.some.injEq] at h
    subst h
    obtain ⟨h1, h2, h3⟩ := crawl_finished hc
    exact ⟨run, h1, h2, h3⟩

/-- The state a finished crawl reports is a state of the run. -/
theorem crawl_reachable {env : Env} {url : Str} {options : Options} {sched : List Nat}
    {fuel : Nat} {st : CrawlState}
    (h : (crawl env url options sched fuel).state? = some st) :
    ∃ run, run.options = options ∧ run.env = env ∧ Reachable run st := by
  obtain ⟨run, h1, h2, tv, h3⟩ := crawl_state h
  exact ⟨run, h1, h2,
    frontierLoop_invariant (reachable_stepInvariant run) fuel sched _ (Reachable.seed tv) h3⟩

end SiteCrawler
namespace SiteCrawler

/-! ## Pieces of a split string -/

theorem split_pieces (c : Char) (x : Str) :
    ∀ s ∈ split c x, c ∉ s ∧ ∀ d ∈ s, d ∈ x := by
  induction x with
  | nil =>
    intro s hs
    simp [split] at hs
    subst hs
    simp
  | cons a x ih =>
    intro s hs
    unfold split at hs
    split_ifs at hs with ha
    · rcases List.mem_cons.1 hs with rfl | hs
      · simp
      · obtain ⟨h1, h2⟩ := ih s hs
        exact ⟨h1, fun d hd => List.mem_cons_of_mem _ (h2 d hd)⟩
    · cases hsp : split c x with
      | nil => exact absurd hsp (split_ne_nil c x)
      | cons p ps =>
        rw [hsp] at hs ih
        simp only at hs
        rcases List.mem_cons.1 hs with rfl | hs
        · obtain ⟨h1, h2⟩ := ih p (by simp)
          constructor
          · intro hm
            rcases List.mem_cons.1 hm with h | h
            · exact ha h.symm
            · exact h1 h
          · intro d hd
            rcases List.mem_cons.1 hd with h | h
            · rw [h]; simp
            · exact List.mem_cons_of_mem _ (h2 d h)
        · obtain ⟨h1, h2⟩ := ih s (by simp [hs])
          exact ⟨h1, fun d hd => List.mem_cons_of_mem _ (h2 d hd)⟩

theorem split_join (c : Char) {segs : List Str} (hne : segs ≠ []) (h : ∀ s ∈ segs, c ∉ s) :
    split c (join [c] segs) = segs := by
  induction segs with
  | nil => exact absurd rfl hne
  | cons x r ih =>
    cases r with
    | nil =>
      rw [join_singleton]
      exact split_of_not_mem c x (h x (by simp))
    | cons y r =>
      rw [join_cons_cons, List.append_assoc, List.singleton_append, split_append_sep,
        split_of_not_mem c x (h x (by simp)), ih (by simp) (fun s hs => h s (by simp [hs]))]
      rfl

theorem pathParts_mem (x : Str) : ∀ s ∈ pathParts x, s ≠ [] ∧ '/' ∉ s ∧ ∀ d ∈ s, d ∈ x := by
  intro s hs
  unfold pathParts at hs
  obtain ⟨h1, h2⟩ := List.mem_filter.1 hs
  obtain ⟨h3, h4⟩ := split_pieces '/' x s h1
  refine ⟨?_, h3, h4⟩
  intro e
  rw [e] at h2
  simp at h2

theorem segments_pathParts (x : Str) : Segments (pathParts x) :=
  fun s hs => ⟨(pathParts_mem x s hs).1, (pathParts_mem x s hs).2.1⟩

/-! ## The path state -/

namespace URL

theorem segOk_nil : SegOk [] := by
  refine ⟨by simp, by decide, by decide, by simp⟩

theorem pathState_ne_nil (path : List Str) {segs : List Str} (hne : segs ≠ []) :
    pathState path segs ≠ [] := by
  induction segs generalizing path with
  | nil => exact absurd rfl hne
  | cons s r ih =>
    cases r with
    | nil =>
      simp only [pathState]
      split_ifs <;> simp
    | cons t r =>
      simp only [pathState]
      split_ifs
      · exact ih _ (by simp)
      · exact ih _ (by simp)
      · exact ih _ (by simp)

/-- Every segment of the path the path state builds is well formed. -/
theorem pathState_segOk (path segs : List Str) (hp : ∀ s ∈ path, SegOk s)
    (hs : ∀ s ∈ segs, '/' ∉ s ∧ ∀ c ∈ s, isUrlChar c = true ∧ isPathEnd c = false) :
    ∀ s ∈ pathState path segs, SegOk s := by
  have hdrop : ∀ p : List Str, (∀ s ∈ p, SegOk s) → ∀ s ∈ p.dropLast, SegOk s :=
    fun p h s hs => h s (List.mem_of_mem_dropLast hs)
  have happ : ∀ (p : List Str) (t : Str), (∀ s ∈ p, SegOk s) → SegOk t →
      ∀ s ∈ p ++ [t], SegOk s := by
    intro p t h ht s hs
    rcases List.mem_append.1 hs with h' | h'
    · exact h s h'
    · simp at h'
      rw [h']
      exact ht
  induction segs generalizing path with
  | nil => simpa [pathState] using hp
  | cons s r ih =>
    have hsr : ∀ t ∈ r, '/' ∉ t ∧ ∀ c ∈ t, isUrlChar c = true ∧ isPathEnd c = false :=
      fun t ht => hs t (by simp [ht])
    have hs0 := hs s (by simp)
    cases r with
    | nil =>
      simp only [pathState]
      split_ifs with h1 h2
      · exact happ _ _ (hdrop _ hp) segOk_nil
      · exact happ _ _ hp segOk_nil
      · exact happ _ _ hp ⟨hs0.1, by simpa using h2, by simpa using h1, hs0.2⟩
    | cons t r =>
      simp only [pathState]
      split_ifs with h1 h2
      · exact ih _ (hdrop _ hp) hsr
      · exact ih _ hp hsr
      · exact ih _ (happ _ _ hp ⟨hs0.1, by simpa using h2, by simpa using h1, hs0.2⟩) hsr

/-- On segments that are already well formed the path state only appends. -/
theorem pathState_append (path : List Str) {segs : List Str} (hne : segs ≠ [])
    (hs : ∀ s ∈ segs, SegOk s) : pathState path segs = path ++ segs := by
  induction segs generalizing path with
  | nil => exact absurd rfl hne
  | cons s r ih =>
    have hs0 := hs s (by simp)
    cases r with
    | nil => simp [pathState, hs0.2.1, hs0.2.2.1]
    | cons t r =>
      simp only [pathState, hs0.2.1, hs0.2.2.1, Bool.false_eq_true, if_false]
      rw [ih _ (by simp) (fun x hx => hs x (by simp [hx]))]
      simp

/-- The path state serialises to a well-formed path. -/
theorem parsePath_pathOk (path : List Str) (s : Str) (hp : ∀ t ∈ path, SegOk t)
    (hs : ∀ c ∈ s, isUrlChar c = true ∧ isPathEnd c = false) : PathOk (parsePath path s) := by
  unfold parsePath
  refine ⟨_, pathState_ne_nil _ (split_ne_nil _ _), ?_, rfl⟩
  apply pathState_segOk _ _ hp
  intro t ht
  obtain ⟨h1, h2⟩ := split_pieces '/' _ t ht
  refine ⟨h1, fun c hc => ?_⟩
  have hc' := h2 c hc
  apply hs
  split at hc'
  · exact List.mem_cons_of_mem _ hc'
  · exact hc'

/-- Reading a well-formed path again gives it back. -/
theorem parsePath_of_pathOk {p : Str} (hp : PathOk p) : parsePath [] p = p := by
  obtain ⟨segs, hne, hseg, rfl⟩ := hp
  unfold parsePath
  simp only
  rw [split_join '/' hne (fun s hs => (hseg s hs).1), pathState_append [] hne hseg]
  rfl

theorem pathSegments_of_pathOk {segs : List Str} (hne : segs ≠ [])
    (hseg : ∀ s ∈ segs, SegOk s) : pathSegments ('/' :: join ['/'] segs) = segs := by
  unfold pathSegments
  simp only [List.tail_cons]
  exact split_join '/' hne (fun s hs => (hseg s hs).1)

end URL

end SiteCrawler
namespace SiteCrawler

/-! ## The ledger along a whole run -/

theorem ledgerLoop_blocked (np u : Str) (rules : List Rule) (st st1 : CrawlState)
    (h : ledgerLoop np u rules st = (st1, LedgerVerdict.blocked)) :
    st1.visited = st.visited ∧ st1.pathLimitCounters = st.pathLimitCounters := by
  induction rules with
  | nil => simp [ledgerLoop] at h
  | cons r rest ih =>
    unfold ledgerLoop at h
    dsimp only at h
    by_cases h1 : (!matchesPathLimit np (ruleKey r)) = true
    · rw [if_pos h1] at h
      exact ih h
    · rw [if_neg h1] at h
      split_ifs at h
      · simp only [Prod.mk.injEq, and_true] at h
        rw [← h]
        exact ⟨rfl, rfl⟩
      · simp at h

theorem pathLimitGate_blocked (run : Run) (st st1 : CrawlState) (u : Str)
    (h : pathLimitGate run st u = (st1, LedgerVerdict.blocked)) :
    st1.visited = st.visited ∧ st1.pathLimitCounters = st.pathLimitCounters := by
  unfold pathLimitGate at h
  split_ifs at h
  · simp at h
  · exact ledgerLoop_blocked _ _ _ _ _ h

/-- An admitted URL either matches no rule, and the ledger is left alone, or is charged to its
first matching rule, whose counter had not reached the cap. -/
theorem pathLimitGate_admitted (run : Run) (st st1 : CrawlState) (u : Str)
    (h : pathLimitGate run st u = (st1, LedgerVerdict.admitted)) :
    (firstMatchingRule run.env.platform run.options.pathLimits u = none ∧ st1 = st) ∨
      ∃ R0, firstMatchingRule run.env.platform run.options.pathLimits u = some R0 ∧
        st1 = { st with
          pathLimitCounters := mapSet st.pathLimitCounters (ruleKey R0)
            ((mapGet st.pathLimitCounters (ruleKey R0)).getD 0 + 1) } ∧
        (JsNumber.gt (JsNumber.orElse R0.maxPages (JsNumber.ofNat 0)) (JsNumber.ofNat 0) &&
          JsNumber.ge (JsNumber.ofNat ((mapGet st.pathLimitCounters (ruleKey R0)).getD 0))
            (JsNumber.orElse R0.maxPages (JsNumber.ofNat 0))) = false := by
  cases hf : firstMatchingRule run.env.platform run.options.pathLimits u with
  | none =>
    left
    refine ⟨rfl, ?_⟩
    unfold pathLimitGate at h
    split_ifs at h
    · simp only [Prod.mk.injEq, and_true] at h
      exact h.symm
    · rw [ledgerLoop_none _ _ _ _ hf] at h
      simp only [Prod.mk.injEq, and_true] at h
      exact h.symm
  | some R0 =>
    right
    refine ⟨R0, rfl, ?_⟩
    have hmatch : matchesPathLimit (ledgerPath run.env.platform u) (ruleKey R0) = true := by
      have := (List.find?_eq_some.1 hf).1
      simpa using this
    rw [pathLimitGate_first run st u R0 hf] at h
    simp only [ledgerLoop, hmatch, Bool.not_true, Bool.false_eq_true, if_false] at h
    split_ifs at h with hc
    · simp at h
    · simp only [Prod.mk.injEq, and_true] at h
      exact ⟨h.symm, by simpa using hc⟩

/-- The invariant of the ledger for the rule `R`: the URLs of `visited` whose first matching
rule is `R` are no more than the counter of `R` says, and the counter has not passed a
whole-number cap. -/
theorem ledger_stepInvariant (run : Run) (raw : List RawRule)
    (hrules : run.options.pathLimits = sanitizePathLimits raw) (R : Rule)
    (hR : R ∈ run.options.pathLimits) :
    StepInvariant run (fun st =>
      (st.visited.filter (fun u =>
          firstMatchingRule run.env.platform run.options.pathLimits u == some R)).length ≤
          (mapGet st.pathLimitCounters (ruleKey R)).getD 0 ∧
        ∀ m, R.maxPages.isNat m → (mapGet st.pathLimitCounters (ruleKey R)).getD 0 ≤ m) := by
  refine ⟨?_, ?_, ?_⟩
  · intro st u hP
    rcases processOneStart_cases run st u with
      ⟨-, h⟩ | ⟨-, -, -, st1, h1, h⟩ | ⟨hv, -, -, st1, h1, h⟩
    · rw [h]
      exact hP
    · rw [h]
      obtain ⟨e1, e2⟩ := pathLimitGate_blocked run st st1 u h1
      simp only [e1, e2]
      exact hP
    · rw [h]
      dsimp only
      rcases pathLimitGate_admitted run st st1 u h1 with ⟨hf, rfl⟩ | ⟨R0, hf, rfl, hc⟩
      · rw [setAdd_of_not_mem _ _ hv, List.filter_append]
        simp only [List.filter_cons, List.filter_nil, hf]
        simpa using hP
      · dsimp only
        rw [setAdd_of_not_mem _ _ hv, List.filter_append, mapGet_mapSet]
        by_cases hRR : R0 = R
        · subst hRR
          simp only [List.filter_cons, List.filter_nil, hf, beq_self_eq_true, if_true,
            List.length_append, List.length_singleton, Option.getD_some]
          refine ⟨by omega, ?_⟩
          intro m hm
          have hR' : R0 ∈ sanitizePathLimits raw := hrules ▸ hR
          have hpos := sanitize_isNat_pos raw hR' hm
          rw [isNat_truthy hm hpos, isNat_gt_zero hm hpos, isNat_ge_iff hm] at hc
          simp only [Bool.true_and, decide_eq_false_iff_not, not_le] at hc
          omega
        · have hR0 : R0 ∈ run.options.pathLimits := List.mem_of_find?_eq_some hf
          have hkey : ruleKey R ≠ ruleKey R0 := by
            have := sanitize_keys_distinct raw
            rw [← hrules] at this
            exact this.forall (fun _ _ h => Ne.symm h) hR hR0 (Ne.symm hRR)
          have hne : (some R0 == some R) = false := by
            simpa using hRR
          simp only [List.filter_cons, List.filter_nil, hf, hne, Bool.false_eq_true, if_false,
            List.append_nil, if_neg hkey]
          exact hP
  · intro st u hP
    obtain ⟨e1, -, e3, -⟩ := processOneFinish_frame run st u (fetchText run.env u run.robots)
    simp only [e1, e3]
    exact hP
  · intro st tv hP
    exact hP

end SiteCrawler
namespace SiteCrawler

namespace URL

/-! ## What the parser returns is well formed -/

theorem mem_of_mem_takeWhile {p : Char → Bool} {l : Str} {c : Char}
    (h : c ∈ l.takeWhile p) : c ∈ l ∧ p c = true := by
  induction l with
  | nil => simp at h
  | cons a l ih =>
    rw [List.takeWhile_cons] at h
    split_ifs at h with ha
    · rcases List.mem_cons.1 h with rfl | h
      · exact ⟨by simp, ha⟩
      · exact ⟨List.mem_cons_of_mem _ (ih h).1, (ih h).2⟩
    · simp at h

theorem mem_of_mem_dropWhile {p : Char → Bool} {l : Str} {c : Char}
    (h : c ∈ l.dropWhile p) : c ∈ l :=
  (List.dropWhile_suffix p).subset h

theorem isHttpScheme_iff (scheme : Str) :
    isHttpScheme scheme = true ↔ scheme = "http".toList ∨ scheme = "https".toList := by
  simp [isHttpScheme]

theorem protocol_contains_iff (scheme : Str) :
    (["http:".toList, "https:".toList].contains (scheme ++ [':'])) = isHttpScheme scheme := by
  rw [Bool.eq_iff_iff, isHttpScheme_iff]
  simp only [List.contains_iff_exists_mem_beq, List.mem_cons, List.mem_singleton, beq_iff_eq,
    List.not_mem_nil, or_false]
  have e1 : "http:".toList = "http".toList ++ [':'] := rfl
  have e2 : "https:".toList = "https".toList ++ [':'] := rfl
  constructor
  · rintro ⟨a, ha | ha, h⟩
    · rw [ha, e1] at h
      exact Or.inl (List.append_cancel_right h)
    · rw [ha, e2] at h
      exact Or.inr (List.append_cancel_right h)
  · rintro (h | h)
    · exact ⟨_, Or.inl rfl, by rw [h]; rfl⟩
    · exact ⟨_, Or.inr rfl, by rw [h]; rfl⟩

theorem parseHost_hostOk {scheme authority host : Str}
    (h : parseHost scheme authority = some host) : HostOk scheme host := by
  unfold parseHost at h
  simp only at h
  by_cases hv : validHostname (asciiLowerCase (authority.takeWhile (fun c => c != ':'))) = true
  · simp only [hv, Bool.not_true, Bool.false_eq_true, if_false] at h
    refine ⟨_, hv, ?_⟩
    split at h
    · left
      exact (Option.some.inj h).symm
    · left
      exact (Option.some.inj h).symm
    · rename_i x0 x1 ds hne hd
      by_cases hp : validPort ds = true
      · simp only [hp, Bool.not_true, Bool.false_eq_true, if_false] at h
        by_cases hdp : ds = defaultPort scheme
        · simp only [hdp, beq_self_eq_true, if_true] at h
          left
          exact (Option.some.inj h).symm
        · have hdp' : (ds == defaultPort scheme) = false := by simpa using hdp
          simp only [hdp', Bool.false_eq_true, if_false] at h
          right
          exact ⟨_, hp, hdp, (Option.some.inj h).symm⟩
      · simp [hp] at h
  · simp [hv] at h

theorem parseTail_valid (s : Str) (hs : ∀ c ∈ s, isUrlChar c = true) :
    (∀ q ∈ (parseTail s).1, ∀ c ∈ q, isUrlChar c = true ∧ c ≠ '#') ∧
      (∀ f ∈ (parseTail s).2, ∀ c ∈ f, isUrlChar c = true) := by
  unfold parseTail
  split
  · rename_i t
    have ht : ∀ c ∈ t, isUrlChar c = true := fun c hc => hs c (List.mem_cons_of_mem _ hc)
    constructor
    · intro q hq c hc
      simp only [Option.mem_def, Option.some.injEq] at hq
      subst hq
      obtain ⟨h1, h2⟩ := mem_of_mem_takeWhile hc
      exact ⟨ht c h1, by simpa using h2⟩
    · intro f hf c hc
      split at hf
      · rename_i x f' hd
        simp only [Option.mem_def, Option.some.injEq] at hf
        subst hf
        apply ht
        apply mem_of_mem_dropWhile (p := fun c => c != '#')
        rw [hd]
        exact List.mem_cons_of_mem _ hc
      · simp at hf
  · rename_i x f hne
    constructor
    · intro q hq
      simp at hq
    · intro f' hf c hc
      simp only [Option.mem_def, Option.some.injEq] at hf
      subst hf
      exact hs c (List.mem_cons_of_mem _ hc)
  · simp

theorem parseFromPath_valid {scheme host : Str} (path : List Str) (s : Str)
    (hsch : isHttpScheme scheme = true) (hh : HostOk scheme host)
    (hp : ∀ t ∈ path, SegOk t) (hs : ∀ c ∈ s, isUrlChar c = true) :
    Valid (parseFromPath scheme host path s) := by
  have hd : (scheme ++ [':']).dropLast = scheme := by simp
  have htail := parseTail_valid (s.dropWhile (fun c => !isPathEnd c))
    (fun c hc => hs c (mem_of_mem_dropWhile hc))
  refine ⟨?_, ?_, ?_, htail.1, htail.2, ⟨rfl, rfl⟩⟩
  · show isHttpScheme (scheme ++ [':']).dropLast = true ∧
      scheme ++ [':'] = (scheme ++ [':']).dropLast ++ [':']
    rw [hd]
    exact ⟨hsch, rfl⟩
  · show HostOk (scheme ++ [':']).dropLast host
    rw [hd]
    exact hh
  · simp only [parseFromPath]
    apply parsePath_pathOk _ _ hp
    intro c hc
    obtain ⟨h1, h2⟩ := mem_of_mem_takeWhile hc
    exact ⟨hs c h1, by simpa using h2⟩

theorem parseFromAuthority_valid {scheme s : Str} {u : URL}
    (hsch : isHttpScheme scheme = true) (hs : ∀ c ∈ s, isUrlChar c = true)
    (h : parseFromAuthority scheme s = some u) : Valid u := by
  unfold parseFromAuthority at h
  split at h
  · simp at h
  · split at h
    · simp at h
    · rename_i host hhost
      rw [← Option.some.inj h]
      exact parseFromPath_valid [] _ hsch (parseHost_hostOk hhost) (by simp)
        (fun c hc => hs c (mem_of_mem_dropWhile hc))

theorem splitScheme_rest {input scheme rest : Str} (h : splitScheme input = some (scheme, rest)) :
    ∀ c ∈ rest, c ∈ input := by
  unfold splitScheme at h
  split at h
  · simp at h
  · split_ifs at h
    split at h
    · rename_i r hd
      simp only [Option.some.injEq, Prod.mk.injEq] at h
      intro c hc
      apply mem_of_mem_dropWhile (p := isSchemeChar)
      rw [hd, h.2]
      exact List.mem_cons_of_mem _ hc
    · simp at h

/-- The branch of the parser for an input that has a scheme. -/
theorem parseScheme_valid {input scheme rest : Str} {u : URL}
    (hin : ∀ c ∈ input, isUrlChar c = true)
    (hsp : splitScheme input = some (scheme, rest))
    (h : (if isHttpScheme scheme then
        (match rest with
          | '/' :: '/' :: s => parseFromAuthority scheme s
          | _ => none)
        else some { protocol := scheme ++ [':'], host := [], pathname := rest,
                    query := none, fragment := none }) = some u)
    (hproto : (["http:".toList, "https:".toList].contains u.protocol) = true) : Valid u := by
  have hrest := splitScheme_rest hsp
  split_ifs at h with hs
  · split at h
    · rename_i s
      exact parseFromAuthority_valid hs
        (fun c hc => hin c (hrest c (by simp [hc]))) h
    · simp at h
  · rw [← Option.some.inj h] at hproto
    simp only at hproto
    rw [protocol_contains_iff] at hproto
    exact absurd hproto hs

theorem parseAbsolute_valid {input : Str} {u : URL} (h : parseAbsolute input = some u)
    (hproto : (["http:".toList, "https:".toList].contains u.protocol) = true) : Valid u := by
  unfold parseAbsolute at h
  by_cases hall : input.all isUrlChar = true
  · simp only [hall, Bool.not_true, Bool.false_eq_true, if_false] at h
    have hin : ∀ c ∈ input, isUrlChar c = true := by simpa using hall
    cases hsp : splitScheme input with
    | none => simp [hsp] at h
    | some p =>
      obtain ⟨scheme, rest⟩ := p
      simp only [hsp] at h
      exact parseScheme_valid hin hsp h hproto
  · simp [hall] at h

/-- The protocol of a parsed record is its scheme followed by a colon. -/
theorem parseAbsolute_protocol {input : Str} {u : URL} (h : parseAbsolute input = some u) :
    u.protocol = u.protocol.dropLast ++ [':'] := by
  unfold parseAbsolute at h
  by_cases hall : input.all isUrlChar = true
  · simp only [hall, Bool.not_true, Bool.false_eq_true, if_false] at h
    cases hsp : splitScheme input with
    | none => simp [hsp] at h
    | some p =>
      obtain ⟨scheme, rest⟩ := p
      simp only [hsp] at h
      by_cases hs : isHttpScheme scheme = true
      · simp only [hs, if_true] at h
        split at h
        · unfold parseFromAuthority at h
          split at h
          · simp at h
          · split at h
            · simp at h
            · rw [← Option.some.inj h]
              simp [parseFromPath]
        · simp at h
      · simp only [hs, Bool.false_eq_true, if_false] at h
        rw [← Option.some.inj h]
        simp
  · simp [hall] at h

theorem valid_protocol {u : URL} (h : Valid u) :
    (["http:".toList, "https:".toList].contains u.protocol) = true := by
  rw [h.scheme.2, protocol_contains_iff]
  exact h.scheme.1

theorem parseRelative_valid {input : Str} {b u : URL} (hb : Valid b)
    (hin : ∀ c ∈ input, isUrlChar c = true) (h : parseRelative input b = some u) : Valid u := by
  have hsch := hb.scheme.1
  unfold parseRelative at h
  simp only at h
  split at h
  · rw [← Option.some.inj h]
    exact ⟨hb.scheme, hb.host, hb.path, hb.query, by simp, hb.nocred⟩
  · rename_i s
    exact parseFromAuthority_valid hsch (fun c hc => hin c (by simp [hc])) h
  · rw [← Option.some.inj h]
    exact parseFromPath_valid [] _ hsch hb.host (by simp) hin
  · rw [← Option.some.inj h]
    have ht := parseTail_valid _ hin
    exact ⟨hb.scheme, hb.host, hb.path, ht.1, ht.2, hb.nocred⟩
  · rename_i f
    rw [← Option.some.inj h]
    refine ⟨hb.scheme, hb.host, hb.path, hb.query, ?_, hb.nocred⟩
    intro f' hf c hc
    simp only [Option.mem_def, Option.some.injEq] at hf
    subst hf
    exact hin c (List.mem_cons_of_mem _ hc)
  · rw [← Option.some.inj h]
    apply parseFromPath_valid _ _ hsch hb.host _ hin
    obtain ⟨segs, hne, hseg, hp⟩ := hb.path
    rw [hp, pathSegments_of_pathOk hne hseg]
    exact fun t ht => hseg t (List.mem_of_mem_dropLast ht)

theorem parseWithBase_valid {input base : Str} {u : URL} (h : parseWithBase input base = some u)
    (hproto : (["http:".toList, "https:".toList].contains u.protocol) = true) : Valid u := by
  unfold parseWithBase at h
  cases hb : parseAbsolute base with
  | none => simp [hb] at h
  | some b =>
    simp only [hb] at h
    by_cases hall : input.all isUrlChar = true
    · simp only [hall, Bool.not_true, Bool.false_eq_true, if_false] at h
      have hin : ∀ c ∈ input, isUrlChar c = true := by simpa using hall
      cases hsp : splitScheme input with
      | none =>
        simp only [hsp] at h
        by_cases hbs : isHttpScheme b.protocol.dropLast = true
        · rw [if_pos hbs] at h
          have hbv : Valid b := by
            apply parseAbsolute_valid hb
            rw [parseAbsolute_protocol hb, protocol_contains_iff]
            exact hbs
          exact parseRelative_valid hbv hin h
        · rw [if_neg hbs] at h
          simp at h
      | some p =>
        obtain ⟨scheme, rest⟩ := p
        simp only [hsp] at h
        exact parseScheme_valid hin hsp h hproto
    · simp [hall] at h

end URL

end SiteCrawler
namespace SiteCrawler

namespace URL

/-! ## Parsing a serialised URL gives the record back -/

/-- `takeWhile` and `dropWhile` cut a string where the first character that fails the test
stands. -/
theorem takeWhile_dropWhile_append (p : Char → Bool) (a rest : Str)
    (ha : ∀ c ∈ a, p c = true) (hr : ∀ c ∈ rest.head?, p c = false) :
    (a ++ rest).takeWhile p = a ∧ (a ++ rest).dropWhile p = rest := by
  induction a with
  | nil =>
    cases rest with
    | nil => simp
    | cons d t =>
      have := hr d (by simp)
      simp [List.takeWhile_cons, List.dropWhile_cons, this]
  | cons x a ih =>
    have hx := ha x (by simp)
    obtain ⟨h1, h2⟩ := ih (fun c hc => ha c (by simp [hc]))
    simp [List.takeWhile_cons, List.dropWhile_cons, hx, h1, h2]

theorem hostChar_facts (c : Char)
    (h : ((isAsciiLetter c && c.toLower == c) || isDigit c || c == '-' || c == '.') = true) :
    isUrlChar c = true ∧ isAuthorityEnd c = false ∧ (c != ':') = true ∧ c.toLower = c := by
  have hl : ∀ d : Char, isAsciiLetter d = true ↔
      ((97 ≤ d.toNat ∧ d.toNat ≤ 122) ∨ (65 ≤ d.toNat ∧ d.toNat ≤ 90)) := by
    intro d
    simp [isAsciiLetter]
  have hd : ∀ d : Char, isDigit d = true ↔ (48 ≤ d.toNat ∧ d.toNat ≤ 57) := by
    intro d
    simp [isDigit]
  have hne : ∀ (d : Char) (n : Nat), c.toNat ≠ n → d.toNat = n → ¬ c = d := by
    intro d n h1 h2 e
    rw [e] at h1
    exact h1 h2
  simp only [Bool.or_eq_true, Bool.and_eq_true, beq_iff_eq] at h
  have hcases : (isAsciiLetter c = true ∧ c.toLower = c) ∨ isDigit c = true ∨ c = '-' ∨ c = '.' := by
    tauto
  rcases hcases with ⟨h1, h2⟩ | h1 | h1 | h1
  · have h3 := (hl c).1 h1
    refine ⟨by simp [isUrlChar, h1], ?_, ?_, h2⟩
    · simp only [isAuthorityEnd, Bool.or_eq_false_iff, beq_eq_false_iff_ne]
      exact ⟨⟨hne '/' 47 (by omega) rfl, hne '?' 63 (by omega) rfl⟩, hne '#' 35 (by omega) rfl⟩
    · simp only [bne_iff_ne, ne_eq]
      exact hne ':' 58 (by omega) rfl
  · have h3 := (hd c).1 h1
    refine ⟨by simp [isUrlChar, h1], ?_, ?_, ?_⟩
    · simp only [isAuthorityEnd, Bool.or_eq_false_iff, beq_eq_false_iff_ne]
      exact ⟨⟨hne '/' 47 (by omega) rfl, hne '?' 63 (by omega) rfl⟩, hne '#' 35 (by omega) rfl⟩
    · simp only [bne_iff_ne, ne_eq]
      exact hne ':' 58 (by omega) rfl
    · rcases toLower_cases c with h | h
      · exact h.1
      · omega
  · subst h1
    decide
  · subst h1
    decide

theorem digit_facts (c : Char) (h : isDigit c = true) :
    isUrlChar c = true ∧ isAuthorityEnd c = false :=
  ⟨(hostChar_facts c (by simp [h])).1, (hostChar_facts c (by simp [h])).2.1⟩

theorem validHostname_facts {name : Str} (h : validHostname name = true) :
    name ≠ [] ∧ asciiLowerCase name = name ∧
      ∀ c ∈ name, isUrlChar c = true ∧ isAuthorityEnd c = false ∧ (c != ':') = true := by
  unfold validHostname at h
  simp only [Bool.and_eq_true, List.all_eq_true] at h
  obtain ⟨⟨⟨h1, -⟩, h2⟩, -⟩ := h
  refine ⟨?_, ?_, ?_⟩
  · rintro rfl
    simp [split] at h2
  · unfold asciiLowerCase
    conv_rhs => rw [← List.map_id name]
    apply List.map_congr_left
    intro c hc
    exact (hostChar_facts c (h1 c hc)).2.2.2
  · intro c hc
    have := hostChar_facts c (h1 c hc)
    exact ⟨this.1, this.2.1, this.2.2.1⟩

theorem validPort_facts {ds : Str} (h : validPort ds = true) :
    ds ≠ [] ∧ ∀ c ∈ ds, isUrlChar c = true ∧ isAuthorityEnd c = false := by
  unfold validPort at h
  simp only [Bool.and_eq_true, List.all_eq_true] at h
  obtain ⟨⟨⟨h1, h2⟩, -⟩, -⟩ := h
  refine ⟨?_, fun c hc => digit_facts c (h1 c hc)⟩
  rintro rfl
  simp at h2

theorem hostOk_chars {scheme host : Str} (h : HostOk scheme host) :
    host ≠ [] ∧ ∀ c ∈ host, isUrlChar c = true ∧ isAuthorityEnd c = false := by
  obtain ⟨name, hn, hh⟩ := h
  obtain ⟨h1, -, h3⟩ := validHostname_facts hn
  rcases hh with rfl | ⟨ds, hp, -, rfl⟩
  · exact ⟨h1, fun c hc => ⟨(h3 c hc).1, (h3 c hc).2.1⟩⟩
  · obtain ⟨-, h5⟩ := validPort_facts hp
    refine ⟨by simp, ?_⟩
    intro c hc
    rcases List.mem_append.1 hc with hc | hc
    · exact ⟨(h3 c hc).1, (h3 c hc).2.1⟩
    · rcases List.mem_cons.1 hc with rfl | hc
      · decide
      · exact h5 c hc

/-- The host and port states give a serialised host back. -/
theorem parseHost_of_hostOk {scheme host : Str} (h : HostOk scheme host) :
    parseHost scheme host = some host := by
  obtain ⟨name, hn, hh⟩ := h
  obtain ⟨-, h2, h3⟩ := validHostname_facts hn
  rcases hh with rfl | ⟨ds, hp, hd, rfl⟩
  · have := takeWhile_dropWhile_append (fun c => c != ':') host [] (fun c hc => (h3 c hc).2.2)
      (by simp)
    rw [List.append_nil] at this
    unfold parseHost
    simp only [this.1, this.2, h2, hn, Bool.not_true, Bool.false_eq_true, if_false]
  · have := takeWhile_dropWhile_append (fun c => c != ':') name (':' :: ds)
      (fun c hc => (h3 c hc).2.2) (by simp)
    obtain ⟨hne, -⟩ := validPort_facts hp
    have hd' : (ds == defaultPort scheme) = false := by simpa using hd
    unfold parseHost
    simp only [this.1, this.2, h2, hn, Bool.not_true, Bool.false_eq_true, if_false]
    cases ds with
    | nil => exact absurd rfl hne
    | cons d ds =>
      simp only [hp, hd', Bool.not_true, Bool.false_eq_true, if_false]

theorem pathOk_chars {p : Str} (h : PathOk p) :
    (∃ t, p = '/' :: t) ∧ ∀ c ∈ p, isUrlChar c = true ∧ isPathEnd c = false := by
  obtain ⟨segs, -, hseg, rfl⟩ := h
  refine ⟨⟨_, rfl⟩, ?_⟩
  have hj : ∀ (l : List Str), (∀ s ∈ l, SegOk s) →
      ∀ c ∈ join ['/'] l, isUrlChar c = true ∧ isPathEnd c = false := by
    intro l
    induction l with
    | nil => intro _ c hc; simp [join_nil] at hc
    | cons x r ih =>
      intro hl c hc
      cases r with
      | nil =>
        rw [join_singleton] at hc
        exact (hl x (by simp)).2.2.2 c hc
      | cons y r =>
        rw [join_cons_cons] at hc
        rcases List.mem_append.1 hc with hc | hc
        · rcases List.mem_append.1 hc with hc | hc
          · exact (hl x (by simp)).2.2.2 c hc
          · simp at hc
            subst hc
            decide
        · exact ih (fun s hs => hl s (by simp [hs])) c hc
  intro c hc
  rcases List.mem_cons.1 hc with rfl | hc
  · decide
  · exact hj segs hseg c hc

theorem credentials_of_valid {u : URL} (h : Valid u) : u.credentials = [] := by
  unfold credentials
  rw [h.nocred.1, h.nocred.2]
  rfl

theorem href_eq {u : URL} (h : Valid u) :
    u.href = u.protocol ++ ['/', '/'] ++ u.host ++ u.pathname ++ tailString u := by
  unfold href tailString
  rw [credentials_of_valid h]
  simp only [List.append_nil, List.append_assoc]

theorem tailString_facts {u : URL} (h : Valid u) :
    (∀ c ∈ (tailString u).head?, isPathEnd c = true) ∧
      (∀ c ∈ tailString u, isUrlChar c = true) ∧
      parseTail (tailString u) = (u.query, u.fragment) := by
  obtain ⟨-, -, -, hq, hf, -⟩ := h
  unfold tailString
  cases hqq : u.query with
  | none =>
    cases hff : u.fragment with
    | none => simp [parseTail]
    | some f =>
      refine ⟨by simp [isPathEnd], ?_, by simp [parseTail]⟩
      intro c hc
      simp only [List.nil_append, List.mem_cons] at hc
      rcases hc with rfl | hc
      · decide
      · exact hf f (by simp [hff]) c hc
  | some q =>
    have hq' := hq q (by simp [hqq])
    have hqc : ∀ c ∈ q, (fun c => c != '#') c = true := fun c hc => by simpa using (hq' c hc).2
    cases hff : u.fragment with
    | none =>
      have := takeWhile_dropWhile_append (fun c => c != '#') q [] hqc (by simp)
      rw [List.append_nil] at this
      refine ⟨by simp [isPathEnd], ?_, ?_⟩
      · intro c hc
        simp only [List.append_nil, List.mem_cons] at hc
        rcases hc with rfl | hc
        · decide
        · exact (hq' c hc).1
      · simp only [List.append_nil, parseTail, this.1, this.2]
    | some f =>
      have := takeWhile_dropWhile_append (fun c => c != '#') q ('#' :: f) hqc (by simp)
      refine ⟨by simp [isPathEnd], ?_, ?_⟩
      · intro c hc
        simp only [List.cons_append, List.mem_cons, List.mem_append] at hc
        rcases hc with rfl | hc | rfl | hc
        · decide
        · exact (hq' c hc).1
        · decide
        · exact hf f (by simp [hff]) c hc
      · simp only [List.cons_append, parseTail, this.1, this.2]

/-- The path, query and fragment states give the serialised components back; `P` is the
serialised path, or nothing when the path is the root and nothing follows it. -/
theorem parseFromPath_roundtrip {u : URL} (h : Valid u) (P : Str)
    (hP : P = u.pathname ∨ (P = [] ∧ u.pathname = ['/'] ∧ tailString u = [])) :
    parseFromPath u.protocol.dropLast u.host [] (P ++ tailString u) = u := by
  obtain ⟨ht1, -, ht3⟩ := tailString_facts h
  have hPc : ∀ c ∈ P, (fun c => !isPathEnd c) c = true := by
    intro c hc
    rcases hP with rfl | ⟨rfl, -⟩
    · simp [((pathOk_chars h.path).2 c hc).2]
    · simp at hc
  have hcut := takeWhile_dropWhile_append (fun c => !isPathEnd c) P (tailString u) hPc
    (fun c hc => by simp [ht1 c hc])
  have hpath : parsePath [] P = u.pathname := by
    rcases hP with rfl | ⟨rfl, h2, -⟩
    · exact parsePath_of_pathOk h.path
    · rw [h2]
      decide
  unfold parseFromPath
  simp only [hcut.1, hcut.2, ht3, hpath, ← h.scheme.2]
  obtain ⟨p, un, pw, ho, pa, q, f⟩ := u
  have h1 : un = [] := h.nocred.1
  have h2 : pw = [] := h.nocred.2
  subst h1 h2
  rfl

theorem parseFromAuthority_roundtrip {u : URL} (h : Valid u) (P : Str)
    (hP : P = u.pathname ∨ (P = [] ∧ u.pathname = ['/'] ∧ tailString u = [])) :
    parseFromAuthority u.protocol.dropLast (u.host ++ (P ++ tailString u)) = some u := by
  obtain ⟨hne, hc⟩ := hostOk_chars h.host
  have hhead : ∀ c ∈ (P ++ tailString u).head?, (fun c => !isAuthorityEnd c) c = false := by
    intro c hc
    rcases hP with rfl | ⟨rfl, -, h3⟩
    · obtain ⟨t, ht⟩ := (pathOk_chars h.path).1
      rw [ht] at hc
      simp at hc
      subst hc
      decide
    · rw [h3] at hc
      simp at hc
  have hcut := takeWhile_dropWhile_append (fun c => !isAuthorityEnd c) u.host
    (P ++ tailString u) (fun c hc' => by simp [(hc c hc').2]) hhead
  unfold parseFromAuthority
  split
  · rename_i x t heq
    cases hu : u.host with
    | nil => exact absurd hu hne
    | cons a r =>
      rw [hu] at heq
      simp only [List.cons_append, List.cons.injEq] at heq
      have := (hc a (by simp [hu])).2
      rw [heq.1] at this
      exact absurd this (by decide)
  · simp only [hcut.1, hcut.2, parseHost_of_hostOk h.host, parseFromPath_roundtrip h P hP]

theorem valid_chars {u : URL} (h : Valid u) (P : Str)
    (hP : P = u.pathname ∨ (P = [] ∧ u.pathname = ['/'] ∧ tailString u = [])) :
    ∀ c ∈ u.protocol ++ ['/', '/'] ++ u.host ++ (P ++ tailString u), isUrlChar c = true := by
  intro c hc
  simp only [List.mem_append, List.mem_cons, List.mem_singleton, List.not_mem_nil, or_false]
    at hc
  rcases hc with ((hc | hc | hc) | hc) | hc | hc
  · have hs := (isHttpScheme_iff _).1 h.scheme.1
    rw [h.scheme.2] at hc
    rcases hs with hs | hs
    · rw [hs] at hc
      revert c
      decide
    · rw [hs] at hc
      revert c
      decide
  · subst hc; decide
  · subst hc; decide
  · exact ((hostOk_chars h.host).2 c hc).1
  · rcases hP with rfl | ⟨rfl, -⟩
    · exact ((pathOk_chars h.path).2 c hc).1
    · simp at hc
  · exact (tailString_facts h).2.1 c hc

theorem splitScheme_http (rest : Str) :
    splitScheme ("http".toList ++ [':'] ++ rest) = some ("http".toList, rest) := rfl

theorem splitScheme_https (rest : Str) :
    splitScheme ("https".toList ++ [':'] ++ rest) = some ("https".toList, rest) := rfl

/-- `new URL` reads the serialisation of a well-formed record back to the record, also when the
slash of a bare root path has been cut off. -/
theorem parseAbsolute_roundtrip {u : URL} (h : Valid u) (P : Str)
    (hP : P = u.pathname ∨ (P = [] ∧ u.pathname = ['/'] ∧ tailString u = [])) :
    parseAbsolute (u.protocol ++ ['/', '/'] ++ u.host ++ (P ++ tailString u)) = some u := by
  have hall : (u.protocol ++ ['/', '/'] ++ u.host ++ (P ++ tailString u)).all isUrlChar = true := by
    rw [List.all_eq_true]
    exact valid_chars h P hP
  have hrt := parseFromAuthority_roundtrip h P hP
  unfold parseAbsolute
  simp only [hall, Bool.not_true, Bool.false_eq_true, if_false]
  have hs := (isHttpScheme_iff _).1 h.scheme.1
  have e : u.protocol ++ ['/', '/'] ++ u.host ++ (P ++ tailString u) =
      u.protocol.dropLast ++ [':'] ++ ('/' :: '/' :: (u.host ++ (P ++ tailString u))) := by
    conv_lhs => rw [h.scheme.2]
    simp [List.append_assoc]
  rw [e]
  rcases hs with hs | hs
  · rw [hs] at hrt ⊢
    rw [splitScheme_http]
    simp only [hrt]
    rfl
  · rw [hs] at hrt ⊢
    rw [splitScheme_https]
    simp only [hrt]
    rfl

theorem parseAbsolute_href {u : URL} (h : Valid u) : parseAbsolute u.href = some u := by
  rw [href_eq h, List.append_assoc _ u.pathname]
  exact parseAbsolute_roundtrip h _ (Or.inl rfl)

end URL

end SiteCrawler
namespace SiteCrawler

/-! ## The worker pool always completes -/

theorem turns_pos (t : Task) : 1 ≤ t.turns := by
  unfold Task.turns
  cases t.phase <;> simp

theorem turns_le_two (t : Task) : t.turns ≤ 2 := by
  unfold Task.turns
  cases t.phase <;> simp

/-- `next()` starts what it can: afterwards nothing is pending or the pool is full, and the work
left has not grown. -/
theorem startTasks_work (run : Run) (limit : Nat) (pending : List Str) (st : CrawlState)
    (active : List Task) :
    ((startTasks run limit pending st active).2.1 = [] ∨
        limit ≤ (startTasks run limit pending st active).2.2.length) ∧
      poolWork (startTasks run limit pending st active).2.1
          (startTasks run limit pending st active).2.2 ≤ poolWork pending active := by
  induction pending generalizing st active with
  | nil => exact ⟨Or.inl rfl, le_refl _⟩
  | cons u rest ih =>
    unfold startTasks
    by_cases hl : active.length < limit
    · rw [if_pos hl]
      dsimp only
      obtain ⟨h1, h2⟩ := ih (processOneStart run st u).1
        (active ++ [{ url := u, phase := (processOneStart run st u).2 }])
      refine ⟨h1, le_trans h2 ?_⟩
      have := turns_le_two { url := u, phase := (processOneStart run st u).2 }
      simp only [poolWork, List.map_append, List.sum_append, List.map_cons, List.map_nil,
        List.sum_cons, List.sum_nil, List.length_cons]
      omega
    · rw [if_neg hl]
      exact ⟨Or.inr (show limit ≤ active.length by omega), le_refl _⟩

theorem sum_turns_set (active : List Task) (k : Nat) (t : Task) (hk : active.get? k = some t)
    (ht : t.phase = Phase.awaitingFetch) :
    ((active.set k { t with phase := Phase.returned }).map Task.turns).sum + 1 =
      (active.map Task.turns).sum := by
  induction active generalizing k with
  | nil => simp at hk
  | cons a l ih =>
    cases k with
    | zero =>
      simp only [List.get?_cons_zero, Option.some.injEq] at hk
      subst hk
      simp only [List.set_cons_zero, List.map_cons, List.sum_cons, Task.turns, ht]
      omega
    | succ k =>
      simp only [List.get?_cons_succ] at hk
      have := ih k hk
      simp only [List.set_cons_succ, List.map_cons, List.sum_cons]
      omega

theorem sum_turns_eraseIdx (active : List Task) (k : Nat) (t : Task)
    (hk : active.get? k = some t) :
    ((active.eraseIdx k).map Task.turns).sum + 1 ≤ (active.map Task.turns).sum := by
  induction active generalizing k with
  | nil => simp at hk
  | cons a l ih =>
    cases k with
    | zero =>
      have := turns_pos a
      simp only [List.eraseIdx_cons_zero, List.map_cons, List.sum_cons]
      omega
    | succ k =>
      simp only [List.get?_cons_succ] at hk
      have := ih k hk
      simp only [List.eraseIdx_cons_succ, List.map_cons, List.sum_cons]
      omega

/-- A turn of a call in flight uses up some of the work left, and leaves the pool full unless
nothing is pending. -/
theorem advanceTask_work (run : Run) (limit k : Nat) (st : CrawlState) (pending : List Str)
    (active : List Task) (hk : k < active.length)
    (hfull : pending = [] ∨ limit ≤ active.length) :
    ((advanceTask run limit k (st, pending, active)).2.1 = [] ∨
        limit ≤ (advanceTask run limit k (st, pending, active)).2.2.length) ∧
      poolWork (advanceTask run limit k (st, pending, active)).2.1
          (advanceTask run limit k (st, pending, active)).2.2 + 1 ≤ poolWork pending active := by
  obtain ⟨t, ht⟩ : ∃ t, active.get? k = some t := ⟨active.get ⟨k, hk⟩, List.get?_eq_get hk⟩
  unfold advanceTask
  simp only [ht]
  cases hp : t.phase with
  | awaitingFetch =>
    dsimp only
    refine ⟨?_, ?_⟩
    · simpa using hfull
    · have := sum_turns_set active k t ht hp
      simp only [poolWork]
      omega
  | returned =>
    dsimp only
    obtain ⟨h1, h2⟩ := startTasks_work run limit pending st (active.eraseIdx k)
    refine ⟨h1, ?_⟩
    have := sum_turns_eraseIdx active k t ht
    simp only [poolWork] at h2 ⊢
    omega

/-- With a limit of at least one call, the pool completes within as many turns as the work left
says. -/
theorem poolLoop_completes (run : Run) (limit : Nat) (hlimit : 1 ≤ limit) (fuel : Nat)
    (sched : List Nat) (st : CrawlState) (pending : List Str) (active : List Task)
    (hfull : pending = [] ∨ limit ≤ active.length) (hfuel : poolWork pending active ≤ fuel) :
    ∃ r, poolLoop run limit fuel sched (st, pending, active) = some r := by
  induction fuel generalizing sched st pending active with
  | zero =>
    have hp : pending = [] := by
      cases pending with
      | nil => rfl
      | cons a l => simp [poolWork] at hfuel
    have ha : active = [] := by
      cases active with
      | nil => rfl
      | cons a l =>
        have := turns_pos a
        simp [poolWork] at hfuel
        omega
    subst hp ha
    exact ⟨(st, sched), by simp [poolLoop]⟩
  | succ fuel ih =>
    unfold poolLoop
    by_cases hdone : (pending.isEmpty && active.isEmpty) = true
    · rw [if_pos hdone]
      exact ⟨_, rfl⟩
    · rw [if_neg hdone]
      dsimp only
      have hne : active ≠ [] := by
        intro ha
        subst ha
        rcases hfull with hp | hl
        · subst hp
          simp at hdone
        · simp at hl
          omega
      have hemp : active.isEmpty = false := by
        cases active with
        | nil => exact absurd rfl hne
        | cons a l => rfl
      rw [hemp]
      simp only [Bool.false_eq_true, if_false]
      have hpos : 0 < active.length := List.length_pos.2 hne
      have hk : sched.headD 0 % active.length < active.length := Nat.mod_lt _ hpos
      obtain ⟨h1, h2⟩ := advanceTask_work run limit _ st pending active hk hfull
      cases hadv : advanceTask run limit (sched.headD 0 % active.length) (st, pending, active) with
      | mk st' rest =>
        obtain ⟨pending', active'⟩ := rest
        rw [hadv] at h1 h2
        exact ih _ _ _ _ h1 (by simp only at h2; omega)

/-- With a limit of at least one call, `concurrencyMap` always completes. -/
theorem concurrencyMap_completes (run : Run) (items : List Str) (limit : Nat)
    (hlimit : 1 ≤ limit) (sched : List Nat) (st : CrawlState) :
    ∃ r, concurrencyMap run items limit sched st = some r := by
  unfold concurrencyMap
  obtain ⟨h1, h2⟩ := startTasks_work run limit items st []
  cases hs : startTasks run limit items st [] with
  | mk st' rest =>
    obtain ⟨pending', active'⟩ := rest
    rw [hs] at h1 h2
    apply poolLoop_completes run limit hlimit _ sched st' pending' active' h1
    simp only [poolWork, List.map_nil, List.sum_nil] at h2 ⊢
    omega

end SiteCrawler
namespace SiteCrawler

/-! ## Canonical segment lists -/

theorem canonStep_of_noRepeat (out : List Str) (seg : Str)
    (h : ∀ prev ∈ out.getLast?, NoLocaleRepeat prev seg) : canonStep out seg = out ++ [seg] := by
  unfold canonStep
  cases hl : out.getLast? with
  | none => rfl
  | some prev =>
    have := h prev (by simp [hl])
    unfold NoLocaleRepeat at this
    simp only [Bool.and_assoc] at this ⊢
    simp only [this, Bool.false_eq_true, if_false]

theorem canonStep_chain (out : List Str) (seg : Str) (h : List.Chain' NoLocaleRepeat out) :
    List.Chain' NoLocaleRepeat (canonStep out seg) := by
  unfold canonStep
  cases hl : out.getLast? with
  | none =>
    have : out = [] := List.getLast?_eq_none_iff.1 hl
    subst this
    exact List.chain'_singleton _
  | some prev =>
    simp only
    split_ifs with hc
    · exact h
    · apply List.Chain'.append h (List.chain'_singleton _)
      intro x hx y hy
      simp only [List.head?_cons, Option.mem_def, Option.some.injEq] at hy
      subst hy
      rw [hl] at hx
      simp only [Option.mem_def, Option.some.injEq] at hx
      subst hx
      unfold NoLocaleRepeat
      simp only [Bool.and_assoc]
      simpa using hc

theorem foldl_canonStep_chain (l out : List Str) (h : List.Chain' NoLocaleRepeat out) :
    List.Chain' NoLocaleRepeat (l.foldl canonStep out) := by
  induction l generalizing out with
  | nil => exact h
  | cons x l ih => exact ih _ (canonStep_chain out x h)

theorem foldl_canonStep_of_chain (l out : List Str) (h : List.Chain' NoLocaleRepeat (out ++ l)) :
    l.foldl canonStep out = out ++ l := by
  induction l generalizing out with
  | nil => simp
  | cons x l ih =>
    have hx : canonStep out x = out ++ [x] := by
      apply canonStep_of_noRepeat
      intro prev hp
      exact (List.chain'_append.1 h).2.2 prev hp x (by simp)
    rw [List.foldl_cons, hx, ih]
    · simp
    · simpa using h

/-- Running the loop of `canonicalizePathname` on its own output changes nothing. -/
theorem foldl_canonStep_idem (l : List Str) :
    (l.foldl canonStep []).foldl canonStep [] = l.foldl canonStep [] := by
  have := foldl_canonStep_of_chain (l.foldl canonStep []) []
    (by simpa using foldl_canonStep_chain l [] List.chain'_nil)
  simpa using this

theorem canonStep_mem (out : List Str) (seg : Str) :
    ∀ s ∈ canonStep out seg, s ∈ out ∨ s = seg := by
  intro s hs
  rcases canonStep_or out seg with h | h
  · rw [h] at hs
    exact Or.inl hs
  · rw [h] at hs
    simpa using hs

theorem foldl_canonStep_mem (l out : List Str) :
    ∀ s ∈ l.foldl canonStep out, s ∈ out ∨ s ∈ l := by
  induction l generalizing out with
  | nil => intro s hs; exact Or.inl hs
  | cons x l ih =>
    intro s hs
    rcases ih _ s hs with h | h
    · rcases canonStep_mem out x s h with h | h
      · exact Or.inl h
      · exact Or.inr (by simp [h])
    · exact Or.inr (by simp [h])

theorem canonStep_extends (out : List Str) (seg : Str) : out <+: canonStep out seg := by
  rcases canonStep_or out seg with h | h
  · rw [h]
  · rw [h]
    exact List.prefix_append _ _

theorem foldl_canonStep_extends (l out : List Str) : out <+: l.foldl canonStep out := by
  induction l generalizing out with
  | nil => exact List.prefix_refl _
  | cons x l ih => exact (canonStep_extends out x).trans (ih _)

/-- The segments `canonicalizePathname` keeps. -/
theorem canonical_parts (p : Str) :
    Segments ((pathParts p).foldl canonStep []) ∧
      pathParts (canonicalizePathname p) = (pathParts p).foldl canonStep [] := by
  have hseg : Segments ((pathParts p).foldl canonStep []) := by
    intro s hs
    rcases foldl_canonStep_mem _ _ s hs with h | h
    · simp at h
    · exact segments_pathParts p s h
  exact ⟨hseg, by unfold canonicalizePathname; exact pathParts_slash_join hseg⟩

/-- `canonicalizePathname` is idempotent. -/
theorem canonicalizePathname_idem (p : Str) :
    canonicalizePathname (canonicalizePathname p) = canonicalizePathname p := by
  have h := (canonical_parts p).2
  have e : ∀ q, canonicalizePathname q = '/' :: join ['/'] ((pathParts q).foldl canonStep []) :=
    fun _ => rfl
  rw [e (canonicalizePathname p), h, foldl_canonStep_idem, ← e]

/-! ## Three equal segments in a row -/

theorem hasTriple_cons (x : Str) (l : List Str) :
    HasTriple (x :: l) ↔ (∃ r, l = x :: x :: r) ∨ HasTriple l := by
  constructor
  · rintro ⟨a, g, b, h⟩
    cases a with
    | nil =>
      simp only [List.nil_append, List.cons_append, List.cons.injEq] at h
      obtain ⟨rfl, rfl⟩ := h
      exact Or.inl ⟨b, rfl⟩
    | cons y a =>
      simp only [List.cons_append, List.cons.injEq] at h
      exact Or.inr ⟨a, g, b, by simpa using h.2⟩
  · rintro (⟨r, rfl⟩ | ⟨a, g, b, rfl⟩)
    · exact ⟨[], x, r, rfl⟩
    · exact ⟨x :: a, g, b, rfl⟩

theorem not_hasTriple_nil : ¬ HasTriple [] := by
  rintro ⟨a, g, b, h⟩
  simp at h

theorem repeatedLoop_iff (ps : List Str) :
    ∀ prev, (repeatedLoop 2 prev 1 ps = true ↔ HasTriple (prev :: ps)) ∧
      (repeatedLoop 2 prev 2 ps = true ↔ HasTriple (prev :: prev :: ps)) := by
  induction ps with
  | nil =>
    intro prev
    simp [repeatedLoop, hasTriple_cons, not_hasTriple_nil]
  | cons p ps ih =>
    intro prev
    obtain ⟨ih1, ih2⟩ := ih p
    by_cases hp : p = prev
    · subst hp
      constructor
      · simp only [repeatedLoop, if_true]
        rw [if_neg (by omega), ih2]
      · simp only [repeatedLoop, if_true]
        rw [if_pos (by omega)]
        simp only [true_iff]
        exact ⟨[], p, ps, rfl⟩
    · have hne : ¬ prev = p := fun e => hp e.symm
      constructor
      · simp only [repeatedLoop, hp, if_false]
        rw [ih1, hasTriple_cons prev]
        constructor
        · exact Or.inr
        · rintro (⟨r, hr⟩ | h)
          · simp only [List.cons.injEq] at hr
            exact absurd hr.1.symm hne
          · exact h
      · simp only [repeatedLoop, hp, if_false]
        rw [ih1, hasTriple_cons prev, hasTriple_cons prev]
        constructor
        · exact fun h => Or.inr (Or.inr h)
        · rintro (⟨r, hr⟩ | ⟨r, hr⟩ | h)
          · simp only [List.cons.injEq] at hr
            exact absurd hr.2.1.symm hne
          · simp only [List.cons.injEq] at hr
            exact absurd hr.1.symm hne
          · exact h

/-- `hasExcessiveRepeatedSegments(p, 2)` says that three segments in a row are equal ignoring
case. -/
theorem hasExcessiveRepeatedSegments_iff (p : Str) :
    hasExcessiveRepeatedSegments p 2 = true ↔ HasTriple ((pathParts p).map toLowerCase) := by
  unfold hasExcessiveRepeatedSegments
  cases (pathParts p).map toLowerCase with
  | nil => simp [not_hasTriple_nil]
  | cons x l => exact (repeatedLoop_iff l x).1

end SiteCrawler
namespace SiteCrawler

/-! ## Every iteration of the frontier loop makes progress -/

/-- The first half of `processOne` either admits a new URL, or returns without touching
`visited`. -/
theorem processOneStart_progress (run : Run) (st : CrawlState) (u : Str) :
    st.visited.length ≤ (processOneStart run st u).1.visited.length ∧
      ((processOneStart run st u).1.visited.length = st.visited.length →
        (processOneStart run st u).2 = Phase.returned) := by
  rcases processOneStart_cases run st u with
    ⟨-, h⟩ | ⟨-, -, -, st1, h1, h⟩ | ⟨hv, -, -, st1, h1, h⟩
  · rw [h]
    exact ⟨le_refl _, fun _ => rfl⟩
  · rw [h]
    rw [(pathLimitGate_blocked run st st1 u h1).1]
    exact ⟨le_refl _, fun _ => rfl⟩
  · rw [h]
    have hvis : st1.visited = st.visited := by
      have := (pathLimitGate_frame run st u).2.2.2
      rw [h1] at this
      exact this
    dsimp only
    rw [hvis, setAdd_of_not_mem _ _ hv]
    simp

/-- The state of the pool compared with the state `s1` the batch started from: `visited` has
not shrunk, and as long as it has not grown the frontier is untouched and no call waits for a
fetch. -/
theorem startTasks_progress (run : Run) (limit : Nat) (s1 : CrawlState) (pending : List Str)
    (st : CrawlState) (active : List Task)
    (h : s1.visited.length ≤ st.visited.length ∧
      (st.visited.length = s1.visited.length →
        st.toVisit = s1.toVisit ∧ ∀ t ∈ active, t.phase = Phase.returned)) :
    s1.visited.length ≤ (startTasks run limit pending st active).1.visited.length ∧
      ((startTasks run limit pending st active).1.visited.length = s1.visited.length →
        (startTasks run limit pending st active).1.toVisit = s1.toVisit ∧
          ∀ t ∈ (startTasks run limit pending st active).2.2, t.phase = Phase.returned) := by
  induction pending generalizing st active with
  | nil => exact h
  | cons u rest ih =>
    unfold startTasks
    by_cases hl : active.length < limit
    · rw [if_pos hl]
      dsimp only
      apply ih
      obtain ⟨p1, p2⟩ := processOneStart_progress run st u
      refine ⟨le_trans h.1 p1, ?_⟩
      intro he
      have he' : st.visited.length = s1.visited.length := by omega
      obtain ⟨h1, h2⟩ := h.2 he'
      refine ⟨by rw [(processOneStart_frame run st u).1, h1], ?_⟩
      intro t ht
      rcases List.mem_append.1 ht with ht | ht
      · exact h2 t ht
      · simp only [List.mem_singleton] at ht
        rw [ht]
        exact p2 (by omega)
    · rw [if_neg hl]
      exact h

theorem advanceTask_progress (run : Run) (limit k : Nat) (s1 : CrawlState)
    (st : CrawlState) (pending : List Str) (active : List Task)
    (h : s1.visited.length ≤ st.visited.length ∧
      (st.visited.length = s1.visited.length →
        st.toVisit = s1.toVisit ∧ ∀ t ∈ active, t.phase = Phase.returned)) :
    s1.visited.length ≤ (advanceTask run limit k (st, pending, active)).1.visited.length ∧
      ((advanceTask run limit k (st, pending, active)).1.visited.length = s1.visited.length →
        (advanceTask run limit k (st, pending, active)).1.toVisit = s1.toVisit ∧
          ∀ t ∈ (advanceTask run limit k (st, pending, active)).2.2,
            t.phase = Phase.returned) := by
  unfold advanceTask
  dsimp only
  cases hk : active.get? k with
  | none => exact h
  | some t =>
    dsimp only
    cases hp : t.phase with
    | awaitingFetch =>
      dsimp only
      have hmem : t ∈ active := List.get?_mem hk
      have hgrown : st.visited.length ≠ s1.visited.length := by
        intro he
        have := (h.2 he).2 t hmem
        rw [hp] at this
        exact Phase.noConfusion this
      rw [(processOneFinish_frame run st t.url _).1]
      exact ⟨h.1, fun he => absurd he hgrown⟩
    | returned =>
      dsimp only
      apply startTasks_progress
      refine ⟨h.1, fun he => ⟨(h.2 he).1, ?_⟩⟩
      intro t' ht'
      exact (h.2 he).2 t' (List.mem_of_mem_eraseIdx ht')

theorem poolLoop_progress (run : Run) (limit fuel : Nat) (sched : List Nat) (s1 : CrawlState)
    (st : CrawlState) (pending : List Str) (active : List Task)
    (h : s1.visited.length ≤ st.visited.length ∧
      (st.visited.length = s1.visited.length →
        st.toVisit = s1.toVisit ∧ ∀ t ∈ active, t.phase = Phase.returned))
    {st' : CrawlState} {sched' : List Nat}
    (hrun : poolLoop run limit fuel sched (st, pending, active) = some (st', sched')) :
    s1.visited.length ≤ st'.visited.length ∧
      (st'.visited.length = s1.visited.length → st'.toVisit = s1.toVisit) := by
  induction fuel generalizing sched st pending active with
  | zero =>
    unfold poolLoop at hrun
    split_ifs at hrun
    simp only [Option.some.injEq, Prod.mk.injEq] at hrun
    rw [← hrun.1]
    exact ⟨h.1, fun he => (h.2 he).1⟩
  | succ fuel ih =>
    unfold poolLoop at hrun
    by_cases hdone : (pending.isEmpty && active.isEmpty) = true
    · rw [if_pos hdone] at hrun
      simp only [Option.some.injEq, Prod.mk.injEq] at hrun
      rw [← hrun.1]
      exact ⟨h.1, fun he => (h.2 he).1⟩
    · rw [if_neg hdone] at hrun
      dsimp only at hrun
      split_ifs at hrun
      have hadv := advanceTask_progress run limit (sched.headD 0 % active.length) s1 st pending
        active h
      cases hc : advanceTask run limit (sched.headD 0 % active.length) (st, pending, active) with
      | mk st2 rest =>
        obtain ⟨pending2, active2⟩ := rest
        rw [hc] at hrun hadv
        exact ih _ _ _ _ hadv hrun

theorem foldl_setDelete_sublist (batch tv : List Str) :
    (batch.foldl setDelete tv).Sublist tv := by
  induction batch generalizing tv with
  | nil => exact List.Sublist.refl _
  | cons x r ih =>
    rw [List.foldl_cons]
    exact (ih _).trans (List.filter_sublist _)

theorem foldl_setDelete_not_mem (batch tv : List Str) (x : Str) (hx : x ∈ batch) :
    x ∉ batch.foldl setDelete tv := by
  induction batch generalizing tv with
  | nil => simp at hx
  | cons y r ih =>
    rw [List.foldl_cons]
    rcases List.mem_cons.1 hx with rfl | hx
    · intro hm
      have := (foldl_setDelete_sublist r (setDelete tv x)).subset hm
      simp [setDelete] at this
    · exact ih _ hx

/-- Taking a non-empty batch out of the frontier makes the frontier shorter. -/
theorem foldl_setDelete_length (tv : List Str) (n : Nat) (hn : 1 ≤ n) (htv : tv ≠ []) :
    ((tv.take n).foldl setDelete tv).length < tv.length := by
  cases tv with
  | nil => exact absurd rfl htv
  | cons x l =>
    have hx : x ∈ (x :: l).take n := by
      cases n with
      | zero => omega
      | succ n => simp
    have hsub := foldl_setDelete_sublist ((x :: l).take n) (x :: l)
    have hnot := foldl_setDelete_not_mem ((x :: l).take n) (x :: l) x hx
    rcases Nat.lt_or_ge (((x :: l).take n).foldl setDelete (x :: l)).length (x :: l).length
      with h | h
    · exact h
    · have := hsub.eq_of_length_le h
      rw [this] at hnot
      exact absurd (List.mem_cons_self _ _) hnot

/-- One iteration of the frontier loop: `visited` grows, or it stays and the frontier
shrinks. -/
theorem batch_progress (run : Run) (hc : 1 ≤ run.options.concurrency) (sched : List Nat)
    (st : CrawlState) (htv : st.toVisit ≠ []) {st2 : CrawlState} {sched2 : List Nat}
    (hrun : concurrencyMap run (st.toVisit.take (run.options.concurrency * 2))
      run.options.concurrency sched
      { st with toVisit :=
          (st.toVisit.take (run.options.concurrency * 2)).foldl setDelete st.toVisit } =
        some (st2, sched2)) :
    st.visited.length < st2.visited.length ∨
      (st2.visited.length = st.visited.length ∧ st2.toVisit.length < st.toVisit.length) := by
  unfold concurrencyMap at hrun
  have hstart := startTasks_progress run run.options.concurrency
    { st with toVisit :=
        (st.toVisit.take (run.options.concurrency * 2)).foldl setDelete st.toVisit }
    (st.toVisit.take (run.options.concurrency * 2))
    { st with toVisit :=
        (st.toVisit.take (run.options.concurrency * 2)).foldl setDelete st.toVisit } []
    ⟨le_refl _, fun _ => ⟨rfl, by simp⟩⟩
  cases hs : startTasks run run.options.concurrency (st.toVisit.take (run.options.concurrency * 2))
      { st with toVisit :=
          (st.toVisit.take (run.options.concurrency * 2)).foldl setDelete st.toVisit } [] with
  | mk st' rest =>
    obtain ⟨pending', active'⟩ := rest
    rw [hs] at hrun hstart
    obtain ⟨h1, h2⟩ := poolLoop_progress run _ _ _ _ st' pending' active' hstart hrun
    dsimp only at h1 h2
    rcases Nat.lt_or_ge st.visited.length st2.visited.length with h | h
    · exact Or.inl h
    · right
      have he : st2.visited.length = st.visited.length := by omega
      refine ⟨he, ?_⟩
      rw [h2 he]
      exact foldl_setDelete_length _ _ (by omega) htv

end SiteCrawler
namespace SiteCrawler

open URL

/-! ## `normalizeUrl` on well-formed records -/

theorem pathParts_of_no_slash (seg : Str) (h : '/' ∉ seg) :
    pathParts seg = if seg = [] then [] else [seg] := by
  by_cases he : seg = []
  · subst he
    simp [pathParts_nil]
  · rw [if_neg he]
    exact pathParts_of_segment seg he h

/-- A segment that `canonicalizePathname` keeps of a well-formed path is well formed. -/
theorem canonical_segOk {p : Str} (hp : PathOk p) :
    ∀ s ∈ (pathParts p).foldl canonStep [], SegOk s := by
  obtain ⟨segs, -, hseg, rfl⟩ := hp
  intro s hs
  rcases foldl_canonStep_mem _ _ s hs with h | h
  · simp at h
  · rw [pathParts_cons_slash, pathParts_join, List.mem_flatMap] at h
    obtain ⟨seg, hseg', hs'⟩ := h
    rw [pathParts_of_no_slash seg (hseg seg hseg').1] at hs'
    split_ifs at hs'
    · simp at hs'
    · simp at hs'
      rw [hs']
      exact hseg seg hseg'

/-- The canonical form of a well-formed path is a well-formed path. -/
theorem canonical_pathOk {p : Str} (hp : PathOk p) : PathOk (canonicalizePathname p) := by
  by_cases hc : (pathParts p).foldl canonStep [] = []
  · refine ⟨[[]], by simp, ?_, ?_⟩
    · intro s hs
      simp at hs
      rw [hs]
      exact segOk_nil
    · unfold canonicalizePathname
      rw [hc]
      rfl
  · exact ⟨_, hc, canonical_segOk hp, rfl⟩

/-- The `pathname` setter stores a canonical path as it is. -/
theorem setPathname_canonical {u : URL} (hp : PathOk u.pathname) :
    (u.setPathname modelPlatform (canonicalizePathname u.pathname)).pathname =
      canonicalizePathname u.pathname :=
  parsePath_of_pathOk (canonical_pathOk hp)

theorem resolveUrl_valid {x : Str} {b : Option Str} {u : URL}
    (h : resolveUrl modelPlatform x b = some u)
    (hproto : (["http:".toList, "https:".toList].contains u.protocol) = true) : Valid u := by
  unfold resolveUrl at h
  cases b with
  | none => exact parseAbsolute_valid h hproto
  | some base =>
    simp only at h
    split_ifs at h
    · exact parseWithBase_valid h hproto
    · exact parseAbsolute_valid h hproto

theorem normalizedRecord_valid (o : Options) {u : URL} (h : Valid u) :
    Valid (normalizedRecord o u) := by
  refine ⟨h.scheme, h.host, canonical_pathOk h.path, ?_, ?_, h.nocred⟩
  · intro q hq
    simp only [normalizedRecord] at hq
    split_ifs at hq
    · exact h.query q hq
    · simp at hq
  · intro f hf
    simp only [normalizedRecord] at hf
    split_ifs at hf
    · simp at hf
    · exact h.fragment f hf

/-- `normalizeUrl` in one formula, whatever the platform. -/
theorem normalizeUrl_eq_object (pf : Platform) (x : Str) (b : Option Str) (o : Options) :
    normalizeUrl pf x b o =
      match resolveUrl pf x b with
      | none => none
      | some u =>
        if !(["http:".toList, "https:".toList].contains u.protocol) then none
        else if hasExcessiveRepeatedSegments (normalizedObject pf o u).pathname 2 then none
        else some (stripOneTrailingSlash (normalizedObject pf o u).href) := by
  unfold normalizeUrl
  cases hr : resolveUrl pf x b with
  | none => rfl
  | some u => rfl

/-- The assignments of `normalizeUrl` leave protocol, credentials and host as they are. -/
theorem normalizedObject_frame (pf : Platform) (o : Options) (u : URL) :
    (normalizedObject pf o u).protocol = u.protocol ∧
      (normalizedObject pf o u).username = u.username ∧
      (normalizedObject pf o u).password = u.password ∧
      (normalizedObject pf o u).host = u.host ∧
      (normalizedObject pf o u).pathname = pf.parsePath (canonicalizePathname u.pathname) ∧
      (normalizedObject pf o u).query = (if o.includeQuery then u.query else none) ∧
      (normalizedObject pf o u).fragment = (if o.ignoreHash then none else u.fragment) := by
  cases hq : o.includeQuery <;> cases hh : o.ignoreHash <;>
    simp [normalizedObject, setPathname, clearSearch, clearHash, hq, hh]

/-- On the fragment, the object `normalizeUrl` serialises is `normalizedRecord`. -/
theorem normalize_record (o : Options) {u : URL} (h : Valid u) :
    normalizedObject modelPlatform o u = normalizedRecord o u := by
  have hp : modelPlatform.parsePath (canonicalizePathname u.pathname) =
      canonicalizePathname u.pathname := parsePath_of_pathOk (canonical_pathOk h.path)
  obtain ⟨h1, h2, h3, h4, h5, h6, h7⟩ := normalizedObject_frame modelPlatform o u
  cases hn : normalizedObject modelPlatform o u with
  | mk p un pw ho pa q f =>
    rw [hn] at h1 h2 h3 h4 h5 h6 h7
    simp only at h1 h2 h3 h4 h5 h6 h7
    subst h1 h2 h3 h4 h5 h6 h7
    unfold normalizedRecord
    rw [hp]

/-- `normalizeUrl` in one formula. -/
theorem normalizeUrl_eq (x : Str) (b : Option Str) (o : Options) :
    normalizeUrl modelPlatform x b o =
      match resolveUrl modelPlatform x b with
      | none => none
      | some u =>
        if !(["http:".toList, "https:".toList].contains u.protocol) then none
        else if hasExcessiveRepeatedSegments (canonicalizePathname u.pathname) 2 then none
        else some (stripOneTrailingSlash (normalizedRecord o u).href) := by
  rw [normalizeUrl_eq_object]
  cases hr : resolveUrl modelPlatform x b with
  | none => rfl
  | some u =>
    simp only
    by_cases hproto : (["http:".toList, "https:".toList].contains u.protocol) = true
    · have hv := resolveUrl_valid hr hproto
      simp only [hproto, Bool.not_true, Bool.false_eq_true, if_false]
      rw [normalize_record o hv]
      rfl
    · have hproto' : (["http:".toList, "https:".toList].contains u.protocol) = false := by
        simpa using hproto
      simp only [hproto', Bool.not_false, if_true]

end SiteCrawler
namespace SiteCrawler

open URL

/-! ## The string `normalizeUrl` returns parses again -/

theorem stripOneTrailingSlash_of_not_endsWith (s : Str) (h : endsWith s ['/'] = false) :
    stripOneTrailingSlash s = s := by
  simp [stripOneTrailingSlash, h]

theorem stripOneTrailingSlash_append_slash (s : Str) :
    stripOneTrailingSlash (s ++ ['/']) = s := by
  have : endsWith (s ++ ['/']) ['/'] = true := by
    rw [endsWith_slash_iff]
    simp
  simp [stripOneTrailingSlash, this, dropLastChar]

theorem endsWith_append_of_ne_nil (a b : Str) (hb : b ≠ []) :
    endsWith (a ++ b) ['/'] = endsWith b ['/'] := by
  rw [Bool.eq_iff_iff, endsWith_slash_iff, endsWith_slash_iff, List.getLast?_append]
  cases hl : b.getLast? with
  | none => exact absurd (List.getLast?_eq_none_iff.1 hl) hb
  | some c => simp

/-- A string that ends with a slash, as its last character taken apart. -/
theorem eq_append_slash_of_endsWith (s : Str) (h : endsWith s ['/'] = true) :
    ∃ t, s = t ++ ['/'] := by
  rw [endsWith_slash_iff] at h
  rcases List.eq_nil_or_concat s with rfl | ⟨t, c, rfl⟩
  · simp at h
  · simp at h
    subst h
    exact ⟨t, by simp⟩

theorem href_some_fragment (up uh upath : Str) (uq : Option Str) (f : Str) :
    (URL.mk up [] [] uh upath uq (some f)).href = (URL.mk up [] [] uh upath uq none).href ++ '#' :: f := by
  cases uq <;> simp [href, credentials]

theorem href_some_query (up uh upath q : Str) :
    (URL.mk up [] [] uh upath (some q) none).href =
      (URL.mk up [] [] uh upath none none).href ++ '?' :: q := by
  simp [href, credentials]

/-- The record that the stripped serialisation of `u` parses to, when `u` is well formed and its
path is canonical: `u` itself, or `u` with the closing slash of its last component cut. -/
theorem strip_href_parse {u : URL} (h : Valid u)
    (hcanon : ∃ cs, Segments cs ∧ u.pathname = '/' :: join ['/'] cs) :
    ∃ u', parseAbsolute (stripOneTrailingSlash u.href) = some u' ∧ Valid u' ∧
      u'.protocol = u.protocol ∧ u'.host = u.host ∧ u'.pathname = u.pathname ∧
      (u.query = none → u'.query = none) ∧ (u.fragment = none → u'.fragment = none) ∧
      (stripOneTrailingSlash u.href = u'.href ∨
        stripOneTrailingSlash u.href ++ ['/'] = u'.href) := by
  by_cases hend : endsWith u.href ['/'] = true
  swap
  · simp only [Bool.not_eq_true] at hend
    rw [stripOneTrailingSlash_of_not_endsWith _ hend]
    exact ⟨u, parseAbsolute_href h, h, rfl, rfl, rfl, id, id, Or.inl rfl⟩
  obtain ⟨up, un, pw, uh, upath, uq, uf⟩ := u
  have hun : un = [] := h.nocred.1
  have hpw : pw = [] := h.nocred.2
  subst hun hpw
  simp only at hcanon
  cases uf with
  | some f =>
    -- the fragment is last
    rw [href_some_fragment, endsWith_append_of_ne_nil _ _ (by simp)] at hend
    obtain ⟨t, ht⟩ := eq_append_slash_of_endsWith _ hend
    cases t with
    | nil => simp at ht
    | cons c f' =>
      simp only [List.cons_append, List.cons.injEq] at ht
      obtain ⟨-, rfl⟩ := ht
      have hv : Valid (URL.mk up [] [] uh upath uq (some f')) :=
        ⟨h.scheme, h.host, h.path, h.query, by
          intro g hg d hd
          simp only [Option.mem_def, Option.some.injEq] at hg
          subst hg
          exact h.fragment _ rfl d (by simp [hd]), h.nocred⟩
      have e2 : (URL.mk up [] [] uh upath uq (some (f' ++ ['/']))).href =
          (URL.mk up [] [] uh upath uq (some f')).href ++ ['/'] := by
        rw [href_some_fragment, href_some_fragment]
        simp [List.append_assoc]
      rw [e2, stripOneTrailingSlash_append_slash]
      exact ⟨_, parseAbsolute_href hv, hv, rfl, rfl, rfl, id, by simp, Or.inl rfl⟩
  | none =>
    cases uq with
    | some q =>
      rw [href_some_query, endsWith_append_of_ne_nil _ _ (by simp)] at hend
      obtain ⟨t, ht⟩ := eq_append_slash_of_endsWith _ hend
      cases t with
      | nil => simp at ht
      | cons c q' =>
        simp only [List.cons_append, List.cons.injEq] at ht
        obtain ⟨-, rfl⟩ := ht
        have hv : Valid (URL.mk up [] [] uh upath (some q') none) :=
          ⟨h.scheme, h.host, h.path, by
            intro g hg d hd
            simp only [Option.mem_def, Option.some.injEq] at hg
            subst hg
            exact h.query _ rfl d (by simp [hd]), h.fragment, h.nocred⟩
        have e2 : (URL.mk up [] [] uh upath (some (q' ++ ['/'])) none).href =
            (URL.mk up [] [] uh upath (some q') none).href ++ ['/'] := by
          rw [href_some_query, href_some_query]
          simp [List.append_assoc]
        rw [e2, stripOneTrailingSlash_append_slash]
        exact ⟨_, parseAbsolute_href hv, hv, rfl, rfl, rfl, by simp, id, Or.inl rfl⟩
    | none =>
      -- nothing follows the path: the path is the root
      obtain ⟨cs, hcs, hpath⟩ := hcanon
      have e : (URL.mk up [] [] uh upath none none).href = (up ++ ['/', '/'] ++ uh) ++ upath := by
        simp [href, credentials]
      have hpne : upath ≠ [] := by rw [hpath]; simp
      rw [e, endsWith_append_of_ne_nil _ _ hpne] at hend
      have hnil : cs = [] := by
        by_contra hne
        rw [hpath, not_endsWith_slash_join hne hcs] at hend
        exact Bool.noConfusion hend
      subst hnil
      have hroot : upath = ['/'] := by rw [hpath]; rfl
      subst hroot
      have e3 : up ++ ['/', '/'] ++ uh ++ ['/'] = (up ++ ['/', '/'] ++ uh) ++ ['/'] := rfl
      rw [e, stripOneTrailingSlash_append_slash]
      have hp := parseAbsolute_roundtrip h [] (Or.inr ⟨rfl, rfl, rfl⟩)
      simp only [tailString, List.append_nil] at hp
      exact ⟨_, hp, h, rfl, rfl, rfl, id, id, Or.inr (by simp [href, credentials])⟩

theorem normalizedRecord_canonical (o : Options) (u : URL) :
    ∃ cs, Segments cs ∧ (normalizedRecord o u).pathname = '/' :: join ['/'] cs :=
  ⟨_, (canonical_parts u.pathname).1, rfl⟩

/-- Normalising again a string `normalizeUrl` returned gives the same string, provided the string
does not end with a slash. -/
theorem normalizeUrl_idempotent_of_no_slash (x : Str) (b : Option Str) (o : Options) (s : Str)
    (h : normalizeUrl modelPlatform x b o = some s) (hs : endsWith s ['/'] = false) :
    normalizeUrl modelPlatform s none o = some s := by
  rw [normalizeUrl_eq] at h
  cases hr : resolveUrl modelPlatform x b with
  | none => simp [hr] at h
  | some u =>
    simp only [hr] at h
    by_cases hproto : (["http:".toList, "https:".toList].contains u.protocol) = true
    swap
    · have hproto' : (["http:".toList, "https:".toList].contains u.protocol) = false := by
        simpa using hproto
      simp only [hproto', Bool.not_false, if_true] at h
      exact Option.noConfusion h
    simp only [hproto, Bool.not_true, Bool.false_eq_true, if_false] at h
    by_cases hex : hasExcessiveRepeatedSegments (canonicalizePathname u.pathname) 2 = true
    · simp [hex] at h
    simp only [hex, Bool.false_eq_true, if_false, Option.some.injEq] at h
    have hv := normalizedRecord_valid o (resolveUrl_valid hr hproto)
    obtain ⟨u', hp, hv', h1, h2, h3, h4, h5, h6⟩ :=
      strip_href_parse hv (normalizedRecord_canonical o u)
    rw [h] at hp h6
    have hnorm : normalizedRecord o u' = u' := by
      obtain ⟨p', un', pw', ho', pa', q', f'⟩ := u'
      simp only at h3 h4 h5
      simp only [normalizedRecord, URL.mk.injEq, true_and]
      refine ⟨?_, ?_, ?_⟩
      · rw [h3]
        exact canonicalizePathname_idem _
      · cases hq : o.includeQuery with
        | true => simp
        | false =>
          simp only [Bool.false_eq_true, if_false]
          exact (h4 (by simp [normalizedRecord, hq])).symm
      · cases hh : o.ignoreHash with
        | false => simp
        | true =>
          simp only [if_true]
          exact (h5 (by simp [normalizedRecord, hh])).symm
    rw [normalizeUrl_eq]
    have hr' : resolveUrl modelPlatform s none = some u' := hp
    simp only [hr', valid_protocol hv', Bool.not_true, Bool.false_eq_true, if_false]
    have hex' : hasExcessiveRepeatedSegments (canonicalizePathname u'.pathname) 2 = false := by
      rw [h3]
      simp only [normalizedRecord]
      rw [canonicalizePathname_idem]
      simpa using hex
    simp only [hex', Bool.false_eq_true, if_false, hnorm, Option.some.injEq]
    rcases h6 with h6 | h6
    · rw [← h6]
      exact stripOneTrailingSlash_of_not_endsWith s hs
    · rw [← h6]
      exact stripOneTrailingSlash_append_slash s

end SiteCrawler
namespace SiteCrawler

/-- C1, the code at the failing input: with the default options (the query is kept),
`normalizeUrl("https://s/a?q=//")` is `https://s/a?q=/`, and normalising that string again gives
`https://s/a?q=`, a different string.  The closing slash that `normalizeUrl` cuts from the
serialised URL belongs to the query here, not to the path, so normalisation is not idempotent. -/
theorem normalizeUrl_not_idempotent :
    normalizeUrl modelPlatform "https://s/a?q=//".toList none DEFAULTS =
        some "https://s/a?q=/".toList ∧
      normalizeUrl modelPlatform "https://s/a?q=/".toList none DEFAULTS =
        some "https://s/a?q=".toList ∧
      normalizeUrl modelPlatform "https://s/a?q=/".toList none DEFAULTS ≠
        some "https://s/a?q=/".toList := by
  decide

end SiteCrawler
namespace SiteCrawler

/-- The state of the ledger after the candidates `done` have been processed, when `R` with cap
`m` is the first matching rule of each. -/
theorem budget_invariant_step (run : Run) (R : Rule) (m : Nat) (hm : R.maxPages.isNat m)
    (hpos : 1 ≤ m) (done : List Str) (u : Str) (st : CrawlState)
    (hu : u ∉ done) (hscope : inStartScope run u = true)
    (hfirst : firstMatchingRule run.env.platform run.options.pathLimits u = some R)
    (hinv : st.visited = done.take m ∧ st.blockedByPathLimit = done.drop m ∧
      (mapGet st.pathLimitCounters (ruleKey R)).getD 0 = min done.length m ∧
      (mapGet st.pathLimitSkipped R.path).getD 0 = done.length - m) :
    (processOne run st u).visited = (done ++ [u]).take m ∧
      (processOne run st u).blockedByPathLimit = (done ++ [u]).drop m ∧
      (mapGet (processOne run st u).pathLimitCounters (ruleKey R)).getD 0 =
        min (done ++ [u]).length m ∧
      (mapGet (processOne run st u).pathLimitSkipped R.path).getD 0 = (done ++ [u]).length - m := by
  obtain ⟨h1, h2, h3, h4⟩ := hinv
  have hv : u ∉ st.visited := fun h => hu (List.mem_of_mem_take (h1 ▸ h))
  have hb : u ∉ st.blockedByPathLimit := fun h => hu (List.mem_of_mem_drop (h2 ▸ h))
  obtain ⟨hpass, hblock⟩ := processOne_budget run st u R m hm hpos hv hb hscope hfirst
  rw [h3] at hpass hblock
  by_cases hlt : done.length < m
  · obtain ⟨a1, a2, a3, a4⟩ := hpass (by omega)
    refine ⟨?_, ?_, ?_, ?_⟩
    · rw [a1, h1, List.take_of_length_le (by omega),
        List.take_of_length_le (by simp; omega)]
    · rw [a2, h2, List.drop_of_length_le (by omega),
        List.drop_of_length_le (by simp; omega)]
    · rw [a3]
      simp
      omega
    · rw [a4, h4]
      simp
      omega
  · obtain ⟨b1, b2, b3, b4⟩ := hblock (by omega)
    refine ⟨?_, ?_, ?_, ?_⟩
    · rw [b1, h1, List.take_append_of_le_length (by omega)]
    · rw [b2, h2, List.drop_append_of_le_length (by omega)]
    · rw [b3, h3]
      simp
      omega
    · rw [b4, h4]
      simp
      omega

/-- C2 (path-budget enforcement): start from the fresh state of a run whose rule list is a
sanitised list, and let `R`, with the whole-number cap `m`, be the first matching rule of each of
the distinct in-scope URLs `urls`.  Processing them one after another, in the order of the list
(any order), leaves exactly the first `min(k, m)` of them in `visited` and the other
`k - min(k, m)` in `blockedByPathLimit`, and `skippedByPathLimit[R.path]` is `k - min(k, m)`
(read as 0 when the entry is absent). -/
theorem path_budget_enforcement (run : Run) (raw : List RawRule) (R : Rule) (m : Nat)
    (urls : List Str)
    (hrules : run.options.pathLimits = sanitizePathLimits raw)
    (hm : R.maxPages.isNat m) (hnodup : urls.Nodup)
    (hscope : ∀ u ∈ urls, inStartScope run u = true)
    (hfirst : ∀ u ∈ urls, firstMatchingRule run.env.platform run.options.pathLimits u = some R) :
    (urls.foldl (processOne run) CrawlState.fresh).visited = urls.take (min urls.length m) ∧
      (urls.foldl (processOne run) CrawlState.fresh).blockedByPathLimit =
        urls.drop (min urls.length m) ∧
      (urls.foldl (processOne run) CrawlState.fresh).visited.length = min urls.length m ∧
      (urls.foldl (processOne run) CrawlState.fresh).blockedByPathLimit.length =
        urls.length - min urls.length m ∧
      (mapGet (urls.foldl (processOne run) CrawlState.fresh).pathLimitSkipped R.path).getD 0 =
        urls.length - min urls.length m := by
  have key : ∀ (rest done : List Str) (st : CrawlState), (done ++ rest).Nodup →
      (∀ u ∈ rest, inStartScope run u = true) →
      (∀ u ∈ rest, firstMatchingRule run.env.platform run.options.pathLimits u = some R) →
      (st.visited = done.take m ∧ st.blockedByPathLimit = done.drop m ∧
        (mapGet st.pathLimitCounters (ruleKey R)).getD 0 = min done.length m ∧
        (mapGet st.pathLimitSkipped R.path).getD 0 = done.length - m) →
      ((rest.foldl (processOne run) st).visited = (done ++ rest).take m ∧
        (rest.foldl (processOne run) st).blockedByPathLimit = (done ++ rest).drop m ∧
        (mapGet (rest.foldl (processOne run) st).pathLimitCounters (ruleKey R)).getD 0 =
          min (done ++ rest).length m ∧
        (mapGet (rest.foldl (processOne run) st).pathLimitSkipped R.path).getD 0 =
          (done ++ rest).length - m) := by
    intro rest
    induction rest with
    | nil => intro done st _ _ _ hinv; simpa using hinv
    | cons u rest ih =>
      intro done st hnd hsc hfi hinv
      have hR : R ∈ sanitizePathLimits raw := by
        rw [← hrules]
        exact List.mem_of_find?_eq_some (hfi u (by simp))
      have hpos := sanitize_isNat_pos raw hR hm
      have hu : u ∉ done := by
        intro h
        have := (List.nodup_append.1 hnd).2.2
        exact this h (by simp)
      have e : done ++ u :: rest = (done ++ [u]) ++ rest := by simp
      rw [List.foldl_cons, e]
      apply ih (done ++ [u]) _ (by rw [← e]; exact hnd)
        (fun x hx => hsc x (by simp [hx])) (fun x hx => hfi x (by simp [hx]))
      exact budget_invariant_step run R m hm hpos done u st hu (hsc u (by simp))
        (hfi u (by simp)) hinv
  have h := key urls [] CrawlState.fresh (by simpa using hnodup) hscope hfirst
    ⟨by simp [CrawlState.fresh], by simp [CrawlState.fresh], by simp [CrawlState.fresh, mapGet],
      by simp [CrawlState.fresh, mapGet]⟩
  simp only [List.nil_append] at h
  obtain ⟨h1, h2, -, h4⟩ := h
  have e1 : urls.take (min urls.length m) = urls.take m := by
    rcases Nat.le_total urls.length m with hle | hle
    · rw [Nat.min_eq_left hle, List.take_of_length_le hle, List.take_of_length_le (le_refl _)]
    · rw [Nat.min_eq_right hle]
  have e2 : urls.drop (min urls.length m) = urls.drop m := by
    rcases Nat.le_total urls.length m with hle | hle
    · rw [Nat.min_eq_left hle, List.drop_of_length_le hle, List.drop_of_length_le (le_refl _)]
    · rw [Nat.min_eq_right hle]
  refine ⟨by rw [h1, e1], by rw [h2, e2], ?_, ?_, ?_⟩
  · rw [h1, List.length_take]
    omega
  · rw [h2, List.length_drop]
    omega
  · rw [h4]
    omega

/-- C2 on the rule `{path: "/job", maxPages: 5}` and twenty pages under `/job` and `/en/job`:
five are admitted, fifteen are blocked and counted under `/job`. -/
theorem path_budget_enforcement_witness :
    (jobUrls.foldl (processOne jobRun) CrawlState.fresh).visited =
        jobUrls.take (min jobUrls.length 5) ∧
      (jobUrls.foldl (processOne jobRun) CrawlState.fresh).blockedByPathLimit =
        jobUrls.drop (min jobUrls.length 5) ∧
      (jobUrls.foldl (processOne jobRun) CrawlState.fresh).visited.length =
        min jobUrls.length 5 ∧
      (jobUrls.foldl (processOne jobRun) CrawlState.fresh).blockedByPathLimit.length =
        jobUrls.length - min jobUrls.length 5 ∧
      (mapGet (jobUrls.foldl (processOne jobRun) CrawlState.fresh).pathLimitSkipped
          jobRule.path).getD 0 = jobUrls.length - min jobUrls.length 5 :=
  path_budget_enforcement jobRun [jobRawRule] jobRule 5 jobUrls rfl
    (by simp [JsNumber.isNat, jobRule, JsNumber.ofNat]) (by decide) (by decide) (by decide)

end SiteCrawler
namespace SiteCrawler

/-- C3, the code departs from the claim.  With the nested rules `/job` (one page) and `/job/eng`
(five pages), a crawl of a home page that links to `/job/eng/1` and `/job/eng/2` admits both
pages, because each is charged to its first matching rule `/job/eng` only; both lie under `/job`,
whose cap is 1.  With the rules `/job` (one page) and `/job/` (five pages) the sanitised list
keeps both, the longer spelling first, and the same crawl admits both pages again: they are
charged to `/job/`, and the cap 1 of `/job` is never looked at. -/
theorem nested_rule_bound_exceeded :
    ({ path := "/job".toList, maxPages := JsNumber.ofNat 1 } : Rule) ∈ nestedOptions.pathLimits ∧
      (crawl nestedSite "https://s/".toList nestedOptions [] 10).state?.map
          (fun st => (st.visited.filter (fun u => matchesPathLimit (ledgerPath modelPlatform u)
            (ruleKey { path := "/job".toList, maxPages := JsNumber.ofNat 1 }))).length) =
        some 2 ∧
      slashOptions.pathLimits =
        [{ path := "/job/".toList, maxPages := JsNumber.ofNat 5 },
          { path := "/job".toList, maxPages := JsNumber.ofNat 1 }] ∧
      (crawl nestedSite "https://s/".toList slashOptions [] 10).state?.map
          (fun st => (st.visited.filter (fun u => matchesPathLimit (ledgerPath modelPlatform u)
            (ruleKey { path := "/job".toList, maxPages := JsNumber.ofNat 1 }))).length) =
        some 2 := by
  decide!

end SiteCrawler
namespace SiteCrawler

/-- C4, the code at the failing input: a crawl with `maxPages = 4` and `concurrency = 1` of a
site whose home page links to `/b`, `/c`, `/d` and whose page `/b` links to `/e`, `/f` ends with
five URLs in `visited`.  The batch taken out of the frontier is counted neither by the loop
guard nor by the enqueue bound. -/
theorem budget_overshoot :
    overshootOptions.maxPages = 4 ∧ overshootOptions.concurrency = 1 ∧
      (crawl overshootSite "https://s/".toList overshootOptions [] 10).state?.map
          (fun st => st.visited) =
        some (["https://s", "https://s/b", "https://s/c", "https://s/d", "https://s/e"].map
          String.toList) := by
  decide!

end SiteCrawler
namespace SiteCrawler

/-- The frontier loop of a run with `concurrency ≥ 1` ends from every state, by induction on the
room left in the budget and, within it, on the size of the frontier. -/
theorem frontierLoop_ends (run : Run) (hc : 1 ≤ run.options.concurrency) :
    ∀ (a b : Nat) (sched : List Nat) (st : CrawlState),
      run.options.maxPages - st.visited.length = a → st.toVisit.length = b →
      ∃ fuel st', frontierLoop run fuel sched st = some st' ∧
        (st'.toVisit = [] ∨ run.options.maxPages ≤ st'.visited.length) := by
  intro a
  induction a using Nat.strong_induction_on with
  | _ a iha =>
    intro b
    induction b using Nat.strong_induction_on with
    | _ b ihb =>
      intro sched st ha hb
      by_cases hgo : (decide (st.toVisit.length > 0) &&
          decide (st.visited.length < run.options.maxPages)) = true
      · have hgo' := hgo
        simp only [Bool.and_eq_true, decide_eq_true_eq] at hgo'
        have htv : st.toVisit ≠ [] := List.length_pos.1 hgo'.1
        obtain ⟨⟨st2, sched2⟩, hcm⟩ := concurrencyMap_completes run
          (st.toVisit.take (run.options.concurrency * 2)) run.options.concurrency hc sched
          { st with toVisit :=
              (st.toVisit.take (run.options.concurrency * 2)).foldl setDelete st.toVisit }
        have hstep : ∀ fuel st', frontierLoop run fuel sched2 st2 = some st' →
            frontierLoop run (fuel + 1) sched st = some st' := by
          intro fuel st' hf
          rw [frontierLoop, if_pos hgo]
          simp only [hcm, hf]
        rcases batch_progress run hc sched st htv hcm with h | ⟨h1, h2⟩
        · obtain ⟨fuel, st', hf, hend⟩ :=
            iha (run.options.maxPages - st2.visited.length) (by omega) _ sched2 st2 rfl rfl
          exact ⟨fuel + 1, st', hstep fuel st' hf, hend⟩
        · have ha2 : run.options.maxPages - st2.visited.length = a := by rw [h1]; exact ha
          obtain ⟨fuel, st', hf, hend⟩ :=
            ihb st2.toVisit.length (by omega) sched2 st2 ha2 rfl
          exact ⟨fuel + 1, st', hstep fuel st' hf, hend⟩
      · refine ⟨0, st, by rw [frontierLoop, if_neg hgo], ?_⟩
        simp only [Bool.and_eq_true, decide_eq_true_eq, not_and, not_lt] at hgo
        by_cases htv : st.toVisit = []
        · exact Or.inl htv
        · exact Or.inr (hgo (List.length_pos.2 htv))

/-- C5 (termination): whatever the options with `concurrency ≥ 1` and a finite `maxPages`, the
site, the sitemap and the order in which the fetches complete, the loop
`while (toVisit.size > 0 && visited.size < maxPages)` ends after finitely many iterations from
every state, with an empty frontier or a used-up budget; and so the handler never runs on for
ever: some number of iterations is enough for it to answer. -/
theorem frontier_loop_terminates (env : Env) (url : Str) (options : Options)
    (sched : List Nat) (hc : 1 ≤ options.concurrency) :
    (∀ (run : Run) (st : CrawlState), run.options = options →
      ∃ fuel st', frontierLoop run fuel sched st = some st' ∧
        (st'.toVisit = [] ∨ options.maxPages ≤ st'.visited.length)) ∧
      ∃ fuel, crawl env url options sched fuel ≠ CrawlOutcome.outOfFuel := by
  have hloop : ∀ (run : Run) (st : CrawlState), run.options = options →
      ∃ fuel st', frontierLoop run fuel sched st = some st' ∧
        (st'.toVisit = [] ∨ options.maxPages ≤ st'.visited.length) := by
    intro run st hro
    subst hro
    exact frontierLoop_ends run hc _ _ sched st rfl rfl
  refine ⟨hloop, ?_⟩
  unfold crawl
  cases hroot : env.platform.parseUrl url none with
  | none => exact ⟨0, by simp⟩
  | some root =>
    cases hstart : normalizeUrl env.platform url none options with
    | none => exact ⟨0, by simp⟩
    | some s =>
      by_cases hs : s.isEmpty = true
      · exact ⟨0, by simp [hs]⟩
      · obtain ⟨fuel, st', hf, -⟩ := hloop
          { env := env, options := options, rootHost := root.host,
            startPathScope := computeStartPathScope env.platform s,
            robots := fetchRobots env (root.protocol ++ ['/', '/'] ++ root.host) }
          { CrawlState.fresh with
            toVisit := seedFrontier env.platform options (computeStartPathScope env.platform s) s
              (fetchSitemapUrls env (root.protocol ++ ['/', '/'] ++ root.host)
                (fetchRobots env (root.protocol ++ ['/', '/'] ++ root.host))) } rfl
        refine ⟨fuel, ?_⟩
        simp only [hs, Bool.false_eq_true, if_false, hf]
        exact fun h => CrawlOutcome.noConfusion h

/-- C5 on the default options (`concurrency = 6`) and a site that answers nothing. -/
theorem frontier_loop_terminates_witness :
    1 ≤ DEFAULTS.concurrency ∧
      ∃ fuel, crawl silentEnv "https://s/".toList DEFAULTS [] fuel ≠ CrawlOutcome.outOfFuel :=
  ⟨by decide, (frontier_loop_terminates silentEnv "https://s/".toList DEFAULTS [] (by decide)).2⟩

end SiteCrawler
namespace SiteCrawler

open URL

/-- C6, the claim as stated fails: the path of `https://s/en/en/en` is made of three adjacent
equal segments, and `normalizeUrl` does not reject it but returns `https://s/en`, because the
locale-style repeats are collapsed before the trap test runs. -/
theorem repeated_segment_trap_counterexample :
    (∃ u, resolveUrl modelPlatform "https://s/en/en/en".toList none = some u ∧
        pathParts u.pathname = ["en".toList, "en".toList, "en".toList]) ∧
      normalizeUrl modelPlatform "https://s/en/en/en".toList none DEFAULTS =
        some "https://s/en".toList :=
  ⟨⟨{ protocol := "https:".toList, host := "s".toList, pathname := "/en/en/en".toList,
      query := none, fragment := none }, by decide, by decide⟩, by decide⟩

/-- C6 as amended: for every reference that resolves to a URL whose path holds three adjacent
equal segments that are not locale-style, `normalizeUrl` returns the rejection value, whatever
the other segments and the options.  The URL class is the model one, or any one whose
`pathname` setter, on an `http` or `https` URL, stores the canonical path of the URL as it
is. -/
theorem repeated_segment_trap (pf : Platform) (x : Str) (b : Option Str) (o : Options) (u : URL)
    (lead trail : List Str) (g : Str) (hr : resolveUrl pf x b = some u)
    (hparts : pathParts u.pathname = lead ++ [g, g, g] ++ trail) (hg : isLang g = false)
    (hclass : pf = modelPlatform ∨
      ((["http:".toList, "https:".toList].contains u.protocol) = true →
        pf.parsePath (canonicalizePathname u.pathname) = canonicalizePathname u.pathname)) :
    normalizeUrl pf x b o = none := by
  have hset : (["http:".toList, "https:".toList].contains u.protocol) = true →
      pf.parsePath (canonicalizePathname u.pathname) = canonicalizePathname u.pathname := by
    intro hproto
    rcases hclass with rfl | h
    · exact parsePath_of_pathOk (canonical_pathOk (resolveUrl_valid hr hproto).path)
    · exact h hproto
  rw [normalizeUrl_eq_object]
  simp only [hr]
  by_cases hproto : (["http:".toList, "https:".toList].contains u.protocol) = true
  swap
  · have hproto' : (["http:".toList, "https:".toList].contains u.protocol) = false := by
      simpa using hproto
    simp only [hproto', Bool.not_false, if_true]
  simp only [hproto, Bool.not_true, Bool.false_eq_true, if_false]
  have hpush : ∀ out, canonStep out g = out ++ [g] := by
    intro out
    apply canonStep_of_noRepeat
    intro prev _
    simp [NoLocaleRepeat, hg]
  have hex : hasExcessiveRepeatedSegments (normalizedObject pf o u).pathname 2 = true := by
    rw [(normalizedObject_frame pf o u).2.2.2.2.1, hset hproto,
      hasExcessiveRepeatedSegments_iff, (canonical_parts u.pathname).2, hparts]
    simp only [List.foldl_append, List.foldl_cons, List.foldl_nil, hpush]
    obtain ⟨t, ht⟩ := foldl_canonStep_extends trail
      (lead.foldl canonStep [] ++ [g] ++ [g] ++ [g])
    rw [← ht]
    refine ⟨(lead.foldl canonStep []).map toLowerCase, toLowerCase g, t.map toLowerCase, ?_⟩
    simp
  simp only [hex, if_true]

/-- C6 as amended, at `https://s/a/a/a/a`. -/
theorem repeated_segment_trap_witness :
    normalizeUrl modelPlatform "https://s/a/a/a/a".toList none DEFAULTS = none :=
  repeated_segment_trap modelPlatform "https://s/a/a/a/a".toList none DEFAULTS
    { protocol := "https:".toList, host := "s".toList, pathname := "/a/a/a/a".toList,
      query := none, fragment := none }
    [] ["a".toList] "a".toList (by decide) (by decide) (by decide) (Or.inl rfl)

end SiteCrawler
namespace SiteCrawler

open URL

/-- C7, for every URL class: `normalizeUrl` returns the rejection value exactly when the
constructor throws on the reference (with the base, or alone when there is none), or the URL it
returns has a scheme that is neither `http` nor `https`, or the path of the URL object after the
assignment of the canonical path holds three segments in a row that are equal ignoring case.
That path is the canonical path when the `pathname` setter stores the canonical path as it is.
Every string `normalizeUrl` returns is the serialisation, less one closing slash, of a URL object
whose scheme is `http` or `https` and whose host is the host of the resolved URL.  On the fragment
of the examples, such a string is an absolute URL that the constructor reads back without a base,
with the scheme `http` or `https`. -/
theorem normalizeUrl_null_iff (pf : Platform) (x : Str) (b : Option Str) (o : Options) :
    (normalizeUrl pf x b o = none ↔
      (resolveUrl pf x b = none ∨
        (∃ u, resolveUrl pf x b = some u ∧
          u.protocol ≠ "http:".toList ∧ u.protocol ≠ "https:".toList) ∨
        (∃ u, resolveUrl pf x b = some u ∧
          HasTriple ((pathParts (normalizedObject pf o u).pathname).map toLowerCase)))) ∧
      (∀ u, resolveUrl pf x b = some u →
        pf.parsePath (canonicalizePathname u.pathname) = canonicalizePathname u.pathname →
        (normalizedObject pf o u).pathname = canonicalizePathname u.pathname) ∧
      (∀ s, normalizeUrl pf x b o = some s →
        ∃ u, resolveUrl pf x b = some u ∧
          (u.protocol = "http:".toList ∨ u.protocol = "https:".toList) ∧
          (normalizedObject pf o u).protocol = u.protocol ∧
          (normalizedObject pf o u).host = u.host ∧
          s = stripOneTrailingSlash (normalizedObject pf o u).href) ∧
      (∀ s, normalizeUrl modelPlatform x b o = some s →
        ∃ u, modelPlatform.parseUrl s none = some u ∧
          (u.protocol = "http:".toList ∨ u.protocol = "https:".toList)) := by
  have hcontains : ∀ p : Str, (["http:".toList, "https:".toList].contains p) = true ↔
      (p = "http:".toList ∨ p = "https:".toList) := by
    intro p
    simp [List.contains_iff_exists_mem_beq]
  refine ⟨?_, ?_, ?_, ?_⟩
  · rw [normalizeUrl_eq_object]
    cases hr : resolveUrl pf x b with
    | none => simp
    | some u =>
      by_cases hproto : (["http:".toList, "https:".toList].contains u.protocol) = true
      swap
      · have hproto' : (["http:".toList, "https:".toList].contains u.protocol) = false := by
          simpa using hproto
        simp only [hproto', Bool.not_false, if_true]
        rw [hcontains] at hproto
        refine ⟨fun _ => Or.inr (Or.inl ⟨u, rfl, ?_⟩), fun _ => trivial⟩
        exact ⟨fun e => hproto (Or.inl e), fun e => hproto (Or.inr e)⟩
      simp only [hproto, Bool.not_true, Bool.false_eq_true, if_false]
      have hp := (hcontains _).1 hproto
      by_cases hex : hasExcessiveRepeatedSegments (normalizedObject pf o u).pathname 2 = true
      · simp only [hex, if_true]
        refine ⟨fun _ => Or.inr (Or.inr ⟨u, rfl, ?_⟩), fun _ => trivial⟩
        exact (hasExcessiveRepeatedSegments_iff _).1 hex
      · have hex' : hasExcessiveRepeatedSegments (normalizedObject pf o u).pathname 2 = false := by
          simpa using hex
        simp only [hex', Bool.false_eq_true, if_false]
        constructor
        · intro h
          exact Option.noConfusion h
        · rintro (h | ⟨v, hv, h1, h2⟩ | ⟨v, hv, h⟩)
          · exact Option.noConfusion h
          · cases hv
            rcases hp with hp | hp
            · exact absurd hp h1
            · exact absurd hp h2
          · cases hv
            exact absurd ((hasExcessiveRepeatedSegments_iff _).2 h) hex
  · intro u _ hset
    rw [(normalizedObject_frame pf o u).2.2.2.2.1, hset]
  · intro s hs
    rw [normalizeUrl_eq_object] at hs
    cases hr : resolveUrl pf x b with
    | none =>
      rw [hr] at hs
      exact Option.noConfusion hs
    | some u =>
      rw [hr] at hs
      simp only at hs
      by_cases hproto : (["http:".toList, "https:".toList].contains u.protocol) = true
      swap
      · have hproto' : (["http:".toList, "https:".toList].contains u.protocol) = false := by
          simpa using hproto
        simp only [hproto', Bool.not_false, if_true] at hs
        exact Option.noConfusion hs
      simp only [hproto, Bool.not_true, Bool.false_eq_true, if_false] at hs
      by_cases hex : hasExcessiveRepeatedSegments (normalizedObject pf o u).pathname 2 = true
      · simp only [hex, if_true] at hs
        exact Option.noConfusion hs
      · have hex' : hasExcessiveRepeatedSegments (normalizedObject pf o u).pathname 2 = false := by
          simpa using hex
        simp only [hex', Bool.false_eq_true, if_false, Option.some.injEq] at hs
        exact ⟨u, rfl, (hcontains _).1 hproto, (normalizedObject_frame pf o u).1,
          (normalizedObject_frame pf o u).2.2.2.1, hs.symm⟩
  · intro s hs
    rw [normalizeUrl_eq] at hs
    cases hr : resolveUrl modelPlatform x b with
    | none =>
      rw [hr] at hs
      exact Option.noConfusion hs
    | some u =>
      rw [hr] at hs
      simp only at hs
      by_cases hproto : (["http:".toList, "https:".toList].contains u.protocol) = true
      swap
      · have hproto' : (["http:".toList, "https:".toList].contains u.protocol) = false := by
          simpa using hproto
        simp only [hproto', Bool.not_false, if_true] at hs
        exact Option.noConfusion hs
      simp only [hproto, Bool.not_true, Bool.false_eq_true, if_false] at hs
      by_cases hex : hasExcessiveRepeatedSegments (canonicalizePathname u.pathname) 2 = true
      · simp only [hex, if_true] at hs
        exact Option.noConfusion hs
      · have hex' : hasExcessiveRepeatedSegments (canonicalizePathname u.pathname) 2 = false := by
          simpa using hex
        simp only [hex', Bool.false_eq_true, if_false, Option.some.injEq] at hs
        have hv := normalizedRecord_valid o (resolveUrl_valid hr hproto)
        obtain ⟨u', hpu, hv', h1, -⟩ := strip_href_parse hv (normalizedRecord_canonical o u)
        rw [hs] at hpu
        refine ⟨u', hpu, ?_⟩
        rw [h1]
        exact (hcontains _).1 hproto

end SiteCrawler
namespace SiteCrawler

/-- C8 (locale-prefix collapse): for all lists of leading and trailing segments and every
locale-style segment `L`, `canonicalizePathname` gives the same result on `lead/L/L/trail` and on
`lead/L/trail`; and, whatever the options, `normalizeUrl("https://s/en/en/page")` and
`normalizeUrl("https://s/en/page")` are the same string `https://s/en/page`. -/
theorem locale_collapse (lead trail : List Str) (L : Str) (hL : isLang L = true) :
    canonicalizePathname ('/' :: join ['/'] (lead ++ [L, L] ++ trail)) =
        canonicalizePathname ('/' :: join ['/'] (lead ++ [L] ++ trail)) ∧
      ∀ options : Options,
        normalizeUrl modelPlatform "https://s/en/en/page".toList none options =
            normalizeUrl modelPlatform "https://s/en/page".toList none options ∧
          normalizeUrl modelPlatform "https://s/en/page".toList none options =
            some "https://s/en/page".toList := by
  constructor
  · rw [canonicalizePathname_join, canonicalizePathname_join]
    simp only [List.flatMap_append, List.flatMap_cons, List.flatMap_nil, List.append_nil,
      pathParts_of_isLang hL, List.foldl_append, List.foldl_cons, List.foldl_nil,
      List.singleton_append, canonStep_twice _ hL]
  · intro options
    rw [normalizeUrl_defaults _ _ options, normalizeUrl_defaults "https://s/en/page".toList]
    cases options.includeQuery <;> cases options.ignoreHash <;> exact ⟨by decide, by decide⟩

/-- C8 at `lead = ["shop"]`, `L = "en-GB"`, `trail = ["page", "1"]`. -/
theorem locale_collapse_witness :
    isLang "en-GB".toList = true ∧
      canonicalizePathname
          ('/' :: join ['/'] (["shop".toList] ++ ["en-GB".toList, "en-GB".toList] ++
            ["page".toList, "1".toList])) =
        canonicalizePathname
          ('/' :: join ['/'] (["shop".toList] ++ ["en-GB".toList] ++
            ["page".toList, "1".toList])) :=
  ⟨by decide,
    (locale_collapse ["shop".toList] ["page".toList, "1".toList] "en-GB".toList (by decide)).1⟩

end SiteCrawler
namespace SiteCrawler

/-- C9, the code departs from the claim: the rule path `/it` starts with a slash and is not `/`,
the URL path `/it/1` extends it at a segment boundary, and the matching test of the ledger
(`normalizePathForRules`, lower case, `matchesPathLimit`) does not match `/it/1`, because `it` is
taken for a locale and dropped.  So a crawl with the rule `{path: "/it", maxPages: 1}` of a home
page that links to `/it/1` and `/it/2` admits both pages, and the counter of the rule stays at
zero. -/
theorem locale_rule_never_matches :
    startsWith "/it".toList ['/'] = true ∧ "/it".toList ≠ ['/'] ∧
      startsWith "/it/1".toList ("/it".toList ++ ['/']) = true ∧
      matchesPathLimit (ruleNormalizedPath "/it/1".toList)
        (ruleKey { path := "/it".toList, maxPages := JsNumber.ofNat 5 }) = false ∧
      localeRuleOptions.pathLimits = [{ path := "/it".toList, maxPages := JsNumber.ofNat 1 }] ∧
      (crawl localeRuleSite "https://s/".toList localeRuleOptions [] 10).state?.map
          (fun st => (st.visited, (mapGet st.pathLimitCounters "/it".toList).getD 0)) =
        some (["https://s", "https://s/it/1", "https://s/it/2"].map String.toList, 0) := by
  decide!

end SiteCrawler
namespace SiteCrawler

/-- C10 (most specific rule wins): for every list `sanitizePathLimits` returns and every
candidate path, if `R` is the first rule in list order that `matchesPathLimit` accepts, then the
rule loop of the ledger does exactly what it does for `R` alone (it charges `R` or blocks against
`R`), no rule of the list that matches the candidate has a longer path than `R`, and the counter
of every other rule of the list is left as it was. -/
theorem most_specific_rule_wins (raw : List RawRule) (np url : Str) (st : CrawlState) (R : Rule)
    (hfirst :
      (sanitizePathLimits raw).find? (fun r => matchesPathLimit np (ruleKey r)) = some R) :
    ledgerLoop np url (sanitizePathLimits raw) st = ledgerLoop np url [R] st ∧
      (∀ R' ∈ sanitizePathLimits raw, matchesPathLimit np (ruleKey R') = true →
        jsLength R'.path ≤ jsLength R.path) ∧
      (∀ R' ∈ sanitizePathLimits raw, R' ≠ R →
        mapGet (ledgerLoop np url (sanitizePathLimits raw) st).1.pathLimitCounters (ruleKey R') =
          mapGet st.pathLimitCounters (ruleKey R')) := by
  have hloop := ledgerLoop_first np url st _ R hfirst
  have hmem : R ∈ sanitizePathLimits raw := List.mem_of_find?_eq_some hfirst
  refine ⟨hloop, ?_, ?_⟩
  · obtain ⟨-, as, bs, hsplit, has⟩ := List.find?_eq_some.1 hfirst
    have hsorted := sanitize_sorted raw
    rw [hsplit] at hsorted ⊢
    intro R' hR' hmatch
    rcases List.mem_append.1 hR' with h | h
    · have := has R' h
      rw [hmatch] at this
      exact absurd this (by decide)
    · rcases List.mem_cons.1 h with h | h
      · rw [h]
      · have h2 := (List.pairwise_append.1 hsorted).2.1
        exact List.rel_of_pairwise_cons h2 h
  · intro R' hR' hne
    rw [hloop]
    apply ledgerLoop_single_counters
    exact (sanitize_keys_distinct raw).forall (fun _ _ h => Ne.symm h) hR' hmem hne

/-- C10 on the request `[{path: "/job", maxPages: 5}, {path: "/job/eng", maxPages: 2}]` and the
candidate path `/job/eng/7`: the longer rule `/job/eng` is the one charged. -/
theorem most_specific_rule_wins_witness :
    ledgerLoop "/job/eng/7".toList "https://s/job/eng/7".toList
        (sanitizePathLimits
          [{ path := "/job".toList, maxPages := JsNumber.ofNat 5 },
            { path := "/job/eng".toList, maxPages := JsNumber.ofNat 2 }]) CrawlState.fresh =
      ledgerLoop "/job/eng/7".toList "https://s/job/eng/7".toList
        [{ path := "/job/eng".toList, maxPages := JsNumber.ofNat 2 }] CrawlState.fresh :=
  (most_specific_rule_wins
    [{ path := "/job".toList, maxPages := JsNumber.ofNat 5 },
      { path := "/job/eng".toList, maxPages := JsNumber.ofNat 2 }]
    "/job/eng/7".toList "https://s/job/eng/7".toList CrawlState.fresh
    { path := "/job/eng".toList, maxPages := JsNumber.ofNat 2 } (by decide)).1

end SiteCrawler
namespace SiteCrawler

/-! ## The smallest cap survives the deduplication -/

theorem JsNumber.le_self_fin (m : Int) (s : Nat) :
    JsNumber.le (JsNumber.fin m s) (JsNumber.fin m s) = true := by
  rw [JsNumber.le_fin]
  exact decide_eq_true (le_refl _)

theorem JsNumber.le_of_not_lt_fin {m : Int} {s : Nat} {m' : Int} {s' : Nat}
    (h : JsNumber.lt (JsNumber.fin m s) (JsNumber.fin m' s') = false) :
    JsNumber.le (JsNumber.fin m' s') (JsNumber.fin m s) = true := by
  rw [JsNumber.lt_fin] at h
  rw [JsNumber.le_fin]
  have h' := of_decide_eq_false h
  exact decide_eq_true (not_lt.1 h')

theorem JsNumber.le_of_lt_of_le_fin {m1 m2 m3 : Int} {s1 s2 s3 : Nat}
    (h12 : JsNumber.lt (JsNumber.fin m1 s1) (JsNumber.fin m2 s2) = true)
    (h23 : JsNumber.le (JsNumber.fin m2 s2) (JsNumber.fin m3 s3) = true) :
    JsNumber.le (JsNumber.fin m1 s1) (JsNumber.fin m3 s3) = true := by
  rw [JsNumber.lt_fin] at h12
  rw [JsNumber.le_fin] at h23 ⊢
  have a := of_decide_eq_true h12
  have b := of_decide_eq_true h23
  apply decide_eq_true
  have p1 : (0 : Int) < 2 ^ s1 := by positivity
  have p2 : (0 : Int) < 2 ^ s2 := by positivity
  have p3 : (0 : Int) < 2 ^ s3 := by positivity
  have a' : m1 * 2 ^ s2 * 2 ^ s3 ≤ m2 * 2 ^ s1 * 2 ^ s3 :=
    mul_le_mul_of_nonneg_right (le_of_lt a) (le_of_lt p3)
  have b' : m2 * 2 ^ s3 * 2 ^ s1 ≤ m3 * 2 ^ s2 * 2 ^ s1 :=
    mul_le_mul_of_nonneg_right b (le_of_lt p1)
  have c : m1 * 2 ^ s3 * 2 ^ s2 ≤ m3 * 2 ^ s1 * 2 ^ s2 := by
    calc m1 * 2 ^ s3 * 2 ^ s2 = m1 * 2 ^ s2 * 2 ^ s3 := by ring
      _ ≤ m2 * 2 ^ s1 * 2 ^ s3 := a'
      _ = m2 * 2 ^ s3 * 2 ^ s1 := by ring
      _ ≤ m3 * 2 ^ s2 * 2 ^ s1 := b'
      _ = m3 * 2 ^ s1 * 2 ^ s2 := by ring
  exact le_of_mul_le_mul_right c p2

/-- In a map whose keys are distinct, an entry is what the lookup of its key gives. -/
theorem mapGet_of_mem {β : Type} {m : List (Str × β)} (hnd : (m.map Prod.fst).Nodup)
    {e : Str × β} (he : e ∈ m) : mapGet m e.1 = some e.2 := by
  induction m with
  | nil => exact absurd he (List.not_mem_nil e)
  | cons x m ih =>
    rw [List.map_cons, List.nodup_cons] at hnd
    rcases List.mem_cons.1 he with h | h
    · subst h
      exact mapGet_cons_of_eq e m e.1 rfl
    · have hne : x.1 ≠ e.1 := by
        intro hx
        apply hnd.1
        rw [hx]
        exact List.mem_map_of_mem Prod.fst h
      rw [mapGet_cons_of_ne x m e.1 hne]
      exact ih hnd.2 h

theorem mem_of_mapGet {β : Type} {m : List (Str × β)} {k : Str} {v : β}
    (h : mapGet m k = some v) : (k, v) ∈ m := by
  induction m with
  | nil => exact Option.noConfusion h
  | cons x m ih =>
    by_cases hx : x.1 = k
    · rw [mapGet_cons_of_eq x m k hx] at h
      have hv : x.2 = v := Option.some.inj h
      have : x = (k, v) := Prod.ext hx hv
      rw [this]
      exact List.mem_cons_self _ _
    · rw [mapGet_cons_of_ne x m k hx] at h
      exact List.mem_cons_of_mem _ (ih h)

/-- The invariant of the loop that fills `byPath`, read through lookups: a rule seen so far finds
under its key a rule seen so far whose cap is not larger, and what a lookup returns is a rule
seen so far, stored under its path in lower case. -/
theorem byPath_lookup (cleaned : List Rule)
    (hfin : ∀ r ∈ cleaned, ∃ m s, r.maxPages = JsNumber.fin m s) :
    (∀ r ∈ cleaned, ∃ R, mapGet (cleaned.foldl byPathStep []) (toLowerCase r.path) = some R ∧
        JsNumber.le R.maxPages r.maxPages = true) ∧
      ∀ k R, mapGet (cleaned.foldl byPathStep []) k = some R →
        R ∈ cleaned ∧ toLowerCase R.path = k := by
  suffices H : ∀ (rest done : List Rule) (m : List (Str × Rule)),
      (∀ r ∈ done ++ rest, ∃ mt s, r.maxPages = JsNumber.fin mt s) →
      (∀ r ∈ done, ∃ R, mapGet m (toLowerCase r.path) = some R ∧
        JsNumber.le R.maxPages r.maxPages = true) →
      (∀ k R, mapGet m k = some R → R ∈ done ∧ toLowerCase R.path = k) →
      (∀ r ∈ done ++ rest, ∃ R, mapGet (rest.foldl byPathStep m) (toLowerCase r.path) = some R ∧
        JsNumber.le R.maxPages r.maxPages = true) ∧
      ∀ k R, mapGet (rest.foldl byPathStep m) k = some R →
        R ∈ done ++ rest ∧ toLowerCase R.path = k by
    exact H cleaned [] [] hfin (fun r hr => absurd hr (List.not_mem_nil r))
      (fun k R h => Option.noConfusion h)
  intro rest
  induction rest with
  | nil =>
    intro done m _ ha hb
    rw [List.append_nil]
    exact ⟨ha, hb⟩
  | cons r rest ih =>
    intro done m hf ha hb
    rw [List.foldl_cons]
    have e : done ++ r :: rest = (done ++ [r]) ++ rest := by simp
    rw [e] at hf ⊢
    obtain ⟨mr, sr, hr⟩ := hf r (List.mem_append_left _ (List.mem_append_right _
      (List.mem_singleton_self r)))
    -- the map after the turn in which `r` is stored
    have hstore : let m' := mapSet m (toLowerCase r.path) { path := r.path, maxPages := r.maxPages }
        (∀ R, mapGet m (toLowerCase r.path) = some R →
          JsNumber.lt r.maxPages R.maxPages = true) →
        (∀ x ∈ done ++ [r], ∃ R, mapGet m' (toLowerCase x.path) = some R ∧
          JsNumber.le R.maxPages x.maxPages = true) ∧
        ∀ k R, mapGet m' k = some R → R ∈ done ++ [r] ∧ toLowerCase R.path = k := by
      intro m' hlt
      constructor
      · intro x hx
        by_cases hk : toLowerCase x.path = toLowerCase r.path
        · refine ⟨{ path := r.path, maxPages := r.maxPages }, ?_, ?_⟩
          · show mapGet (mapSet m _ _) _ = _
            rw [mapGet_mapSet, if_pos hk]
          · rcases List.mem_append.1 hx with hx | hx
            · obtain ⟨R, hR, hle⟩ := ha x hx
              rw [hk] at hR
              have h1 := hlt R hR
              obtain ⟨mR, sR, hRf⟩ := hf R (List.mem_append_left _
                (List.mem_append_left _ (hb _ R hR).1))
              obtain ⟨mx, sx, hxf⟩ := hf x (List.mem_append_left _
                (List.mem_append_left _ hx))
              show JsNumber.le r.maxPages x.maxPages = true
              rw [hr, hRf] at h1
              rw [hRf, hxf] at hle
              rw [hr, hxf]
              exact JsNumber.le_of_lt_of_le_fin h1 hle
            · rw [List.mem_singleton.1 hx]
              show JsNumber.le r.maxPages r.maxPages = true
              rw [hr]
              exact JsNumber.le_self_fin _ _
        · rcases List.mem_append.1 hx with hx | hx
          · obtain ⟨R, hR, hle⟩ := ha x hx
            refine ⟨R, ?_, hle⟩
            show mapGet (mapSet m _ _) _ = _
            rw [mapGet_mapSet, if_neg hk]
            exact hR
          · rw [List.mem_singleton.1 hx] at hk
            exact absurd rfl hk
      · intro k R hR
        have hR' : mapGet (mapSet m (toLowerCase r.path)
            { path := r.path, maxPages := r.maxPages }) k = some R := hR
        rw [mapGet_mapSet] at hR'
        by_cases hk : k = toLowerCase r.path
        · rw [if_pos hk] at hR'
          have : R = r := by rw [← Option.some.inj hR']
          rw [this]
          exact ⟨List.mem_append_right _ (List.mem_singleton_self r), hk.symm⟩
        · rw [if_neg hk] at hR'
          exact ⟨List.mem_append_left _ (hb k R hR').1, (hb k R hR').2⟩
    have hstep :
        (∀ x ∈ done ++ [r], ∃ R, mapGet (byPathStep m r) (toLowerCase x.path) = some R ∧
          JsNumber.le R.maxPages x.maxPages = true) ∧
        ∀ k R, mapGet (byPathStep m r) k = some R → R ∈ done ++ [r] ∧ toLowerCase R.path = k := by
      unfold byPathStep
      dsimp only
      cases hget : mapGet m (toLowerCase r.path) with
      | none =>
        dsimp only
        exact hstore (fun R hR => by rw [hget] at hR; exact Option.noConfusion hR)
      | some existing =>
        dsimp only
        by_cases hlt : JsNumber.lt r.maxPages existing.maxPages = true
        · rw [if_pos hlt]
          refine hstore (fun R hR => ?_)
          rw [hget] at hR
          rw [← Option.some.inj hR]
          exact hlt
        · rw [if_neg hlt]
          constructor
          · intro x hx
            rcases List.mem_append.1 hx with hx | hx
            · exact ha x hx
            · rw [List.mem_singleton.1 hx]
              refine ⟨existing, hget, ?_⟩
              obtain ⟨me, se, hef⟩ := hf existing (List.mem_append_left _
                (List.mem_append_left _ (hb _ existing hget).1))
              rw [hr, hef] at hlt
              rw [hr, hef]
              exact JsNumber.le_of_not_lt_fin (Bool.eq_false_iff.2 hlt)
          · intro k R hR
            exact ⟨List.mem_append_left _ (hb k R hR).1, (hb k R hR).2⟩
    exact ih (done ++ [r]) (byPathStep m r) hf hstep.1 hstep.2

/-- The rules that pass the filter of `sanitizePathLimits` carry a finite cap. -/
theorem cleaned_fin (raw : List RawRule) :
    ∀ r ∈ (raw.map cleanRule).filter keepRule, ∃ m s, r.maxPages = JsNumber.fin m s := by
  intro r hr
  obtain ⟨x, -, hx⟩ := List.mem_map.1 (List.mem_filter.1 hr).1
  obtain ⟨m, s, h, -⟩ := cleanRule_maxPages x
  rw [← hx]
  exact ⟨m, s, h⟩

/-- The rules of the sanitised list are the values of the map `byPath`. -/
theorem mem_sanitize_iff (raw : List RawRule) (R : Rule) :
    R ∈ sanitizePathLimits raw ↔
      ∃ e ∈ ((raw.map cleanRule).filter keepRule).foldl byPathStep [], e.2 = R := by
  unfold sanitizePathLimits
  simp only
  rw [(List.perm_insertionSort _ _).mem_iff, List.mem_map]

/-- In a list whose elements have pairwise distinct keys, exactly one element has the key of a
given element. -/
theorem filter_key_length {α β : Type} [BEq β] [LawfulBEq β] (f : α → β) (l : List α)
    (hp : l.Pairwise (fun a b => f a ≠ f b)) {R : α} (hR : R ∈ l) :
    (l.filter (fun a => f a == f R)).length = 1 := by
  induction l with
  | nil => exact absurd hR (List.not_mem_nil R)
  | cons a l ih =>
    rw [List.pairwise_cons] at hp
    by_cases ha : f a = f R
    · have hnone : l.filter (fun b => f b == f R) = [] := by
        rw [List.filter_eq_nil_iff]
        intro b hb hbR
        exact hp.1 b hb (ha.trans (beq_iff_eq.1 hbR).symm)
      rw [List.filter_cons, if_pos (beq_iff_eq.2 ha), hnone]
      rfl
    · have hne : R ≠ a := fun h => ha (by rw [h])
      have hmem : R ∈ l := (List.mem_cons.1 hR).resolve_left hne
      rw [List.filter_cons, if_neg (fun h => ha (beq_iff_eq.1 h))]
      exact ih hp.2 hmem

/-- No two rules of the sanitised list have the same path in lower case. -/
theorem sanitize_paths_distinct (raw : List RawRule) :
    (sanitizePathLimits raw).Pairwise (fun a b => toLowerCase a.path ≠ toLowerCase b.path) := by
  refine List.Pairwise.imp_of_mem ?_ (sanitize_keys_distinct raw)
  intro a b ha hb hab
  rw [sanitize_ruleKey raw a ha, sanitize_ruleKey raw b hb] at hab
  exact hab

/-- The clamp `Math.max(1, Math.min(5000, y))` returns a finite `y` as it is, or one of its two
bounds. -/
theorem clamp_cases (y : JsNumber)
    (hy : y = JsNumber.posInf ∨ y = JsNumber.negInf ∨ ∃ m s, y = JsNumber.fin m s) :
    (JsNumber.max (JsNumber.ofNat 1) (JsNumber.min (JsNumber.ofNat 5000) y) = y ∧
        ∃ m s, y = JsNumber.fin m s) ∨
      JsNumber.max (JsNumber.ofNat 1) (JsNumber.min (JsNumber.ofNat 5000) y) = JsNumber.ofNat 1 ∨
      JsNumber.max (JsNumber.ofNat 1) (JsNumber.min (JsNumber.ofNat 5000) y) =
        JsNumber.ofNat 5000 := by
  rcases hy with rfl | rfl | ⟨m, s, rfl⟩
  · exact Or.inr (Or.inr (by decide))
  · exact Or.inr (Or.inl (by decide))
  · have e5000 : JsNumber.ofNat 5000 = JsNumber.fin 5000 0 := rfl
    have e1 : JsNumber.ofNat 1 = JsNumber.fin 1 0 := rfl
    rw [e5000, e1, JsNumber.min_fin, JsNumber.lt_fin]
    by_cases h1 : m * 2 ^ 0 < 5000 * 2 ^ s
    · rw [decide_eq_true h1, if_pos rfl, JsNumber.max_fin, JsNumber.lt_fin]
      by_cases h2 : 1 * 2 ^ s < m * 2 ^ 0
      · rw [decide_eq_true h2, if_pos rfl]
        exact Or.inl ⟨rfl, m, s, rfl⟩
      · rw [decide_eq_false h2, if_neg (by simp)]
        exact Or.inr (Or.inl rfl)
    · rw [decide_eq_false h1, if_neg (by simp)]
      exact Or.inr (Or.inr (by decide))

/-- The cap of a cleaned rule is an integer unless the rule came with a finite cap that is
not one. -/
theorem cleanRule_isInteger (x : RawRule)
    (h : ∀ m s, x.maxPages = JsNumber.fin m s → x.maxPages.isInteger = true) :
    (cleanRule x).maxPages.isInteger = true := by
  have hor : JsNumber.orElse x.maxPages (JsNumber.ofNat 0) = x.maxPages ∨
      JsNumber.orElse x.maxPages (JsNumber.ofNat 0) = JsNumber.ofNat 0 := by
    unfold JsNumber.orElse
    by_cases ht : x.maxPages.truthy = true
    · rw [if_pos ht]; exact Or.inl rfl
    · rw [if_neg ht]; exact Or.inr rfl
  have hnn : JsNumber.orElse x.maxPages (JsNumber.ofNat 0) = JsNumber.posInf ∨
      JsNumber.orElse x.maxPages (JsNumber.ofNat 0) = JsNumber.negInf ∨
      ∃ m s, JsNumber.orElse x.maxPages (JsNumber.ofNat 0) = JsNumber.fin m s := by
    cases hx : x.maxPages with
    | nan => exact Or.inr (Or.inr ⟨0, 0, rfl⟩)
    | posInf => exact Or.inl rfl
    | negInf => exact Or.inr (Or.inl rfl)
    | fin m s =>
      right; right
      by_cases hm : m = 0
      · subst hm
        exact ⟨0, 0, rfl⟩
      · refine ⟨m, s, ?_⟩
        simp [JsNumber.orElse, JsNumber.truthy, hm]
  have e : (cleanRule x).maxPages = JsNumber.max (JsNumber.ofNat 1)
      (JsNumber.min (JsNumber.ofNat 5000) (JsNumber.orElse x.maxPages (JsNumber.ofNat 0))) := rfl
  rw [e]
  rcases clamp_cases _ hnn with ⟨h1, m, s, h2⟩ | h1 | h1
  · rw [h1]
    rcases hor with h3 | h3
    · rw [h3]
      rw [h3] at h2
      exact h m s h2
    · rw [h3]
      rfl
  · rw [h1]; rfl
  · rw [h1]; rfl

end SiteCrawler
namespace SiteCrawler

/-- C11 (sorted and deduplicated): for every input, in the list `sanitizePathLimits` returns
each rule has a path at least as long as the path of every rule after it, and no two rules have
paths that are equal ignoring case. -/
theorem sanitize_sorted_dedup (raw : List RawRule) :
    (sanitizePathLimits raw).Pairwise (fun a b => jsLength b.path ≤ jsLength a.path) ∧
      (sanitizePathLimits raw).Pairwise
        (fun a b => toLowerCase a.path ≠ toLowerCase b.path) :=
  ⟨sanitize_sorted raw, sanitize_paths_distinct raw⟩

end SiteCrawler
namespace SiteCrawler

/-- C12 (deduplication keeps the smallest cap): call an input rule valid when its cleaned form
(path trimmed and slash-prefixed, cap clamped) passes the filter.  For every input list, each
rule `R` of the output is the cleaned form of a valid input rule, and its cap is not larger than
the clamped cap of any valid input rule whose path equals the path of `R` ignoring case: it is
the minimum of these caps.  And for every valid input rule, exactly one rule of the output has
its path ignoring case. -/
theorem dedup_keeps_smallest_cap (raw : List RawRule) :
    (∀ R ∈ sanitizePathLimits raw,
      (∃ x ∈ raw, keepRule (cleanRule x) = true ∧ cleanRule x = R) ∧
        ∀ x ∈ raw, keepRule (cleanRule x) = true →
          toLowerCase (cleanRule x).path = toLowerCase R.path →
          JsNumber.le R.maxPages (cleanRule x).maxPages = true) ∧
      ∀ x ∈ raw, keepRule (cleanRule x) = true →
        ((sanitizePathLimits raw).filter
          (fun R => toLowerCase R.path == toLowerCase (cleanRule x).path)).length = 1 := by
  obtain ⟨hnd, hinv⟩ := byPath_invariant ((raw.map cleanRule).filter keepRule)
  obtain ⟨hmin, hget⟩ := byPath_lookup _ (cleaned_fin raw)
  have hvalid : ∀ x ∈ raw, keepRule (cleanRule x) = true →
      cleanRule x ∈ (raw.map cleanRule).filter keepRule :=
    fun x hx hk => List.mem_filter.2 ⟨List.mem_map_of_mem cleanRule hx, hk⟩
  constructor
  · intro R hR
    obtain ⟨hkeep, x, hx, hRx⟩ := sanitize_mem raw R hR
    refine ⟨⟨x, hx, by rw [← hRx]; exact hkeep, hRx.symm⟩, ?_⟩
    intro y hy hky hkey
    obtain ⟨e, he, heR⟩ := (mem_sanitize_iff raw R).1 hR
    obtain ⟨R', hR', hle⟩ := hmin (cleanRule y) (hvalid y hy hky)
    have h1 := mapGet_of_mem hnd he
    rw [(hinv e he).1, heR, ← hkey, hR'] at h1
    rw [← Option.some.inj h1]
    exact hle
  · intro x hx hk
    obtain ⟨R, hR, -⟩ := hmin (cleanRule x) (hvalid x hx hk)
    have hmem : R ∈ sanitizePathLimits raw :=
      (mem_sanitize_iff raw R).2 ⟨_, mem_of_mapGet hR, rfl⟩
    have hkey : toLowerCase R.path = toLowerCase (cleanRule x).path := (hget _ R hR).2
    have h := filter_key_length (fun r : Rule => toLowerCase r.path) (sanitizePathLimits raw)
      (sanitize_paths_distinct raw) hmem
    dsimp only at h
    rw [hkey] at h
    exact h

/-- C12 on the request `[{path: "/job", maxPages: 5}, {path: "/JOB", maxPages: 3},
{path: "job", maxPages: 7}]`: the three rules have the same path ignoring case, the output holds
the one with the cap 3, and it is the only rule of the output with the path of the third rule.
On `[{path: "/É", maxPages: 3}, {path: "/é", maxPages: 2}]` the output is the second rule
alone. -/
theorem dedup_keeps_smallest_cap_witness :
    sanitizePathLimits
        [{ path := "/job".toList, maxPages := JsNumber.ofNat 5 },
          { path := "/JOB".toList, maxPages := JsNumber.ofNat 3 },
          { path := "job".toList, maxPages := JsNumber.ofNat 7 }] =
      [{ path := "/JOB".toList, maxPages := JsNumber.ofNat 3 }] ∧
    ((sanitizePathLimits
        [{ path := "/job".toList, maxPages := JsNumber.ofNat 5 },
          { path := "/JOB".toList, maxPages := JsNumber.ofNat 3 },
          { path := "job".toList, maxPages := JsNumber.ofNat 7 }]).filter
      (fun R => toLowerCase R.path ==
        toLowerCase (cleanRule { path := "job".toList, maxPages := JsNumber.ofNat 7 }).path)).length
      = 1 ∧
    sanitizePathLimits
        [{ path := "/É".toList, maxPages := JsNumber.ofNat 3 },
          { path := "/é".toList, maxPages := JsNumber.ofNat 2 }] =
      [{ path := "/é".toList, maxPages := JsNumber.ofNat 2 }] :=
  ⟨by decide,
    (dedup_keeps_smallest_cap
      [{ path := "/job".toList, maxPages := JsNumber.ofNat 5 },
        { path := "/JOB".toList, maxPages := JsNumber.ofNat 3 },
        { path := "job".toList, maxPages := JsNumber.ofNat 7 }]).2
      { path := "job".toList, maxPages := JsNumber.ofNat 7 } (by decide) (by decide),
    by decide⟩

end SiteCrawler
namespace SiteCrawler

/-- C13, the claim as stated fails: the rule `{path: "/job", maxPages: 2.5}` comes back from
`sanitizePathLimits` with its cap 2.5, which lies in [1, 5000] and is not an integer. -/
theorem sanitized_rule_shape_counterexample :
    ∃ R ∈ sanitizePathLimits [{ path := "/job".toList, maxPages := JsNumber.fin 5 1 }],
      R.maxPages = JsNumber.fin 5 1 ∧ R.maxPages.isInteger = false := by
  decide

/-- C13 as amended: for every input list, every rule `sanitizePathLimits` returns has a path
that starts with a slash and is not `/`, and a cap that is a finite number in [1, 5000]; the cap
is an integer whenever no rule of the input carries a finite cap that is not an integer (a cap
that is missing, zero, negative, over-large or not a number is replaced by 1 or 5000). -/
theorem sanitized_rule_shape (raw : List RawRule) (R : Rule)
    (hR : R ∈ sanitizePathLimits raw) :
    startsWith R.path ['/'] = true ∧ R.path ≠ ['/'] ∧
      JsNumber.le (JsNumber.ofNat 1) R.maxPages = true ∧
      JsNumber.le R.maxPages (JsNumber.ofNat 5000) = true ∧
      ((∀ x ∈ raw, ∀ m s, x.maxPages = JsNumber.fin m s → x.maxPages.isInteger = true) →
        R.maxPages.isInteger = true) := by
  obtain ⟨hkeep, x, hx, hRx⟩ := sanitize_mem raw R hR
  obtain ⟨mant, s, hfin, hlo, hhi⟩ := sanitize_maxPages raw R hR
  unfold keepRule at hkeep
  simp only [Bool.and_eq_true, bne_iff_ne, ne_eq] at hkeep
  refine ⟨hkeep.1.1.2, hkeep.1.2, ?_, ?_, ?_⟩
  · rw [hfin]
    simp only [JsNumber.ofNat, JsNumber.le_fin]
    apply decide_eq_true
    simpa using hlo
  · rw [hfin]
    simp only [JsNumber.ofNat, JsNumber.le_fin]
    apply decide_eq_true
    simpa using hhi
  · intro hint
    rw [hRx]
    exact cleanRule_isInteger x (hint x hx)

/-- C13 as amended, on the request `[{path: " job "}]`, a rule without a cap and with a path
that lacks its slash: it comes back as `{path: "/job", maxPages: 1}`. -/
theorem sanitized_rule_shape_witness :
    ({ path := "/job".toList, maxPages := JsNumber.ofNat 1 } : Rule) ∈
        sanitizePathLimits [{ path := " job ".toList, maxPages := JsNumber.ofNat 0 }] ∧
      startsWith "/job".toList ['/'] = true ∧ "/job".toList ≠ ['/'] ∧
      JsNumber.le (JsNumber.ofNat 1) (JsNumber.ofNat 1) = true ∧
      JsNumber.le (JsNumber.ofNat 1) (JsNumber.ofNat 5000) = true ∧
      ((∀ x ∈ [({ path := " job ".toList, maxPages := JsNumber.ofNat 0 } : RawRule)],
          ∀ m s, x.maxPages = JsNumber.fin m s → x.maxPages.isInteger = true) →
        (JsNumber.ofNat 1).isInteger = true) :=
  ⟨by decide,
    sanitized_rule_shape [{ path := " job ".toList, maxPages := JsNumber.ofNat 0 }]
      { path := "/job".toList, maxPages := JsNumber.ofNat 1 } (by decide)⟩

end SiteCrawler
namespace SiteCrawler

/-! ## Case folding and the pieces of a path -/

theorem toLower_eq_slash (c : Char) : c.toLower = '/' ↔ c = '/' :=
  toLower_eq_iff_of_not_letter c '/' (by decide)

theorem split_toLowerCase (s : Str) :
    split '/' (toLowerCase s) = (split '/' s).map toLowerCase := by
  suffices h : ∀ n (s : Str), s.length ≤ n →
      split '/' (toLowerCase s) = (split '/' s).map toLowerCase from h s.length s (le_refl _)
  intro n
  induction n with
  | zero =>
    intro s hs
    have : s = [] := List.length_eq_zero.1 (Nat.le_zero.1 hs)
    subst this
    rfl
  | succ n ih =>
    intro s hs
    by_cases hm : '/' ∈ s
    · obtain ⟨a, b, rfl⟩ := List.append_of_mem hm
      have hlen : a.length + b.length + 1 ≤ n + 1 := by
        simpa [List.length_append, Nat.add_assoc] using hs
      rw [toLowerCase_append_slash, split_append_sep, split_append_sep, List.map_append,
        ih a (by omega), ih b (by omega)]
    · rw [split_of_not_mem _ _ hm, split_of_not_mem _ _ (fun h => hm (slash_mem_toLowerCase.1 h))]
      rfl

theorem pathParts_toLowerCase (s : Str) :
    pathParts (toLowerCase s) = (pathParts s).map toLowerCase := by
  unfold pathParts
  rw [split_toLowerCase, List.filter_map]
  congr 1
  apply List.filter_congr
  intro x _
  show (!(toLowerCase x).isEmpty) = !x.isEmpty
  cases x with
  | nil => rfl
  | cons c t =>
    have : toLowerCase (c :: t) ≠ [] := fun e => List.cons_ne_nil c t (toLowerCase_eq_nil.1 e)
    cases hl : toLowerCase (c :: t) with
    | nil => exact absurd hl this
    | cons _ _ => rfl

/-- A text that holds `p`, written in ASCII, holds in lower case the ASCII lowercase of `p`. -/
theorem includes_toLowerCase {s p : Str} (hp : ∀ c ∈ p, c.toNat < 128)
    (h : includes s p = true) : includes (toLowerCase s) (asciiLowerCase p) = true := by
  unfold includes at h ⊢
  rw [List.any_eq_true] at h ⊢
  obtain ⟨t, ht, hpre⟩ := h
  rw [List.mem_tails] at ht
  obtain ⟨r, rfl⟩ := ht
  rw [List.isPrefixOf_iff_prefix] at hpre
  obtain ⟨q, rfl⟩ := hpre
  obtain ⟨x, y, hxy⟩ := lowerFrom_append_ascii false r p q hp
  refine ⟨asciiLowerCase p ++ y, ?_, ?_⟩
  · rw [List.mem_tails]
    exact ⟨x, hxy.symm⟩
  · rw [List.isPrefixOf_iff_prefix]
    exact List.prefix_append _ _

/-- A text that holds `k ++ more` holds `k`. -/
theorem includes_of_includes_append {s k more : Str} (h : includes s (k ++ more) = true) :
    includes s k = true := by
  unfold includes at h ⊢
  rw [List.any_eq_true] at h ⊢
  obtain ⟨t, ht, hp⟩ := h
  refine ⟨t, ht, ?_⟩
  rw [List.isPrefixOf_iff_prefix] at hp ⊢
  exact (List.prefix_append k more).trans hp

/-- An extension of the list that is written in lower case excludes every URL that ends with it
ignoring case. -/
theorem hasExcludedExtension_of_lower (u e : Str) (options : Options)
    (he : e ∈ options.excludeExtensions) (hlow : toLowerCase e = e)
    (h : endsWith (toLowerCase u) (toLowerCase e) = true) :
    hasExcludedExtension u options = true := by
  unfold hasExcludedExtension
  rw [List.any_eq_true]
  rw [hlow] at h
  exact ⟨e, he, h⟩

end SiteCrawler
namespace SiteCrawler

/-- C17, the code departs from the claim: with the extension `.PDF` configured in capitals, the
URL `https://s/a.pdf` ends with it when both are compared ignoring case, and
`hasExcludedExtension` answers `false`, since it folds the case of the URL and not of the
extension. -/
theorem extension_case_mismatch :
    ".PDF".toList ∈ ({ DEFAULTS with excludeExtensions := [".PDF".toList] } : Options).excludeExtensions ∧
      endsWith (toLowerCase "https://s/a.pdf".toList) (toLowerCase ".PDF".toList) = true ∧
      hasExcludedExtension "https://s/a.pdf".toList
        { DEFAULTS with excludeExtensions := [".PDF".toList] } = false := by
  decide

end SiteCrawler
namespace SiteCrawler

/-- C18, the code departs from the claim: the path `/jobs-london` holds the keyword `/job` and is
a single segment other than the listing roots `jobs` and `careers`, and so is `/vacancies`; the
claim classifies both as job detail pages, and `isJobDetailPage` answers `false` for both, since
its test `segments.length <= 1` takes every single segment for a listing. -/
theorem job_heuristic_single_segment :
    includes (toLowerCase "/jobs-london".toList) "/job".toList = true ∧
      pathParts (toLowerCase "/jobs-london".toList) = ["jobs-london".toList] ∧
      isJobDetailPage modelPlatform "https://s/jobs-london".toList = some false ∧
      includes (toLowerCase "/vacancies".toList) "/vacancies".toList = true ∧
      pathParts (toLowerCase "/vacancies".toList) = ["vacancies".toList] ∧
      isJobDetailPage modelPlatform "https://s/vacancies".toList = some false := by
  decide

end SiteCrawler
namespace SiteCrawler

/-- C19 (job-page filtering): for every URL class and every URL that parses, if its path has
exactly one segment then `isJobDetailPage` is false, and if its path has at least two segments
and holds, as written or ignoring case, one of the keywords `/job`, `/vacancy`, `/vacancies`,
`/career`, then `isJobDetailPage` is true. -/
theorem job_page_filtering (pf : Platform) (url : Str) (u : URL)
    (hu : pf.parseUrl url none = some u) :
    ((pathParts u.pathname).length = 1 → isJobDetailPage pf url = some false) ∧
      (2 ≤ (pathParts u.pathname).length →
        (∃ kw ∈ ["/job".toList, "/vacancy".toList, "/vacancies".toList, "/career".toList],
          includes u.pathname kw = true ∨ includes (toLowerCase u.pathname) kw = true) →
        isJobDetailPage pf url = some true) := by
  have hlen : (pathParts (toLowerCase u.pathname)).length = (pathParts u.pathname).length := by
    rw [pathParts_toLowerCase, List.length_map]
  constructor
  · intro h1
    unfold isJobDetailPage
    simp only [hu, hlen, h1]
    split_ifs <;> first | rfl | simp_all
  · intro h2 hkw
    have hfold : ∃ kw ∈ ["/job".toList, "/vacancy".toList, "/vacancies".toList,
        "/career".toList], includes (toLowerCase u.pathname) kw = true := by
      obtain ⟨kw, hmem, h | h⟩ := hkw
      · refine ⟨kw, hmem, ?_⟩
        have hl : asciiLowerCase kw = kw ∧ ∀ c ∈ kw, c.toNat < 128 := by
          simp only [List.mem_cons, List.mem_singleton, List.not_mem_nil, or_false] at hmem
          rcases hmem with rfl | rfl | rfl | rfl <;> decide
        have := includes_toLowerCase hl.2 h
        rw [hl.1] at this
        exact this
      · exact ⟨kw, hmem, h⟩
    obtain ⟨kw, hmem, hinc⟩ := hfold
    have hkey : (includes (toLowerCase u.pathname) "/job".toList ||
        includes (toLowerCase u.pathname) "/jobs".toList ||
        includes (toLowerCase u.pathname) "/vacancy".toList ||
        includes (toLowerCase u.pathname) "/vacancies".toList ||
        includes (toLowerCase u.pathname) "/career".toList ||
        includes (toLowerCase u.pathname) "/careers".toList) = true := by
      simp only [List.mem_cons, List.mem_singleton, List.not_mem_nil, or_false] at hmem
      rcases hmem with rfl | rfl | rfl | rfl <;> rw [hinc] <;>
        simp only [Bool.or_true, Bool.true_or]
    unfold isJobDetailPage
    simp only [hu]
    rw [hkey]
    have hle : decide ((pathParts (toLowerCase u.pathname)).length ≤ 1) = false := by
      rw [hlen]
      exact decide_eq_false (by omega)
    have hne : ((pathParts (toLowerCase u.pathname)).length == 1) = false := by
      rw [hlen]
      exact beq_false_of_ne (by omega)
    simp [hle, hne]

/-- C19 on `/careers/42` and `/careers`: the first is a job detail page, and a run with the
default options (`ignoreJobPages` set) leaves `processOne` before the fetch for it and does
not for the second. -/
theorem job_page_filtering_witness :
    isJobDetailPage modelPlatform "https://s/careers/42".toList = some true ∧
      isJobDetailPage modelPlatform "https://s/careers".toList = some false ∧
      excludedBeforeFetch plainRun "https://s/careers/42".toList = true ∧
      excludedBeforeFetch plainRun "https://s/careers".toList = false :=
  ⟨(job_page_filtering modelPlatform "https://s/careers/42".toList
      { protocol := "https:".toList, host := "s".toList, pathname := "/careers/42".toList,
        query := none, fragment := none } (by decide)).2 (by decide)
      ⟨"/career".toList, by decide, Or.inl (by decide)⟩,
    (job_page_filtering modelPlatform "https://s/careers".toList
      { protocol := "https:".toList, host := "s".toList, pathname := "/careers".toList,
        query := none, fragment := none } (by decide)).1 (by decide),
    by decide, by decide⟩

end SiteCrawler
namespace SiteCrawler

open URL

/-! ## The exclusion rules of `isExcludedByPath` -/

/-- On the fragment, a string `normalizeUrl` returned parses, to a well-formed record. -/
theorem normalizeUrl_parses {x : Str} {b : Option Str} {o : Options} {url : Str}
    (h : normalizeUrl modelPlatform x b o = some url) :
    ∃ u, parseAbsolute url = some u ∧ Valid u := by
  rw [normalizeUrl_eq] at h
  cases hr : resolveUrl modelPlatform x b with
  | none => simp [hr] at h
  | some u0 =>
    simp only [hr] at h
    by_cases hproto : (["http:".toList, "https:".toList].contains u0.protocol) = true
    · have hn : (!(["http:".toList, "https:".toList].contains u0.protocol)) = false := by
        rw [hproto]; rfl
      rw [hn] at h
      simp only [Bool.false_eq_true, if_false] at h
      split_ifs at h
      have hv := normalizedRecord_valid o (resolveUrl_valid hr hproto)
      obtain ⟨u, hu, hval, -⟩ := strip_href_parse hv (normalizedRecord_canonical o u0)
      rw [← Option.some.inj h]
      exact ⟨u, hu, hval⟩
    · have hn : (!(["http:".toList, "https:".toList].contains u0.protocol)) = true := by
        rw [Bool.eq_false_iff.2 hproto]; rfl
      rw [hn, if_pos rfl] at h
      exact Option.noConfusion h

/-- The path of a well-formed record starts with a slash. -/
theorem valid_pathname_cons {u : URL} (h : Valid u) : ∃ t, u.pathname = '/' :: t := by
  obtain ⟨segs, -, -, hp⟩ := h.path
  exact ⟨_, hp⟩

/-- The first piece of a split is the text before the first separator. -/
theorem split_head (c : Char) (s : Str) :
    ∃ tl, split c s = s.takeWhile (fun d => d != c) :: tl := by
  induction s with
  | nil => exact ⟨[], rfl⟩
  | cons x xs ih =>
    obtain ⟨tl, htl⟩ := ih
    by_cases hx : x = c
    · refine ⟨split c xs, ?_⟩
      rw [split, if_pos hx, List.takeWhile_cons_of_neg (by simp [hx])]
    · refine ⟨tl, ?_⟩
      rw [split, if_neg hx, htl, List.takeWhile_cons_of_pos (by simp [hx])]

/-- A text without slash is a prefix of `x` that ends at a slash or at the end of `x` exactly when
it is what `x` holds before its first slash. -/
theorem prefix_boundary (seg : Str) (hseg : '/' ∉ seg) (x : Str) :
    (seg.isPrefixOf x &&
        (match x.drop seg.length with
          | [] => true
          | d :: _ => d == '/')) =
      (x.takeWhile (fun d => d != '/') == seg) := by
  induction seg generalizing x with
  | nil =>
    cases x with
    | nil => rfl
    | cons d r =>
      by_cases hd : d = '/'
      · subst hd
        rfl
      · simp [hd]
  | cons a seg ih =>
    have ha : a ≠ '/' := fun e => hseg (by simp [e])
    have hseg' : '/' ∉ seg := fun e => hseg (List.mem_cons_of_mem _ e)
    cases x with
    | nil => rfl
    | cons b r =>
      by_cases hab : a = b
      · subst hab
        have := ih hseg' r
        simp only [List.isPrefixOf, beq_self_eq_true, Bool.true_and, List.length_cons,
          List.drop_succ_cons] at this ⊢
        rw [this, List.takeWhile_cons_of_pos (by simp [ha])]
        simp
      · have h1 : (a == b) = false := by simp [hab]
        have h2 : (b == a) = false := by simp [Ne.symm hab]
        by_cases hb : b = '/'
        · subst hb
          simp [List.isPrefixOf, h1]
        · simp [List.isPrefixOf, h1, h2, hb]

/-- The test of the regular expression `(^|\/)segment(\/|$)`, for a segment that is not empty
and holds no slash: some piece between slashes is the segment. -/
theorem segmentTest_eq (seg : Str) (hne : seg ≠ []) (hseg : '/' ∉ seg) (t : Str) :
    segmentTest seg true t = (split '/' t).any (fun p => p == seg) ∧
      segmentTest seg false t = (split '/' t).tail.any (fun p => p == seg) := by
  induction t with
  | nil =>
    constructor
    · cases seg with
      | nil => exact absurd rfl hne
      | cons a r => rfl
    · rfl
  | cons c r ih =>
    by_cases hc : c = '/'
    · subst hc
      have hsplit : split '/' ('/' :: r) = [] :: split '/' r := by rw [split, if_pos rfl]
      have hpre : seg.isPrefixOf ('/' :: r) = false := by
        cases seg with
        | nil => exact absurd rfl hne
        | cons a s =>
          have ha : a ≠ '/' := fun e => hseg (by simp [e])
          simp [List.isPrefixOf, ha]
      have hs : ('/' == '/') = true := rfl
      constructor
      · rw [segmentTest, hpre, hsplit, List.any_cons, hs, ih.1]
        cases seg with
        | nil => exact absurd rfl hne
        | cons a s => simp
      · rw [segmentTest, hsplit, List.tail_cons, hs, ih.1]
        simp
    · obtain ⟨tl, htl⟩ := split_head '/' r
      have hsplit : split '/' (c :: r) = (c :: r.takeWhile (fun d => d != '/')) :: tl := by
        rw [split, if_neg hc, htl]
      have hcb : (c == '/') = false := by simp [hc]
      have htail : (split '/' r).tail = tl := by rw [htl]; rfl
      constructor
      · rw [segmentTest, hsplit, List.any_cons, hcb, ih.2, htail, Bool.true_and]
        have hpb := prefix_boundary seg hseg (c :: r)
        rw [List.takeWhile_cons_of_pos (by simp [hc])] at hpb
        exact congrArg (fun b => b || tl.any (fun p => p == seg)) hpb
      · rw [segmentTest, hsplit, List.tail_cons, hcb, ih.2, htail]
        simp

/-- A text holds the one-character text `c` exactly when `c` is one of its characters. -/
theorem includes_singleton (s : Str) (c : Char) : includes s [c] = decide (c ∈ s) := by
  unfold includes
  induction s with
  | nil => rfl
  | cons x xs ih =>
    rw [List.tails_cons, List.any_cons, ih]
    by_cases hx : c = x
    · subst hx
      simp [List.isPrefixOf]
    · have hx' : (c == x) = false := by simp [hx]
      simp [List.isPrefixOf, hx, hx']

theorem stripLeadingSlashes_cons_slash (s : Str) (h : ∀ c ∈ s.head?, c ≠ '/') :
    stripLeadingSlashes ('/' :: s) = s := by
  unfold stripLeadingSlashes
  rw [List.dropWhile_cons_of_pos (by decide)]
  apply dropWhile_eq_self_of_head
  intro c hc
  simpa using h c hc

theorem stripTrailingSlashes_of_last (s : Str) (h : ∀ c ∈ s.getLast?, c ≠ '/') :
    stripTrailingSlashes s = s := by
  unfold stripTrailingSlashes
  rw [dropWhile_eq_self_of_head, List.reverse_reverse]
  intro c hc
  rw [List.head?_reverse] at hc
  simpa using h c hc

theorem mem_join_slash {segs : List Str} {c : Char} (h : c ∈ join ['/'] segs) :
    c = '/' ∨ ∃ s ∈ segs, c ∈ s := by
  induction segs with
  | nil => simp [join_nil] at h
  | cons x r ih =>
    cases r with
    | nil =>
      rw [join_singleton] at h
      exact Or.inr ⟨x, List.mem_singleton_self x, h⟩
    | cons y r =>
      rw [join_cons_cons] at h
      rcases List.mem_append.1 h with h | h
      · rcases List.mem_append.1 h with h | h
        · exact Or.inr ⟨x, List.mem_cons_self _ _, h⟩
        · exact Or.inl (List.mem_singleton.1 h)
      · rcases ih h with h | ⟨s, hs, hc⟩
        · exact Or.inl h
        · exact Or.inr ⟨s, List.mem_cons_of_mem _ hs, hc⟩

/-! ### White space at the end of a rule -/

theorem dropWhile_append_cons {p : Char → Bool} (a b : Str) (c : Char) (hc : p c = false) :
    (a ++ c :: b).dropWhile p = a.dropWhile p ++ c :: b := by
  induction a with
  | nil => simp [List.dropWhile_cons, hc]
  | cons x xs ih =>
    rw [List.cons_append, List.dropWhile_cons, List.dropWhile_cons]
    split_ifs
    · exact ih
    · rfl

/-- `trimEnd` does not go past a character that is not white space. -/
theorem trimEnd_append_cons (a b : Str) (c : Char) (hc : isJsWhitespace c = false) :
    trimEnd (a ++ c :: b) = a ++ c :: trimEnd b := by
  unfold trimEnd
  rw [List.reverse_append, List.reverse_cons, List.append_assoc, List.singleton_append,
    dropWhile_append_cons _ _ _ hc]
  simp

/-- The white space at the end of a rule that starts with a slash is all that `trim` cuts. -/
theorem trim_cons_slash_eq (s : Str) : trim ('/' :: s) = '/' :: trimEnd s := by
  have h := trimEnd_append_cons [] s '/' (by decide)
  unfold trim
  rw [List.dropWhile_cons_of_neg (by decide)]
  exact h

theorem mem_trimEnd {s : Str} {c : Char} (h : c ∈ trimEnd s) : c ∈ s := by
  unfold trimEnd at h
  rw [List.mem_reverse] at h
  exact List.mem_reverse.1 (mem_of_mem_dropWhile h)

theorem trimEnd_eq_self (s : Str) (h : ∀ c ∈ s.getLast?, isJsWhitespace c = false) :
    trimEnd s = s := by
  unfold trimEnd
  rw [dropWhile_eq_self_of_head s.reverse (by simpa using h)]
  simp

/-! ### The two kinds of rule -/

/-- The test of the regular expression, for a segment that is not empty and holds no slash: some
non-empty piece between slashes is the segment. -/
theorem segmentTest_pathParts (seg : Str) (hne : seg ≠ []) (hseg : '/' ∉ seg) (t : Str) :
    segmentTest seg true t = (pathParts t).any (fun p => p == seg) := by
  rw [(segmentTest_eq seg hne hseg t).1]
  unfold pathParts
  induction split '/' t with
  | nil => rfl
  | cons x r ih =>
    cases x with
    | nil =>
      have h0 : (([] : Str) == seg) = false := by
        cases seg with
        | nil => exact absurd rfl hne
        | cons a r => rfl
      rw [List.any_cons, h0, Bool.false_or, ih]
      rfl
    | cons a x =>
      rw [List.any_cons, ih]
      rfl

/-- The rule `/s`, for a text `s` without slash: it is the rule `/` when `s` is white space, and
else the regular expression tests the segment `s` without the white space at its end, in lower
case. -/
theorem excludeRuleMatches_single (pathname s : Str) (hslash : '/' ∉ s) :
    excludeRuleMatches pathname ('/' :: s) =
      if trimEnd s = [] then true
      else segmentTest (toLowerCase (trimEnd s)) true pathname := by
  have hclean : toLowerCase (trim ('/' :: s)) = '/' :: toLowerCase (trimEnd s) := by
    rw [trim_cons_slash_eq, toLowerCase_cons_slash]
  have hsl : '/' ∉ toLowerCase (trimEnd s) :=
    fun e => hslash (mem_trimEnd (slash_mem_toLowerCase.1 e))
  unfold excludeRuleMatches
  simp only [hclean]
  by_cases he : trimEnd s = []
  · rw [if_pos he, he]
    rfl
  · rw [if_neg he]
    have hne : toLowerCase (trimEnd s) ≠ [] := fun e => he (toLowerCase_eq_nil.1 e)
    have h1 : ('/' :: toLowerCase (trimEnd s) == ['/']) = false := by
      cases hl : toLowerCase (trimEnd s) with
      | nil => exact absurd hl hne
      | cons a r => rfl
    have h2 : stripLeadingSlashes ('/' :: toLowerCase (trimEnd s)) = toLowerCase (trimEnd s) :=
      stripLeadingSlashes_cons_slash _
        (fun c hc e => hsl (by rw [← e]; exact List.mem_of_mem_head? hc))
    have h3 : includes (toLowerCase (trimEnd s)) ['/'] = false := by
      rw [includes_singleton]
      exact decide_eq_false hsl
    have h4 : stripTrailingSlashes (toLowerCase (trimEnd s)) = toLowerCase (trimEnd s) :=
      stripTrailingSlashes_of_last _
        (fun c hc e => hsl (by rw [← e]; exact List.mem_of_mem_getLast? hc))
    have h5 : (toLowerCase (trimEnd s)).isEmpty = false := by
      cases hl : toLowerCase (trimEnd s) with
      | nil => exact absurd hl hne
      | cons a r => rfl
    simp only [h1, h2, h3, h4, h5, List.isEmpty_cons, startsWith, List.isPrefixOf,
      beq_self_eq_true, Bool.and_self, Bool.not_true, Bool.not_false, Bool.false_eq_true,
      if_false, if_true]

/-- What `isExcludedByPath` answers for a list of one rule. -/
theorem isExcludedByPath_one_rule {pf : Platform} {url : Str} {u : URL}
    (hu : pf.parseUrl url none = some u) (p : Str) :
    isExcludedByPath pf url [p] = some (excludeRuleMatches (toLowerCase u.pathname) p) := by
  unfold isExcludedByPath
  simp [hu]

/-- The regular expression on a path in lower case: some segment of the path is the segment of
the rule, ignoring case. -/
theorem segmentTest_pathname (L pathname : Str) (hne : L ≠ []) (hslash : '/' ∉ L) :
    segmentTest L true (toLowerCase pathname) =
      (pathParts pathname).any (fun seg => toLowerCase seg == L) := by
  rw [segmentTest_pathParts L hne hslash, pathParts_toLowerCase, List.any_map]
  rfl

/-- A rule of two or more segments, with or without a closing slash, is tested against the whole
path: the path is the rule, trimmed and in lower case, less one closing slash, or goes on with a
slash after it. -/
theorem excludeRuleMatches_multi (pathname : Str) (segs : List Str) (closing : Bool)
    (hsegs : Segments segs) (hlen : 2 ≤ segs.length) :
    excludeRuleMatches pathname
        ('/' :: join ['/'] segs ++ (if closing then ['/'] else [])) =
      (pathname ==
          stripOneTrailingSlash (toLowerCase
            (trim ('/' :: join ['/'] segs ++ (if closing then ['/'] else [])))) ||
        startsWith pathname
          (stripOneTrailingSlash (toLowerCase
            (trim ('/' :: join ['/'] segs ++ (if closing then ['/'] else [])))) ++ ['/'])) := by
  match segs, hlen, hsegs with
  | s1 :: s2 :: more, _, hS =>
    have h1 := hS s1 (by simp)
    have hrule : '/' :: join ['/'] (s1 :: s2 :: more) ++ (if closing then ['/'] else []) =
        '/' :: (s1 ++ '/' :: (join ['/'] (s2 :: more) ++ (if closing then ['/'] else []))) := by
      rw [join_cons_cons]
      simp
    have hclean : toLowerCase
        (trim ('/' :: join ['/'] (s1 :: s2 :: more) ++ (if closing then ['/'] else []))) =
        '/' :: (toLowerCase s1 ++ '/' :: toLowerCase
          (trimEnd (join ['/'] (s2 :: more) ++ (if closing then ['/'] else [])))) := by
      rw [hrule, trim_cons_slash_eq, trimEnd_append_cons _ _ _ (by decide),
        toLowerCase_cons_slash, toLowerCase_append_slash]
    have hA : toLowerCase s1 ≠ [] := fun e => h1.1 (toLowerCase_eq_nil.1 e)
    have hAs : '/' ∉ toLowerCase s1 := fun e => h1.2 (slash_mem_toLowerCase.1 e)
    unfold excludeRuleMatches
    simp only [hclean]
    generalize toLowerCase
      (trimEnd (join ['/'] (s2 :: more) ++ (if closing then ['/'] else []))) = B
    cases hA' : toLowerCase s1 with
    | nil => exact absurd hA' hA
    | cons a A =>
      have ha : a ≠ '/' := by
        intro e
        apply hAs
        rw [hA', e]
        exact List.mem_cons_self _ _
      have hstrip : stripLeadingSlashes ('/' :: (a :: A ++ '/' :: B)) = a :: A ++ '/' :: B :=
        stripLeadingSlashes_cons_slash _ (fun c hc => by
          simp only [List.cons_append, List.head?_cons, Option.mem_def,
            Option.some.injEq] at hc
          rw [← hc]
          exact ha)
      have hinc : includes (a :: A ++ '/' :: B) ['/'] = true := by
        rw [includes_singleton]
        apply decide_eq_true
        simp
      simp only [hstrip, hinc, List.isEmpty_cons, startsWith, List.isPrefixOf, beq_self_eq_true,
        Bool.true_and, Bool.not_true, Bool.not_false, Bool.false_eq_true, if_false, if_true]
      have hnot1 : ('/' :: (a :: A ++ '/' :: B) == ['/']) = false := rfl
      rw [if_neg (by rw [hnot1]; simp)]
      rfl

/-- A rule of two or more segments that does not end with white space: trimmed, in lower case
and less its closing slash, it is the rule without its closing slash in lower case. -/
theorem multi_rule_clean (segs : List Str) (closing : Bool)
    (hsegs : Segments segs) (hne : segs ≠ [])
    (hend : closing = true ∨ trimEnd (join ['/'] segs) = join ['/'] segs) :
    stripOneTrailingSlash (toLowerCase
        (trim ('/' :: join ['/'] segs ++ (if closing then ['/'] else [])))) =
      toLowerCase ('/' :: join ['/'] segs) := by
  have hL : Segments (segs.map toLowerCase) := segments_map_toLowerCase hsegs
  have hLne : segs.map toLowerCase ≠ [] := fun e => hne (List.map_eq_nil_iff.1 e)
  cases closing with
  | true =>
    have htrim : trim ('/' :: join ['/'] segs ++ ['/']) = '/' :: join ['/'] segs ++ ['/'] := by
      rw [List.cons_append, trim_cons_slash_eq, trimEnd_eq_self]
      intro c hc
      rw [List.getLast?_append] at hc
      have hc' : some '/' = some c := hc
      rw [← Option.some.inj hc']
      decide
    simp only [if_true]
    rw [htrim]
    have : '/' :: join ['/'] segs ++ ['/'] = ('/' :: join ['/'] segs) ++ '/' :: [] := rfl
    rw [this, toLowerCase_append_slash, toLowerCase_nil, stripOneTrailingSlash_append_slash]
  | false =>
    rcases hend with h | h
    · exact absurd h (by decide)
    · simp only [Bool.false_eq_true, if_false, List.append_nil]
      rw [trim_cons_slash_eq, h, toLowerCase_slash_join,
        stripOneTrailingSlash_of_not_endsWith _ (not_endsWith_slash_join hLne hL)]

end SiteCrawler
namespace SiteCrawler

/-- C14, the claim as stated fails: the code trims the rule.  The text `jobs ` (with a space at
its end) is not empty and holds no slash, no segment of the path `/jobs/1` equals it ignoring
case, and `isExcludedByPath("https://s/jobs/1", ["/jobs "])` is true.  The text made of one space
gives the rule `/`, which excludes every URL, `https://s/a` for one. -/
theorem single_segment_exclusion_counterexample :
    "jobs ".toList ≠ [] ∧ '/' ∉ "jobs ".toList ∧
      modelPlatform.parseUrl "https://s/jobs/1".toList none =
        some { protocol := "https:".toList, host := "s".toList, pathname := "/jobs/1".toList,
               query := none, fragment := none } ∧
      (pathParts "/jobs/1".toList).any
        (fun seg => toLowerCase seg == toLowerCase "jobs ".toList) = false ∧
      isExcludedByPath modelPlatform "https://s/jobs/1".toList ['/' :: "jobs ".toList] =
        some true ∧
      modelPlatform.parseUrl "https://s/a".toList none =
        some { protocol := "https:".toList, host := "s".toList, pathname := "/a".toList,
               query := none, fragment := none } ∧
      (pathParts "/a".toList).any (fun seg => toLowerCase seg == toLowerCase " ".toList) = false ∧
      isExcludedByPath modelPlatform "https://s/a".toList ['/' :: " ".toList] = some true := by
  decide

/-- C14 as amended (single-segment exclusion), for every URL class: let `s` be a text without
slash and `url` a URL that parses.  When `s` without the white space at its end is empty, the
rule `/s` is the rule `/` and `isExcludedByPath(url, ["/s"])` is true.  Otherwise it is true
exactly when some segment of the path of `url` equals, ignoring case, `s` without the white space
at its end.  So for a text `s` that is not empty and does not end with white space, it is true
exactly when some segment of the path equals `s` ignoring case. -/
theorem single_segment_exclusion (pf : Platform) (url s : Str) (u : URL)
    (hu : pf.parseUrl url none = some u) (hslash : '/' ∉ s) :
    isExcludedByPath pf url ['/' :: s] =
        some (if trimEnd s = [] then true
          else (pathParts u.pathname).any
            (fun seg => toLowerCase seg == toLowerCase (trimEnd s))) ∧
      (s ≠ [] → (∀ c ∈ s.getLast?, isJsWhitespace c = false) →
        isExcludedByPath pf url ['/' :: s] =
          some ((pathParts u.pathname).any (fun seg => toLowerCase seg == toLowerCase s))) := by
  have key : isExcludedByPath pf url ['/' :: s] =
      some (if trimEnd s = [] then true
        else (pathParts u.pathname).any
          (fun seg => toLowerCase seg == toLowerCase (trimEnd s))) := by
    rw [isExcludedByPath_one_rule hu, excludeRuleMatches_single _ s hslash]
    by_cases he : trimEnd s = []
    · rw [if_pos he, if_pos he]
    · rw [if_neg he, if_neg he, segmentTest_pathname _ _
        (fun e => he (toLowerCase_eq_nil.1 e))
        (fun e => hslash (mem_trimEnd (slash_mem_toLowerCase.1 e)))]
  refine ⟨key, ?_⟩
  intro hne hlast
  rw [key, trimEnd_eq_self s hlast, if_neg hne]

/-- C14 as amended, with `excludePaths = ["/jobs"]`: `/jobs/42` and `/en/jobs/42` are excluded,
and `/jobsboard` is not. -/
theorem single_segment_exclusion_witness :
    isExcludedByPath modelPlatform "https://s/en/jobs/42".toList ['/' :: "jobs".toList] =
        some ((pathParts "/en/jobs/42".toList).any
          (fun seg => toLowerCase seg == toLowerCase "jobs".toList)) ∧
      isExcludedByPath modelPlatform "https://s/jobs/42".toList ["/jobs".toList] = some true ∧
      isExcludedByPath modelPlatform "https://s/en/jobs/42".toList ["/jobs".toList] = some true ∧
      isExcludedByPath modelPlatform "https://s/jobsboard".toList ["/jobs".toList] =
        some false :=
  ⟨(single_segment_exclusion modelPlatform "https://s/en/jobs/42".toList "jobs".toList
      { protocol := "https:".toList, host := "s".toList, pathname := "/en/jobs/42".toList,
        query := none, fragment := none } (by decide) (by decide)).2 (by decide) (by decide),
    by decide, by decide, by decide⟩

end SiteCrawler
namespace SiteCrawler

/-- C15, the claim as stated fails: the code trims the rule.  The rule `/a/b ` (with a space at
its end) has two segments, the path `/a/b` in lower case neither equals it nor starts with it
followed by a slash, and `isExcludedByPath("https://s/a/b", ["/a/b "])` is true. -/
theorem multi_segment_exclusion_counterexample :
    modelPlatform.parseUrl "https://s/a/b".toList none =
        some { protocol := "https:".toList, host := "s".toList, pathname := "/a/b".toList,
               query := none, fragment := none } ∧
      '/' :: join ['/'] ["a".toList, "b ".toList] = "/a/b ".toList ∧
      (toLowerCase "/a/b".toList == toLowerCase "/a/b ".toList ||
        startsWith (toLowerCase "/a/b".toList) (toLowerCase "/a/b ".toList ++ ['/'])) = false ∧
      isExcludedByPath modelPlatform "https://s/a/b".toList ["/a/b ".toList] = some true := by
  decide

/-- C15 as amended (multi-segment exclusion), for every URL class: let the rule be written from
two or more segments (each not empty and without slash), with or without a closing slash, and
let `url` be a URL that parses.  Then `isExcludedByPath(url, [rule])` is true exactly when the
whole path of `url`, in lower case, equals the rule trimmed of white space and in lower case,
less one closing slash, or starts with it followed by a slash.  For a rule that does not end with
white space, that text is the rule without its closing slash, in lower case. -/
theorem multi_segment_exclusion (pf : Platform) (url : Str) (u : URL) (segs : List Str)
    (closing : Bool) (hu : pf.parseUrl url none = some u)
    (hsegs : ∀ s ∈ segs, s ≠ [] ∧ '/' ∉ s) (hlen : 2 ≤ segs.length) :
    isExcludedByPath pf url ['/' :: join ['/'] segs ++ (if closing then ['/'] else [])] =
        some (toLowerCase u.pathname ==
            stripOneTrailingSlash (toLowerCase
              (trim ('/' :: join ['/'] segs ++ (if closing then ['/'] else [])))) ||
          startsWith (toLowerCase u.pathname)
            (stripOneTrailingSlash (toLowerCase
              (trim ('/' :: join ['/'] segs ++ (if closing then ['/'] else [])))) ++ ['/'])) ∧
      (closing = true ∨ trimEnd (join ['/'] segs) = join ['/'] segs →
        isExcludedByPath pf url ['/' :: join ['/'] segs ++ (if closing then ['/'] else [])] =
          some (toLowerCase u.pathname == toLowerCase ('/' :: join ['/'] segs) ||
            startsWith (toLowerCase u.pathname)
              (toLowerCase ('/' :: join ['/'] segs) ++ ['/']))) := by
  have key := excludeRuleMatches_multi (toLowerCase u.pathname) segs closing hsegs hlen
  have hne : segs ≠ [] := by
    intro e
    rw [e] at hlen
    simp at hlen
  refine ⟨by rw [isExcludedByPath_one_rule hu, key], ?_⟩
  intro hend
  rw [isExcludedByPath_one_rule hu, key, multi_rule_clean segs closing hsegs hne hend]

/-- C15 as amended, with the rule `/a/b`: `/a/b` and `/a/b/c` are excluded, `/a/bc` and
`/en/a/b` are not. -/
theorem multi_segment_exclusion_witness :
    isExcludedByPath modelPlatform "https://s/a/b/c".toList
        ['/' :: join ['/'] ["a".toList, "b".toList] ++ (if false then ['/'] else [])] =
      some (toLowerCase "/a/b/c".toList ==
          toLowerCase ('/' :: join ['/'] ["a".toList, "b".toList]) ||
        startsWith (toLowerCase "/a/b/c".toList)
          (toLowerCase ('/' :: join ['/'] ["a".toList, "b".toList]) ++ ['/'])) ∧
      isExcludedByPath modelPlatform "https://s/a/b".toList ["/a/b".toList] = some true ∧
      isExcludedByPath modelPlatform "https://s/a/b/c".toList ["/a/b".toList] = some true ∧
      isExcludedByPath modelPlatform "https://s/a/bc".toList ["/a/b".toList] = some false ∧
      isExcludedByPath modelPlatform "https://s/en/a/b".toList ["/a/b".toList] = some false :=
  ⟨(multi_segment_exclusion modelPlatform "https://s/a/b/c".toList
      { protocol := "https:".toList, host := "s".toList, pathname := "/a/b/c".toList,
        query := none, fragment := none }
      ["a".toList, "b".toList] false (by decide)
      (by
        intro s hs
        simp only [List.mem_cons, List.mem_singleton, List.not_mem_nil, or_false] at hs
        rcases hs with rfl | rfl <;> exact ⟨by decide, by decide⟩)
      (by decide)).2 (Or.inr (by decide)),
    by decide, by decide, by decide, by decide⟩

end SiteCrawler
namespace SiteCrawler

open URL

/-! ## The start-path scope -/

theorem stripTrailingSlashes_last (p : Str) :
    ∀ c ∈ (stripTrailingSlashes p).getLast?, c ≠ '/' := by
  intro c hc
  unfold stripTrailingSlashes at hc
  rw [List.getLast?_reverse] at hc
  have := dropWhile_head_not (p := fun c => c == '/') p.reverse c hc
  simpa using this

/-- The scope computed from the seed is never empty, and it is `/` or does not end with a
slash. -/
theorem computeStartPathScope_shape {pf : Platform} (start : Str) :
    computeStartPathScope pf start ≠ [] ∧
      (computeStartPathScope pf start = ['/'] ∨
        endsWith (computeStartPathScope pf start) ['/'] = false) := by
  unfold computeStartPathScope
  cases pf.parseUrl start none with
  | none => exact ⟨by simp, Or.inl rfl⟩
  | some u =>
    dsimp only
    by_cases he : (stripTrailingSlashes
        (if u.pathname.isEmpty = true then ['/'] else u.pathname)).isEmpty = true
    · rw [if_pos he]
      exact ⟨by simp, Or.inl rfl⟩
    · rw [if_neg he]
      refine ⟨fun e => he (by rw [e]; rfl), Or.inr ?_⟩
      rw [Bool.eq_false_iff]
      intro h
      rw [endsWith_slash_iff] at h
      exact stripTrailingSlashes_last _ '/' h rfl

/-- The scope of a seed whose path is not empty and has no closing slash is that path. -/
theorem computeStartPathScope_plain {pf : Platform} {start : Str} {v : URL}
    (hv : pf.parseUrl start none = some v)
    (hne : v.pathname ≠ []) (hend : endsWith v.pathname ['/'] = false) :
    computeStartPathScope pf start = v.pathname := by
  have he : v.pathname.isEmpty = false := by
    cases hp : v.pathname with
    | nil => exact absurd hp hne
    | cons a r => rfl
  have hstrip : stripTrailingSlashes v.pathname = v.pathname := by
    apply stripTrailingSlashes_of_last
    intro c hc e
    rw [e] at hc
    rw [Bool.eq_false_iff] at hend
    exact hend ((endsWith_slash_iff _).2 hc)
  unfold computeStartPathScope
  simp only [hv, he, Bool.false_eq_true, if_false, hstrip]

/-- The test of `isWithinStartScope` when the scope is in force. -/
theorem isWithinStartScope_eq (run : Run) (url : Str)
    (hon : run.options.scopeToStartPath = true) (h1 : run.startPathScope ≠ ['/'])
    (h2 : run.startPathScope ≠ []) (h3 : endsWith run.startPathScope ['/'] = false) :
    isWithinStartScope run url =
      match run.env.platform.parseUrl url none with
      | none => false
      | some u => (u.pathname == run.startPathScope ||
          startsWith u.pathname (run.startPathScope ++ ['/'])) := by
  have hb1 : (run.startPathScope == ['/']) = false := by simpa using h1
  have hb2 : run.startPathScope.isEmpty = false := by
    cases hp : run.startPathScope with
    | nil => exact absurd hp h2
    | cons a r => rfl
  unfold isWithinStartScope
  simp only [hon, hb1, hb2, h3, Bool.not_true, Bool.false_eq_true, if_false, Bool.or_false]
  cases run.env.platform.parseUrl url none with
  | none => rfl
  | some u =>
    dsimp only
    cases hp : u.pathname with
    | cons a r => rfl
    | nil =>
      simp only [List.isEmpty_nil, if_true]
      obtain ⟨a, r, hS⟩ : ∃ a r, run.startPathScope = a :: r := by
        cases hq : run.startPathScope with
        | nil => exact absurd hq h2
        | cons a r => exact ⟨a, r, rfl⟩
      have e1 : (['/'] == run.startPathScope) = false := by
        simpa using fun e : ['/'] = run.startPathScope => h1 e.symm
      have e2 : (([] : Str) == run.startPathScope) = false := by
        rw [hS]; rfl
      rw [e1, e2, hS]
      simp [startsWith, List.isPrefixOf]

/-- The scope test of `processOne`, of the link filter and of the sitemap seeding, when the scope
is in force. -/
theorem inStartScope_eq (run : Run) (url : Str)
    (hon : run.options.scopeToStartPath = true) (h1 : run.startPathScope ≠ ['/']) :
    inStartScope run url =
      match run.env.platform.parseUrl url none with
      | none => false
      | some u => (u.pathname == run.startPathScope ||
          startsWith u.pathname (run.startPathScope ++ ['/'])) := by
  have hb1 : (run.startPathScope != ['/']) = true := by simpa using h1
  unfold inStartScope underStartScope
  rw [hon, hb1]
  cases run.env.platform.parseUrl url none with
  | none => rfl
  | some u =>
    dsimp only
    cases (u.pathname == run.startPathScope ||
      startsWith u.pathname (run.startPathScope ++ ['/'])) <;> rfl

/-- With the scope off, or a seed at the root, both tests let every URL through. -/
theorem scope_off (run : Run) (url : Str)
    (h : run.options.scopeToStartPath = false ∨ run.startPathScope = ['/']) :
    isWithinStartScope run url = true ∧ inStartScope run url = true := by
  unfold isWithinStartScope inStartScope
  rcases h with h | h
  · rw [h]
    exact ⟨rfl, rfl⟩
  · rw [h]
    constructor
    · cases run.options.scopeToStartPath <;> rfl
    · cases run.options.scopeToStartPath <;> rfl

/-- For a run whose scope was computed from a seed, the two tests of the scope agree. -/
theorem isWithinStartScope_eq_inStartScope {pf : Platform} (run : Run) (start url : Str)
    (hS : run.startPathScope = computeStartPathScope pf start) :
    isWithinStartScope run url = inStartScope run url := by
  by_cases hoff : run.options.scopeToStartPath = false ∨ run.startPathScope = ['/']
  · rw [(scope_off run url hoff).1, (scope_off run url hoff).2]
  · rw [not_or] at hoff
    have hon : run.options.scopeToStartPath = true := by simpa using hoff.1
    obtain ⟨hne, hshape⟩ := computeStartPathScope_shape start
    rw [← hS] at hne hshape
    rw [isWithinStartScope_eq run url hon hoff.2 hne (hshape.resolve_left hoff.2),
      inStartScope_eq run url hon hoff.2]

/-- With the model parser, a string `normalizeUrl` returned parses to a well-formed record whose
path is canonical: a slash before each of its segments, none of which is empty. -/
theorem normalizeUrl_parses_canonical {x : Str} {b : Option Str} {o : Options} {url : Str}
    (h : normalizeUrl modelPlatform x b o = some url) :
    ∃ u, parseAbsolute url = some u ∧ Valid u ∧
      ∃ cs, Segments cs ∧ u.pathname = '/' :: join ['/'] cs := by
  rw [normalizeUrl_eq] at h
  cases hr : resolveUrl modelPlatform x b with
  | none => simp [hr] at h
  | some u0 =>
    simp only [hr] at h
    by_cases hproto : (["http:".toList, "https:".toList].contains u0.protocol) = true
    · have hn : (!(["http:".toList, "https:".toList].contains u0.protocol)) = false := by
        rw [hproto]; rfl
      rw [hn] at h
      simp only [Bool.false_eq_true, if_false] at h
      split_ifs at h
      have hv := normalizedRecord_valid o (resolveUrl_valid hr hproto)
      obtain ⟨u, hu, hval, -, -, hpath, -⟩ :=
        strip_href_parse hv (normalizedRecord_canonical o u0)
      obtain ⟨cs, hcs, hc⟩ := normalizedRecord_canonical o u0
      rw [← Option.some.inj h]
      exact ⟨u, hu, hval, cs, hcs, by rw [hpath, hc]⟩
    · have hn : (!(["http:".toList, "https:".toList].contains u0.protocol)) = true := by
        rw [Bool.eq_false_iff.2 hproto]; rfl
      rw [hn, if_pos rfl] at h
      exact Option.noConfusion h

/-- On the fragment, the scope computed from a normalised seed is the path of the seed. -/
theorem computeStartPathScope_normalized {x : Str} {b : Option Str} {o : Options} {start : Str}
    (h : normalizeUrl modelPlatform x b o = some start) :
    ∃ v, parseAbsolute start = some v ∧
      computeStartPathScope modelPlatform start = v.pathname := by
  obtain ⟨v, hv, -, cs, hcs, hpath⟩ := normalizeUrl_parses_canonical h
  have hv' : modelPlatform.parseUrl start none = some v := hv
  refine ⟨v, hv, ?_⟩
  by_cases hne : cs = []
  · subst hne
    have hroot : v.pathname = ['/'] := hpath
    unfold computeStartPathScope
    simp only [hv', hroot]
    rfl
  · apply computeStartPathScope_plain hv'
    · rw [hpath]
      exact List.cons_ne_nil _ _
    · rw [hpath]
      exact not_endsWith_slash_join hne hcs

end SiteCrawler
namespace SiteCrawler

open URL

/-- C16 (scope containment), for every URL class: let `run` be a run whose scope `S` is the one
the handler computes from the seed `start`.  If the seed parses, `S` is its path without its
closing slashes, or `/` when nothing is left; so `S` is the path of the seed when that path is
in canonical form, as `normalizeUrl` leaves it.  When `scopeToStartPath` is set and `S` is not the
root, a candidate URL passes `isWithinStartScope`, and likewise the scope test of `processOne` and
of the link filter, exactly when it parses and its path equals `S` or starts with `S` followed by
a slash.  When `scopeToStartPath` is off or `S` is the root, every URL passes both tests. -/
theorem scope_containment (run : Run) (start url : Str)
    (hS : run.startPathScope = computeStartPathScope run.env.platform start) :
    (∀ v, run.env.platform.parseUrl start none = some v →
      run.startPathScope =
          (if stripTrailingSlashes v.pathname = [] then ['/']
            else stripTrailingSlashes v.pathname) ∧
        ∀ p, v.pathname = canonicalizePathname p → run.startPathScope = v.pathname) ∧
      (run.options.scopeToStartPath = true → run.startPathScope ≠ ['/'] →
        (isWithinStartScope run url = true ↔
          ∃ u, run.env.platform.parseUrl url none = some u ∧
            (u.pathname = run.startPathScope ∨
              startsWith u.pathname (run.startPathScope ++ ['/']) = true)) ∧
        (inStartScope run url = true ↔
          ∃ u, run.env.platform.parseUrl url none = some u ∧
            (u.pathname = run.startPathScope ∨
              startsWith u.pathname (run.startPathScope ++ ['/']) = true))) ∧
      (run.options.scopeToStartPath = false ∨ run.startPathScope = ['/'] →
        isWithinStartScope run url = true ∧ inStartScope run url = true) := by
  refine ⟨?_, ?_, scope_off run url⟩
  · intro v hv
    have hform : run.startPathScope =
        (if stripTrailingSlashes v.pathname = [] then ['/']
          else stripTrailingSlashes v.pathname) := by
      rw [hS]
      unfold computeStartPathScope
      simp only [hv]
      cases hp : v.pathname with
      | nil => rfl
      | cons a r =>
        simp only [List.isEmpty_cons, Bool.false_eq_true, if_false]
        cases hq : stripTrailingSlashes (a :: r) with
        | nil => rfl
        | cons c t => rfl
    refine ⟨hform, ?_⟩
    intro p hp
    have hcs := (canonical_parts p).1
    have hc : canonicalizePathname p = '/' :: join ['/'] ((pathParts p).foldl canonStep []) :=
      rfl
    by_cases hne : (pathParts p).foldl canonStep [] = []
    · have hroot : v.pathname = ['/'] := by
        rw [hp, hc, hne]
        rfl
      rw [hform, hroot]
      rfl
    · rw [hS]
      apply computeStartPathScope_plain hv
      · rw [hp, hc]
        exact List.cons_ne_nil _ _
      · rw [hp, hc]
        exact not_endsWith_slash_join hne hcs
  · intro hon hroot
    have key : inStartScope run url = true ↔
        ∃ u, run.env.platform.parseUrl url none = some u ∧
          (u.pathname = run.startPathScope ∨
            startsWith u.pathname (run.startPathScope ++ ['/']) = true) := by
      rw [inStartScope_eq run url hon hroot]
      cases hp : run.env.platform.parseUrl url none with
      | none => simp
      | some u => simp
    rw [isWithinStartScope_eq_inStartScope run start url hS]
    exact ⟨key, key⟩

/-- C16 with the seed `https://s/docs` and the default options (`scopeToStartPath` set): the
scope is `/docs`, `/docs/guide` is within it and `/docs2` is not. -/
theorem scope_containment_witness :
    docsRun.startPathScope = "/docs".toList ∧
      isWithinStartScope docsRun "https://s/docs/guide".toList = true ∧
      isWithinStartScope docsRun "https://s/docs2".toList = false ∧
      inStartScope docsRun "https://s/docs/guide".toList = true ∧
      inStartScope docsRun "https://s/docs2".toList = false ∧
      (docsRun.options.scopeToStartPath = true → docsRun.startPathScope ≠ ['/'] →
        (isWithinStartScope docsRun "https://s/docs2".toList = true ↔
          ∃ u, docsRun.env.platform.parseUrl "https://s/docs2".toList none = some u ∧
            (u.pathname = docsRun.startPathScope ∨
              startsWith u.pathname (docsRun.startPathScope ++ ['/']) = true)) ∧
        (inStartScope docsRun "https://s/docs2".toList = true ↔
          ∃ u, docsRun.env.platform.parseUrl "https://s/docs2".toList none = some u ∧
            (u.pathname = docsRun.startPathScope ∨
              startsWith u.pathname (docsRun.startPathScope ++ ['/']) = true))) :=
  ⟨by decide, by decide, by decide, by decide, by decide,
    (scope_containment docsRun "https://s/docs".toList "https://s/docs2".toList rfl).2.1⟩

end SiteCrawler
namespace SiteCrawler

open URL

/-! ## Properties of the URLs that get fetched -/

theorem startTasks_fetchInvariant {run : Run} {P : CrawlState → Prop} {A : Str → Prop}
    (hP : FetchInvariant run P A) (limit : Nat) (pending : List Str) (st : CrawlState)
    (active : List Task) (h : P st)
    (ha : ∀ t ∈ active, t.phase = Phase.awaitingFetch → A t.url) :
    P (startTasks run limit pending st active).1 ∧
      ∀ t ∈ (startTasks run limit pending st active).2.2,
        t.phase = Phase.awaitingFetch → A t.url := by
  induction pending generalizing st active with
  | nil => exact ⟨h, ha⟩
  | cons u rest ih =>
    unfold startTasks
    by_cases hlim : active.length < limit
    · rw [if_pos hlim]
      dsimp only
      apply ih _ _ (hP.start st u h).1
      intro t ht
      rcases List.mem_append.1 ht with ht | ht
      · exact ha t ht
      · rw [List.mem_singleton.1 ht]
        exact (hP.start st u h).2
    · rw [if_neg hlim]
      exact ⟨h, ha⟩

theorem advanceTask_fetchInvariant {run : Run} {P : CrawlState → Prop} {A : Str → Prop}
    (hP : FetchInvariant run P A) (limit k : Nat) (c : CrawlState × List Str × List Task)
    (h : P c.1) (ha : ∀ t ∈ c.2.2, t.phase = Phase.awaitingFetch → A t.url) :
    P (advanceTask run limit k c).1 ∧
      ∀ t ∈ (advanceTask run limit k c).2.2, t.phase = Phase.awaitingFetch → A t.url := by
  obtain ⟨st, pending, active⟩ := c
  unfold advanceTask
  dsimp only
  cases hk : active.get? k with
  | none => exact ⟨h, ha⟩
  | some t =>
    dsimp only
    have htmem : t ∈ active := List.get?_mem hk
    cases hph : t.phase with
    | awaitingFetch =>
      dsimp only
      refine ⟨hP.finish st t.url h (ha t htmem hph), ?_⟩
      intro t' ht' hph'
      rcases List.mem_or_eq_of_mem_set ht' with h1 | h1
      · exact ha t' h1 hph'
      · rw [h1] at hph'
        exact Phase.noConfusion hph'
    | returned =>
      dsimp only
      apply startTasks_fetchInvariant hP limit pending st _ h
      intro t' ht'
      exact ha t' (List.mem_of_mem_eraseIdx ht')

theorem poolLoop_fetchInvariant {run : Run} {P : CrawlState → Prop} {A : Str → Prop}
    (hP : FetchInvariant run P A) (limit fuel : Nat) (sched : List Nat)
    (c : CrawlState × List Str × List Task) (h : P c.1)
    (ha : ∀ t ∈ c.2.2, t.phase = Phase.awaitingFetch → A t.url)
    {st' : CrawlState} {sched' : List Nat}
    (hrun : poolLoop run limit fuel sched c = some (st', sched')) : P st' := by
  induction fuel generalizing sched c with
  | zero =>
    obtain ⟨st, pending, active⟩ := c
    unfold poolLoop at hrun
    split_ifs at hrun
    simp only [Option.some.injEq, Prod.mk.injEq] at hrun
    rw [← hrun.1]
    exact h
  | succ fuel ih =>
    obtain ⟨st, pending, active⟩ := c
    unfold poolLoop at hrun
    by_cases hdone : (pending.isEmpty && active.isEmpty) = true
    · rw [if_pos hdone] at hrun
      simp only [Option.some.injEq, Prod.mk.injEq] at hrun
      rw [← hrun.1]
      exact h
    · rw [if_neg hdone] at hrun
      dsimp only at hrun
      split_ifs at hrun
      have hstep := advanceTask_fetchInvariant hP limit (sched.headD 0 % active.length)
        (st, pending, active) h ha
      exact ih _ _ hstep.1 hstep.2 hrun

theorem concurrencyMap_fetchInvariant {run : Run} {P : CrawlState → Prop} {A : Str → Prop}
    (hP : FetchInvariant run P A) (items : List Str) (limit : Nat) (sched : List Nat)
    (st : CrawlState) (h : P st) {st' : CrawlState} {sched' : List Nat}
    (hrun : concurrencyMap run items limit sched st = some (st', sched')) : P st' := by
  have hstart := startTasks_fetchInvariant hP limit items st [] h
    (fun t ht => absurd ht (List.not_mem_nil t))
  exact poolLoop_fetchInvariant hP limit _ sched _ hstart.1 hstart.2 hrun

/-- A fetch invariant that holds when the frontier loop starts holds when it ends. -/
theorem frontierLoop_fetchInvariant {run : Run} {P : CrawlState → Prop} {A : Str → Prop}
    (hP : FetchInvariant run P A) (fuel : Nat) (sched : List Nat) (st : CrawlState) (h : P st)
    {st' : CrawlState} (hrun : frontierLoop run fuel sched st = some st') : P st' := by
  induction fuel generalizing sched st with
  | zero =>
    unfold frontierLoop at hrun
    split_ifs at hrun
    rw [← Option.some.inj hrun]
    exact h
  | succ fuel ih =>
    unfold frontierLoop at hrun
    by_cases hgo : (decide (st.toVisit.length > 0) &&
        decide (st.visited.length < run.options.maxPages)) = true
    · rw [if_pos hgo] at hrun
      dsimp only at hrun
      cases hc : concurrencyMap run (st.toVisit.take (run.options.concurrency * 2))
          run.options.concurrency sched
          { st with toVisit :=
              (st.toVisit.take (run.options.concurrency * 2)).foldl setDelete st.toVisit } with
      | none => simp [hc] at hrun
      | some p =>
        obtain ⟨st2, sched2⟩ := p
        simp only [hc] at hrun
        exact ih _ _ (concurrencyMap_fetchInvariant hP _ _ _ _ (hP.frontier st _ h) hc) hrun
    · rw [if_neg hgo] at hrun
      rw [← Option.some.inj hrun]
      exact h

/-- The second half of `processOne` adds its URL to `discovered` and nothing else. -/
theorem processOneFinish_discovered (run : Run) (st : CrawlState) (u : Str) (r : FetchResult) :
    (processOneFinish run st u r).discovered = setAdd st.discovered u := by
  obtain ⟨links, h⟩ := processOneFinish_eq run st u r
  rw [h]
  exact (enqueueLinks_frame _ _ _).2.2.2.2.1

theorem mem_setAdd {s : List Str} {x y : Str} (h : y ∈ setAdd s x) : y ∈ s ∨ y = x := by
  unfold setAdd at h
  split_ifs at h
  · exact Or.inl h
  · rcases List.mem_append.1 h with h | h
    · exact Or.inl h
    · exact Or.inr (List.mem_singleton.1 h)

/-- Every URL of `discovered` passed the scope test and the exclusions that stand before the
fetch in `processOne`. -/
theorem discovered_fetchInvariant (run : Run) :
    FetchInvariant run
      (fun st => ∀ u ∈ st.discovered,
        inStartScope run u = true ∧ excludedBeforeFetch run u = false)
      (fun u => inStartScope run u = true ∧ excludedBeforeFetch run u = false) := by
  refine ⟨?_, ?_, ?_⟩
  · intro st u h
    constructor
    · rw [(processOneStart_frame run st u).2.1]
      exact h
    · intro hph
      rcases processOneStart_cases run st u with ⟨-, hs⟩ | ⟨-, -, -, st1, -, hs⟩ |
        ⟨-, -, hin, st1, -, hs⟩
      · rw [hs] at hph
        exact Phase.noConfusion hph
      · rw [hs] at hph
        exact Phase.noConfusion hph
      · rw [hs] at hph
        refine ⟨hin, ?_⟩
        by_cases hex : excludedBeforeFetch run u = true
        · rw [if_pos hex] at hph
          exact Phase.noConfusion hph
        · exact Bool.eq_false_iff.2 hex
  · intro st u h hA v hv
    rw [processOneFinish_discovered] at hv
    rcases mem_setAdd hv with hv | hv
    · exact h v hv
    · rw [hv]
      exact hA
  · intro st tv h
    exact h

/-- What the handler has set up when it reports a finished crawl, with the constants of the
run. -/
theorem crawl_finished_run {env : Env} {url : Str} {options : Options} {sched : List Nat}
    {fuel : Nat} {run : Run} {start : Str} {fromSitemap : Bool} {st : CrawlState}
    (h : crawl env url options sched fuel = CrawlOutcome.finished run start fromSitemap st) :
    ∃ root, env.platform.parseUrl url none = some root ∧
      normalizeUrl env.platform url none options = some start ∧
      run.env = env ∧ run.options = options ∧ run.rootHost = root.host ∧
      run.startPathScope = computeStartPathScope env.platform start ∧
      ∃ tv, frontierLoop run fuel sched { CrawlState.fresh with toVisit := tv } = some st := by
  unfold crawl at h
  cases hroot : env.platform.parseUrl url none with
  | none => simp [hroot] at h
  | some root =>
    simp only [hroot] at h
    cases hstart : normalizeUrl env.platform url none options with
    | none => simp [hstart] at h
    | some s =>
      simp only [hstart] at h
      by_cases hs : s.isEmpty = true
      · simp [hs] at h
      · rw [if_neg hs] at h
        split at h
        · exact CrawlOutcome.noConfusion h
        · rename_i st1 hloop
          injection h with h1 h2 h3 h4
          subst h1 h2 h4
          exact ⟨root, rfl, rfl, rfl, rfl, rfl, rfl, _, hloop⟩

end SiteCrawler
namespace SiteCrawler

open URL

/-- C20 (admissibility of the report), for every URL class: whatever the site, its sitemap and
the order of the fetches, every URL of the `urls` list of the response of a finished crawl passes
every active predicate.  With `root` the parsed seed, `start` the normalised seed and `S` the
start-path scope computed from it: the URL parses and its host is the host of the seed when
`sameHostOnly` is set; when `scopeToStartPath` is set and `S` is not the root, it parses and its
path is `S` or lies under it; it has no excluded extension; no rule of `excludePaths` matches it;
and it is not a job detail page when `ignoreJobPages` is set. -/
theorem report_admissible (env : Env) (url : Str) (options : Options) (sched : List Nat)
    (fuel : Nat) (st : CrawlState)
    (h : (crawl env url options sched fuel).state? = some st) :
    ∃ root start, env.platform.parseUrl url none = some root ∧
      normalizeUrl env.platform url none options = some start ∧
      ∀ u ∈ reportUrls st,
        (options.sameHostOnly = true →
          ∃ p, env.platform.parseUrl u none = some p ∧ p.host = root.host) ∧
        (options.scopeToStartPath = true →
          computeStartPathScope env.platform start ≠ ['/'] →
          ∃ p, env.platform.parseUrl u none = some p ∧
            (p.pathname = computeStartPathScope env.platform start ∨
              startsWith p.pathname (computeStartPathScope env.platform start ++ ['/']) =
                true)) ∧
        hasExcludedExtension u options = false ∧
        isExcludedByPath env.platform u options.excludePaths = some false ∧
        (options.ignoreJobPages = true → isJobDetailPage env.platform u = some false) := by
  cases hc : crawl env url options sched fuel with
  | invalidUrl => simp [hc, CrawlOutcome.state?] at h
  | outOfFuel => simp [hc, CrawlOutcome.state?] at h
  | finished run start fromSitemap st1 =>
    rw [hc] at h
    simp only [CrawlOutcome.state?, Option.some.injEq] at h
    subst h
    obtain ⟨root, hroot, hstart, henv, hopt, hhost, hscope, tv, hloop⟩ := crawl_finished_run hc
    have hdisc := frontierLoop_fetchInvariant (discovered_fetchInvariant run) fuel sched _
      (fun u hu => absurd hu (List.not_mem_nil u)) hloop
    refine ⟨root, start, hroot, hstart, ?_⟩
    intro u hu
    unfold reportUrls at hu
    rw [(List.perm_insertionSort _ _).mem_iff] at hu
    obtain ⟨hin, hex⟩ := hdisc u hu
    unfold excludedBeforeFetch at hex
    rw [hopt, hhost, henv] at hex
    simp only [Bool.or_eq_false_iff] at hex
    obtain ⟨⟨⟨h1, h2⟩, h3⟩, h4⟩ := hex
    refine ⟨?_, ?_, h2, ?_, ?_⟩
    · intro hsame
      rw [hsame, Bool.true_and] at h1
      cases hp : env.platform.parseUrl u none with
      | none => rw [hp] at h1; exact Bool.noConfusion h1
      | some p =>
        rw [hp] at h1
        exact ⟨p, rfl, by simpa using h1⟩
    · intro hon hne
      rw [← hopt] at hon
      rw [← hscope] at hne ⊢
      rw [inStartScope_eq run u hon hne, henv] at hin
      cases hp : env.platform.parseUrl u none with
      | none => rw [hp] at hin; exact Bool.noConfusion hin
      | some p =>
        rw [hp] at hin
        exact ⟨p, rfl, by simpa using hin⟩
    · cases he : isExcludedByPath env.platform u options.excludePaths with
      | none => rw [he] at h3; exact Bool.noConfusion h3
      | some b =>
        rw [he] at h3
        rw [show b = false from h3]
    · intro hjob
      rw [hjob, Bool.true_and] at h4
      cases hj : isJobDetailPage env.platform u with
      | none => rw [hj] at h4; exact Bool.noConfusion h4
      | some b =>
        rw [hj] at h4
        rw [show b = false from h4]

/-- C20 on a crawl seeded from a sitemap: the sitemap of `https://s/` lists a page of another
host, a job detail page, a PDF file and an ordinary page.  All four enter the frontier and
`visited`; the report holds the ordinary page only, and its URLs pass every predicate. -/
theorem report_admissible_witness :
    ∃ st, (crawl sitemapSite "https://s/".toList DEFAULTS [] 10).state? = some st ∧
      st.visited = ["https://other/page", "https://s/careers/42", "https://s/a.pdf",
        "https://s/ok"].map String.toList ∧
      reportUrls st = ["https://s/ok".toList] ∧
      ∃ root start, modelPlatform.parseUrl "https://s/".toList none = some root ∧
        normalizeUrl modelPlatform "https://s/".toList none DEFAULTS = some start ∧
        ∀ u ∈ reportUrls st,
          (DEFAULTS.sameHostOnly = true →
            ∃ p, modelPlatform.parseUrl u none = some p ∧ p.host = root.host) ∧
          (DEFAULTS.scopeToStartPath = true →
            computeStartPathScope modelPlatform start ≠ ['/'] →
            ∃ p, modelPlatform.parseUrl u none = some p ∧
              (p.pathname = computeStartPathScope modelPlatform start ∨
                startsWith p.pathname (computeStartPathScope modelPlatform start ++ ['/']) =
                  true)) ∧
          hasExcludedExtension u DEFAULTS = false ∧
          isExcludedByPath modelPlatform u DEFAULTS.excludePaths = some false ∧
          (DEFAULTS.ignoreJobPages = true → isJobDetailPage modelPlatform u = some false) := by
  have h1 : (crawl sitemapSite "https://s/".toList DEFAULTS [] 10).state?.map
      (fun st => st.visited) =
      some (["https://other/page", "https://s/careers/42", "https://s/a.pdf",
        "https://s/ok"].map String.toList) := by
    decide!
  have h2 : (crawl sitemapSite "https://s/".toList DEFAULTS [] 10).state?.map reportUrls =
      some ["https://s/ok".toList] := by
    decide!
  cases hst : (crawl sitemapSite "https://s/".toList DEFAULTS [] 10).state? with
  | none =>
    rw [hst] at h1
    exact Option.noConfusion h1
  | some st =>
    rw [hst] at h1 h2
    exact ⟨st, rfl, Option.some.inj h1, Option.some.inj h2,
      report_admissible sitemapSite "https://s/".toList DEFAULTS [] 10 st hst⟩

end SiteCrawler
namespace SiteCrawler

/-- C27 (idempotence of the path canonicalisation): for every pathname `p`,
`canonicalizePathname(canonicalizePathname(p))` is `canonicalizePathname(p)`: the parts of a
canonical path are the segments it was joined from, and the loop leaves them as they are. -/
theorem canonicalizePathname_idempotent (p : Str) :
    canonicalizePathname (canonicalizePathname p) = canonicalizePathname p := by
  obtain ⟨-, hparts⟩ := canonical_parts p
  have e : ∀ q, canonicalizePathname q = '/' :: join ['/'] ((pathParts q).foldl canonStep []) :=
    fun _ => rfl
  rw [e (canonicalizePathname p), hparts, foldl_canonStep_idem]
  exact (e p).symm

end SiteCrawler
namespace SiteCrawler

/-- C25 (idempotent re-submission): a call of `processOne` on a URL that is in `visited`, or in
`blockedByPathLimit`, or fails the start-path scope test, ends in its first, synchronous part,
before the fetch, with the state it started from: every component of the state is unchanged.
The same holds whatever the network and the parsers of the libraries would answer (for the same
URL class). -/
theorem resubmission_noop (run : Run) (st : CrawlState) (u : Str)
    (h : u ∈ st.visited ∨ u ∈ st.blockedByPathLimit ∨ inStartScope run u = false) :
    processOneStart run st u = (st, Phase.returned) ∧ processOne run st u = st ∧
      ∀ env : Env, env.platform = run.env.platform →
        processOne { run with env := env } st u = st := by
  have key : ∀ r : Run, inStartScope r u = inStartScope run u →
      processOneStart r st u = (st, Phase.returned) := by
    intro r hr
    rcases processOneStart_cases r st u with ⟨-, hs⟩ | ⟨h1, h2, h3, -⟩ | ⟨h1, h2, h3, -⟩
    · exact hs
    · rw [hr] at h3
      rcases h with h | h | h
      · exact absurd h h1
      · exact absurd h h2
      · rw [h] at h3
        exact Bool.noConfusion h3
    · rw [hr] at h3
      rcases h with h | h | h
      · exact absurd h h1
      · exact absurd h h2
      · rw [h] at h3
        exact Bool.noConfusion h3
  refine ⟨key run rfl, ?_, ?_⟩
  · unfold processOne
    rw [key run rfl]
  · intro env henv
    unfold processOne
    rw [key { run with env := env } (by unfold inStartScope; rw [henv])]

/-- C25 on a run that has visited `https://s/job/1`: a second call for that URL changes
nothing. -/
theorem resubmission_noop_witness :
    "https://s/job/1".toList ∈
        (processOne jobRun CrawlState.fresh "https://s/job/1".toList).visited ∧
      processOne jobRun (processOne jobRun CrawlState.fresh "https://s/job/1".toList)
          "https://s/job/1".toList =
        processOne jobRun CrawlState.fresh "https://s/job/1".toList :=
  ⟨by decide,
    (resubmission_noop jobRun (processOne jobRun CrawlState.fresh "https://s/job/1".toList)
      "https://s/job/1".toList (Or.inl (by decide))).2.1⟩

end SiteCrawler
namespace SiteCrawler

/-- C26, the code departs from the claim, in two ways.  A crawl with `maxPages = 4` and
`concurrency = 1` of a site whose home page links to `/b`, `/c`, `/d` and whose page `/b` links to
`/e`, `/f` ends with five URLs in `visited` and an empty frontier: the batch taken out of the
frontier is counted neither by the loop guard nor by the enqueue bound.  And a crawl with
`maxPages = 2` of a site whose sitemap has four entries starts from a frontier of four URLs and
visits them all: the seeding from the sitemap checks no bound. -/
theorem frontier_bound_overshoot :
    overshootOptions.maxPages = 4 ∧
      (crawl overshootSite "https://s/".toList overshootOptions [] 10).state?.map
          (fun st => st.visited.length + st.toVisit.length) = some 5 ∧
      (crawlSetup sitemapSite "https://s/".toList { DEFAULTS with maxPages := 2 }).map
          (fun r => r.2.2.2.visited.length + r.2.2.2.toVisit.length) = some 4 ∧
      (crawl sitemapSite "https://s/".toList { DEFAULTS with maxPages := 2 } [] 10).state?.map
          (fun st => st.visited.length + st.toVisit.length) = some 4 := by
  decide!

end SiteCrawler
namespace SiteCrawler

/-- C21, the code departs from the claim: a site of six pages, all served as HTML, without
sitemap, robots file, exclusion or path-limit rule, crawled with `maxPages = 7` and
`concurrency = 1`.  The links that `processOne` finds on the six pages stay among the six, the
page `/d` is linked from `/e`, which is linked from the home page, and the report lacks `/d`.
The pages `/b` and `/e` are enqueued a second time while they wait in the batch, so that they
count twice in `visited.size + toVisit.size` when the link to `/d` is examined, and the enqueue
loop breaks. -/
theorem crawl_loses_reachable_page :
    lostPageOptions.maxPages = 7 ∧ lostPageOptions.concurrency = 1 ∧
      lostPageOptions.excludePaths = [] ∧ lostPageOptions.pathLimits = [] ∧
      (crawlSetup lostPageSite "https://s/".toList lostPageOptions).map
          (fun r =>
            (r.2.1, r.2.2.1, r.1.robots.isSome,
              (["https://s", "https://s/a", "https://s/b", "https://s/c", "https://s/d",
                "https://s/e"].map String.toList).map (pageLinks r.1))) =
        some ("https://s".toList, false, false,
          [["https://s/a", "https://s/b", "https://s/c", "https://s/e"].map String.toList,
            ["https://s/b".toList], [], ["https://s/e".toList], [], ["https://s/d".toList]]) ∧
      (crawl lostPageSite "https://s/".toList lostPageOptions [] 20).state?.map reportUrls =
        some (["https://s", "https://s/a", "https://s/b", "https://s/c", "https://s/e"].map
          String.toList) := by
  decide!

end SiteCrawler
namespace SiteCrawler

open URL

/-! ## The set-up of a crawl and the seeding of the frontier -/

/-- The handler runs the frontier loop from the state that `crawlSetup` returns. -/
theorem crawl_eq_setup (env : Env) (url : Str) (options : Options) (sched : List Nat)
    (fuel : Nat) :
    crawl env url options sched fuel =
      match crawlSetup env url options with
      | none => CrawlOutcome.invalidUrl
      | some (run, start, fromSitemap, st0) =>
        match frontierLoop run fuel sched st0 with
        | none => CrawlOutcome.outOfFuel
        | some st => CrawlOutcome.finished run start fromSitemap st := by
  unfold crawl crawlSetup
  cases env.platform.parseUrl url none with
  | none => rfl
  | some root =>
    dsimp only
    cases normalizeUrl env.platform url none options with
    | none => rfl
    | some start =>
      dsimp only
      by_cases hs : start.isEmpty = true
      · rw [if_pos hs, if_pos hs]
      · rw [if_neg hs, if_neg hs]
        try rfl

/-- What `crawlSetup` has computed when it returns. -/
theorem crawlSetup_some {env : Env} {url : Str} {options : Options} {run : Run} {start : Str}
    {fromSitemap : Bool} {st0 : CrawlState}
    (h : crawlSetup env url options = some (run, start, fromSitemap, st0)) :
    ∃ root, env.platform.parseUrl url none = some root ∧
      normalizeUrl env.platform url none options = some start ∧
      run = { env := env, options := options, rootHost := root.host,
              startPathScope := computeStartPathScope env.platform start,
              robots := fetchRobots env (root.protocol ++ ['/', '/'] ++ root.host) } ∧
      fromSitemap = decide ((fetchSitemapUrls env (root.protocol ++ ['/', '/'] ++ root.host)
        run.robots).length > 0) ∧
      st0 = { CrawlState.fresh with
        toVisit := seedFrontier env.platform options (computeStartPathScope env.platform start) start
          (fetchSitemapUrls env (root.protocol ++ ['/', '/'] ++ root.host) run.robots) } := by
  unfold crawlSetup at h
  cases hroot : env.platform.parseUrl url none with
  | none => simp [hroot] at h
  | some root =>
    simp only [hroot] at h
    cases hstart : normalizeUrl env.platform url none options with
    | none => simp [hstart] at h
    | some s =>
      simp only [hstart] at h
      by_cases hs : s.isEmpty = true
      · simp [hs] at h
      · rw [if_neg hs] at h
        simp only [Option.some.injEq, Prod.mk.injEq] at h
        obtain ⟨h1, h2, h3, h4⟩ := h
        subst h1 h2 h3 h4
        exact ⟨root, rfl, rfl, rfl, rfl, rfl⟩

theorem setAdd_nodup {s : List Str} (x : Str) (h : s.Nodup) : (setAdd s x).Nodup := by
  unfold setAdd
  split_ifs with hx
  · exact h
  · rw [List.nodup_append]
    exact ⟨h, List.nodup_singleton x, fun a ha hb => hx (List.mem_singleton.1 hb ▸ ha)⟩

theorem mem_setAdd_iff {s : List Str} {x y : Str} : y ∈ setAdd s x ↔ y ∈ s ∨ y = x := by
  unfold setAdd
  split_ifs with hx
  · constructor
    · exact Or.inl
    · rintro (h | h)
      · exact h
      · rw [h]; exact hx
  · rw [List.mem_append, List.mem_singleton]

/-- The frontier after the sitemap entries have been offered to it: a set that holds what it
held, and the normalised entries that pass the scope test. -/
theorem seedFromSitemap_fold {pf : Platform} (options : Options) (S : Str) (entries acc : List Str)
    (hacc : acc.Nodup) :
    (entries.foldl (seedFromSitemap pf options S) acc).Nodup ∧
      ∀ n, n ∈ entries.foldl (seedFromSitemap pf options S) acc ↔
        n ∈ acc ∨ ∃ e ∈ entries, normalizeUrl pf e none options = some n ∧
          (options.scopeToStartPath && S != ['/'] && underStartScope pf S n != some true) =
            false := by
  induction entries generalizing acc with
  | nil =>
    refine ⟨hacc, fun n => ?_⟩
    simp
  | cons e rest ih =>
    rw [List.foldl_cons]
    have hstep : (seedFromSitemap pf options S acc e).Nodup ∧
        ∀ n, n ∈ seedFromSitemap pf options S acc e ↔
          n ∈ acc ∨ (normalizeUrl pf e none options = some n ∧
            (options.scopeToStartPath && S != ['/'] && underStartScope pf S n != some true) =
              false) := by
      unfold seedFromSitemap
      cases hn : normalizeUrl pf e none options with
      | none =>
        refine ⟨hacc, fun n => ?_⟩
        simp
      | some m =>
        dsimp only
        by_cases hsc : (options.scopeToStartPath && S != ['/'] &&
            underStartScope pf S m != some true) = true
        · rw [if_pos hsc]
          refine ⟨hacc, fun n => ⟨Or.inl, ?_⟩⟩
          rintro (h | ⟨h1, h2⟩)
          · exact h
          · rw [← Option.some.inj h1, hsc] at h2
            exact Bool.noConfusion h2
        · rw [if_neg hsc]
          refine ⟨setAdd_nodup m hacc, fun n => ?_⟩
          rw [mem_setAdd_iff]
          constructor
          · rintro (h | h)
            · exact Or.inl h
            · rw [h]
              exact Or.inr ⟨rfl, Bool.eq_false_iff.2 hsc⟩
          · rintro (h | ⟨h1, -⟩)
            · exact Or.inl h
            · exact Or.inr (Option.some.inj h1).symm
    obtain ⟨hnd, hmem⟩ := ih (seedFromSitemap pf options S acc e) hstep.1
    refine ⟨hnd, fun n => ?_⟩
    rw [hmem, hstep.2]
    constructor
    · rintro ((h | ⟨h1, h2⟩) | ⟨e', he', h1, h2⟩)
      · exact Or.inl h
      · exact Or.inr ⟨e, List.mem_cons_self _ _, h1, h2⟩
      · exact Or.inr ⟨e', List.mem_cons_of_mem _ he', h1, h2⟩
    · rintro (h | ⟨e', he', h1, h2⟩)
      · exact Or.inl (Or.inl h)
      · rcases List.mem_cons.1 he' with h | h
        · rw [h] at h1
          exact Or.inl (Or.inr ⟨h1, h2⟩)
        · exact Or.inr ⟨e', h, h1, h2⟩

/-- The links that the second half of `processOne` offers to the frontier are `pageLinks`. -/
theorem processOneFinish_pageLinks (run : Run) (st : CrawlState) (u : Str) :
    ∃ st1, st1.toVisit = st.toVisit ∧ st1.visited = st.visited ∧
      st1.blockedByPathLimit = st.blockedByPathLimit ∧
      st1.discovered = setAdd st.discovered u ∧
      processOneFinish run st u (fetchText run.env u run.robots) =
        enqueueLinks run.options.maxPages (pageLinks run u) st1 := by
  unfold processOneFinish pageLinks
  dsimp only
  by_cases hc : (!(fetchText run.env u run.robots).ok ||
      (fetchText run.env u run.robots).text.isEmpty) = true
  · rw [if_pos hc, if_pos hc]
    exact ⟨{ st with records := _, discovered := setAdd st.discovered u },
      rfl, rfl, rfl, rfl, rfl⟩
  · rw [if_neg hc, if_neg hc]
    cases collectLinks run
        (if (!(fetchText run.env u run.robots).finalUrl.isEmpty) = true then
          (fetchText run.env u run.robots).finalUrl else u)
        (run.env.anchorHrefs (fetchText run.env u run.robots).text) with
    | none =>
      exact ⟨{ st with records := _, discovered := setAdd st.discovered u },
        rfl, rfl, rfl, rfl, rfl⟩
    | some links =>
      exact ⟨{ st with records := _, discovered := setAdd st.discovered u },
        rfl, rfl, rfl, rfl, rfl⟩

end SiteCrawler
namespace SiteCrawler

open URL

/-- C22 (sitemap precedence): let the handler get as far as the frontier loop, with `st0` the
state the loop starts from and `entries` what `fetchSitemapUrls` returned.  The frontier of `st0`
is a set, and nothing is visited yet.  If `entries` is not empty, the frontier holds exactly the
URLs `n` such that `normalizeUrl` turns some entry into `n` and `n` is within the start-path
scope; the seed is added by no other way, so the frontier is empty when no entry qualifies.  If
`entries` is empty, the frontier is the normalised seed alone. -/
theorem sitemap_precedence (env : Env) (url : Str) (options : Options) (run : Run) (start : Str)
    (fromSitemap : Bool) (st0 : CrawlState)
    (h : crawlSetup env url options = some (run, start, fromSitemap, st0)) :
    ∃ root, env.platform.parseUrl url none = some root ∧
      normalizeUrl env.platform url none options = some start ∧
      st0.visited = [] ∧ st0.toVisit.Nodup ∧
      (∀ sched fuel, crawl env url options sched fuel =
        match frontierLoop run fuel sched st0 with
        | none => CrawlOutcome.outOfFuel
        | some st => CrawlOutcome.finished run start fromSitemap st) ∧
      (fetchSitemapUrls env (root.protocol ++ ['/', '/'] ++ root.host) run.robots ≠ [] →
        fromSitemap = true ∧
        ∀ n, n ∈ st0.toVisit ↔
          ∃ e ∈ fetchSitemapUrls env (root.protocol ++ ['/', '/'] ++ root.host) run.robots,
            normalizeUrl env.platform e none options = some n ∧
              isWithinStartScope run n = true) ∧
      (fetchSitemapUrls env (root.protocol ++ ['/', '/'] ++ root.host) run.robots = [] →
        fromSitemap = false ∧ st0.toVisit = [start]) := by
  obtain ⟨root, hroot, hstart, hrun, hfs, hst0⟩ := crawlSetup_some h
  have hcrawl : ∀ sched fuel, crawl env url options sched fuel =
      match frontierLoop run fuel sched st0 with
      | none => CrawlOutcome.outOfFuel
      | some st => CrawlOutcome.finished run start fromSitemap st := by
    intro sched fuel
    rw [crawl_eq_setup, h]
    try rfl
  have hscope : ∀ n, (options.scopeToStartPath && computeStartPathScope env.platform start != ['/'] &&
      underStartScope env.platform (computeStartPathScope env.platform start) n != some true) = false ↔
      isWithinStartScope run n = true := by
    intro n
    rw [isWithinStartScope_eq_inStartScope run start n (by rw [hrun])]
    have e : inStartScope run n = !(options.scopeToStartPath &&
        computeStartPathScope env.platform start != ['/'] &&
        underStartScope env.platform (computeStartPathScope env.platform start) n != some true) := by
      rw [hrun]
      rfl
    rw [e]
    cases (options.scopeToStartPath && computeStartPathScope env.platform start != ['/'] &&
      underStartScope env.platform (computeStartPathScope env.platform start) n != some true) <;> simp
  refine ⟨root, hroot, hstart, by rw [hst0]; rfl, ?_, hcrawl, ?_, ?_⟩
  · rw [hst0]
    show (seedFrontier env.platform options (computeStartPathScope env.platform start) start _).Nodup
    unfold seedFrontier
    split_ifs
    · exact (seedFromSitemap_fold options _ _ [] List.nodup_nil).1
    · exact setAdd_nodup start List.nodup_nil
  · intro hne
    have hlen : (fetchSitemapUrls env (root.protocol ++ ['/', '/'] ++ root.host)
        run.robots).length > 0 := List.length_pos.2 hne
    refine ⟨by rw [hfs]; exact decide_eq_true hlen, ?_⟩
    intro n
    rw [hst0]
    show n ∈ seedFrontier env.platform options (computeStartPathScope env.platform start) start _ ↔ _
    unfold seedFrontier
    rw [if_pos hlen]
    rw [(seedFromSitemap_fold options _ _ [] List.nodup_nil).2 n]
    constructor
    · rintro (h0 | ⟨e, he, h1, h2⟩)
      · exact absurd h0 (List.not_mem_nil n)
      · exact ⟨e, he, h1, (hscope n).1 h2⟩
    · rintro ⟨e, he, h1, h2⟩
      exact Or.inr ⟨e, he, h1, (hscope n).2 h2⟩
  · intro hnil
    refine ⟨by rw [hfs, hnil]; rfl, ?_⟩
    rw [hst0]
    show seedFrontier env.platform options (computeStartPathScope env.platform start) start _ = [start]
    rw [hnil]
    rfl

/-- C22 on the site whose sitemap lists four URLs, crawled from `https://s/` with the default
options: the frontier starts as the four entries, without the seed `https://s`. -/
theorem sitemap_precedence_witness :
    ∃ run start st0, crawlSetup sitemapSite "https://s/".toList DEFAULTS =
        some (run, start, true, st0) ∧
      start = "https://s".toList ∧
      st0.toVisit = ["https://other/page", "https://s/careers/42", "https://s/a.pdf",
        "https://s/ok"].map String.toList ∧
      ∃ root, modelPlatform.parseUrl "https://s/".toList none = some root ∧
        normalizeUrl modelPlatform "https://s/".toList none DEFAULTS = some start ∧
        st0.visited = [] ∧ st0.toVisit.Nodup ∧
        (∀ sched fuel, crawl sitemapSite "https://s/".toList DEFAULTS sched fuel =
          match frontierLoop run fuel sched st0 with
          | none => CrawlOutcome.outOfFuel
          | some st => CrawlOutcome.finished run start true st) ∧
        (fetchSitemapUrls sitemapSite (root.protocol ++ ['/', '/'] ++ root.host) run.robots ≠
            [] →
          true = true ∧
          ∀ n, n ∈ st0.toVisit ↔
            ∃ e ∈ fetchSitemapUrls sitemapSite (root.protocol ++ ['/', '/'] ++ root.host)
                run.robots,
              normalizeUrl modelPlatform e none DEFAULTS = some n ∧
                isWithinStartScope run n = true) ∧
        (fetchSitemapUrls sitemapSite (root.protocol ++ ['/', '/'] ++ root.host) run.robots =
            [] →
          true = false ∧ st0.toVisit = [start]) := by
  have h1 : (crawlSetup sitemapSite "https://s/".toList DEFAULTS).map
      (fun r => (r.2.1, r.2.2.1, r.2.2.2.toVisit)) =
      some ("https://s".toList, true,
        ["https://other/page", "https://s/careers/42", "https://s/a.pdf",
          "https://s/ok"].map String.toList) := by
    decide!
  cases hs : crawlSetup sitemapSite "https://s/".toList DEFAULTS with
  | none =>
    rw [hs] at h1
    exact Option.noConfusion h1
  | some r =>
    obtain ⟨run, start, fromSitemap, st0⟩ := r
    rw [hs] at h1
    simp only [Option.map_some', Option.some.injEq, Prod.mk.injEq] at h1
    obtain ⟨e1, e2, e3⟩ := h1
    subst e2
    exact ⟨run, start, st0, rfl, e1, e3,
      sitemap_precedence sitemapSite "https://s/".toList DEFAULTS run start true st0 hs⟩

end SiteCrawler
namespace SiteCrawler

/-! ## The counters of the ledger count the admitted URLs -/

/-- The counter of the rule `R` is the number of URLs of `visited` whose first matching rule is
`R`: both move together, in the first half of `processOne`. -/
theorem ledger_count_stepInvariant (run : Run) (raw : List RawRule)
    (hrules : run.options.pathLimits = sanitizePathLimits raw) (R : Rule)
    (hR : R ∈ run.options.pathLimits) :
    StepInvariant run (fun st =>
      (mapGet st.pathLimitCounters (ruleKey R)).getD 0 =
        (st.visited.filter
          (fun u => firstMatchingRule run.env.platform run.options.pathLimits u ==
            some R)).length) := by
  refine ⟨?_, ?_, ?_⟩
  · intro st u hP
    rcases processOneStart_cases run st u with
      ⟨-, h⟩ | ⟨-, -, -, st1, h1, h⟩ | ⟨hv, -, -, st1, h1, h⟩
    · rw [h]
      exact hP
    · rw [h]
      obtain ⟨e1, e2⟩ := pathLimitGate_blocked run st st1 u h1
      simp only [e1, e2]
      exact hP
    · rw [h]
      dsimp only
      rcases pathLimitGate_admitted run st st1 u h1 with ⟨hf, rfl⟩ | ⟨R0, hf, rfl, -⟩
      · rw [setAdd_of_not_mem _ _ hv, List.filter_append]
        simp only [List.filter_cons, List.filter_nil, hf]
        simpa using hP
      · dsimp only
        rw [setAdd_of_not_mem _ _ hv, List.filter_append, mapGet_mapSet]
        by_cases hRR : R0 = R
        · subst hRR
          simp only [List.filter_cons, List.filter_nil, hf, beq_self_eq_true, if_true,
            List.length_append, List.length_singleton, Option.getD_some]
          omega
        · have hR0 : R0 ∈ run.options.pathLimits := List.mem_of_find?_eq_some hf
          have hkey : ruleKey R ≠ ruleKey R0 := by
            have := sanitize_keys_distinct raw
            rw [← hrules] at this
            exact this.forall (fun _ _ h => Ne.symm h) hR hR0 (Ne.symm hRR)
          have hne : (some R0 == some R) = false := by
            simpa using hRR
          simp only [List.filter_cons, List.filter_nil, hf, hne, Bool.false_eq_true, if_false,
            List.append_nil, if_neg hkey]
          exact hP
  · intro st u hP
    obtain ⟨e1, -, e3, -⟩ := processOneFinish_frame run st u (fetchText run.env u run.robots)
    simp only [e1, e3]
    exact hP
  · intro st tv hP
    exact hP

end SiteCrawler
namespace SiteCrawler

/-- C28, the claim as stated fails: the rule `{path: "/job", maxPages: 1.5}` comes out of
`sanitizePathLimits` with its cap 1.5, and a crawl of a home page that links to two pages under
`/job` admits both, since the counter is 0 and then 1 when it is compared with 1.5.  The counter
of the rule ends at 2, which equals the number of admitted URLs and exceeds the cap. -/
theorem ledger_consistency_counterexample :
    ({ path := "/job".toList, maxPages := JsNumber.fin 3 1 } : Rule) ∈
        fractionOptions.pathLimits ∧
      (crawl nestedSite "https://s/".toList fractionOptions [] 10).state?.map
          (fun st => (mapGet st.pathLimitCounters
            (ruleKey { path := "/job".toList, maxPages := JsNumber.fin 3 1 })).getD 0) =
        some 2 ∧
      JsNumber.gt (JsNumber.ofNat 2) (JsNumber.fin 3 1) = true := by
  decide!

/-- C28 as amended: let the rule list be a sanitised list and `R` a rule of it.  In every state
a run goes through, and so in the state that the handler reports, the counter stored for `R`
equals the number of URLs of `visited` whose first matching rule is `R` (a URL is in `visited`
from the moment it is admitted, whether or not an exclusion then drops it before the fetch), and
the counter does not exceed the cap of `R` when that cap is a whole number. -/
theorem ledger_consistency (env : Env) (url : Str) (raw : List RawRule) (options : Options)
    (sched : List Nat) (fuel : Nat) (R : Rule)
    (hopt : options.pathLimits = sanitizePathLimits raw) (hR : R ∈ options.pathLimits) :
    (∀ (run : Run) (st : CrawlState), run.options = options → Reachable run st →
      (mapGet st.pathLimitCounters (ruleKey R)).getD 0 =
          (st.visited.filter
            (fun u => firstMatchingRule run.env.platform options.pathLimits u ==
              some R)).length ∧
        ∀ m, R.maxPages.isNat m → (mapGet st.pathLimitCounters (ruleKey R)).getD 0 ≤ m) ∧
      ∀ st, (crawl env url options sched fuel).state? = some st →
        (mapGet st.pathLimitCounters (ruleKey R)).getD 0 =
            (st.visited.filter
              (fun u => firstMatchingRule env.platform options.pathLimits u == some R)).length ∧
          ∀ m, R.maxPages.isNat m → (mapGet st.pathLimitCounters (ruleKey R)).getD 0 ≤ m := by
  have hall : ∀ (run : Run) (st : CrawlState), run.options = options → Reachable run st →
      (mapGet st.pathLimitCounters (ruleKey R)).getD 0 =
          (st.visited.filter
            (fun u => firstMatchingRule run.env.platform options.pathLimits u ==
              some R)).length ∧
        ∀ m, R.maxPages.isNat m → (mapGet st.pathLimitCounters (ruleKey R)).getD 0 ≤ m := by
    intro run st hro hreach
    subst hro
    have h1 := reachable_invariant (ledger_count_stepInvariant run raw hopt R hR)
      (fun tv => by simp [CrawlState.fresh, mapGet]) st hreach
    have h2 := reachable_invariant (ledger_stepInvariant run raw hopt R hR)
      (fun tv => by simp [CrawlState.fresh, mapGet]) st hreach
    exact ⟨h1, h2.2⟩
  refine ⟨hall, ?_⟩
  intro st hrun
  obtain ⟨run, hro, henv, hreach⟩ := crawl_reachable hrun
  have h := hall run st hro hreach
  rw [henv] at h
  exact h

/-- C28 as amended, on a crawl seeded from a sitemap with the rule `{path: "/careers",
maxPages: 5}`: the job page `/careers/42` is admitted and counted, then dropped by the job-page
exclusion, so that it is in `visited` and not in the report; the counter of the rule is 1. -/
theorem ledger_consistency_witness :
    ∃ st, (crawl sitemapSite "https://s/".toList
        { DEFAULTS with
          pathLimits := sanitizePathLimits
            [{ path := "/careers".toList, maxPages := JsNumber.ofNat 5 }] } [] 10).state? =
        some st ∧
      st.visited = ["https://other/page", "https://s/careers/42", "https://s/a.pdf",
        "https://s/ok"].map String.toList ∧
      reportUrls st = ["https://s/ok".toList] ∧
      st.pathLimitCounters = [("/careers".toList, 1)] ∧
      (mapGet st.pathLimitCounters
          (ruleKey { path := "/careers".toList, maxPages := JsNumber.ofNat 5 })).getD 0 =
        (st.visited.filter
          (fun u => firstMatchingRule modelPlatform
            (sanitizePathLimits [{ path := "/careers".toList, maxPages := JsNumber.ofNat 5 }]) u ==
              some { path := "/careers".toList, maxPages := JsNumber.ofNat 5 })).length ∧
      ∀ m, (JsNumber.ofNat 5).isNat m →
        (mapGet st.pathLimitCounters
          (ruleKey { path := "/careers".toList, maxPages := JsNumber.ofNat 5 })).getD 0 ≤ m := by
  have h1 : (crawl sitemapSite "https://s/".toList
      { DEFAULTS with
        pathLimits := sanitizePathLimits
          [{ path := "/careers".toList, maxPages := JsNumber.ofNat 5 }] } [] 10).state?.map
      (fun st => (st.visited, reportUrls st, st.pathLimitCounters)) =
      some (["https://other/page", "https://s/careers/42", "https://s/a.pdf",
          "https://s/ok"].map String.toList, ["https://s/ok".toList],
        [("/careers".toList, 1)]) := by
    decide!
  cases hst : (crawl sitemapSite "https://s/".toList
      { DEFAULTS with
        pathLimits := sanitizePathLimits
          [{ path := "/careers".toList, maxPages := JsNumber.ofNat 5 }] } [] 10).state? with
  | none =>
    rw [hst] at h1
    exact Option.noConfusion h1
  | some st =>
    rw [hst] at h1
    simp only [Option.map_some', Option.some.injEq, Prod.mk.injEq] at h1
    obtain ⟨e1, e2, e3⟩ := h1
    exact ⟨st, rfl, e1, e2, e3,
      (ledger_consistency sitemapSite "https://s/".toList
        [{ path := "/careers".toList, maxPages := JsNumber.ofNat 5 }]
        { DEFAULTS with
          pathLimits := sanitizePathLimits
            [{ path := "/careers".toList, maxPages := JsNumber.ofNat 5 }] } [] 10
        { path := "/careers".toList, maxPages := JsNumber.ofNat 5 } rfl (by decide!)).2 st hst⟩

end SiteCrawler
namespace SiteCrawler

/-! ## The report: order, records and robots flags -/

/-- The code points of the characters: below the surrogates, or above them. -/
theorem char_range (c : Char) : c.toNat < 55296 ∨ (57343 < c.toNat ∧ c.toNat < 1114112) := by
  have h := c.valid
  unfold UInt32.isValidChar Nat.isValidChar at h
  exact h

theorem utf16_cons (c : Char) (s : Str) :
    utf16 (c :: s) =
      (if c.toNat < 65536 then [c.toNat]
        else [55296 + (c.toNat - 65536) / 1024, 56320 + (c.toNat - 65536) % 1024]) ++
      utf16 s := by
  unfold utf16
  rw [List.flatMap_cons]

/-- Two strings with the same code units are the same string. -/
theorem utf16_injective : ∀ a b : Str, utf16 a = utf16 b → a = b := by
  intro a
  induction a with
  | nil =>
    intro b h
    cases b with
    | nil => rfl
    | cons d t =>
      rw [utf16_cons] at h
      by_cases hd : d.toNat < 65536
      · rw [if_pos hd] at h
        exact absurd h (by simp [utf16])
      · rw [if_neg hd] at h
        exact absurd h (by simp [utf16])
  | cons c s ih =>
    intro b h
    cases b with
    | nil =>
      rw [utf16_cons] at h
      by_cases hc : c.toNat < 65536
      · rw [if_pos hc] at h
        exact absurd h (by simp [utf16])
      · rw [if_neg hc] at h
        exact absurd h (by simp [utf16])
    | cons d t =>
      rw [utf16_cons, utf16_cons] at h
      have rc := char_range c
      have rd := char_range d
      by_cases hc : c.toNat < 65536
      · rw [if_pos hc] at h
        by_cases hd : d.toNat < 65536
        · rw [if_pos hd] at h
          simp only [List.singleton_append, List.cons.injEq] at h
          rw [char_eq_of_toNat_eq h.1, ih t h.2]
        · rw [if_neg hd] at h
          simp only [List.singleton_append, List.cons_append, List.nil_append,
            List.cons.injEq] at h
          have h1 := h.1
          omega
      · rw [if_neg hc] at h
        by_cases hd : d.toNat < 65536
        · rw [if_pos hd] at h
          simp only [List.singleton_append, List.cons_append, List.nil_append,
            List.cons.injEq] at h
          have h1 := h.1
          omega
        · rw [if_neg hd] at h
          simp only [List.cons_append, List.nil_append, List.cons.injEq] at h
          obtain ⟨h1, h2, h3⟩ := h
          have hcd : c.toNat = d.toNat := by omega
          rw [char_eq_of_toNat_eq hcd, ih t h3]

/-- The URLs of the report are those of `discovered`. -/
theorem mem_reportUrls (st : CrawlState) (u : Str) : u ∈ reportUrls st ↔ u ∈ st.discovered := by
  unfold reportUrls
  rw [(List.perm_insertionSort _ _).mem_iff]

/-- The report of a state whose `discovered` is a set is in strictly ascending order. -/
theorem reportUrls_strict (st : CrawlState) (hnd : st.discovered.Nodup) :
    (reportUrls st).Pairwise jsStringLt := by
  have hs : (reportUrls st).Sorted jsStringLe := List.sorted_insertionSort _ _
  have hn : (reportUrls st).Nodup := (List.perm_insertionSort _ _).nodup_iff.2 hnd
  have hs' : (reportUrls st).Pairwise jsStringLe := hs
  have hn' : (reportUrls st).Pairwise (fun a b => a ≠ b) := hn
  refine (hs'.and hn').imp ?_
  intro a b hab
  obtain ⟨hle, hne⟩ := hab
  exact lt_of_le_of_ne hle (fun e => hne (utf16_injective a b e))

/-- `discovered` is a set all along a run. -/
theorem discovered_nodup_stepInvariant (run : Run) :
    StepInvariant run (fun st => st.discovered.Nodup) := by
  refine ⟨?_, ?_, ?_⟩
  · intro st u h
    rw [(processOneStart_frame run st u).2.1]
    exact h
  · intro st u h
    rw [processOneFinish_discovered]
    exact setAdd_nodup u h
  · intro st tv h
    exact h

/-- The records of the second half of `processOne`: the one of its URL is rewritten, with the
flag of the fetch, and the others stay. -/
theorem processOneFinish_records (run : Run) (st : CrawlState) (u : Str) (r : FetchResult) :
    ∃ rec : PageRecord,
      rec.url = ((mapGet st.records u).getD
        { url := u, finalUrl := u, status := none, blockedByRobots := false }).url ∧
      rec.blockedByRobots = r.blockedByRobots ∧
      rec.finalUrl = (if !r.finalUrl.isEmpty then r.finalUrl else u) ∧
      (processOneFinish run st u r).records = mapSet st.records u rec := by
  refine ⟨{ ((mapGet st.records u).getD
      { url := u, finalUrl := u, status := none, blockedByRobots := false }) with
      finalUrl := if !r.finalUrl.isEmpty then r.finalUrl else u
      blockedByRobots := r.blockedByRobots
      status := if run.options.brokenLinkCheck then some r.status else none },
    rfl, rfl, rfl, ?_⟩
  obtain ⟨links, h⟩ := processOneFinish_eq run st u r
  rw [h]
  exact (enqueueLinks_frame _ _ _).2.2.2.2.2

/-- What `fetchText` reports about robots is the outcome of the test that opens it. -/
theorem fetchText_blockedByRobots (env : Env) (url : Str) (robots : Option (Str → Bool)) :
    (fetchText env url robots).blockedByRobots = robotsBlocks robots url := by
  have hnet : (match env.fetch url with
      | NetResult.threw =>
        ({ ok := false, status := 0, blockedByRobots := false, text := [], finalUrl := url } :
          FetchResult)
      | NetResult.response resOk status resUrl contentType body =>
        if !resOk then
          { ok := false, status := status, blockedByRobots := false, text := [],
            finalUrl := if !resUrl.isEmpty then resUrl else url }
        else if !(includes (contentType.getD []) "text/html".toList ||
            includes (contentType.getD []) "application/xhtml+xml".toList) then
          { ok := false, status := status, blockedByRobots := false, text := [],
            finalUrl := if !resUrl.isEmpty then resUrl else url }
        else
          { ok := true, status := status, blockedByRobots := false, text := body,
            finalUrl := if !resUrl.isEmpty then resUrl else url }).blockedByRobots = false := by
    cases env.fetch url with
    | threw => rfl
    | response resOk status resUrl contentType body =>
      dsimp only
      split_ifs <;> rfl
  cases robots with
  | none =>
    simp only [fetchText, robotsBlocks, Bool.false_eq_true, if_false]
    exact hnet
  | some isAllowed =>
    cases hf : isAllowed url with
    | true =>
      simp only [fetchText, robotsBlocks, hf, Bool.not_true, Bool.false_eq_true, if_false]
      exact hnet
    | false =>
      simp only [fetchText, robotsBlocks, hf, Bool.not_false, if_true]

theorem quickStatus_blockedByRobots (env : Env) (head : Str → NetResult) (url : Str)
    (robots : Option (Str → Bool)) :
    (quickStatus env head url robots).blockedByRobots = robotsBlocks robots url := by
  have hnet : (match head url with
      | NetResult.response _ status resUrl _ _ => statusOf url status resUrl
      | NetResult.threw =>
        match env.fetch url with
        | NetResult.response _ status resUrl _ _ => statusOf url status resUrl
        | NetResult.threw =>
          { status := 0, finalUrl := url, blockedByRobots := false }).blockedByRobots =
      false := by
    cases head url with
    | response resOk status resUrl contentType body => rfl
    | threw =>
      dsimp only
      cases env.fetch url with
      | threw => rfl
      | response resOk status resUrl contentType body => rfl
  cases robots with
  | none =>
    simp only [quickStatus, robotsBlocks, Bool.false_eq_true, if_false]
    exact hnet
  | some isAllowed =>
    cases hf : isAllowed url with
    | true =>
      simp only [quickStatus, robotsBlocks, hf, Bool.not_true, Bool.false_eq_true, if_false]
      exact hnet
    | false =>
      simp only [quickStatus, robotsBlocks, hf, Bool.not_false, if_true]

/-- A map of records in good order: each record is stored under its own URL and carries the
robots flag of that URL. -/
theorem records_stepInvariant (run : Run) :
    StepInvariant run (fun st =>
      (∀ k rec, mapGet st.records k = some rec →
        rec.url = k ∧ rec.blockedByRobots = robotsBlocks run.robots k) ∧
      ∀ u ∈ st.discovered, ∃ rec, mapGet st.records u = some rec) := by
  refine ⟨?_, ?_, ?_⟩
  · intro st u h
    rw [(processOneStart_frame run st u).2.1, (processOneStart_frame run st u).2.2]
    exact h
  · intro st u h
    obtain ⟨rec, hurl, hblocked, -, hrecs⟩ :=
      processOneFinish_records run st u (fetchText run.env u run.robots)
    rw [hrecs, processOneFinish_discovered]
    constructor
    · intro k rec' hk
      rw [mapGet_mapSet] at hk
      by_cases hku : k = u
      · rw [if_pos hku] at hk
        rw [← Option.some.inj hk, hku]
        refine ⟨?_, by rw [hblocked, fetchText_blockedByRobots]⟩
        rw [hurl]
        cases hg : mapGet st.records u with
        | none => rfl
        | some old => exact (h.1 u old hg).1
      · rw [if_neg hku] at hk
        exact h.1 k rec' hk
    · intro v hv
      rw [mapGet_mapSet]
      by_cases hvu : v = u
      · rw [if_pos hvu]
        exact ⟨rec, rfl⟩
      · rw [if_neg hvu]
        rcases mem_setAdd hv with hv | hv
        · exact h.2 v hv
        · exact absurd hv hvu
  · intro st tv h
    exact h

/-- The pass of `brokenLinkCheck` keeps the records in good order, and loses none. -/
theorem statusStep_records (run : Run) (head : Str → NetResult)
    (records : List (Str × PageRecord)) (u : Str)
    (h : ∀ k rec, mapGet records k = some rec →
      rec.url = k ∧ rec.blockedByRobots = robotsBlocks run.robots k) :
    (∀ k rec, mapGet (statusStep run head records u) k = some rec →
      rec.url = k ∧ rec.blockedByRobots = robotsBlocks run.robots k) ∧
    ∀ k, (mapGet records k).isSome = true →
      (mapGet (statusStep run head records u) k).isSome = true := by
  unfold statusStep
  constructor
  · intro k rec hk
    rw [mapGet_mapSet] at hk
    by_cases hku : k = u
    · rw [if_pos hku] at hk
      rw [← Option.some.inj hk, hku]
      refine ⟨?_, quickStatus_blockedByRobots _ _ _ _⟩
      cases hg : mapGet records u with
      | none => rfl
      | some old => exact (h u old hg).1
    · rw [if_neg hku] at hk
      exact h k rec hk
  · intro k hk
    rw [mapGet_mapSet]
    by_cases hku : k = u
    · rw [if_pos hku]
      rfl
    · rw [if_neg hku]
      exact hk

/-- What a lookup returns after the `brokenLinkCheck` pass over a list of pairwise different
URLs: for a URL of the list, the record made from what the lookup returned before the pass; for
another key, what it returned before.  So the order of the list does not matter. -/
theorem statusFold_lookup (run : Run) (head : Str → NetResult) (urls : List Str)
    (hnd : urls.Nodup) (records : List (Str × PageRecord)) (k : Str) :
    mapGet (urls.foldl (statusStep run head) records) k =
      if k ∈ urls then some (statusRecord run head (mapGet records k) k)
      else mapGet records k := by
  induction urls generalizing records with
  | nil => simp
  | cons u rest ih =>
    rw [List.nodup_cons] at hnd
    rw [List.foldl_cons, ih hnd.2]
    unfold statusStep
    rw [mapGet_mapSet]
    by_cases hk : k ∈ rest
    · have hku : k ≠ u := fun e => hnd.1 (e ▸ hk)
      rw [if_pos hk, if_neg hku, if_pos (List.mem_cons_of_mem _ hk)]
    · rw [if_neg hk]
      by_cases hku : k = u
      · rw [if_pos hku, if_pos (by rw [hku]; exact List.mem_cons_self _ _), hku]
      · rw [if_neg hku, if_neg (by
          intro hmem
          rcases List.mem_cons.1 hmem with h | h
          · exact hku h
          · exact hk h)]

theorem statusFold_records (run : Run) (head : Str → NetResult) (urls : List Str)
    (records : List (Str × PageRecord))
    (h : ∀ k rec, mapGet records k = some rec →
      rec.url = k ∧ rec.blockedByRobots = robotsBlocks run.robots k) :
    (∀ k rec, mapGet (urls.foldl (statusStep run head) records) k = some rec →
      rec.url = k ∧ rec.blockedByRobots = robotsBlocks run.robots k) ∧
    ∀ k, (mapGet records k).isSome = true →
      (mapGet (urls.foldl (statusStep run head) records) k).isSome = true := by
  induction urls generalizing records with
  | nil => exact ⟨h, fun k hk => hk⟩
  | cons u rest ih =>
    rw [List.foldl_cons]
    obtain ⟨h1, h2⟩ := statusStep_records run head records u h
    obtain ⟨h3, h4⟩ := ih (statusStep run head records u) h1
    exact ⟨h3, fun k hk => h4 k (h2 k hk)⟩

/-- The records the answer is built from are in good order, and every URL of `discovered` has
one, when this holds of the state the frontier loop has left. -/
theorem finalRecords_good (run : Run) (head : Str → NetResult) (st : CrawlState)
    (h : (∀ k rec, mapGet st.records k = some rec →
        rec.url = k ∧ rec.blockedByRobots = robotsBlocks run.robots k) ∧
      ∀ u ∈ st.discovered, ∃ rec, mapGet st.records u = some rec) :
    (∀ k rec, mapGet (finalRecords run head st) k = some rec →
      rec.url = k ∧ rec.blockedByRobots = robotsBlocks run.robots k) ∧
    ∀ u ∈ st.discovered, ∃ rec, mapGet (finalRecords run head st) u = some rec := by
  unfold finalRecords
  by_cases hb : run.options.brokenLinkCheck = true
  · rw [if_pos hb]
    obtain ⟨h1, h2⟩ := statusFold_records run head (reportUrls st) st.records h.1
    refine ⟨h1, fun u hu => ?_⟩
    obtain ⟨rec, hrec⟩ := h.2 u hu
    exact Option.isSome_iff_exists.1 (h2 u (by rw [hrec]; rfl))
  · rw [if_neg hb]
    exact h

/-- The `url` fields of the `urls` array of the response are the URLs of the report, and each
record carries the robots flag of its URL. -/
theorem responseUrls_fields (run : Run) (head : Str → NetResult) (st : CrawlState)
    (h : (∀ k rec, mapGet st.records k = some rec →
        rec.url = k ∧ rec.blockedByRobots = robotsBlocks run.robots k) ∧
      ∀ u ∈ st.discovered, ∃ rec, mapGet st.records u = some rec) :
    (responseUrls run head st).map (fun rec => rec.url) = reportUrls st ∧
      ∀ rec ∈ responseUrls run head st,
        rec.blockedByRobots = robotsBlocks run.robots rec.url := by
  obtain ⟨h1, h2⟩ := finalRecords_good run head st h
  have hrec : ∀ u ∈ reportUrls st, ∃ rec, mapGet (finalRecords run head st) u = some rec :=
    fun u hu => h2 u ((mem_reportUrls st u).1 hu)
  unfold responseUrls
  constructor
  · rw [List.map_map]
    conv_rhs => rw [← List.map_id (reportUrls st)]
    apply List.map_congr_left
    intro u hu
    obtain ⟨rec, hr⟩ := hrec u hu
    simp only [Function.comp_apply, hr, Option.getD_some, id_eq]
    exact (h1 u rec hr).1
  · intro rec hmem
    obtain ⟨u, hu, rfl⟩ := List.mem_map.1 hmem
    obtain ⟨rec, hr⟩ := hrec u hu
    simp only [hr, Option.getD_some]
    rw [(h1 u rec hr).1]
    exact (h1 u rec hr).2

/-- A crawl whose outcome carries a state has finished. -/
theorem crawl_finished_of_state {env : Env} {url : Str} {options : Options} {sched : List Nat}
    {fuel : Nat} {st : CrawlState}
    (h : (crawl env url options sched fuel).state? = some st) :
    ∃ run start fromSitemap,
      crawl env url options sched fuel = CrawlOutcome.finished run start fromSitemap st := by
  cases hc : crawl env url options sched fuel with
  | invalidUrl => simp [hc, CrawlOutcome.state?] at h
  | outOfFuel => simp [hc, CrawlOutcome.state?] at h
  | finished run start fromSitemap st1 =>
    rw [hc] at h
    simp only [CrawlOutcome.state?, Option.some.injEq] at h
    subst h
    exact ⟨run, start, fromSitemap, rfl⟩

/-- The state a finished crawl reports is a state of its run. -/
theorem crawl_finished_reachable {env : Env} {url : Str} {options : Options}
    {sched : List Nat} {fuel : Nat} {run : Run} {start : Str} {fromSitemap : Bool}
    {st : CrawlState}
    (h : crawl env url options sched fuel = CrawlOutcome.finished run start fromSitemap st) :
    Reachable run st := by
  obtain ⟨-, -, tv, hloop⟩ := crawl_finished h
  exact frontierLoop_invariant (reachable_stepInvariant run) fuel sched _ (Reachable.seed tv)
    hloop

/-- In every state of a run, `discovered` is a set and the records are in good order. -/
theorem reachable_report (run : Run) (st : CrawlState) (h : Reachable run st) :
    st.discovered.Nodup ∧
      (∀ k rec, mapGet st.records k = some rec →
        rec.url = k ∧ rec.blockedByRobots = robotsBlocks run.robots k) ∧
      ∀ u ∈ st.discovered, ∃ rec, mapGet st.records u = some rec := by
  refine ⟨reachable_invariant (discovered_nodup_stepInvariant run)
      (fun tv => List.nodup_nil) st h,
    reachable_invariant (records_stepInvariant run) (fun tv => ?_) st h⟩
  exact ⟨fun k rec hk => Option.noConfusion hk, fun u hu => absurd hu (List.not_mem_nil u)⟩

end SiteCrawler
namespace SiteCrawler

/-- C23 (the report is sorted and duplicate-free): for every finished crawl, whatever the site
and the order of the fetches, and with or without the `brokenLinkCheck` pass, the `url` fields of
the `urls` array of the response are the sorted `discovered` set, they are in strictly ascending
order of their code units, and they are the URLs of `discovered`, each of them once. -/
theorem report_sorted_unique (env : Env) (url : Str) (options : Options) (sched : List Nat)
    (fuel : Nat) (run : Run) (start : Str) (fromSitemap : Bool) (st : CrawlState)
    (head : Str → NetResult)
    (h : crawl env url options sched fuel = CrawlOutcome.finished run start fromSitemap st) :
    (responseUrls run head st).map (fun rec => rec.url) = reportUrls st ∧
      ((responseUrls run head st).map (fun rec => rec.url)).Pairwise jsStringLt ∧
      (∀ u, u ∈ (responseUrls run head st).map (fun rec => rec.url) ↔ u ∈ st.discovered) ∧
      ((responseUrls run head st).map (fun rec => rec.url)).Nodup := by
  obtain ⟨hnd, hrec⟩ := reachable_report run st (crawl_finished_reachable h)
  obtain ⟨hfields, -⟩ := responseUrls_fields run head st hrec
  have hstrict := reportUrls_strict st hnd
  have hnodup : (reportUrls st).Nodup := (List.perm_insertionSort _ _).nodup_iff.2 hnd
  rw [hfields]
  exact ⟨rfl, hstrict, mem_reportUrls st, hnodup⟩

/-- C23 on the crawl of a home page that links to `/private` and then to `/open`: the pages are
discovered in that order and reported in ascending order. -/
theorem report_sorted_unique_witness :
    ∃ run start fromSitemap st,
      crawl robotsSite "https://s/".toList DEFAULTS [] 10 =
        CrawlOutcome.finished run start fromSitemap st ∧
      st.discovered = ["https://s", "https://s/private", "https://s/open"].map String.toList ∧
      (responseUrls run (fun _ => NetResult.threw) st).map (fun rec => rec.url) =
        reportUrls st ∧
      reportUrls st = ["https://s", "https://s/open", "https://s/private"].map String.toList ∧
      ((responseUrls run (fun _ => NetResult.threw) st).map
        (fun rec => rec.url)).Pairwise jsStringLt := by
  have h1 : (crawl robotsSite "https://s/".toList DEFAULTS [] 10).state?.map
      (fun st => (st.discovered, reportUrls st)) =
      some (["https://s", "https://s/private", "https://s/open"].map String.toList,
        ["https://s", "https://s/open", "https://s/private"].map String.toList) := by
    decide!
  cases hst : (crawl robotsSite "https://s/".toList DEFAULTS [] 10).state? with
  | none =>
    rw [hst] at h1
    exact Option.noConfusion h1
  | some st =>
    rw [hst] at h1
    simp only [Option.map_some', Option.some.injEq, Prod.mk.injEq] at h1
    obtain ⟨run, start, fromSitemap, hfin⟩ := crawl_finished_of_state hst
    have hthm := report_sorted_unique robotsSite "https://s/".toList DEFAULTS [] 10 run start
      fromSitemap st (fun _ => NetResult.threw) hfin
    exact ⟨run, start, fromSitemap, st, hfin, h1.1, hthm.1, h1.2, hthm.2.1⟩

end SiteCrawler
namespace SiteCrawler

/-- C24 (robots block): let the robots rules of the run disallow `url`.  Then `fetchText` gives
the same result whatever the network would answer, namely a result that is not ok, with
`blockedByRobots` set, an empty text and `url` as final URL; and the second half of `processOne`
leaves the frontier as it was, puts `url` in `discovered` and stores for it a record with
`blockedByRobots` set and `url` as final URL.  In every state of a run the records of the
response carry the outcome of the robots test of their URL.  And when the run has no robots
rules, no record is flagged as blocked by robots, neither in a state of the run nor in the
response. -/
theorem robots_block (run : Run) (head : Str → NetResult) :
    (∀ isAllowed url, run.robots = some isAllowed → isAllowed url = false →
      (∀ env, fetchText env url run.robots =
        { ok := false, status := 0, blockedByRobots := true, text := [], finalUrl := url }) ∧
      ∀ st,
        (processOneFinish run st url (fetchText run.env url run.robots)).toVisit = st.toVisit ∧
        url ∈ (processOneFinish run st url (fetchText run.env url run.robots)).discovered ∧
        ∃ rec, mapGet (processOneFinish run st url
            (fetchText run.env url run.robots)).records url = some rec ∧
          rec.blockedByRobots = true ∧ rec.finalUrl = url) ∧
      (∀ st, Reachable run st → ∀ rec ∈ responseUrls run head st,
        rec.blockedByRobots = robotsBlocks run.robots rec.url) ∧
      (run.robots = none → ∀ st, Reachable run st →
        (∀ k rec, mapGet st.records k = some rec → rec.blockedByRobots = false) ∧
        ∀ rec ∈ responseUrls run head st, rec.blockedByRobots = false) := by
  refine ⟨?_, ?_, ?_⟩
  · intro isAllowed url hrobots hdis
    have hfetch : ∀ env, fetchText env url run.robots =
        { ok := false, status := 0, blockedByRobots := true, text := [], finalUrl := url } := by
      intro env
      simp only [fetchText, hrobots, hdis, Bool.not_false, if_true]
    refine ⟨hfetch, ?_⟩
    intro st
    rw [hfetch run.env]
    refine ⟨?_, ?_, ?_⟩
    · unfold processOneFinish
      simp
    · rw [processOneFinish_discovered]
      exact mem_setAdd_iff.2 (Or.inr rfl)
    · obtain ⟨rec, -, hb, hf, hrecs⟩ := processOneFinish_records run st url
        { ok := false, status := 0, blockedByRobots := true, text := [], finalUrl := url }
      refine ⟨rec, ?_, hb, ?_⟩
      · rw [hrecs, mapGet_mapSet, if_pos rfl]
      · rw [hf]
        dsimp only
        split_ifs <;> rfl
  · intro st hreach rec hrec
    exact (responseUrls_fields run head st (reachable_report run st hreach).2).2 rec hrec
  · intro hnone st hreach
    have hgood := (reachable_report run st hreach).2
    constructor
    · intro k rec hk
      rw [(hgood.1 k rec hk).2, hnone]
      rfl
    · intro rec hrec
      rw [(responseUrls_fields run head st hgood).2 rec hrec, hnone]
      rfl

/-- C24 on a run whose robots rules disallow `/private`: the page is recorded as blocked by
robots, and nothing is put in the frontier. -/
theorem robots_block_witness :
    fetchText robotsRun.env "https://s/private".toList robotsRun.robots =
        { ok := false, status := 0, blockedByRobots := true, text := [],
          finalUrl := "https://s/private".toList } ∧
      (processOneFinish robotsRun CrawlState.fresh "https://s/private".toList
        (fetchText robotsRun.env "https://s/private".toList robotsRun.robots)).toVisit = [] ∧
      (crawl robotsSite "https://s/".toList DEFAULTS [] 10).state?.map
          (fun st => st.records.map (fun e => (e.1, e.2.blockedByRobots))) =
        some [("https://s".toList, false), ("https://s/private".toList, true),
          ("https://s/open".toList, false)] :=
  ⟨((robots_block robotsRun (fun _ => NetResult.threw)).1
      (fun u => u != "https://s/private".toList) "https://s/private".toList rfl
      (by decide)).1 robotsRun.env,
    (((robots_block robotsRun (fun _ => NetResult.threw)).1
      (fun u => u != "https://s/private".toList) "https://s/private".toList rfl
      (by decide)).2 CrawlState.fresh).1,
    by decide!⟩

end SiteCrawler
